import Mathlib

/-!
# Hanabi server: a shallow embedding of `csrc/Hanabi.h` and `csrc/HanabiServer.cc`

The C++ `Server` object becomes the record `Server`; every mutator becomes a
function from the old record to an `Outcome`: the fault that stopped the call
(if any), the record at that moment, and the bot callbacks issued so far.

* `int` fields are `Int`, `std::vector` fields are `List` (index 0 first, so
  the "top" of `deck_` is the last element, as in the source). Where a value
  computed from a parameter or a counter can leave the 32 bits of `int`, it is
  converted by `wrapInt32`.
* `HANABI_SERVER_ASSERT` is the default build: it throws `ServerError`.
* A failing C `assert` and a read past the end of a vector or array are
  recorded as faults of their own kind; they are never a `ServerError`.
* Logging (`log_`) has no effect on the state and is left out.
-/

namespace Hanabi

/-! ## Configuration -/

/-- Values of `HanabiParams` (read from the environment, `Hanabi.h:38-53`) and the
two preprocessor switches of `HanabiServer.cc`. The three numbers are `int`s in the source:
`Params.isInt` says that a value of this record is one. -/
structure Params where
  BOMB0 : Int
  BOMBD : Int
  HAND_SIZE_OVERRIDE : Int
  /-- Set when `HANABI_ALLOW_DISCARDING_EVEN_WITH_ALL_HINT_STONES` is defined. -/
  ALLOW_DISCARDING_EVEN_WITH_ALL_HINT_STONES : Bool
  /-- Set when `HANABI_ALLOW_EMPTY_HINTS` is defined. -/
  ALLOW_EMPTY_HINTS : Bool

/-- The numbers of the parameters are in the range of the 32-bit `int`, as the values that
`getParameterInt` returns are (`HanabiServer.cc:41-44`). -/
def Params.isInt (P : Params) : Prop :=
  (-(2 : Int) ^ 31 ≤ P.BOMB0 ∧ P.BOMB0 < 2 ^ 31) ∧
  (-(2 : Int) ^ 31 ≤ P.BOMBD ∧ P.BOMBD < 2 ^ 31) ∧
  (-(2 : Int) ^ 31 ≤ P.HAND_SIZE_OVERRIDE ∧ P.HAND_SIZE_OVERRIDE < 2 ^ 31)

instance (P : Params) : Decidable P.isInt := by
  unfold Params.isInt
  infer_instance

/-- Defaults of `Hanabi.h:42-52`, neither preprocessor switch defined. -/
def Params.default : Params :=
  { BOMB0 := 0, BOMBD := 1, HAND_SIZE_OVERRIDE := -1,
    ALLOW_DISCARDING_EVEN_WITH_ALL_HINT_STONES := false,
    ALLOW_EMPTY_HINTS := false }

def NUMCOLORS : Int := 5
def VALUE_MAX : Int := 5
def NUMHINTS : Int := 8
def NUMMULLIGANS : Int := 3

/-! ## Cards, piles, card indices -/

/-- The enum `Color` (`Hanabi.h:80`): `RED=0, ORANGE, YELLOW, GREEN, BLUE, INVALID_COLOR`. -/
inductive Color
  | RED | ORANGE | YELLOW | GREEN | BLUE | INVALID_COLOR
  deriving DecidableEq, Repr

/-- The integer behind a `Color`. -/
def Color.toInt : Color → Int
  | .RED => 0 | .ORANGE => 1 | .YELLOW => 2 | .GREEN => 3 | .BLUE => 4
  | .INVALID_COLOR => 5

/-- The colours `RED .. BLUE`, in the order of `for (Color color = RED; color <= BLUE; ++color)`. -/
def Color.all : List Color := [.RED, .ORANGE, .YELLOW, .GREEN, .BLUE]

/-- Kinds of abnormal termination of a server call. -/
inductive Fault
  /-- Thrown by `HANABI_SERVER_ASSERT`. -/
  | ServerError (what : String)
  /-- A C `assert` whose condition is false. -/
  | AssertionFailure (what : String)
  /-- An element read outside a vector or array. -/
  | OutOfBounds (what : String)
  /-- A `std::runtime_error` that is not a `ServerError`. -/
  | RuntimeError (what : String)
  deriving DecidableEq, Repr

/-- Embedding of `class Card` (`Hanabi.h:97-121`); `value` is the integer behind `Value`. -/
structure Card where
  color : Color
  value : Int
  deriving DecidableEq, Repr

/-- Embedding of `Card::count` (`HanabiServer.cc:115-124`). -/
def Card.count (c : Card) : Except Fault Int :=
  if c.value = 1 then .ok 3
  else if c.value = 2 ∨ c.value = 3 ∨ c.value = 4 then .ok 2
  else if c.value = 5 then .ok 1
  else .error (.ServerError "invalid card value")

/-- Embedding of `class Pile` (`Hanabi.h:123-135`). -/
structure Pile where
  color : Color
  size_ : Int
  deriving DecidableEq, Repr

def Pile.empty (p : Pile) : Bool := p.size_ == 0
def Pile.size (p : Pile) : Int := p.size_
def Pile.nextValueIs (p : Pile) (value : Int) : Bool := value == p.size_ + 1
def Pile.contains (p : Pile) (value : Int) : Bool := decide (1 ≤ value ∧ value ≤ p.size_)

/-- Embedding of `Pile::topCard` (`HanabiServer.cc:134-139`). -/
def Pile.topCard (p : Pile) : Except Fault Card :=
  if p.size_ = 0 then .error (.ServerError "empty pile has no top card")
  else if ¬ (1 ≤ p.size_ ∧ p.size_ ≤ 5) then
    .error (.AssertionFailure "1 <= size_ && size_ <= 5")
  else .ok ⟨p.color, p.size_⟩

/-- Embedding of `Pile::increment_` (`HanabiServer.cc:141-145`). -/
def Pile.increment_ (p : Pile) : Except Fault Pile :=
  if ¬ (0 ≤ p.size_ ∧ p.size_ ≤ 4) then
    .error (.AssertionFailure "0 <= size_ && size_ <= 4")
  else .ok { p with size_ := p.size_ + 1 }

/-- Embedding of `class CardIndices` (`Hanabi.h:137-162`): `mask_` is a 32-bit `unsigned int`. -/
structure CardIndices where
  mask_ : Nat
  count_ : Int
  deriving DecidableEq, Repr

/-- The constructor `CardIndices() : mask_(0), count_(0)`. -/
def CardIndices.new : CardIndices := ⟨0, 0⟩

/-- Embedding of `void add(int index) { mask_ |= (1 << index); count_ += 1; }`; a bit
shifted past the 32-bit word is lost. -/
def CardIndices.add (ci : CardIndices) (index : Int) : CardIndices :=
  { mask_ := (ci.mask_ ||| (1 <<< index.toNat)) % 2 ^ 32, count_ := ci.count_ + 1 }

/-- Embedding of `CardIndices::contains` (`Hanabi.h:144-150`). -/
def CardIndices.contains (ci : CardIndices) (index : Int) : Bool :=
  if 0 ≤ index ∧ index < 8 then
    (ci.mask_ &&& ((1 <<< index.toNat) % 2 ^ 32)) != 0
  else false

def CardIndices.size (ci : CardIndices) : Int := ci.count_
def CardIndices.empty (ci : CardIndices) : Bool := ci.mask_ == 0

/-! ## Server state -/

/-- The data members of `class Server` (`Hanabi.h:319-339`) that the rules use.
`players_size` is `players_.size()`; the bots themselves are represented by the
callbacks recorded in an `Outcome`. -/
structure Server where
  players_size : Nat
  observingPlayer_ : Int
  activePlayer_ : Int
  movesFromActivePlayer_ : Int
  activeCard_ : Card
  activeCardIsObservable_ : Bool
  finalCountdown_ : Int
  numPlayers_ : Int
  piles_ : Color → Pile
  discards_ : List Card
  hintStonesRemaining_ : Int
  mulligansRemaining_ : Int
  hands_ : List (List Card)
  deck_ : List Card

/-- The bot callback that the server invokes (`class Bot`, `Hanabi.h:356-365`). -/
inductive Callback
  | pleaseObserveBeforeMove
  | pleaseMakeMove
  | pleaseObserveBeforeDiscard (src : Int) (card_index : Int)
  | pleaseObserveBeforePlay (src : Int) (card_index : Int)
  | pleaseObserveColorHint (src : Int) (dst : Int) (color : Color) (card_indices : CardIndices)
  | pleaseObserveValueHint (src : Int) (dst : Int) (value : Int) (card_indices : CardIndices)
  | pleaseObserveAfterMove
  deriving DecidableEq, Repr

/-- One call `players_[bot]->call(*this, ...)`; `view` is the server as the bot sees it. -/
structure Event where
  bot : Nat
  call : Callback
  view : Server

/-- Result of a server call: the fault that ended it (if any), the server at that
moment and the callbacks issued during the call, oldest first. -/
structure Outcome where
  fault : Option Fault
  server : Server
  events : List Event

/-- The vector `hands_[player]`, read after `player` has been checked to be a position of
`hands_` (the empty hand stands for a read outside `hands_`). -/
def Server.handOf (s : Server) (player : Int) : List Card :=
  s.hands_.getD player.toNat []

/-- The loop `for (i = 0; i < n; ++i) { observingPlayer_ = i; players_[i]->call(*this); }`. -/
def notifyAll (n : Int) (call : Callback) (s : Server) : List Event :=
  (List.range n.toNat).map fun i =>
    ({ bot := i, call := call, view := { s with observingPlayer_ := (i : Int) } } : Event)

/-- An outcome that stops with fault `f` before anything was done. -/
def Outcome.stop (f : Fault) (s : Server) (events : List Event) : Outcome :=
  { fault := some f, server := s, events := events }

/-! ## Queries -/

/-- Embedding of `Server::handSize` (`HanabiServer.cc:326-329`). -/
def Server.handSize (P : Params) (s : Server) : Int :=
  if P.HAND_SIZE_OVERRIDE ≥ 0 then P.HAND_SIZE_OVERRIDE
  else if s.numPlayers_ ≤ 3 then 5 else 4

/-- The loop of `Server::currentScore` over the colours still to visit, `sum` being
the running total (`HanabiServer.cc:172-177`). -/
def Server.pileSum (s : Server) : List Color → Int → Except Fault Int
  | [], sum => .ok sum
  | color :: rest, sum =>
    if (s.piles_ color).empty then s.pileSum rest sum
    else
      match (s.piles_ color).topCard with
      | .error f => .error f
      | .ok card => s.pileSum rest (sum + card.value)

/-- The conversion of a value to the 32-bit `int`. -/
def wrapInt32 (v : Int) : Int := (v + 2 ^ 31) % 2 ^ 32 - 2 ^ 31

/-- Embedding of `Server::currentScore` (`HanabiServer.cc:165-183`). `sum` and `BOMBD` are
`int`s and so is their difference: a difference that does not fit the 32 bits is modelled by
its wrap-around. The sum of the top cards is at most 25, as `topCard` asserts a value of at
most 5, and needs no wrap. -/
def Server.currentScore (P : Params) (s : Server) : Except Fault Int :=
  if s.mulligansRemaining_ = 0 ∧ P.BOMB0 ≠ 0 then .ok 0
  else
    match s.pileSum Color.all 0 with
    | .error f => .error f
    | .ok sum =>
      if s.mulligansRemaining_ = 0 then .ok (max (wrapInt32 (sum - P.BOMBD)) 0) else .ok sum

/-- Embedding of `Server::gameOver` (`HanabiServer.cc:153-163`). -/
def Server.gameOver (P : Params) (s : Server) : Except Fault Bool :=
  if s.deck_ = [] ∧ s.finalCountdown_ = s.numPlayers_ + 1 then .ok true
  else if s.mulligansRemaining_ = 0 then .ok true
  else
    match s.currentScore P with
    | .error f => .error f
    | .ok score => if score = 5 * NUMCOLORS then .ok true else .ok false

/-- Embedding of `Server::discardingIsAllowed` (`HanabiServer.cc:398-405`). -/
def Server.discardingIsAllowed (P : Params) (s : Server) : Bool :=
  if P.ALLOW_DISCARDING_EVEN_WITH_ALL_HINT_STONES then true
  else s.hintStonesRemaining_ != NUMHINTS

/-! ## Private helpers of the server -/

/-- Embedding of `Server::regainHintStoneIfPossible_` (`HanabiServer.cc:642-653`). -/
def Server.regainHintStoneIfPossible_ (s : Server) : Server :=
  if s.hintStonesRemaining_ < NUMHINTS then
    { s with hintStonesRemaining_ := s.hintStonesRemaining_ + 1 }
  else s

/-- Embedding of `Server::loseMulligan_` (`HanabiServer.cc:655-668`). -/
def Server.loseMulligan_ (s : Server) : Except Fault Server :=
  if s.mulligansRemaining_ - 1 ≥ 0 then
    .ok { s with mulligansRemaining_ := s.mulligansRemaining_ - 1 }
  else .error (.AssertionFailure "mulligansRemaining_ >= 0")

/-- Embedding of `Server::draw_` (`HanabiServer.cc:670-676`): the card taken and the server
without it. -/
def Server.draw_ (s : Server) : Except Fault (Card × Server) :=
  match s.deck_.getLast? with
  | none => .error (.AssertionFailure "!deck_.empty()")
  | some result => .ok (result, { s with deck_ := s.deck_.dropLast })

/-- The statement `hands_[player].push_back(card)`. -/
def Server.pushToHand (s : Server) (player : Nat) (card : Card) : Server :=
  { s with hands_ := s.hands_.set player (s.hands_.getD player [] ++ [card]) }

/-- The block "draw a replacement if possible", the same text in `pleaseDiscard`
(`HanabiServer.cc:463-470`) and in `pleasePlay` (`HanabiServer.cc:527-534`). -/
def Server.drawReplacement_ (s : Server) : Except Fault Server :=
  if s.mulligansRemaining_ > 0 ∧ s.deck_ ≠ [] then
    match s.draw_ with
    | .error f => .error f
    | .ok (replacementCard, s1) => .ok (s1.pushToHand s.activePlayer_.toNat replacementCard)
  else .ok s

/-- The loop that fills `card_indices` (`HanabiServer.cc:553-557` and `603-607`) over the
cards from slot `i` on; `hit` is the test of the `if`. -/
def hintLoop (hit : Card → Bool) : List Card → Int → CardIndices → CardIndices
  | [], _, card_indices => card_indices
  | card :: rest, i, card_indices =>
    hintLoop hit rest (i + 1) (if hit card then card_indices.add i else card_indices)

/-! ## Mutators -/

/-- Embedding of `Server::pleaseDiscard` (`HanabiServer.cc:429-474`). -/
def Server.pleaseDiscard (P : Params) (s : Server) (index : Int) : Outcome :=
  if ¬ (0 ≤ s.activePlayer_ ∧ s.activePlayer_ < s.numPlayers_) then
    .stop (.AssertionFailure "0 <= activePlayer_ && activePlayer_ < numPlayers_") s []
  else if ¬ (s.movesFromActivePlayer_ < 1) then
    .stop (.ServerError "bot attempted to move twice") s []
  else if ¬ (s.movesFromActivePlayer_ = 0) then
    .stop (.ServerError "called pleaseDiscard() from the wrong observer") s []
  else
    match s.hands_[s.activePlayer_.toNat]? with
    | none => .stop (.OutOfBounds "hands_[activePlayer_]") s []
    | some hand =>
      if ¬ (0 ≤ index ∧ index ≤ hand.length) then
        .stop (.ServerError "invalid card index") s []
      else if ¬ s.discardingIsAllowed P then
        .stop (.ServerError "all hint stones are already available") s []
      else
        match hand[index.toNat]? with
        | none => .stop (.OutOfBounds "hands_[activePlayer_][index]") s []
        | some discardedCard =>
          let s1 := { s with activeCard_ := discardedCard, activeCardIsObservable_ := true,
                             movesFromActivePlayer_ := -1 }
          let events := notifyAll s.numPlayers_
            (.pleaseObserveBeforeDiscard s.activePlayer_ index) s1
          let s2 := { s1 with activeCardIsObservable_ := false,
                              discards_ := s.discards_ ++ [discardedCard],
                              hands_ := s.hands_.set s.activePlayer_.toNat
                                (hand.eraseIdx index.toNat) }
          match s2.drawReplacement_ with
          | .error f => .stop f s2 events
          | .ok s3 =>
            { fault := none,
              server := { s3.regainHintStoneIfPossible_ with movesFromActivePlayer_ := 1 },
              events := events }

/-- Embedding of `Server::pleasePlay` (`HanabiServer.cc:476-539`). -/
def Server.pleasePlay (s : Server) (index : Int) : Outcome :=
  if ¬ (0 ≤ s.activePlayer_ ∧ s.activePlayer_ < s.hands_.length) then
    .stop (.AssertionFailure "0 <= activePlayer_ && activePlayer_ < hands_.size()") s []
  else if ¬ (s.players_size = s.hands_.length) then
    .stop (.AssertionFailure "players_.size() == hands_.size()") s []
  else if ¬ (s.movesFromActivePlayer_ < 1) then
    .stop (.ServerError "bot attempted to move twice") s []
  else if ¬ (s.movesFromActivePlayer_ = 0) then
    .stop (.ServerError "called pleasePlay() from the wrong observer") s []
  else
    match s.hands_[s.activePlayer_.toNat]? with
    | none => .stop (.OutOfBounds "hands_[activePlayer_]") s []
    | some hand =>
      if ¬ (0 ≤ index ∧ index ≤ hand.length) then
        .stop (.ServerError "invalid card index") s []
      else
        match hand[index.toNat]? with
        | none => .stop (.OutOfBounds "hands_[activePlayer_][index]") s []
        | some selectedCard =>
          let s1 := { s with activeCard_ := selectedCard, activeCardIsObservable_ := true,
                             movesFromActivePlayer_ := -1 }
          let events := notifyAll s.players_size
            (.pleaseObserveBeforePlay s.activePlayer_ index) s1
          let s2 := { s1 with activeCardIsObservable_ := false }
          if selectedCard.color = .INVALID_COLOR then
            .stop (.OutOfBounds "piles_[(int)selectedCard.color]") s2 events
          else
            let pile := s2.piles_ selectedCard.color
            let examined : Except Fault Server :=
              if pile.nextValueIs selectedCard.value then
                match pile.increment_ with
                | .error f => .error f
                | .ok pile1 =>
                  let s3 := { s2 with piles_ := Function.update s2.piles_ selectedCard.color pile1 }
                  if selectedCard.value = 5 then .ok s3.regainHintStoneIfPossible_ else .ok s3
              else
                { s2 with discards_ := s2.discards_ ++ [selectedCard] }.loseMulligan_
            match examined with
            | .error f => .stop f s2 events
            | .ok s4 =>
              let s5 := { s4 with hands_ := s4.hands_.set s.activePlayer_.toNat
                                    (hand.eraseIdx index.toNat) }
              match s5.drawReplacement_ with
              | .error f => .stop f s5 events
              | .ok s6 =>
                { fault := none, server := { s6 with movesFromActivePlayer_ := 1 },
                  events := events }

/-- Embedding of `Server::pleaseGiveColorHint` (`HanabiServer.cc:541-589`). -/
def Server.pleaseGiveColorHint (P : Params) (s : Server) (dst : Int) (color : Color) : Outcome :=
  if ¬ (0 ≤ s.activePlayer_ ∧ s.activePlayer_ < s.hands_.length) then
    .stop (.AssertionFailure "0 <= activePlayer_ && activePlayer_ < hands_.size()") s []
  else if ¬ (s.players_size = s.hands_.length) then
    .stop (.AssertionFailure "players_.size() == hands_.size()") s []
  else if ¬ (s.movesFromActivePlayer_ < 1) then
    .stop (.ServerError "bot attempted to move twice") s []
  else if ¬ (s.movesFromActivePlayer_ = 0) then
    .stop (.ServerError "called pleaseGiveColorHint() from the wrong observer") s []
  else if ¬ (0 ≤ dst ∧ dst < s.hands_.length) then
    .stop (.ServerError "invalid player index") s []
  else if ¬ (Color.RED.toInt ≤ color.toInt ∧ color.toInt ≤ Color.BLUE.toInt) then
    .stop (.ServerError "invalid color") s []
  else if ¬ (s.hintStonesRemaining_ ≠ 0) then
    .stop (.ServerError "no hint stones remaining") s []
  else if ¬ (dst ≠ s.activePlayer_) then
    .stop (.ServerError "cannot give hint to oneself") s []
  else
    let card_indices :=
      hintLoop (fun card => card.color == color) (s.handOf dst) 0 CardIndices.new
    if ¬ P.ALLOW_EMPTY_HINTS ∧ card_indices.empty then
      .stop (.ServerError "hint must include at least one card") s []
    else
      let s1 := { s with movesFromActivePlayer_ := -1 }
      let events := notifyAll s.players_size
        (.pleaseObserveColorHint s.activePlayer_ dst color card_indices) s1
      { fault := none,
        server := { s with hintStonesRemaining_ := s.hintStonesRemaining_ - 1,
                           movesFromActivePlayer_ := 1 },
        events := events }

/-- Embedding of `Server::pleaseGiveValueHint` (`HanabiServer.cc:591-640`). -/
def Server.pleaseGiveValueHint (P : Params) (s : Server) (dst : Int) (value : Int) : Outcome :=
  if ¬ (0 ≤ s.activePlayer_ ∧ s.activePlayer_ < s.hands_.length) then
    .stop (.AssertionFailure "0 <= activePlayer_ && activePlayer_ < hands_.size()") s []
  else if ¬ (s.players_size = s.hands_.length) then
    .stop (.AssertionFailure "players_.size() == hands_.size()") s []
  else if ¬ (s.movesFromActivePlayer_ < 1) then
    .stop (.ServerError "bot attempted to move twice") s []
  else if ¬ (s.movesFromActivePlayer_ = 0) then
    .stop (.ServerError "called pleaseGiveValueHint() from the wrong observer") s []
  else if ¬ (0 ≤ dst ∧ dst < s.hands_.length) then
    .stop (.ServerError "invalid player index") s []
  else if ¬ (1 ≤ value ∧ value ≤ 5) then
    .stop (.ServerError "invalid value") s []
  else if ¬ (s.hintStonesRemaining_ ≠ 0) then
    .stop (.ServerError "no hint stones remaining") s []
  else if ¬ (dst ≠ s.activePlayer_) then
    .stop (.ServerError "cannot give hint to oneself") s []
  else
    let card_indices :=
      hintLoop (fun card => card.value == value) (s.handOf dst) 0 CardIndices.new
    if ¬ P.ALLOW_EMPTY_HINTS ∧ card_indices.empty then
      .stop (.ServerError "hint must include at least one card") s []
    else
      let s1 := { s with movesFromActivePlayer_ := -1 }
      let events := notifyAll s.players_size
        (.pleaseObserveValueHint s.activePlayer_ dst value card_indices) s1
      { fault := none,
        server := { s with hintStonesRemaining_ := s.hintStonesRemaining_ - 1,
                           movesFromActivePlayer_ := 1 },
        events := events }

/-! ## Setting up and running a game -/

/-- Exchange of the elements at positions `i` and `j` (`swap(first[i], first[j])`). -/
def swapAt {α : Type} (xs : List α) (i j : Nat) : List α :=
  match xs[i]?, xs[j]? with
  | some a, some b => (xs.set i b).set j a
  | _, _ => xs

/-- The loop of `portable_shuffle` from index `i` on, `k` iterations left; the call
`g()` of iteration `i` returns `g i`. -/
def portable_shuffle.loop {α : Type} (g : Nat → Nat) : Nat → Nat → List α → List α
  | 0, _, xs => xs
  | k + 1, i, xs =>
    let j := g i % (i + 1)
    portable_shuffle.loop g k (i + 1) (if j ≠ i then swapAt xs i j else xs)

/-- Embedding of `portable_shuffle` (`HanabiServer.cc:196-207`); the generator is given by
the sequence of its results, `g i` being the result of the call number `i`. -/
def portable_shuffle {α : Type} (first : List α) (g : Nat → Nat) : List α :=
  portable_shuffle.loop g first.length 0 first

/-- The deck built by `runGame` before shuffling (`HanabiServer.cc:250-257`). -/
def standardDeck : List Card :=
  Color.all.flatMap fun color =>
    [1, 2, 3, 4, 5].flatMap fun value =>
      match (Card.mk color value).count with
      | .ok n => List.replicate n.toNat (Card.mk color value)
      | .error _ => []

/-- The inner loop `for (k = 0; k < initialHandSize; ++k) hands_[i].push_back(draw_())`,
`k` iterations left. -/
def Server.dealHand (i : Nat) : Nat → Server → Except Fault Server
  | 0, s => .ok s
  | k + 1, s =>
    match s.draw_ with
    | .error f => .error f
    | .ok (card, s1) => Server.dealHand i k (s1.pushToHand i card)

/-- The outer loop of "secretly draw the starting hands" over the players still to
be served (`HanabiServer.cc:270-275`). -/
def Server.dealHands (initialHandSize : Nat) : List Nat → Server → Except Fault Server
  | [], s => .ok s
  | i :: rest, s =>
    match Server.dealHand i initialHandSize
        { s with hands_ := s.hands_.set i [] } with
    | .error f => .error f
    | .ok s1 => Server.dealHands initialHandSize rest s1

/-- The part of `Server::runGame(std::vector<Bot*>, stackedDeck)` that precedes the call of
`runToCompletion` (`HanabiServer.cc:228-280`), on a server `s` that may have any
content, for `players` bots; `g` gives the results of `rand_`. -/
def Server.runGameSetup (P : Params) (s : Server) (players : Nat) (stackedDeck : List Card)
    (g : Nat → Nat) : Except Fault Server :=
  let s1 := { s with players_size := players, numPlayers_ := (players : Int) }
  let initialHandSize := s1.handSize P
  let s2 := { s1 with piles_ := fun color => { color := color, size_ := 0 },
                      mulligansRemaining_ := NUMMULLIGANS,
                      hintStonesRemaining_ := NUMHINTS,
                      finalCountdown_ := 0,
                      deck_ := if stackedDeck ≠ [] then stackedDeck.reverse
                               else portable_shuffle standardDeck g,
                      discards_ := [],
                      hands_ := (s1.hands_.take players) ++
                                List.replicate (players - s1.hands_.length) [] }
  match Server.dealHands initialHandSize.toNat (List.range players) s2 with
  | .error f => .error f
  | .ok s3 =>
    .ok { s3 with activeCardIsObservable_ := false, activePlayer_ := 0,
                  movesFromActivePlayer_ := -1 }

/-- The server as its constructor leaves it (`Server::Server()`, `activeCard_(RED,1)`); the
members the constructor does not initialise are given harmless values. -/
def Server.fresh : Server :=
  { players_size := 0, observingPlayer_ := 0, activePlayer_ := 0,
    movesFromActivePlayer_ := -1, activeCard_ := ⟨.RED, 1⟩, activeCardIsObservable_ := false,
    finalCountdown_ := 0, numPlayers_ := 0, piles_ := fun color => ⟨color, 0⟩, discards_ := [],
    hintStonesRemaining_ := 0, mulligansRemaining_ := 0, hands_ := [], deck_ := [] }

/-- The first half of the body of the loop of `runToCompletion`, up to and including the
call of `pleaseMakeMove` (`HanabiServer.cc:293-299`); the mutator that the bot calls
inside `pleaseMakeMove` is applied to the resulting server. -/
def Server.beginTurn (s : Server) : Outcome :=
  let events := notifyAll s.numPlayers_ .pleaseObserveBeforeMove s
  let s1 := { s with observingPlayer_ := s.activePlayer_, movesFromActivePlayer_ := 0 }
  if ¬ (0 ≤ s.activePlayer_ ∧ s.activePlayer_ < s.players_size) then
    .stop (.OutOfBounds "players_[activePlayer_]") s1 events
  else
    { fault := none, server := s1,
      events := events ++
        [{ bot := s.activePlayer_.toNat, call := .pleaseMakeMove, view := s1 }] }

/-- The second half of the body of the loop of `runToCompletion`, after the test
`if (this->gameOver()) break;` (`HanabiServer.cc:302-311`). The C++ `%` truncates, hence
`tmod`; it is applied only after a bot has moved, so `numPlayers_` is not 0 there. -/
def Server.endTurn (s : Server) : Outcome :=
  if ¬ (s.movesFromActivePlayer_ ≠ 0) then
    .stop (.ServerError "bot failed to respond to pleaseMove()") s []
  else if ¬ (s.movesFromActivePlayer_ = 1) then
    .stop (.AssertionFailure "movesFromActivePlayer_ == 1") s []
  else
    let s1 := { s with movesFromActivePlayer_ := -1 }
    let events := notifyAll s.numPlayers_ .pleaseObserveAfterMove s1
    let s2 := { s1 with
      observingPlayer_ := if 0 < s.numPlayers_ then s.numPlayers_ - 1 else s.observingPlayer_,
      activePlayer_ := (s.activePlayer_ + 1).tmod s.numPlayers_ }
    if ¬ (0 ≤ s2.finalCountdown_ ∧ s2.finalCountdown_ ≤ s2.numPlayers_) then
      .stop (.AssertionFailure "0 <= finalCountdown_ && finalCountdown_ <= numPlayers_") s2 events
    else
      { fault := none,
        server := if s2.deck_ = [] then { s2 with finalCountdown_ := s2.finalCountdown_ + 1 }
                  else s2,
        events := events }

/-- The cards of the game: a colour `RED .. BLUE` and a value 1..5
(the `Card` constructors assert `1 <= value && value <= 5`). -/
def Card.valid (c : Card) : Prop := c.color ≠ .INVALID_COLOR ∧ 1 ≤ c.value ∧ c.value ≤ 5

instance (c : Card) : Decidable c.valid := by
  unfold Card.valid; infer_instance

/-- States of the server during `runGame`: the state that `runGame` hands to
`runToCompletion`, and every state that follows from it when each turn's bot calls one
mutator that is accepted. The parameters are those of the call of `runGame`. -/
inductive Reachable (P : Params) (players : Nat) (stackedDeck : List Card) (g : Nat → Nat) :
    Server → Prop
  | setup (s0 s : Server)
      (h : Server.runGameSetup P s0 players stackedDeck g = .ok s) :
      Reachable P players stackedDeck g s
  | beginTurn (s : Server) (hs : Reachable P players stackedDeck g s)
      (hmoves : s.movesFromActivePlayer_ = -1) (hover : s.gameOver P = .ok false)
      (h : s.beginTurn.fault = none) :
      Reachable P players stackedDeck g s.beginTurn.server
  | pleasePlay (s : Server) (index : Int) (hs : Reachable P players stackedDeck g s)
      (h : (s.pleasePlay index).fault = none) :
      Reachable P players stackedDeck g (s.pleasePlay index).server
  | pleaseDiscard (s : Server) (index : Int) (hs : Reachable P players stackedDeck g s)
      (h : (s.pleaseDiscard P index).fault = none) :
      Reachable P players stackedDeck g (s.pleaseDiscard P index).server
  | pleaseGiveColorHint (s : Server) (dst : Int) (color : Color)
      (hs : Reachable P players stackedDeck g s)
      (h : (s.pleaseGiveColorHint P dst color).fault = none) :
      Reachable P players stackedDeck g (s.pleaseGiveColorHint P dst color).server
  | pleaseGiveValueHint (s : Server) (dst : Int) (value : Int)
      (hs : Reachable P players stackedDeck g s)
      (h : (s.pleaseGiveValueHint P dst value).fault = none) :
      Reachable P players stackedDeck g (s.pleaseGiveValueHint P dst value).server
  | endTurn (s : Server) (hs : Reachable P players stackedDeck g s)
      (hover : s.gameOver P = .ok false) (h : s.endTurn.fault = none) :
      Reachable P players stackedDeck g s.endTurn.server

/-! ## Acceptance conditions -/

/-- The conditions under which `pleasePlay` completes, read off the code. -/
def Server.playAccepted (s : Server) (index : Int) (hand : List Card) (card : Card) : Prop :=
  s.hands_[s.activePlayer_.toNat]? = some hand ∧ hand[index.toNat]? = some card ∧ 0 ≤ index ∧
  (0 ≤ s.activePlayer_ ∧ s.activePlayer_ < s.hands_.length) ∧
  s.players_size = s.hands_.length ∧ s.movesFromActivePlayer_ = 0 ∧
  card.color ≠ .INVALID_COLOR ∧
  (if card.value = (s.piles_ card.color).size_ + 1
    then 0 ≤ (s.piles_ card.color).size_ ∧ (s.piles_ card.color).size_ ≤ 4
    else 1 ≤ s.mulligansRemaining_)

/-- The conditions under which `pleaseDiscard` completes, read off the code. -/
def Server.discardAccepted (P : Params) (s : Server) (index : Int) (hand : List Card)
    (card : Card) : Prop :=
  s.hands_[s.activePlayer_.toNat]? = some hand ∧ hand[index.toNat]? = some card ∧ 0 ≤ index ∧
  (0 ≤ s.activePlayer_ ∧ s.activePlayer_ < s.numPlayers_) ∧
  s.movesFromActivePlayer_ = 0 ∧ s.discardingIsAllowed P = true

/-! ## Example states -/

/-- A two-player position in which the red pile holds 1..4, no hint stone is left and the
active player 0, who has not moved yet, holds the red 5 in slot 0. -/
def exampleRedFive : Server :=
  { players_size := 2, observingPlayer_ := 0, activePlayer_ := 0, movesFromActivePlayer_ := 0,
    activeCard_ := ⟨.RED, 1⟩, activeCardIsObservable_ := false, finalCountdown_ := 0,
    numPlayers_ := 2,
    piles_ := fun color => { color := color, size_ := if color = .RED then 4 else 0 },
    discards_ := [], hintStonesRemaining_ := 0, mulligansRemaining_ := 3,
    hands_ := [[⟨.RED, 5⟩, ⟨.ORANGE, 1⟩, ⟨.YELLOW, 1⟩, ⟨.GREEN, 1⟩, ⟨.BLUE, 1⟩],
               [⟨.ORANGE, 2⟩, ⟨.YELLOW, 2⟩, ⟨.GREEN, 2⟩, ⟨.BLUE, 2⟩, ⟨.ORANGE, 3⟩]],
    deck_ := [⟨.BLUE, 4⟩, ⟨.GREEN, 4⟩, ⟨.YELLOW, 3⟩] }

/-- A two-player position with all piles empty and three mulligans in which the active
player 0, who has not moved yet, holds the red 2 in slot 0. -/
def exampleRedTwo : Server :=
  { players_size := 2, observingPlayer_ := 0, activePlayer_ := 0, movesFromActivePlayer_ := 0,
    activeCard_ := ⟨.RED, 1⟩, activeCardIsObservable_ := false, finalCountdown_ := 0,
    numPlayers_ := 2,
    piles_ := fun color => { color := color, size_ := 0 },
    discards_ := [⟨.GREEN, 4⟩], hintStonesRemaining_ := 7, mulligansRemaining_ := 3,
    hands_ := [[⟨.RED, 2⟩, ⟨.ORANGE, 1⟩, ⟨.YELLOW, 1⟩, ⟨.GREEN, 1⟩, ⟨.BLUE, 1⟩],
               [⟨.ORANGE, 2⟩, ⟨.YELLOW, 2⟩, ⟨.GREEN, 2⟩, ⟨.BLUE, 2⟩, ⟨.ORANGE, 3⟩]],
    deck_ := [⟨.BLUE, 4⟩, ⟨.RED, 1⟩, ⟨.YELLOW, 3⟩] }

/-- The state that `runGame` hands to `runToCompletion` for two players when the stacked deck
lists the standard deck in the order in which `runGame` builds it. -/
def exampleStart : Server :=
  match Server.runGameSetup Params.default Server.fresh 2 standardDeck (fun _ => 0) with
  | .ok s => s
  | .error _ => Server.fresh

/-- The game of `exampleStart` at the start of its third turn: player 0 played slot 3 (a
red 2) and player 1 played slot 0 (a red 3), both on an empty red pile, so that one mulligan
is left; player 0 is about to move. -/
def exampleLastMulligan : Server :=
  (((exampleStart.beginTurn.server.pleasePlay 3).server.endTurn.server.beginTurn.server.pleasePlay
    0).server.endTurn.server.beginTurn.server)

/-- A two-player position in which player 0 is about to move, all hint stones are available
and player 1 holds R1 O1 R3 B2 R5. -/
def exampleHintTarget : Server :=
  { players_size := 2, observingPlayer_ := 0, activePlayer_ := 0, movesFromActivePlayer_ := 0,
    activeCard_ := ⟨.RED, 1⟩, activeCardIsObservable_ := false, finalCountdown_ := 0,
    numPlayers_ := 2,
    piles_ := fun color => { color := color, size_ := 0 },
    discards_ := [], hintStonesRemaining_ := 8, mulligansRemaining_ := 3,
    hands_ := [[⟨.ORANGE, 2⟩, ⟨.YELLOW, 2⟩, ⟨.GREEN, 2⟩, ⟨.BLUE, 1⟩, ⟨.ORANGE, 3⟩],
               [⟨.RED, 1⟩, ⟨.ORANGE, 1⟩, ⟨.RED, 3⟩, ⟨.BLUE, 2⟩, ⟨.RED, 5⟩]],
    deck_ := [⟨.BLUE, 4⟩, ⟨.GREEN, 4⟩, ⟨.YELLOW, 3⟩] }

/-- The default parameters with `HAND_SIZE_OVERRIDE=9`. -/
def exampleParamsNine : Params := { Params.default with HAND_SIZE_OVERRIDE := 9 }

/-- The first turn of a two-player game with `HAND_SIZE_OVERRIDE=9`, the stacked deck listing
the standard deck in the order in which `runGame` builds it: player 0 is about to move and
player 1 holds R5 O1 O1 O1 O2 O2 O3 O3 O4. -/
def exampleNineCards : Server :=
  (match Server.runGameSetup exampleParamsNine Server.fresh 2 standardDeck (fun _ => 0) with
    | .ok s => s
    | .error _ => Server.fresh).beginTurn.server

/-! ## Counting cards and state invariants -/

/-- Number of copies of `c` on the piles: 1 when `piles_[c.color].contains(c.value)`, else 0. -/
def Server.pileCount (s : Server) (c : Card) : Nat :=
  if (s.piles_ c.color).contains c.value then 1 else 0

/-- Number of copies of `c` held in all hands together. -/
def Server.heldCount (s : Server) (c : Card) : Nat :=
  (s.hands_.map (List.count c)).sum

/-- Number of copies of `c` on the piles, in the discards, in all hands and in the deck. -/
def Server.totalCount (s : Server) (c : Card) : Nat :=
  s.pileCount c + s.discards_.count c + s.heldCount c + s.deck_.count c

/-- Facts that hold in every state of a game of `players` bots (see `Reachable.inv`). -/
structure Server.Inv (players : Nat) (s : Server) : Prop where
  numPlayers : s.numPlayers_ = players
  playersSize : s.players_size = players
  handsLength : s.hands_.length = players
  hint : 0 ≤ s.hintStonesRemaining_ ∧ s.hintStonesRemaining_ ≤ 8
  mulligans : 0 ≤ s.mulligansRemaining_ ∧ s.mulligansRemaining_ ≤ 3
  piles : ∀ color, 0 ≤ (s.piles_ color).size_ ∧ (s.piles_ color).size_ ≤ 5
  countdown : 0 ≤ s.finalCountdown_ ∧ s.finalCountdown_ ≤ s.numPlayers_ + 1 ∧
    (s.finalCountdown_ ≠ 0 → s.deck_ = [])
  moves : s.movesFromActivePlayer_ = -1 ∨
    ((s.movesFromActivePlayer_ = 0 ∧ 1 ≤ s.mulligansRemaining_ ∨ s.movesFromActivePlayer_ = 1) ∧
      s.activePlayer_ < players)
  active : 0 ≤ s.activePlayer_ ∧ (s.activePlayer_ < players ∨ (players = 0 ∧ s.activePlayer_ = 0))

/-- The default parameters with `BOMBD=-26`. -/
def exampleParamsBonus : Params := { Params.default with BOMBD := -26 }

/-- The example game after its third failed play: no mulligan is left and all piles are
empty. -/
def exampleBombedOut : Server := (exampleLastMulligan.pleasePlay 3).server

/-! ## More queries of the server -/

/-- Embedding of `Server::numPlayers` (`HanabiServer.cc:321-324`). -/
def Server.numPlayers (s : Server) : Int := s.numPlayers_

/-- Embedding of `Server::whoAmI` (`HanabiServer.cc:331-335`). -/
def Server.whoAmI (s : Server) : Except Fault Int :=
  if ¬ (0 ≤ s.observingPlayer_ ∧ s.observingPlayer_ < s.numPlayers_) then
    .error (.AssertionFailure "0 <= observingPlayer_ && observingPlayer_ < numPlayers_")
  else .ok s.observingPlayer_

/-- Embedding of `Server::activePlayer` (`HanabiServer.cc:337-340`). -/
def Server.activePlayer (s : Server) : Int := s.activePlayer_

/-- Embedding of `Server::sizeOfHandOfPlayer` (`HanabiServer.cc:342-346`). -/
def Server.sizeOfHandOfPlayer (s : Server) (player : Int) : Except Fault Int :=
  if ¬ (0 ≤ player ∧ player < s.numPlayers_) then
    .error (.ServerError "player index out of bounds")
  else
    match s.hands_[player.toNat]? with
    | none => .error (.OutOfBounds "hands_[player]")
    | some hand => .ok hand.length

/-- Embedding of `Server::handOfPlayer` (`HanabiServer.cc:348-353`). -/
def Server.handOfPlayer (s : Server) (player : Int) : Except Fault (List Card) :=
  if ¬ (player ≠ s.observingPlayer_) then .error (.ServerError "cannot observe own hand")
  else if ¬ (0 ≤ player ∧ player < s.numPlayers_) then
    .error (.ServerError "player index out of bounds")
  else
    match s.hands_[player.toNat]? with
    | none => .error (.OutOfBounds "hands_[player]")
    | some hand => .ok hand

/-- Embedding of `Server::activeCard` (`HanabiServer.cc:368-372`). -/
def Server.activeCard (s : Server) : Except Fault Card :=
  if ¬ (s.activeCardIsObservable_ = true) then
    .error (.ServerError "called activeCard() from the wrong observer")
  else .ok s.activeCard_

/-- Embedding of `Server::hintStonesRemaining` (`HanabiServer.cc:392-396`). -/
def Server.hintStonesRemaining (s : Server) : Except Fault Int :=
  if ¬ (s.hintStonesRemaining_ ≤ NUMHINTS) then
    .error (.AssertionFailure "hintStonesRemaining_ <= NUMHINTS")
  else .ok s.hintStonesRemaining_

/-! ## Moves (`BotUtils.h`, `BotUtils.cc`) -/

/-- The enum `MoveType` (`BotUtils.h:18`), in the order of its enumerators. -/
inductive MoveType
  | PLAY_CARD | DISCARD_CARD | HINT_COLOR | HINT_VALUE | INVALID_MOVE
  deriving DecidableEq, Repr

/-- The integer behind a `MoveType`. -/
def MoveType.toInt : MoveType → Int
  | .PLAY_CARD => 0 | .DISCARD_CARD => 1 | .HINT_COLOR => 2 | .HINT_VALUE => 3
  | .INVALID_MOVE => 4

/-- Embedding of `struct Move` (`BotUtils.h:25-35`); the member `to` is called `to_` here. -/
structure Move where
  type : MoveType
  value : Int
  to_ : Int
  deriving DecidableEq, Repr

/-- The constructor `Move() : type(INVALID_MOVE), value(-1), to(-1)`. -/
def Move.invalid : Move := { type := .INVALID_MOVE, value := -1, to_ := -1 }

/-- Embedding of `operator<(const Move&, const Move&)` (`BotUtils.cc:80-84`): the order of
`std::tuple`, which compares the first members with `<`, and goes on to the next members
when neither is less. -/
def Move.lt (l r : Move) : Bool :=
  decide (l.type.toInt < r.type.toInt) ||
    (!decide (r.type.toInt < l.type.toInt) &&
      (decide (l.value < r.value) ||
        (!decide (r.value < l.value) && decide (l.to_ < r.to_))))

/-- Embedding of `operator==(const Move&, const Move&)` (`BotUtils.cc:85-89`). -/
def Move.eq (l r : Move) : Bool :=
  decide (l.type.toInt = r.type.toInt) && decide (l.value = r.value) && decide (l.to_ = r.to_)

/-- The value of an `int` converted to an enumeration over `int8_t` (it wraps modulo 256). -/
def wrapInt8 (v : Int) : Int := (v + 128) % 256 - 128

/-- The conversion `Color(v)`; the values that are no enumerator fail every test
`RED <= color && color <= BLUE`, as `INVALID_COLOR` does. -/
def Color.ofInt (v : Int) : Color :=
  if wrapInt8 v = 0 then .RED
  else if wrapInt8 v = 1 then .ORANGE
  else if wrapInt8 v = 2 then .YELLOW
  else if wrapInt8 v = 3 then .GREEN
  else if wrapInt8 v = 4 then .BLUE
  else .INVALID_COLOR

/-- Embedding of `execute_` (`BotUtils.cc:173-186`). -/
def execute_ (P : Params) (src : Int) (move : Move) (server : Server) : Outcome :=
  match server.whoAmI with
  | .error f => .stop f server []
  | .ok me =>
    if ¬ (src = me) then .stop (.AssertionFailure "from == server.whoAmI()") server []
    else
      match move.type with
      | .PLAY_CARD => server.pleasePlay move.value
      | .DISCARD_CARD => server.pleaseDiscard P move.value
      | .HINT_COLOR => server.pleaseGiveColorHint P move.to_ (Color.ofInt move.value)
      | .HINT_VALUE => server.pleaseGiveValueHint P move.to_ (wrapInt8 move.value)
      | .INVALID_MOVE => .stop (.RuntimeError "Invalid move: ??? invalid") server []

/-- One pass through the body of the loop of `runToCompletion` (`HanabiServer.cc:288-311`);
`move` is what the active bot does inside `pleaseMakeMove`. When `gameOver()` holds after
the move, the loop is left by `break` and the rest of the body is skipped. -/
def Server.turn (P : Params) (s : Server) (move : Move) : Outcome :=
  let o1 := s.beginTurn
  match o1.fault with
  | some _ => o1
  | none =>
    let o2 := execute_ P o1.server.activePlayer_ move o1.server
    match o2.fault with
    | some f => { fault := some f, server := o2.server, events := o1.events ++ o2.events }
    | none =>
      match o2.server.gameOver P with
      | .error f => { fault := some f, server := o2.server, events := o1.events ++ o2.events }
      | .ok true => { fault := none, server := o2.server, events := o1.events ++ o2.events }
      | .ok false =>
        let o3 := o2.server.endTurn
        { fault := o3.fault, server := o3.server,
          events := o1.events ++ o2.events ++ o3.events }

/-- The example game at the start of its second turn, after player 0 gave player 1 a RED
hint: player 1, who holds R3 R3 R4 R4 R5, is about to move and 7 hint stones remain. -/
def exampleAfterHint : Server :=
  (exampleStart.beginTurn.server.pleaseGiveColorHint Params.default 1
    .RED).server.endTurn.server.beginTurn.server

/-- The default parameters with `HAND_SIZE_OVERRIDE=2`. -/
def exampleParamsTwo : Params := { Params.default with HAND_SIZE_OVERRIDE := 2 }

/-- Embedding of `moveToIndex` (`BotUtils.cc:188-209`). The C++ `%` truncates, hence `tmod`;
`whoAmI()` has asserted `numPlayers_ > 0` before the division. The arithmetic of `int` is
that of the integers as long as no intermediate value leaves the range of `int`. -/
def moveToIndex (P : Params) (move : Move) (server : Server) : Except Fault Int :=
  let NUM_COLORS : Int := 5
  let NUM_RANKS : Int := 5
  match server.whoAmI with
  | .error f => .error f
  | .ok me =>
    let maxDiscard := server.handSize P
    let maxPlay := server.handSize P
    let numPlayers := server.numPlayers
    let maxRevealColor := (numPlayers - 1) * NUM_COLORS
    let targetOffset := (move.to_ + numPlayers - me).tmod numPlayers
    match move.type with
    | .DISCARD_CARD => .ok move.value
    | .PLAY_CARD => .ok (move.value + maxDiscard)
    | .HINT_COLOR => .ok ((targetOffset - 1) * NUM_COLORS + move.value + maxDiscard + maxPlay)
    | .HINT_VALUE =>
      .ok ((targetOffset - 1) * NUM_RANKS + move.value - 1 + maxDiscard + maxPlay
        + maxRevealColor)
    | .INVALID_MOVE => .error (.AssertionFailure "false")

/-- The member `insert` of `std::set<Move>`, on the increasing sequence of the elements of the
set: the move is put at its place unless an equivalent one is there. -/
def setInsert (m : Move) : List Move → List Move
  | [] => [m]
  | x :: xs =>
    if Move.lt m x then m :: x :: xs
    else if Move.lt x m then x :: setInsert m xs
    else x :: xs

/-- The first loop of `enumerateLegalMoves` (`BotUtils.cc:99-104`) over the slots still to
visit. -/
def enumerateLegalMoves.own (P : Params) (server : Server) : List Nat → List Move → List Move
  | [], moves => moves
  | i :: rest, moves =>
    let moves1 := setInsert ⟨.PLAY_CARD, i, -1⟩ moves
    let moves2 :=
      if server.discardingIsAllowed P then setInsert ⟨.DISCARD_CARD, i, -1⟩ moves1 else moves1
    enumerateLegalMoves.own P server rest moves2

/-- The loop `for (Card card : partner_hand)` of `enumerateLegalMoves`
(`BotUtils.cc:108-113`) over the cards still to visit. -/
def enumerateLegalMoves.cards (server : Server) (p : Int) :
    List Card → List Move → Except Fault (List Move)
  | [], moves => .ok moves
  | card :: rest, moves =>
    match server.hintStonesRemaining with
    | .error f => .error f
    | .ok stones =>
      if stones > 0 then
        enumerateLegalMoves.cards server p rest
          (setInsert ⟨.HINT_VALUE, card.value, p⟩
            (setInsert ⟨.HINT_COLOR, card.color.toInt, p⟩ moves))
      else enumerateLegalMoves.cards server p rest moves

/-- The loop `for (int p = 0; p < server.numPlayers(); p++)` of `enumerateLegalMoves`
(`BotUtils.cc:105-114`) over the players still to visit. -/
def enumerateLegalMoves.partners (server : Server) :
    List Nat → List Move → Except Fault (List Move)
  | [], moves => .ok moves
  | p :: rest, moves =>
    match server.whoAmI with
    | .error f => .error f
    | .ok me =>
      if (p : Int) = me then enumerateLegalMoves.partners server rest moves
      else
        match server.handOfPlayer p with
        | .error f => .error f
        | .ok partner_hand =>
          match enumerateLegalMoves.cards server p partner_hand moves with
          | .error f => .error f
          | .ok moves1 => enumerateLegalMoves.partners server rest moves1

/-- Embedding of `enumerateLegalMoves` (`BotUtils.cc:97-116`); the result lists the elements
of the `std::set` in increasing order. -/
def enumerateLegalMoves (P : Params) (server : Server) : Except Fault (List Move) :=
  match server.whoAmI with
  | .error f => .error f
  | .ok me =>
    match server.sizeOfHandOfPlayer me with
    | .error f => .error f
    | .ok size =>
      enumerateLegalMoves.partners server (List.range server.numPlayers.toNat)
        (enumerateLegalMoves.own P server (List.range size.toNat) [])

/-- Modelled from the spec: the index-to-move inverse of the canonical layout, which the source
under review does not contain. With `H` the hand size, `n` the number of players and `me` the
observer: `[0, H)` is Discard slot i; `[H, 2H)` is Play slot i; `[2H, 2H + (n-1)*5)` is
HintColor with index = offset*5 + c + 2H; `[2H + (n-1)*5, 2H + (n-1)*10)` is HintValue with
index = offset*5 + (v-1) + 2H + (n-1)*5; the offset of a target is
`(target - me + n) mod n - 1`. Outside the layout there is no move. -/
def indexToMove (H n me index : Int) : Option Move :=
  if 0 ≤ index ∧ index < H then some ⟨.DISCARD_CARD, index, -1⟩
  else if H ≤ index ∧ index < 2 * H then some ⟨.PLAY_CARD, index - H, -1⟩
  else if 2 * H ≤ index ∧ index < 2 * H + (n - 1) * 5 then
    some ⟨.HINT_COLOR, (index - 2 * H) % 5, (me + ((index - 2 * H) / 5 + 1)) % n⟩
  else if 2 * H + (n - 1) * 5 ≤ index ∧ index < 2 * H + (n - 1) * 10 then
    some ⟨.HINT_VALUE, (index - 2 * H - (n - 1) * 5) % 5 + 1,
      (me + ((index - 2 * H - (n - 1) * 5) / 5 + 1)) % n⟩
  else none

/-- The value of `initialHandSize` in `runGame` for `players` bots (`HanabiServer.cc:234`),
as a number of cards. -/
def initialHandSize (P : Params) (players : Nat) : Nat :=
  (({ Server.fresh with numPlayers_ := (players : Int) }).handSize P).toNat

/-- The deck from which `runGame` deals, top card first: the stacked deck when there is
one, else the shuffled standard deck read from its back (`HanabiServer.cc:245-259`). -/
def initialDeck (stackedDeck : List Card) (g : Nat → Nat) : List Card :=
  if stackedDeck ≠ [] then stackedDeck else (portable_shuffle standardDeck g).reverse

/-- A stacked deck of eleven cards: R1 R1 R1 R2 R2, R3 R3 R4 R4 R5, O1. -/
def exampleShortDeck : List Card := standardDeck.take 11

/-- The first turn of a two-player game with the stacked deck `exampleShortDeck`: player 0
holds R1 R1 R1 R2 R2 and is about to move, player 1 holds R3 R3 R4 R4 R5, and one card (O1) is
left in the deck. -/
def exampleOneCardLeft : Server :=
  (match Server.runGameSetup Params.default Server.fresh 2 exampleShortDeck (fun _ => 0) with
    | .ok s => s
    | .error _ => Server.fresh).beginTurn.server

/-- The example game before its third turn: `exampleLastMulligan` is this state after the
callbacks that open the turn. -/
def exampleThirdTurn : Server :=
  ((exampleStart.beginTurn.server.pleasePlay 3).server.endTurn.server.beginTurn.server.pleasePlay
    0).server.endTurn.server

/-- A stacked deck of 35 cards on which two players who always play slot 0 complete all five
piles with 25 plays: the two opening hands R1 R3 R5 O2 O4 and R2 R4 O1 O3 O5, then the
cards Y1 .. B5 in the order in which they are played, then ten more cards. -/
def exampleWinningDeck : List Card :=
  [⟨.RED, 1⟩, ⟨.RED, 3⟩, ⟨.RED, 5⟩, ⟨.ORANGE, 2⟩, ⟨.ORANGE, 4⟩,
   ⟨.RED, 2⟩, ⟨.RED, 4⟩, ⟨.ORANGE, 1⟩, ⟨.ORANGE, 3⟩, ⟨.ORANGE, 5⟩,
   ⟨.YELLOW, 1⟩, ⟨.YELLOW, 2⟩, ⟨.YELLOW, 3⟩, ⟨.YELLOW, 4⟩, ⟨.YELLOW, 5⟩,
   ⟨.GREEN, 1⟩, ⟨.GREEN, 2⟩, ⟨.GREEN, 3⟩, ⟨.GREEN, 4⟩, ⟨.GREEN, 5⟩,
   ⟨.BLUE, 1⟩, ⟨.BLUE, 2⟩, ⟨.BLUE, 3⟩, ⟨.BLUE, 4⟩, ⟨.BLUE, 5⟩,
   ⟨.RED, 1⟩, ⟨.RED, 1⟩, ⟨.RED, 2⟩, ⟨.RED, 3⟩, ⟨.RED, 4⟩,
   ⟨.ORANGE, 1⟩, ⟨.ORANGE, 1⟩, ⟨.ORANGE, 2⟩, ⟨.ORANGE, 3⟩, ⟨.ORANGE, 4⟩]

/-- The two-player game on `exampleWinningDeck` after `k` turns in each of which the active
player played slot 0. -/
def exampleWinningGame : Nat → Server
  | 0 =>
    match Server.runGameSetup Params.default Server.fresh 2 exampleWinningDeck (fun _ => 0) with
    | .ok s => s
    | .error _ => Server.fresh
  | k + 1 => ((exampleWinningGame k).turn Params.default ⟨.PLAY_CARD, 0, -1⟩).server

/-! ## Cards as indices, deck compositions (`BotUtils.cc`) -/

/-- Embedding of `cardToIndex` (`BotUtils.cc:211-213`). -/
def cardToIndex (card : Card) : Int := card.color.toInt * 5 + (card.value - 1)

/-- Embedding of the constructor `Card::Card(Color c, int v)` (`HanabiServer.cc:113`): the
value is converted to the `int8_t` behind `Value` and asserted to lie in 1..5. -/
def Card.make (c : Color) (v : Int) : Except Fault Card :=
  if ¬ (1 ≤ wrapInt8 v ∧ wrapInt8 v ≤ 5) then
    .error (.AssertionFailure "1 <= value && value <= 5")
  else .ok ⟨c, wrapInt8 v⟩

/-- Embedding of `indexToCard` (`BotUtils.cc:215-217`); `/` and `%` of C++ truncate. -/
def indexToCard (index : Int) : Except Fault Card :=
  Card.make (Color.ofInt (index.tdiv 5)) (index.tmod 5 + 1)

/-- Embedding of `Card::operator<` (`Hanabi.h:111-116`). -/
def Card.lt (l r : Card) : Bool :=
  decide (l.color.toInt < r.color.toInt) ||
    (decide (l.color.toInt = r.color.toInt) && decide (l.value < r.value))

/-- The place of a new key among the keys of a `std::map<Card, int>`, which are kept in
increasing order; a key that is there stays where it is. -/
def insertKey (card : Card) : List Card → List Card
  | [] => [card]
  | k :: ks =>
    if Card.lt card k then card :: k :: ks
    else if Card.lt k card then k :: insertKey card ks
    else k :: ks

/-- Embedding of `DeckComposition`, a `std::map<Card, int>` (`BotUtils.h:67`): its keys in
increasing order and the value of each key. -/
structure DeckComposition where
  keys : List Card
  value : Card → Int

/-- The empty map. -/
def DeckComposition.empty : DeckComposition := ⟨[], fun _ => 0⟩

/-- The value that `deck[card]` reads: the value of the key, and 0 for a card that is no key
yet (`operator[]` creates it with the value 0). -/
def DeckComposition.at (deck : DeckComposition) (card : Card) : Int :=
  if card ∈ deck.keys then deck.value card else 0

/-- The assignment `deck[card] = v`. -/
def DeckComposition.set (deck : DeckComposition) (card : Card) (v : Int) : DeckComposition :=
  { keys := insertKey card deck.keys, value := Function.update deck.value card v }

/-- The entries of the map in the order of `for (auto &kv : deck)`. -/
def DeckComposition.entries (deck : DeckComposition) : List (Card × Int) :=
  deck.keys.map fun card => (card, deck.value card)

/-- Embedding of `addToDeck` (`BotUtils.cc:129-133`). -/
def addToDeck : List Card → DeckComposition → DeckComposition
  | [], deck => deck
  | card :: rest, deck => addToDeck rest (deck.set card (deck.at card + 1))

/-- Embedding of `removeFromDeck` (`BotUtils.cc:134-142`). -/
def removeFromDeck : List Card → DeckComposition → Except Fault DeckComposition
  | [], deck => .ok deck
  | card :: rest, deck =>
    let deck1 := deck.set card (deck.at card - 1)
    if deck1.at card < 0 then .error (.AssertionFailure "false")
    else removeFromDeck rest deck1

/-- The first loops of `getCurrentDeckComposition` (`BotUtils.cc:146-151`) over the cards still
to enter: `deck[c] = c.count()`. -/
def getCurrentDeckComposition.fill : List Card → DeckComposition → Except Fault DeckComposition
  | [], deck => .ok deck
  | c :: rest, deck =>
    match c.count with
    | .error f => .error f
    | .ok n => getCurrentDeckComposition.fill rest (deck.set c n)

/-- The cards `Card(color, value)` for the colours `RED .. BLUE` and the values 1..5, in the
order of the two nested loops. -/
def allCards : List Card :=
  Color.all.flatMap fun color => [1, 2, 3, 4, 5].map fun value => (⟨color, value⟩ : Card)

/-- The loop over the players of `getCurrentDeckComposition` (`BotUtils.cc:155-158`), over the
players still to visit. -/
def getCurrentDeckComposition.hands (server : Server) (who : Int) :
    List Nat → DeckComposition → Except Fault DeckComposition
  | [], deck => .ok deck
  | player :: rest, deck =>
    if who = -1 ∨ (player : Int) = who then getCurrentDeckComposition.hands server who rest deck
    else
      match server.handOfPlayer player with
      | .error f => .error f
      | .ok hand =>
        match removeFromDeck hand deck with
        | .error f => .error f
        | .ok deck1 => getCurrentDeckComposition.hands server who rest deck1

/-- The vector `pile_cards` of `getCurrentDeckComposition` (`BotUtils.cc:159-167`); `pileOf`
does not throw for the colours `RED .. BLUE`. -/
def getCurrentDeckComposition.pile_cards (server : Server) : List Card :=
  Color.all.flatMap fun color =>
    ([1, 2, 3, 4, 5].filter fun value => (server.piles_ color).contains value).map
      fun value => (⟨color, value⟩ : Card)

/-- Embedding of `getCurrentDeckComposition` (`BotUtils.cc:144-171`). -/
def getCurrentDeckComposition (server : Server) (who : Int) : Except Fault DeckComposition :=
  match getCurrentDeckComposition.fill allCards DeckComposition.empty with
  | .error f => .error f
  | .ok deck0 =>
    match removeFromDeck server.discards_ deck0 with
    | .error f => .error f
    | .ok deck1 =>
      match getCurrentDeckComposition.hands server who
          (List.range server.numPlayers.toNat) deck1 with
      | .error f => .error f
      | .ok deck2 => removeFromDeck (getCurrentDeckComposition.pile_cards server) deck2

/-- The copies of a card held by the players `0 .. numPlayers - 1` other than `who`. -/
def Server.heldByOthers (s : Server) (who : Int) (c : Card) : Nat :=
  (((List.range s.numPlayers.toNat).filter fun (p : Nat) => decide ((p : Int) ≠ who)).map
    fun (p : Nat) => (s.handOf p).count c).sum

/-! ## Hand distributions (`BotUtils.h`, `SearchBot.cc`) -/

/-- The type `Hand`, a `std::vector<Card>` (`BotUtils.h:44`). -/
abbrev Hand := List Card

/-- Embedding of `struct HandDistVal` (`BotUtils.h:190-202`), reduced to its member `prob`. The
`float` is modelled by an exact rational: rounding is not modelled. The members
`delayed_observations` and `partners`, which the functions embedded here only copy along with
`prob`, are left out. -/
structure HandDistVal where
  prob : ℚ
  deriving DecidableEq, Repr

/-- Embedding of `HandDist`, a `std::map<BoxedHand, HandDistVal>` (`BotUtils.h:204`): its
entries in the order in which `for (auto &kv : handDist)` visits them. Boxed hands are equal
exactly when the hands are, and a map holds each key once. The order of the keys is that of the
addresses of the boxed hands, which the program does not control; here a new key goes to the
end. -/
abbrev HandDist := List (Hand × HandDistVal)

/-- Embedding of `copyKeys` (`BotUtils.h:251-258`). -/
def copyKeys (handDist : HandDist) : List Hand := handDist.map Prod.fst

/-- The member `erase(hand)` of the map. -/
def HandDist.eraseKey (handDist : HandDist) (hand : Hand) : HandDist :=
  handDist.filter fun kv => decide (kv.1 ≠ hand)

/-- The member `count(hand)` of the map: 1 for a key, else 0. -/
def HandDist.countKey (handDist : HandDist) (hand : Hand) : Nat :=
  if hand ∈ copyKeys handDist then 1 else 0

/-- The value that `handDist[hand]` reads: that of the key, and a `HandDistVal()` with `prob` 0
for a hand that is no key yet. -/
def HandDist.valueAt (handDist : HandDist) (hand : Hand) : HandDistVal :=
  match handDist.find? fun kv => decide (kv.1 = hand) with
  | some kv => kv.2
  | none => ⟨0⟩

/-- The assignment `handDist[hand] = val`. -/
def HandDist.assign (handDist : HandDist) (hand : Hand) (val : HandDistVal) : HandDist :=
  if hand ∈ copyKeys handDist then
    handDist.map fun kv => if kv.1 = hand then (hand, val) else kv
  else handDist ++ [(hand, val)]

/-- The loop over the slots of a hand in `filterBeliefsConsistentWithHint_`
(`SearchBot.cc:249-262`), from slot `i` on; the result is the value of `keep`. -/
def filterBeliefsConsistentWithHint_.keep (move : Move) (card_indices : CardIndices)
    (relevant_indices : Option CardIndices) : List Card → Int → Bool
  | [], _ => true
  | card :: rest, i =>
    if (match relevant_indices with
        | some relevant => !relevant.contains i
        | none => false) then
      filterBeliefsConsistentWithHint_.keep move card_indices relevant_indices rest (i + 1)
    else
      let card_value := if move.type = .HINT_COLOR then card.color.toInt else card.value
      let consistent :=
        if card_indices.contains i then decide (card_value = move.value)
        else decide (card_value ≠ move.value)
      if !consistent then false
      else filterBeliefsConsistentWithHint_.keep move card_indices relevant_indices rest (i + 1)

/-- Embedding of `SearchBot::filterBeliefsConsistentWithHint_` with a hand distribution
(`SearchBot.cc:237-270`); `from` and `server` only serve its log line. -/
def filterBeliefsConsistentWithHint_ (move : Move) (card_indices : CardIndices)
    (handDist : HandDist) (relevant_indices : Option CardIndices) : HandDist :=
  (copyKeys handDist).foldl
    (fun dist hand =>
      if !filterBeliefsConsistentWithHint_.keep move card_indices relevant_indices hand 0 then
        dist.eraseKey hand
      else dist)
    handDist

/-- The loop that counts `in_hand` in `updateBeliefsFromRevealedCard_`
(`SearchBot.cc:421-426`), from slot `i` on. -/
def updateBeliefsFromRevealedCard_.in_hand (revealed_card : Card)
    (relevant_indices : Option CardIndices) : List Card → Int → Int → Int
  | [], _, n => n
  | my_card :: rest, i, n =>
    if (match relevant_indices with
        | some relevant => !relevant.contains i
        | none => false) then
      updateBeliefsFromRevealedCard_.in_hand revealed_card relevant_indices rest (i + 1) n
    else if my_card = revealed_card then
      updateBeliefsFromRevealedCard_.in_hand revealed_card relevant_indices rest (i + 1) (n + 1)
    else updateBeliefsFromRevealedCard_.in_hand revealed_card relevant_indices rest (i + 1) n

/-- The body of the loop over the keys in `updateBeliefsFromRevealedCard_`
(`SearchBot.cc:420-435`). -/
def updateBeliefsFromRevealedCard_.step (revealed_card : Card) (remaining : Int)
    (relevant_indices : Option CardIndices) (handDist : HandDist) (hand : Hand) : HandDist :=
  let in_hand := updateBeliefsFromRevealedCard_.in_hand revealed_card relevant_indices hand 0 0
  if in_hand > 0 then
    let val := handDist.valueAt hand
    let new_prob : ℚ := val.prob * ((remaining - in_hand : Int) : ℚ) / (remaining : ℚ)
    if new_prob > 0 then handDist.assign hand { val with prob := new_prob }
    else (handDist.assign hand val).eraseKey hand
  else handDist

/-- Embedding of `SearchBot::updateBeliefsFromRevealedCard_` (`SearchBot.cc:407-440`). -/
def updateBeliefsFromRevealedCard_ (who : Int) (revealed_card : Card) (server : Server)
    (handDist : HandDist) (relevant_indices : Option CardIndices) : Except Fault HandDist :=
  match getCurrentDeckComposition server who with
  | .error f => .error f
  | .ok deck =>
    let remaining := deck.at revealed_card + 1
    if ¬ (remaining > 0) then .error (.AssertionFailure "remaining > 0")
    else
      .ok ((copyKeys handDist).foldl
        (updateBeliefsFromRevealedCard_.step revealed_card remaining relevant_indices) handDist)

/-- A hand distribution over four 5-card hands, for a player that receives the hint RED
touching the slots 1 and 3. -/
def exampleHintDist : HandDist :=
  [([⟨.ORANGE, 1⟩, ⟨.RED, 1⟩, ⟨.ORANGE, 2⟩, ⟨.RED, 2⟩, ⟨.ORANGE, 3⟩], ⟨1 / 2⟩),
   ([⟨.RED, 1⟩, ⟨.RED, 1⟩, ⟨.ORANGE, 2⟩, ⟨.RED, 2⟩, ⟨.ORANGE, 3⟩], ⟨1 / 4⟩),
   ([⟨.ORANGE, 1⟩, ⟨.ORANGE, 1⟩, ⟨.ORANGE, 2⟩, ⟨.RED, 2⟩, ⟨.ORANGE, 3⟩], ⟨1 / 8⟩),
   ([⟨.ORANGE, 1⟩, ⟨.RED, 1⟩, ⟨.ORANGE, 2⟩, ⟨.RED, 2⟩, ⟨.RED, 3⟩], ⟨1 / 8⟩)]

/-- The number `k` of copies of the revealed card that a hand holds in the considered slots:
all slots, or those that `relevant_indices` contains. -/
def revealedCopies (revealed_card : Card) (relevant_indices : Option CardIndices)
    (hand : Hand) : Nat :=
  (hand.enumFrom 0).countP fun jc =>
    (match relevant_indices with
      | some relevant => relevant.contains (jc.1 : Int)
      | none => true) && decide (jc.2 = revealed_card)

/-- The entry that C25 gives to an entry of the hand distribution, `remaining` being the count
of the revealed card in the deck composition plus 1: a hand without a copy of the revealed
card in the considered slots keeps its entry; a hand with `k ≥ 1` copies has its probability
multiplied by `(remaining - k) / remaining`, and has no entry if the product is not above 0. -/
def revealedCardEntry (revealed_card : Card) (remaining : Int)
    (relevant_indices : Option CardIndices) (kv : Hand × HandDistVal) :
    Option (Hand × HandDistVal) :=
  let k := revealedCopies revealed_card relevant_indices kv.1
  if k = 0 then some kv
  else if 0 < kv.2.prob * (((remaining - k : Int) : ℚ) / (remaining : ℚ)) then
    some (kv.1, ⟨kv.2.prob * (((remaining - k : Int) : ℚ) / (remaining : ℚ))⟩)
  else none

/-- A hand distribution of three 5-card hands, holding two, one and no red 3; the last one
holds a red 1. -/
def exampleRevealDist : HandDist :=
  [([⟨.RED, 3⟩, ⟨.RED, 3⟩, ⟨.RED, 4⟩, ⟨.RED, 4⟩, ⟨.RED, 5⟩], ⟨1 / 2⟩),
   ([⟨.RED, 3⟩, ⟨.ORANGE, 1⟩, ⟨.RED, 4⟩, ⟨.RED, 4⟩, ⟨.RED, 5⟩], ⟨1 / 4⟩),
   ([⟨.RED, 1⟩, ⟨.ORANGE, 1⟩, ⟨.RED, 4⟩, ⟨.RED, 4⟩, ⟨.RED, 5⟩], ⟨1 / 4⟩)]

/-! ## Sampling hands (`BotUtils.cc`, `SearchBot.cc`) -/

/-- Embedding of `struct HandDistCDF` (`BotUtils.h:264-267`); the `double`s are modelled by
exact rationals. -/
structure HandDistCDF where
  probs : List ℚ
  hands : List Hand
  deriving DecidableEq, Repr

/-- Embedding of `populateHandDistPDF` (`BotUtils.cc:569-578`). -/
def populateHandDistPDF (handDist : HandDist) : HandDistCDF :=
  handDist.foldl
    (fun cdf kv => { hands := cdf.hands ++ [kv.1], probs := cdf.probs ++ [kv.2.prob] })
    { probs := [], hands := [] }

/-- The second loop of `pdfToCdf` (`BotUtils.cc:589-593`): `cdf.probs[i] = accum / total_prob;
accum += pdfi;` over the entries of the PDF still to visit. -/
def pdfToCdf.loop (total_prob : ℚ) : List ℚ → ℚ → List ℚ
  | [], _ => []
  | pdfi :: rest, accum => accum / total_prob :: pdfToCdf.loop total_prob rest (accum + pdfi)

/-- Embedding of `pdfToCdf` (`BotUtils.cc:580-595`); the result is the value of `cdf` after the
call. Each of the `N` entries of `cdf.probs` is overwritten, after the PDF entry of the same
index has been read, so that the result is the same when `pdf` and `cdf` are one object. -/
def pdfToCdf (pdf cdf : HandDistCDF) : Except Fault HandDistCDF :=
  let total_prob := pdf.probs.foldl (fun total p => total + p) 0
  if cdf.probs.length ≠ pdf.probs.length then
    .error (.AssertionFailure "cdf.probs.size() == N")
  else if ¬ (total_prob > 0) then .error (.AssertionFailure "total_prob > 0")
  else .ok { cdf with probs := pdfToCdf.loop total_prob pdf.probs 0 }

/-- Embedding of `populateHandDistCDF` (`BotUtils.cc:597-601`). -/
def populateHandDistCDF (handDist : HandDist) : Except Fault HandDistCDF :=
  pdfToCdf (populateHandDistPDF handDist) (populateHandDistPDF handDist)

/-- The position that `std::upper_bound(probs.begin(), probs.end(), prob)` returns, as an
offset from `probs.begin()`. The function is the C++ library's: on a range that is
partitioned by `prob < element`, as a non-decreasing one is, it returns the first position
whose element is greater than `prob`, or the end if there is none. -/
def upper_bound (probs : List ℚ) (prob : ℚ) : Nat :=
  probs.findIdx fun p => decide (prob < p)

/-- Embedding of `sampleFromCDF_` (`SearchBot.cc:474-488`); `prob` is the number that
`real_dist(gen)` has drawn. In `idx >= cdf.hands.size()` the `int` is converted to the
unsigned `size_t`. The last `assert` reads `cdf.probs[idx + 1]` before it compares `idx + 1`
with `cdf.probs.size()`. -/
def sampleFromCDF_ (cdf : HandDistCDF) (prob : ℚ) : Except Fault Hand :=
  let it := upper_bound cdf.probs prob
  let idx : Int := wrapInt32 ((it : Int) - 1)
  if idx % 2 ^ 64 ≥ cdf.hands.length then .error (.AssertionFailure "0")
  else
    match cdf.hands[idx.toNat]? with
    | none => .error (.OutOfBounds "cdf.hands[idx]")
    | some hand =>
      match cdf.probs[(idx + 1).toNat]?, cdf.probs[idx.toNat]? with
      | some next, some cur =>
        if next - cur > 0 ∨ idx + 1 = cdf.probs.length then .ok hand
        else .error (.AssertionFailure
          "cdf.probs[idx + 1] - cdf.probs[idx] > 0 || idx + 1 == cdf.probs.size()")
      | _, _ => .error (.OutOfBounds "cdf.probs[idx + 1]")

/-- The CDF of two hands of equal weight, as `pdfToCdf` writes it. -/
def exampleCDF : HandDistCDF :=
  { probs := [0, 1 / 2],
    hands := [[⟨.RED, 1⟩, ⟨.RED, 2⟩], [⟨.ORANGE, 1⟩, ⟨.ORANGE, 2⟩]] }

/-! ## Private beliefs (`JointSearchBot.cc`) -/

/-- The product of the remaining counts when the cards of `hand` are drawn in order from a
supply that holds `D c` copies of each card `c`: the first card contributes `D` of it, and
the rest is drawn from the supply with one copy of that card less. -/
def drawWeight (D : Card → Int) : Hand → ℚ
  | [] => 1
  | card :: rest => (D card : ℚ) * drawWeight (Function.update D card (D card - 1)) rest

/-- The loop `for (int i = 0; i < 25; i++) fast_deck[i] = deck.at(indexToCard(i));`
(`JointSearchBot.cc:146-147`) over the indices still to visit; `std::map::at` throws
`std::out_of_range` for a card that is no key. -/
def constructPrivateBeliefs_.fill (deck : DeckComposition) : List Int → Except Fault (List Int)
  | [] => .ok []
  | i :: rest =>
    match indexToCard i with
    | .error f => .error f
    | .ok card =>
      if card ∈ deck.keys then
        match constructPrivateBeliefs_.fill deck rest with
        | .error f => .error f
        | .ok tail => .ok (deck.value card :: tail)
      else .error (.RuntimeError "map::at")

/-- The element `fast_deck[card_idx]` of the `std::array<int, 25>`. -/
def constructPrivateBeliefs_.entry (fast_deck : List Int) (card_idx : Int) : Option Int :=
  if 0 ≤ card_idx ∧ card_idx < 25 then fast_deck[card_idx.toNat]? else none

/-- The loops `prior *= fast_deck[card_idx]; fast_deck[card_idx]--;` over the cards of
`my_hand` (`JointSearchBot.cc:151-155`, `163-167`); the result is the prior and the array. -/
def constructPrivateBeliefs_.draw :
    List Int → List Card → ℚ → Except Fault (ℚ × List Int)
  | fast_deck, [], prior => .ok (prior, fast_deck)
  | fast_deck, card :: rest, prior =>
    match constructPrivateBeliefs_.entry fast_deck (cardToIndex card) with
    | none => .error (.OutOfBounds "fast_deck[card_idx]")
    | some count =>
      constructPrivateBeliefs_.draw (fast_deck.set (cardToIndex card).toNat (count - 1)) rest
        (prior * (count : ℚ))

/-- The loops `fast_deck[cardToIndex(card)]++` (`delta = 1`) and `fast_deck[cardToIndex(card)]--`
(`delta = -1`) over the cards of a hand (`JointSearchBot.cc:157-159`, `168-169`). -/
def constructPrivateBeliefs_.shift (delta : Int) : List Int → List Card → Except Fault (List Int)
  | fast_deck, [] => .ok fast_deck
  | fast_deck, card :: rest =>
    match constructPrivateBeliefs_.entry fast_deck (cardToIndex card) with
    | none => .error (.OutOfBounds "fast_deck[cardToIndex(card)]")
    | some count =>
      constructPrivateBeliefs_.shift delta
        (fast_deck.set (cardToIndex card).toNat (count + delta)) rest

/-- The body of the loop over `i` in `constructPrivateBeliefs_` (`JointSearchBot.cc:148-173`)
for the hand `my_hand` and its public probability: the new probability and the array. -/
def constructPrivateBeliefs_.body (partnerHand : Hand) (fast_deck : List Int) (my_hand : Hand)
    (public_prob : ℚ) : Except Fault (ℚ × List Int) :=
  match constructPrivateBeliefs_.draw fast_deck my_hand 1 with
  | .error f => .error f
  | .ok (old_prior, fast_deck1) =>
    if ¬ (old_prior > 0) then .error (.AssertionFailure "old_prior > 0")
    else
      match constructPrivateBeliefs_.shift 1 fast_deck1 my_hand with
      | .error f => .error f
      | .ok fast_deck2 =>
        match constructPrivateBeliefs_.shift (-1) fast_deck2 partnerHand with
        | .error f => .error f
        | .ok fast_deck3 =>
          match constructPrivateBeliefs_.draw fast_deck3 my_hand 1 with
          | .error f => .error f
          | .ok (new_prior, fast_deck4) =>
            match constructPrivateBeliefs_.shift 1 fast_deck4 my_hand with
            | .error f => .error f
            | .ok fast_deck5 =>
              match constructPrivateBeliefs_.shift 1 fast_deck5 partnerHand with
              | .error f => .error f
              | .ok fast_deck6 => .ok (public_prob * new_prior / old_prior, fast_deck6)

/-- The loop over `i` in `constructPrivateBeliefs_`, over the public probabilities and hands
still to visit: the new probabilities and the number of them that are 0.
`publicPDF.hands.at(i)` throws `std::out_of_range` when there is no hand `i`. -/
def constructPrivateBeliefs_.loop (partnerHand : Hand) :
    List ℚ → List Hand → List Int → Except Fault (List ℚ × Int)
  | [], _, _ => .ok ([], 0)
  | _ :: _, [], _ => .error (.RuntimeError "vector::at")
  | public_prob :: probs, my_hand :: hands, fast_deck =>
    match constructPrivateBeliefs_.body partnerHand fast_deck my_hand public_prob with
    | .error f => .error f
    | .ok (new_prob, fast_deck1) =>
      match constructPrivateBeliefs_.loop partnerHand probs hands fast_deck1 with
      | .error f => .error f
      | .ok (new_probs, zeros) =>
        .ok (new_prob :: new_probs, if new_prob = 0 then zeros + 1 else zeros)

/-- Embedding of `constructPrivateBeliefs_` (`JointSearchBot.cc:139-180`): the value of
`privatePDF` after the call and the number returned. The threads of the pool share the
indices `i` among them, each with a `fast_deck` of its own that it restores after every
index; the embedding visits the indices in increasing order with one `fast_deck`. The doubles
are modelled by exact rationals. -/
def constructPrivateBeliefs_ (partnerHand : Hand) (publicPDF privatePDF : HandDistCDF)
    (server : Server) : Except Fault (HandDistCDF × Int) :=
  if publicPDF.probs.length ≠ privatePDF.probs.length then
    .error (.AssertionFailure "publicPDF.probs.size() == privatePDF.probs.size()")
  else
    match getCurrentDeckComposition server (-1) with
    | .error f => .error f
    | .ok deck =>
      match constructPrivateBeliefs_.fill deck ((List.range 25).map fun (i : Nat) => (i : Int)) with
      | .error f => .error f
      | .ok fast_deck =>
        match constructPrivateBeliefs_.loop partnerHand publicPDF.probs publicPDF.hands
            fast_deck with
        | .error f => .error f
        | .ok (new_probs, zeros) =>
          .ok ({ privatePDF with probs := new_probs }, (publicPDF.probs.length : Int) - zeros)

/-- A public PDF of two hands for player 1 in the second turn of the example game, in which
player 0 holds all three red 1s: the second hand has a red 1. -/
def examplePublicPDF : HandDistCDF :=
  { probs := [1 / 2, 1 / 2],
    hands := [[⟨.RED, 3⟩, ⟨.RED, 3⟩, ⟨.RED, 4⟩, ⟨.RED, 4⟩, ⟨.RED, 5⟩],
      [⟨.RED, 1⟩, ⟨.RED, 3⟩, ⟨.RED, 4⟩, ⟨.RED, 4⟩, ⟨.RED, 5⟩]] }

/-! ## The initial hand distribution and the beliefs after a draw (`SearchBot.cc`) -/

/-- Embedding of `Server::cardsRemainingInDeck` (`HanabiServer.cc:419-422`). -/
def Server.cardsRemainingInDeck (s : Server) : Int := s.deck_.length

/-- Embedding of `Server::cheatGetHand` (`HanabiServer.cc:710-713`), which reads
`hands_[index]` without a check. -/
def Server.cheatGetHand (s : Server) (index : Int) : Except Fault (List Card) :=
  match (if 0 ≤ index then s.hands_[index.toNat]? else none) with
  | none => .error (.OutOfBounds "hands_[index]")
  | some hand => .ok hand

/-- The body of the loop `for (auto &kv : deck)` of `populateInitialHandDistribution_`
(`SearchBot.cc:97-107`) for the key `card`; `call` is the recursive call, and `none` the
answer when the bound on the depth was reached. -/
def populateInitialHandDistribution_.step
    (call : Hand → ℚ → DeckComposition → HandDist → Option (DeckComposition × HandDist))
    (hand : Hand) (prob : ℚ) (state : Option (DeckComposition × HandDist)) (card : Card) :
    Option (DeckComposition × HandDist) :=
  match state with
  | none => none
  | some (deck, handDist) =>
    if deck.at card > 0 then
      match call (hand ++ [card]) (prob * ((deck.at card : Int) : ℚ))
          (deck.set card (deck.at card - 1)) handDist with
      | none => none
      | some (deck1, handDist1) => some (deck1.set card (deck1.at card + 1), handDist1)
    else some (deck, handDist)

/-- Embedding of `SearchBot::populateInitialHandDistribution_` (`SearchBot.cc:82-108`): the
values of `deck` and `handDist` after the call; `who` and `partners` are left out with the
members of `HandDistVal` that they fill. The second argument bounds the depth of the
recursion, and `none` is the answer when the bound is reached. -/
def populateInitialHandDistribution_ (handSize : Int) (fuel : Nat) (hand : Hand) (prob : ℚ)
    (deck : DeckComposition) (handDist : HandDist) : Option (DeckComposition × HandDist) :=
  if (hand.length : Int) = handSize then some (deck, handDist.assign hand ⟨prob⟩)
  else
    match fuel with
    | 0 => none
    | fuel + 1 =>
      deck.keys.foldl
        (populateInitialHandDistribution_.step
          (populateInitialHandDistribution_ handSize fuel) hand prob)
        (some (deck, handDist))

/-- Embedding of `SearchBot::init_` (`SearchBot.cc:114-124`): the value of
`hand_distribution_` after the call. The first argument bounds the depth of the recursion of
`populateInitialHandDistribution_`, and `none` is the answer when the bound is reached. -/
def init_ (fuel : Nat) (P : Params) (me_ : Int) (server : Server)
    (hand_distribution_ : HandDist) : Option (Except Fault HandDist) :=
  if ¬ (hand_distribution_.isEmpty = true) then
    some (.error (.AssertionFailure "hand_distribution_.empty()"))
  else
    match getCurrentDeckComposition server me_ with
    | .error f => some (.error f)
    | .ok deck =>
      match populateInitialHandDistribution_ (server.handSize P) fuel [] 1 deck
          hand_distribution_ with
      | none => none
      | some (_, handDist) => some (.ok handDist)

/-- The ordered hands of `n` cards that can be drawn without replacement from a supply that
holds `D c` copies of each card `c` of `keys`, in lexicographic order of the positions of
their cards in `keys`. -/
def drawableHands (keys : List Card) : Nat → (Card → Int) → List Hand
  | 0, _ => [[]]
  | n + 1, D =>
    keys.flatMap fun card =>
      if D card > 0 then
        (drawableHands keys n (Function.update D card (D card - 1))).map fun rest => card :: rest
      else []

/-- The loop over the entries of `deck` in `updateBeliefsFromMyDraw_` (`SearchBot.cc:374-389`),
over the cards still to visit: every card with a positive count extends `new_hand`. -/
def updateBeliefsFromMyDraw_.extend (hand_size : Int) (val : HandDistVal) (new_hand : Hand)
    (deck : DeckComposition) : List Card → HandDist → Except Fault HandDist
  | [], new_hand_distribution => .ok new_hand_distribution
  | card :: rest, new_hand_distribution =>
    if deck.at card > 0 then
      if ¬ (((new_hand ++ [card]).length : Int) = hand_size) then
        .error (.AssertionFailure "new_hand.size() == hand_size")
      else if ¬ (new_hand_distribution.countKey (new_hand ++ [card]) = 0) then
        .error (.AssertionFailure "new_hand_distribution.count(new_hand) == 0")
      else
        updateBeliefsFromMyDraw_.extend hand_size val new_hand deck rest
          (new_hand_distribution.assign (new_hand ++ [card]) val)
    else updateBeliefsFromMyDraw_.extend hand_size val new_hand deck rest new_hand_distribution

/-- The body of the loop over the entries of `handDist` in `updateBeliefsFromMyDraw_`
(`SearchBot.cc:358-398`): the values of `deck` and `new_hand_distribution` after it. -/
def updateBeliefsFromMyDraw_.body (P : Params) (who card_index : Int) (played_card : Card)
    (server : Server) (hand_size : Int) (deck : DeckComposition)
    (new_hand_distribution : HandDist) (kv : Hand × HandDistVal) :
    Except Fault (DeckComposition × HandDist) :=
  match (if 0 ≤ card_index then kv.1[card_index.toNat]? else none) with
  | none => .error (.OutOfBounds "hand[card_index]")
  | some card =>
    if card ≠ played_card then .ok (deck, new_hand_distribution)
    else
      let new_hand := kv.1.eraseIdx card_index.toNat
      match removeFromDeck new_hand deck with
      | .error f => .error f
      | .ok deck1 =>
        match server.sizeOfHandOfPlayer who with
        | .error f => .error f
        | .ok size =>
          if size = server.handSize P then
            match updateBeliefsFromMyDraw_.extend hand_size kv.2 new_hand deck1 deck1.keys
                new_hand_distribution with
            | .error f => .error f
            | .ok dist => .ok (addToDeck new_hand deck1, dist)
          else
            match (if server.cardsRemainingInDeck = 0 then .ok true else server.gameOver P) with
            | .error f => .error f
            | .ok false =>
              .error (.AssertionFailure "server.cardsRemainingInDeck() == 0 || server.gameOver()")
            | .ok true =>
              if ¬ ((new_hand.length : Int) = hand_size) then
                .error (.AssertionFailure "new_hand.size() == hand_size")
              else .ok (addToDeck new_hand deck1, new_hand_distribution.assign new_hand kv.2)

/-- The loop over the entries of `handDist` in `updateBeliefsFromMyDraw_`, over the entries
still to visit. -/
def updateBeliefsFromMyDraw_.loop (P : Params) (who card_index : Int) (played_card : Card)
    (server : Server) (hand_size : Int) :
    List (Hand × HandDistVal) → DeckComposition → HandDist → Except Fault HandDist
  | [], _, new_hand_distribution => .ok new_hand_distribution
  | kv :: rest, deck, new_hand_distribution =>
    match updateBeliefsFromMyDraw_.body P who card_index played_card server hand_size deck
        new_hand_distribution kv with
    | .error f => .error f
    | .ok (deck1, dist) =>
      updateBeliefsFromMyDraw_.loop P who card_index played_card server hand_size rest deck1 dist

/-- Embedding of `SearchBot::updateBeliefsFromMyDraw_` (`SearchBot.cc:346-405`): the value of
`handDist` after the call. -/
def updateBeliefsFromMyDraw_ (P : Params) (who card_index : Int) (played_card : Card)
    (server : Server) (handDist : HandDist) (public_beliefs : Bool) : Except Fault HandDist :=
  match getCurrentDeckComposition server (if public_beliefs then -1 else who) with
  | .error f => .error f
  | .ok deck =>
    match server.sizeOfHandOfPlayer who with
    | .error f => .error f
    | .ok hand_size =>
      updateBeliefsFromMyDraw_.loop P who card_index played_card server hand_size handDist deck []

/-- The entries that an entry `kv` of the old hand distribution leaves in the new one, for
the deck composition `deck`: none if slot `card_index` of its hand is not the played card;
else, when a card was drawn, for every card whose count in `deck` exceeds its copies in the
shortened hand, the shortened hand extended by that card, and when no card was drawn the
shortened hand; each with the value of `kv`. -/
def myDrawEntries (card_index : Int) (played_card : Card) (drawn : Bool)
    (deck : DeckComposition) (kv : Hand × HandDistVal) : List (Hand × HandDistVal) :=
  if kv.1[card_index.toNat]? = some played_card then
    if drawn then
      (deck.keys.filter fun c =>
        decide (deck.at c - ((kv.1.eraseIdx card_index.toNat).count c : Int) > 0)).map
        fun c => (kv.1.eraseIdx card_index.toNat ++ [c], kv.2)
    else [(kv.1.eraseIdx card_index.toNat, kv.2)]
  else []

/-- Embedding of `SearchBot::checkBeliefs_` with four arguments (`SearchBot.cc:446-469`);
`server` and `who` only serve its log lines. -/
def checkBeliefs_ (handDist : HandDist) (trueHand : Hand) : Except Fault Unit :=
  if handDist.countKey trueHand = 0 then .error (.RuntimeError "Belief check failed.")
  else .ok ()

/-- The state that player 0 is shown in `pleaseObserveAfterMove` of the first turn of the
example game, in which it has played its slot 0, a red 1, and has drawn an orange 1: it holds
R1 R1 R2 R2 O1. -/
def exampleAfterPlay : Server :=
  (((exampleStart.turn Params.default ⟨.PLAY_CARD, 0, -1⟩).events.filter fun e =>
    e.bot == 0 && e.call == .pleaseObserveAfterMove).map fun e => e.view).headD Server.fresh

/-- A hand distribution of player 0 before its play in the example game: its true hand
R1 R1 R1 R2 R2 and the hand O1 R1 R1 R2 R2. -/
def exampleMyDrawDist : HandDist :=
  [([⟨.RED, 1⟩, ⟨.RED, 1⟩, ⟨.RED, 1⟩, ⟨.RED, 2⟩, ⟨.RED, 2⟩], ⟨1 / 2⟩),
   ([⟨.ORANGE, 1⟩, ⟨.RED, 1⟩, ⟨.RED, 1⟩, ⟨.RED, 2⟩, ⟨.RED, 2⟩], ⟨1 / 2⟩)]

/-- A deck composition with two red 1s and one red 2. -/
def exampleSmallDeck : DeckComposition :=
  (DeckComposition.empty.set ⟨.RED, 1⟩ 2).set ⟨.RED, 2⟩ 1

/-- The hand of nine cards that player 1 holds in `exampleNineCards`. -/
def exampleNineHand : Hand :=
  [⟨.RED, 5⟩, ⟨.ORANGE, 1⟩, ⟨.ORANGE, 1⟩, ⟨.ORANGE, 1⟩, ⟨.ORANGE, 2⟩, ⟨.ORANGE, 2⟩,
    ⟨.ORANGE, 3⟩, ⟨.ORANGE, 3⟩, ⟨.ORANGE, 4⟩]

/-! ## Search statistics -/

/-- Values of a `double`: NaN, the two infinities, and the finite values. A finite value is an
exact rational: rounding is not modelled. Nor is the sign of zero: the divisors in the functions
embedded here are converted `int`s and results of `sqrt`, never a negative zero, so a division
by zero takes the sign of the dividend. -/
inductive Dbl
  | nan | ninf | fin (q : ℚ) | pinf
  deriving DecidableEq, Repr

/-- The conversion of an `int` to `double`. -/
def Dbl.ofInt (n : Int) : Dbl := .fin n

/-- The unary minus of `double`. -/
def Dbl.neg : Dbl → Dbl
  | .nan => .nan
  | .ninf => .pinf
  | .fin q => .fin (-q)
  | .pinf => .ninf

/-- The sum `a + b` of `double`s. -/
def Dbl.add (a b : Dbl) : Dbl :=
  match a with
  | .nan => .nan
  | .pinf =>
    match b with
    | .nan => .nan
    | .ninf => .nan
    | _ => .pinf
  | .ninf =>
    match b with
    | .nan => .nan
    | .pinf => .nan
    | _ => .ninf
  | .fin x =>
    match b with
    | .nan => .nan
    | .pinf => .pinf
    | .ninf => .ninf
    | .fin y => .fin (x + y)

/-- The difference `a - b` of `double`s. -/
def Dbl.sub (a b : Dbl) : Dbl := a.add b.neg

/-- An infinity of the sign of `q`, and NaN for zero: the product of `+inf` and `q`. -/
def Dbl.signed (q : ℚ) : Dbl :=
  if q = 0 then .nan else if 0 < q then .pinf else .ninf

/-- The product `a * b` of `double`s. -/
def Dbl.mul (a b : Dbl) : Dbl :=
  match a with
  | .nan => .nan
  | .pinf =>
    match b with
    | .nan => .nan
    | .pinf => .pinf
    | .ninf => .ninf
    | .fin y => Dbl.signed y
  | .ninf =>
    match b with
    | .nan => .nan
    | .pinf => .ninf
    | .ninf => .pinf
    | .fin y => Dbl.signed (-y)
  | .fin x =>
    match b with
    | .nan => .nan
    | .pinf => Dbl.signed x
    | .ninf => Dbl.signed (-x)
    | .fin y => .fin (x * y)

/-- The quotient `a / b` of `double`s; a zero divisor counts as `+0`. -/
def Dbl.div (a b : Dbl) : Dbl :=
  match a with
  | .nan => .nan
  | .pinf =>
    match b with
    | .fin y => if 0 ≤ y then .pinf else .ninf
    | _ => .nan
  | .ninf =>
    match b with
    | .fin y => if 0 ≤ y then .ninf else .pinf
    | _ => .nan
  | .fin x =>
    match b with
    | .nan => .nan
    | .pinf => .fin 0
    | .ninf => .fin 0
    | .fin y => if y = 0 then Dbl.signed x else .fin (x / y)

/-- The comparison `a < b` of `double`s, false when either is NaN; `a > b` is `b < a`. -/
def Dbl.lt (a b : Dbl) : Bool :=
  match a with
  | .nan => false
  | .pinf => false
  | .ninf =>
    match b with
    | .nan => false
    | .ninf => false
    | _ => true
  | .fin x =>
    match b with
    | .fin y => decide (x < y)
    | .pinf => true
    | _ => false

/-- The function `sqrt` of the C library on `double`s. Its values on the finite non-negative
numbers are a parameter, `sqrt`; it gives NaN below zero and `+inf` at `+inf`. -/
def Dbl.sqrt (sqrt : ℚ → ℚ) : Dbl → Dbl
  | .nan => .nan
  | .ninf => .nan
  | .pinf => .pinf
  | .fin q => if q < 0 then .nan else .fin (sqrt q)

/-- Embedding of `struct UCBStats` (`BotUtils.h:73-106`), its data members. -/
structure UCBStats where
  pruned : Bool
  mean : Dbl
  M2 : Dbl
  N : Int
  bias : Dbl
  deriving DecidableEq, Repr

/-- The constant `UCBStats::MIN_SAMPLES`. -/
def UCBStats.MIN_SAMPLES : Int := 100

/-- The constant `UCBStats::BASELINE_MIN_SAMPLES`. -/
def UCBStats.BASELINE_MIN_SAMPLES : Int := 35

/-- The constant `UCBStats::STDS`. -/
def UCBStats.STDS : Dbl := .fin 2

/-- The constructor `UCBStats()` with the default member initialisers. -/
def UCBStats.new : UCBStats :=
  { pruned := false, mean := .fin 0, M2 := .fin 0, N := 0, bias := .fin 0 }

/-- Embedding of `UCBStats::add` (`BotUtils.h:84-89`). -/
def UCBStats.add (s : UCBStats) (x : Dbl) : UCBStats :=
  let N := wrapInt32 (s.N + 1)
  let delta := x.sub s.mean
  let mean := s.mean.add (delta.div (.ofInt N))
  let M2 := s.M2.add (delta.mul (x.sub mean))
  { s with N := N, mean := mean, M2 := M2 }

/-- Embedding of `UCBStats::std` (`BotUtils.h:90-92`); `N - 1` is computed for `N >= 100`
only, where it does not wrap. -/
def UCBStats.std (sqrt : ℚ → ℚ) (s : UCBStats) : Dbl :=
  if s.N < UCBStats.MIN_SAMPLES then .fin 1000000
  else Dbl.sqrt sqrt (s.M2.div (.ofInt (s.N - 1)))

/-- Embedding of `UCBStats::stderr` (`BotUtils.h:93-95`). -/
def UCBStats.stderr (sqrt : ℚ → ℚ) (s : UCBStats) : Dbl :=
  (s.std sqrt).div (Dbl.sqrt sqrt (.ofInt s.N))

/-- Embedding of `UCBStats::search_baseline_stderr` (`BotUtils.h:96-98`). -/
def UCBStats.search_baseline_stderr (sqrt : ℚ → ℚ) (s : UCBStats) : Dbl :=
  if s.N < UCBStats.BASELINE_MIN_SAMPLES then .fin 1000000
  else (Dbl.sqrt sqrt (s.M2.div (.ofInt (s.N - 1)))).div (Dbl.sqrt sqrt (.ofInt s.N))

/-- Embedding of `UCBStats::lcb` (`BotUtils.h:99-101`). -/
def UCBStats.lcb (sqrt : ℚ → ℚ) (s : UCBStats) : Dbl :=
  (s.mean.sub (UCBStats.STDS.mul (s.stderr sqrt))).add s.bias

/-- Embedding of `UCBStats::ucb` (`BotUtils.h:102-104`). -/
def UCBStats.ucb (sqrt : ℚ → ℚ) (s : UCBStats) : Dbl :=
  (s.mean.add (UCBStats.STDS.mul (s.stderr sqrt))).add s.bias

/-- Embedding of `SearchStats`, a `std::map<Move, UCBStats>` (`BotUtils.h:107`): its entries in
the order of the keys, which is the order in which `for (auto &kv : stats)` visits them. -/
abbrev SearchStats := List (Move × UCBStats)

/-- The access `stats[move]` followed by `f` on the entry: the entry of the key is replaced by
its image, and a key that is not there is put at its place with the image of `UCBStats()`. -/
def SearchStats.update (move : Move) (f : UCBStats → UCBStats) : SearchStats → SearchStats
  | [] => [(move, f UCBStats.new)]
  | kv :: rest =>
    if Move.lt move kv.1 then (move, f UCBStats.new) :: kv :: rest
    else if Move.lt kv.1 move then kv :: SearchStats.update move f rest
    else (kv.1, f kv.2) :: rest

/-- The member `find(move)` of the map: the entry whose key is neither less nor greater than
`move`. -/
def SearchStats.find (stats : SearchStats) (move : Move) : Option UCBStats :=
  (List.find? (fun kv => !Move.lt kv.1 move && !Move.lt move kv.1) stats).map Prod.snd

/-- The member `at(move)` of the map, which throws `std::out_of_range` for a key that is not
there. -/
def SearchStats.at (stats : SearchStats) (move : Move) : Except Fault UCBStats :=
  match SearchStats.find stats move with
  | some s => .ok s
  | none => .error (.OutOfBounds "stats.at(move)")

/-- The value that `stats[move]` reads: that of the key, and a `UCBStats()` for a move that is
no key yet. -/
def SearchStats.get (stats : SearchStats) (move : Move) : UCBStats :=
  match SearchStats.find stats move with
  | some s => s
  | none => UCBStats.new

/-- The keys of the entries increase strictly, as a `std::map` keeps them. -/
def SearchStats.Sorted (stats : SearchStats) : Prop :=
  stats.Pairwise fun a b => Move.lt a.1 b.1 = true

/-- Values of `SearchBotParams` (`SearchBot.h:29-42`, `SearchBot.cc:25-27`) and of
`HanabiParams::NUM_THREADS` (`Hanabi.h:48`) that the search reads. -/
structure SearchBotParams where
  NUM_THREADS : Int
  SEARCH_N : Int
  OPTIMIZE_WINS : Int
  UCB : Int
  SEARCH_BASELINE : Int
  /-- A `float`, converted to `double` where it is used. -/
  SEARCH_THRESH : Dbl
  deriving DecidableEq, Repr

/-- The defaults of the parameters; the `float` nearest to 0.1 is modelled by 1/10. -/
def SearchBotParams.default : SearchBotParams :=
  { NUM_THREADS := 1000, SEARCH_N := 10000, OPTIMIZE_WINS := 0, UCB := 1, SEARCH_BASELINE := 0,
    SEARCH_THRESH := .fin (1 / 10) }

/-- The value `Move best_move(INVALID_MOVE, 0)` with which `canPruneMove` starts. -/
def canPruneMove.no_move : Move := { type := .INVALID_MOVE, value := 0, to_ := -1 }

/-- The loop over the entries in the baseline branch of `canPruneMove`
(`SearchBot.cc:503-511`); the state is `(best_stderr, best_move, best_mean)`. -/
def canPruneMove.baseline_best (sqrt : ℚ → ℚ) (stats : SearchStats) : Dbl × Move × Dbl :=
  stats.foldl
    (fun (acc : Dbl × Move × Dbl) kv =>
      if !kv.2.pruned &&
          (Dbl.lt acc.2.2 (kv.2.mean.add kv.2.bias) ||
            decide (acc.2.1.type = .INVALID_MOVE)) then
        (kv.2.search_baseline_stderr sqrt, kv.1, kv.2.mean.add kv.2.bias)
      else acc)
    (.fin 0, canPruneMove.no_move, .fin (-100))

/-- The loop over the entries in the other branch of `canPruneMove`
(`SearchBot.cc:523-530`); the state is `(best_lcb, best_move)`. -/
def canPruneMove.best_lcb (sqrt : ℚ → ℚ) (stats : SearchStats) : Dbl × Move :=
  stats.foldl
    (fun (acc : Dbl × Move) kv =>
      if Dbl.lt acc.1 (kv.2.lcb sqrt) || decide (acc.2.type = .INVALID_MOVE) then
        (kv.2.lcb sqrt, kv.1)
      else acc)
    (.fin 0, canPruneMove.no_move)

/-- Embedding of `canPruneMove` (`SearchBot.cc:490-533`). -/
def canPruneMove (S : SearchBotParams) (sqrt : ℚ → ℚ) (stats : SearchStats)
    (move bp_move : Move) : Except Fault Bool :=
  if S.SEARCH_BASELINE ≠ 0 ∧ Move.eq move bp_move = true then .ok false
  else if S.UCB = 0 then .ok false
  else
    match SearchStats.at stats move with
    | .error f => .error f
    | .ok this_ucb =>
      if S.SEARCH_BASELINE ≠ 0 then
        let best := canPruneMove.baseline_best sqrt stats
        let best_stderr := best.1
        let best_move := best.2.1
        let best_mean := best.2.2
        if best_move.type = .INVALID_MOVE then
          .error (.AssertionFailure "best_move.type != INVALID_MOVE")
        else
          let this_stderr := this_ucb.search_baseline_stderr sqrt
          let this_mean := this_ucb.mean.add this_ucb.bias
          let diff := best_mean.sub this_mean
          let combined_err :=
            Dbl.sqrt sqrt ((this_stderr.mul this_stderr).add (best_stderr.mul best_stderr))
          .ok (Dbl.lt (.fin 0) (diff.sub ((Dbl.fin (5 / 2)).mul combined_err)))
      else
        let best := canPruneMove.best_lcb sqrt stats
        let best_lcb := best.1
        let best_move := best.2
        if best_move.type = .INVALID_MOVE then
          .error (.AssertionFailure "best_move.type != INVALID_MOVE")
        else .ok (Dbl.lt (this_ucb.ucb sqrt) best_lcb)

/-- Embedding of `accumScore` (`SearchBot.cc:687-703`) for `win_stats == nullptr`, the
default of `doSearch_`. -/
def accumScore (S : SearchBotParams) (score bp_score : Int) (move : Move)
    (stats : SearchStats) : Except Fault SearchStats :=
  if score = -1 then .ok stats
  else if ¬ (score ≥ 0) then .error (.AssertionFailure "score >= 0")
  else if S.SEARCH_BASELINE ≠ 0 ∧ ¬ (bp_score ≥ 0) then
    .error (.AssertionFailure "bp_score >= 0")
  else
    let adj_score : Int := if S.SEARCH_BASELINE ≠ 0 then wrapInt32 (score - bp_score) else score
    let x : Int := if S.OPTIMIZE_WINS ≠ 0 then (if score = 25 then 1 else 0) else adj_score
    .ok (SearchStats.update move (fun s => s.add (.ofInt x)) stats)

/-- The initialisation of the statistics in `doSearch_` (`SearchBot.cc:724-728`). -/
def doSearch_.init (S : SearchBotParams) (moves : List Move) (bp_move : Move)
    (stats : SearchStats) : SearchStats :=
  SearchStats.update bp_move (fun s => { s with bias := S.SEARCH_THRESH })
    (moves.foldl (fun st move => SearchStats.update move (fun _ => UCBStats.new) st) stats)

/-- The index `bp_mi` that the loop of `SearchBot.cc:738-745` leaves: the last position of
`bp_move` in `moves`, and -1 when it is not there. -/
def doSearch_.bp_index (moves : List Move) (bp_move : Move) : Int :=
  (List.range moves.length).foldl
    (fun (bp_mi : Int) (mi : Nat) =>
      match moves[mi]? with
      | some m => if Move.eq m bp_move then (mi : Int) else bp_mi
      | none => bp_mi)
    (-1)

/-- The mutable state of `doSearch_` between two rounds of its threads. Of the vector `scores`
the entries written so far are kept: the threads write it from the front, and the other entries
hold -2. -/
structure doSearch_.State where
  stats : SearchStats
  scores : List Int
  prune_count : Int
  frame_bail : Bool
  accumed : Int
  deriving DecidableEq, Repr

/-- The read `scores[k]` of the vector of `SEARCH_N` entries. -/
def doSearch_.score (S : SearchBotParams) (scores : List Int) (k : Int) : Except Fault Int :=
  if 0 ≤ k ∧ k < S.SEARCH_N then .ok (scores.getD k.toNat (-2))
  else .error (.OutOfBounds "scores[k]")

/-- The loops `for (int k = ...; k < ...; k++)` that accumulate scores
(`SearchBot.cc:794-797` and `820-823`), over the indices still to visit. -/
def doSearch_.accum (S : SearchBotParams) (moves : List Move) (bp_mi : Int)
    (scores : List Int) : List Nat → SearchStats → Except Fault SearchStats
  | [], stats => .ok stats
  | k :: ks, stats =>
    match doSearch_.score S scores ((k : Int) - (k : Int).tmod moves.length + bp_mi) with
    | .error f => .error f
    | .ok bp_score =>
      match doSearch_.score S scores k with
      | .error f => .error f
      | .ok score =>
        match moves[(k % moves.length : Nat)]? with
        | none => .error (.OutOfBounds "moves[k % num_moves]")
        | some move =>
          match accumScore S score bp_score move stats with
          | .error f => .error f
          | .ok stats1 => doSearch_.accum S moves bp_mi scores ks stats1

/-- The pruning pass of `doSearch_` (`SearchBot.cc:799-807`) over the moves still to visit;
the state is `(stats, prune_count, frame_bail)`. The read `stats[moves[mi]]` puts an entry
for a move that has none. -/
def doSearch_.prune (S : SearchBotParams) (sqrt : ℚ → ℚ) (bp_move frame_move : Move) :
    List Move → SearchStats × Int × Bool → Except Fault (SearchStats × Int × Bool)
  | [], acc => .ok acc
  | move :: rest, acc =>
    let stats := SearchStats.update move id acc.1
    if (SearchStats.get stats move).pruned then
      doSearch_.prune S sqrt bp_move frame_move rest (stats, acc.2.1, acc.2.2)
    else
      match canPruneMove S sqrt stats move bp_move with
      | .error f => .error f
      | .ok false => doSearch_.prune S sqrt bp_move frame_move rest (stats, acc.2.1, acc.2.2)
      | .ok true =>
        doSearch_.prune S sqrt bp_move frame_move rest
          (SearchStats.update move (fun s => { s with pruned := true }) stats,
            wrapInt32 (acc.2.1 + 1), acc.2.2 || Move.eq move frame_move)

/-- The scores that the threads write in one round, `scores[j]` for `j0 <= j < j0 + T`
(`SearchBot.cc:776-787`): the result `iter j` of `oneSearchIter_` for a move that is not
pruned, and the sentinel -1 for a pruned one. The read `stats[sampled_move]` finds an entry,
as every legal move has had one since the initialisation. -/
def doSearch_.rollouts (moves : List Move) (iter : Nat → Int) (stats : SearchStats)
    (j0 T : Nat) : List Int :=
  (List.range T).map fun t =>
    match moves[((j0 + t) % moves.length : Nat)]? with
    | some sampled_move =>
      if !(SearchStats.get stats sampled_move).pruned then iter (j0 + t) else -1
    | none => -2

/-- One round of the threads of `doSearch_` (`SearchBot.cc:764-813`), each of the
`temp_num_threads` threads doing one pass through its loop: the round that starts at index
`j0`. The threads meet at the barrier before and after the single-threaded part, so that the
round is modelled as the rollouts followed by the work of thread 0. The test
`j + temp_num_threads < temp_search_n` has the same result in all threads, `temp_search_n`
being a multiple of `temp_num_threads`. Once the test at the top of the loop makes the threads
leave, the state does not change any more. -/
def doSearch_.round (S : SearchBotParams) (sqrt : ℚ → ℚ) (moves : List Move)
    (bp_move frame_move : Move) (iter : Nat → Int) (T temp_search_n : Nat)
    (st : doSearch_.State) (j0 : Nat) : Except Fault doSearch_.State :=
  if st.frame_bail = true ∨ st.prune_count ≥ (moves.length : Int) - 1 then .ok st
  else
    let scores := st.scores ++ doSearch_.rollouts moves iter st.stats j0 T
    if S.UCB ≠ 0 ∧ j0 + T < temp_search_n then
      match doSearch_.accum S moves (doSearch_.bp_index moves bp_move) scores
          (List.range' j0 T) st.stats with
      | .error f => .error f
      | .ok stats1 =>
        match doSearch_.prune S sqrt bp_move frame_move moves
            (stats1, st.prune_count, st.frame_bail) with
        | .error f => .error f
        | .ok acc =>
          .ok { stats := acc.1, scores := scores, prune_count := acc.2.1,
                frame_bail := acc.2.2, accumed := st.accumed + T }
    else .ok { st with scores := scores }

/-- The rounds of the threads of `doSearch_`, one after the other. -/
def doSearch_.rounds (S : SearchBotParams) (sqrt : ℚ → ℚ) (moves : List Move)
    (bp_move frame_move : Move) (iter : Nat → Int) (T temp_search_n : Nat) :
    List Nat → doSearch_.State → Except Fault doSearch_.State
  | [], st => .ok st
  | j0 :: rest, st =>
    match doSearch_.round S sqrt moves bp_move frame_move iter T temp_search_n st j0 with
    | .error f => .error f
    | .ok st1 => doSearch_.rounds S sqrt moves bp_move frame_move iter T temp_search_n rest st1

/-- The selection of the move to return at the end of `doSearch_` (`SearchBot.cc:829-838`);
the state is `(best_move, best_score)`. -/
def doSearch_.best (stats : SearchStats) : Move × Dbl :=
  stats.foldl
    (fun (acc : Move × Dbl) kv =>
      if kv.2.pruned then acc
      else if Dbl.lt acc.2 (kv.2.mean.add kv.2.bias) then (kv.1, kv.2.mean.add kv.2.bias)
      else acc)
    (Move.invalid, .fin (-1))

/-- The end of `doSearch_` (`SearchBot.cc:817-844`), after the threads have finished. -/
def doSearch_.finish (S : SearchBotParams) (moves : List Move) (bp_move : Move)
    (temp_search_n : Nat) (st : doSearch_.State) : Except Fault (Move × SearchStats) :=
  if st.frame_bail then .ok (Move.invalid, st.stats)
  else if st.prune_count < (moves.length : Int) - 1 then
    match doSearch_.accum S moves (doSearch_.bp_index moves bp_move) st.scores
        (List.range' st.accumed.toNat (temp_search_n - st.accumed.toNat)) st.stats with
    | .error f => .error f
    | .ok stats1 => .ok ((doSearch_.best stats1).1, stats1)
  else .ok ((doSearch_.best st.stats).1, st.stats)

/-- The state of `doSearch_` when its threads have finished (`SearchBot.cc:721-816`), for the
legal moves `moves`, which `enumerateLegalMoves(server)` returns, and the scores `iter j` that
`oneSearchIter_` returns for the index `j`. -/
def doSearch_.threads (S : SearchBotParams) (sqrt : ℚ → ℚ) (moves : List Move)
    (bp_move frame_move : Move) (iter : Nat → Int) (stats : SearchStats) :
    Except Fault doSearch_.State :=
  if moves.length = 0 then .error (.RuntimeError "NUM_THREADS % num_moves: division by zero")
  else
    let temp_num_threads : Int := S.NUM_THREADS - S.NUM_THREADS.tmod moves.length
    if ¬ (temp_num_threads ≥ moves.length) then
      .error (.AssertionFailure "temp_num_threads >= num_moves")
    else
      let temp_search_n : Int := S.SEARCH_N - S.SEARCH_N.tmod temp_num_threads
      doSearch_.rounds S sqrt moves bp_move frame_move iter temp_num_threads.toNat
        temp_search_n.toNat
        ((List.range (temp_search_n / temp_num_threads).toNat).map
          fun r => r * temp_num_threads.toNat)
        { stats := doSearch_.init S moves bp_move stats, scores := [], prune_count := 0,
          frame_bail := false, accumed := 0 }

/-- Embedding of `SearchBot::doSearch_` (`SearchBot.cc:705-845`) with `verbose == false` and
`win_stats == nullptr`: the move returned and the statistics left in `stats`. The threads are
modelled by their rounds between the barriers; the random seeds and the simulations are the
parameter `iter`. -/
def doSearch_ (S : SearchBotParams) (sqrt : ℚ → ℚ) (moves : List Move)
    (bp_move frame_move : Move) (iter : Nat → Int) (stats : SearchStats) :
    Except Fault (Move × SearchStats) :=
  match doSearch_.threads S sqrt moves bp_move frame_move iter stats with
  | .error f => .error f
  | .ok st =>
    doSearch_.finish S moves bp_move
      (S.SEARCH_N - S.SEARCH_N.tmod (S.NUM_THREADS - S.NUM_THREADS.tmod moves.length)).toNat st

/-- The integer square root by bisection on 64 binary digits: the greatest `r < 2^64` with
`r * r <= n`. -/
def exampleSqrt.root (n : Nat) : Nat → Nat → Nat
  | 0, r => r
  | k + 1, r => if (r + 2 ^ k) * (r + 2 ^ k) ≤ n then exampleSqrt.root n k (r + 2 ^ k)
    else exampleSqrt.root n k r

/-- A square root for the examples: the root rounded down to 9 decimals. It is exact on the
squares of numbers of at most 9 decimals, as `sqrt` is on those that are `double`s. -/
def exampleSqrt (q : ℚ) : ℚ :=
  (exampleSqrt.root (q * 10 ^ 18).floor.toNat 64 0 : ℚ) / 10 ^ 9

/-- Two moves with 100 samples each: playing slot 0 scored 0 every time, the colour hint
scored 25 every time. The bias 1/10 is that of the blueprint move. -/
def exampleUcbStats : SearchStats :=
  [(⟨.PLAY_CARD, 0, -1⟩, ⟨false, .fin 0, .fin 0, 100, .fin (1 / 10)⟩),
   (⟨.HINT_COLOR, 0, 1⟩, ⟨false, .fin 25, .fin 0, 100, .fin 0⟩)]

/-- What `doSearch_` keeps true of its statistics, for the blueprint move `bp_move` and the
moves `keys`: the entries are those of a map, each of these moves has one, and the bias is
`SEARCH_THRESH` in the entry of the blueprint move and 0 in every other entry. -/
def SearchStats.Biased (S : SearchBotParams) (bp_move : Move) (keys : List Move)
    (stats : SearchStats) : Prop :=
  SearchStats.Sorted stats ∧ (∀ k ∈ bp_move :: keys, ∃ s, (k, s) ∈ stats) ∧
    ∀ kv ∈ stats, kv.2.bias = if kv.1 = bp_move then S.SEARCH_THRESH else .fin 0

/-- The legal moves of the example searches with three moves: the play of slot 0, a colour hint
and a value hint to player 1. These are the legal moves of the first turn of a game of two
players with one card each. -/
def exampleSearchMoves : List Move :=
  [⟨.PLAY_CARD, 0, -1⟩, ⟨.HINT_COLOR, 0, 1⟩, ⟨.HINT_VALUE, 1, 1⟩]

/-- The default parameters with `NUM_THREADS=300` and `SEARCH_N=900`: with three moves, three
rounds of 300 rollouts, 100 for each move. -/
def exampleSearchParams : SearchBotParams :=
  { SearchBotParams.default with NUM_THREADS := 300, SEARCH_N := 900 }

/-- Scores of the rollouts of the example search: in the first round the colour hint scores 15
and the other two moves score 20; from the second round on every rollout scores 0. -/
def exampleSearchIter (j : Nat) : Int :=
  if j < 300 then (if j % 3 = 1 then 15 else 20) else 0

/-- The statistics of the example search when the scores of its second round have been
accumulated, before the second pruning pass: the colour hint was pruned in the first pass with
the bounds 15 + 1/10, the two other moves now have the mean 10 over 200 samples. -/
def exampleStaleStats : SearchStats :=
  [(⟨.PLAY_CARD, 0, -1⟩, ⟨false, .fin 10, .fin 20000, 200, .fin 0⟩),
   (⟨.HINT_COLOR, 0, 1⟩, ⟨true, .fin 15, .fin 0, 100, .fin (1 / 10)⟩),
   (⟨.HINT_VALUE, 1, 1⟩, ⟨false, .fin 10, .fin 20000, 200, .fin 0⟩)]

/-- The default parameters with `NUM_THREADS=2` and `SEARCH_N=4`: with two moves, two rounds of
two rollouts. -/
def exampleSmallParams : SearchBotParams :=
  { SearchBotParams.default with NUM_THREADS := 2, SEARCH_N := 4 }

/-- The parameters `exampleSmallParams` with baseline mode on and `SEARCH_THRESH=-2`. -/
def exampleBaselineParams : SearchBotParams :=
  { exampleSmallParams with SEARCH_BASELINE := 1, SEARCH_THRESH := .fin (-2) }

/-- The legal moves of the example searches with two moves: play or discard slot 0. -/
def exampleSmallMoves : List Move := [⟨.PLAY_CARD, 0, -1⟩, ⟨.DISCARD_CARD, 0, -1⟩]


/-! ## The simulation server -/

/-- Embedding of the constructor `Move(MoveType type, int value, int to=-1)`
(`BotUtils.h:29-31`), with its assertion. -/
def Move.make (type : MoveType) (value to_ : Int) : Except Fault Move :=
  if decide (type = .HINT_COLOR ∨ type = .HINT_VALUE) = decide (to_ ≠ -1) then
    .ok { type := type, value := value, to_ := to_ }
  else .error (.AssertionFailure "(type == HINT_COLOR || type == HINT_VALUE) == (to != -1)")

/-- Embedding of `class SimulServer` (`BotUtils.h:216-252`): the `Server` from which it
derives and its own two data members. -/
structure SimulServer where
  server : Server
  mock_ : Bool
  last_move_ : Move

/-- Result of a call of a `SimulServer`: the fault that ended it (if any), the simulation
server at that moment and the callbacks issued during the call, oldest first. -/
structure SimulOutcome where
  fault : Option Fault
  sim : SimulServer
  events : List Event

/-- The end of the four mutators of `SimulServer`: the call of the mutator of `Server`, when
there was one, has ended in `o`; then `last_move_` is assigned the move that the constructor
returns. -/
def SimulServer.record (s : SimulServer) (o : Outcome) (move : Except Fault Move) :
    SimulOutcome :=
  match o.fault with
  | some f => { fault := some f, sim := { s with server := o.server }, events := o.events }
  | none =>
    match move with
    | .error f =>
      { fault := some f, sim := { s with server := o.server }, events := o.events }
    | .ok m =>
      { fault := none, sim := { s with server := o.server, last_move_ := m },
        events := o.events }

/-- Embedding of `SimulServer::pleaseDiscard` (`BotUtils.cc:485-490`). -/
def SimulServer.pleaseDiscard (P : Params) (s : SimulServer) (index : Int) : SimulOutcome :=
  SimulServer.record s
    (if !s.mock_ then s.server.pleaseDiscard P index
      else { fault := none, server := s.server, events := [] })
    (Move.make .DISCARD_CARD index (-1))

/-- Embedding of `SimulServer::pleasePlay` (`BotUtils.cc:492-497`). -/
def SimulServer.pleasePlay (s : SimulServer) (index : Int) : SimulOutcome :=
  SimulServer.record s
    (if !s.mock_ then s.server.pleasePlay index
      else { fault := none, server := s.server, events := [] })
    (Move.make .PLAY_CARD index (-1))

/-- Embedding of `SimulServer::pleaseGiveColorHint` (`BotUtils.cc:499-504`). -/
def SimulServer.pleaseGiveColorHint (P : Params) (s : SimulServer) (player : Int)
    (color : Color) : SimulOutcome :=
  SimulServer.record s
    (if !s.mock_ then s.server.pleaseGiveColorHint P player color
      else { fault := none, server := s.server, events := [] })
    (Move.make .HINT_COLOR color.toInt player)

/-- Embedding of `SimulServer::pleaseGiveValueHint` (`BotUtils.cc:506-511`). -/
def SimulServer.pleaseGiveValueHint (P : Params) (s : SimulServer) (player : Int)
    (value : Int) : SimulOutcome :=
  SimulServer.record s
    (if !s.mock_ then s.server.pleaseGiveValueHint P player value
      else { fault := none, server := s.server, events := [] })
    (Move.make .HINT_VALUE value player)

/-- A call of a mutator, as a bot makes it inside `pleaseMakeMove`. -/
inductive Request
  | pleaseDiscard (index : Int)
  | pleasePlay (index : Int)
  | pleaseGiveColorHint (player : Int) (color : Color)
  | pleaseGiveValueHint (player : Int) (value : Int)
  deriving DecidableEq, Repr

/-- The move that describes a call of a mutator. -/
def Request.move : Request → Move
  | .pleaseDiscard index => { type := .DISCARD_CARD, value := index, to_ := -1 }
  | .pleasePlay index => { type := .PLAY_CARD, value := index, to_ := -1 }
  | .pleaseGiveColorHint player color =>
    { type := .HINT_COLOR, value := color.toInt, to_ := player }
  | .pleaseGiveValueHint player value => { type := .HINT_VALUE, value := value, to_ := player }

/-- The target of a hint is not -1, which the constructor of `Move` asserts of a hint. -/
def Request.targeted : Request → Prop
  | .pleaseGiveColorHint player _ => player ≠ -1
  | .pleaseGiveValueHint player _ => player ≠ -1
  | _ => True

instance (r : Request) : Decidable r.targeted := by
  cases r <;> unfold Request.targeted <;> infer_instance

/-- The mutator of the simulation server that a request calls. -/
def SimulServer.call (P : Params) (s : SimulServer) : Request → SimulOutcome
  | .pleaseDiscard index => s.pleaseDiscard P index
  | .pleasePlay index => s.pleasePlay index
  | .pleaseGiveColorHint player color => s.pleaseGiveColorHint P player color
  | .pleaseGiveValueHint player value => s.pleaseGiveValueHint P player value

/-- The calls of mutators that a bot makes one after the other; a fault ends them. -/
def SimulServer.calls (P : Params) : List Request → SimulServer → List Event → SimulOutcome
  | [], s, events => { fault := none, sim := s, events := events }
  | r :: rest, s, events =>
    let o := s.call P r
    match o.fault with
    | some f => { fault := some f, sim := o.sim, events := events ++ o.events }
    | none => SimulServer.calls P rest o.sim (events ++ o.events)

/-- Result of `simulatePlayerMove`: the move returned or the fault, the simulation server and
the callbacks issued. -/
structure SimulReturn where
  ret : Except Fault Move
  sim : SimulServer
  events : List Event

/-- Embedding of `SimulServer::simulatePlayerMove` (`BotUtils.cc:474-483`). The bot is
represented by the calls of mutators that its `pleaseMakeMove` makes, given the server that it
is shown. -/
def SimulServer.simulatePlayerMove (P : Params) (s : SimulServer) (index : Int)
    (bot : Server → List Request) : SimulReturn :=
  let s1 : SimulServer :=
    { server := { s.server with activePlayer_ := index, observingPlayer_ := index },
      mock_ := true, last_move_ := Move.invalid }
  let o := SimulServer.calls P (bot s1.server) s1 []
  match o.fault with
  | some f => { ret := .error f, sim := o.sim, events := o.events }
  | none =>
    if ¬ (o.sim.last_move_.type ≠ .INVALID_MOVE) then
      { ret := .error (.AssertionFailure "last_move_.type != INVALID_MOVE"), sim := o.sim,
        events := o.events }
    else
      { ret := .ok o.sim.last_move_,
        sim := { o.sim with last_move_ := Move.invalid, mock_ := false },
        events := o.events }

/-- A simulation server in mock mode on the start of the example game. -/
def exampleMock : SimulServer :=
  { server := exampleStart, mock_ := true, last_move_ := Move.invalid }


/-! ## The loop of the game -/

/-- Embedding of `Server::runToCompletion` (`HanabiServer.cc:286-315`) for at most `fuel`
evaluations of the condition of its loop: the value returned, or the fault that ended the call,
and the server at that moment; `none` when the loop needs more evaluations. The bots are
represented by `bots`, the move that the active bot makes inside `pleaseMakeMove` for the
server that it is shown; the callbacks are left out. -/
def Server.runToCompletion (P : Params) (bots : Server → Move) :
    Nat → Server → Option (Except Fault Int × Server)
  | 0, _ => none
  | fuel + 1, s =>
    match s.gameOver P with
    | .error f => some (.error f, s)
    | .ok true => some (s.currentScore P, s)
    | .ok false =>
      match (s.turn P (bots s.beginTurn.server)).fault with
      | some f => some (.error f, (s.turn P (bots s.beginTurn.server)).server)
      | none =>
        Server.runToCompletion P bots fuel (s.turn P (bots s.beginTurn.server)).server

/-- A measure of the turns that are left: the hint stones, twice the cards of the deck and
twice the steps that the final countdown has to go. -/
def Server.measure (s : Server) : Int :=
  s.hintStonesRemaining_ + 2 * s.deck_.length + 2 * (s.numPlayers_ + 1 - s.finalCountdown_)


/-- The index `idx` that `sampleFromCDF_` computes from the drawn number
(`SearchBot.cc:477-478`): the position that `upper_bound` returns, minus one, as an `int`. -/
def sampleFromCDF_.idx (cdf : HandDistCDF) (prob : ℚ) : Int :=
  wrapInt32 ((upper_bound cdf.probs prob : Int) - 1)

end Hanabi

/-! # Theorems -/

namespace Hanabi

/-! ## The mutators, case by case -/

theorem set_getD_self {α : Type} (l : List α) (i : Nat) (d : α) (h : i < l.length) :
    l.set i (l[i]?.getD d) = l := by
  induction l generalizing i with
  | nil => simp
  | cons a l ih =>
    cases i with
    | zero => simp
    | succ i =>
      simp only [List.length_cons, Nat.add_lt_add_iff_right] at h
      simpa using ih i h

/-- The replacement block always completes; it moves the top card of the deck to the end
of the active hand exactly when a mulligan is left and the deck is not empty. -/
theorem Server.drawReplacement_eq (s : Server)
    (hlt : s.activePlayer_.toNat < s.hands_.length) :
    s.drawReplacement_ = .ok
      { s with
        hands_ := s.hands_.set s.activePlayer_.toNat
          (s.hands_.getD s.activePlayer_.toNat [] ++
            if 0 < s.mulligansRemaining_ then s.deck_.getLast?.toList else []),
        deck_ := if 0 < s.mulligansRemaining_ then s.deck_.dropLast else s.deck_ } := by
  have hself := set_getD_self s.hands_ s.activePlayer_.toNat [] hlt
  obtain ⟨ps, op, ap, mv, ac, aco, fc, np, pl, di, hi, mu, ha, de⟩ := s
  simp only at hlt hself ⊢
  by_cases hm : 0 < mu
  · rcases List.eq_nil_or_concat de with hd | ⟨ys, c, hd⟩
    · simp [Server.drawReplacement_, hm, hd, hself]
    · simp [Server.drawReplacement_, hm, hd, Server.draw_, Server.pushToHand]
  · simp [Server.drawReplacement_, hm, hself]

theorem Server.pleasePlay_guards (s : Server) (index : Int)
    (h : (s.pleasePlay index).fault = none) :
    ∃ hand card, s.hands_[s.activePlayer_.toNat]? = some hand ∧
      hand[index.toNat]? = some card ∧ 0 ≤ index ∧ index ≤ hand.length ∧
      0 ≤ s.activePlayer_ ∧ s.activePlayer_ < s.hands_.length ∧
      s.players_size = s.hands_.length ∧
      s.movesFromActivePlayer_ = 0 ∧ card.color ≠ .INVALID_COLOR := by
  by_cases h1 : 0 ≤ s.activePlayer_ ∧ s.activePlayer_ < s.hands_.length
  swap
  · simp [Server.pleasePlay, h1, Outcome.stop] at h
  by_cases h2 : s.players_size = s.hands_.length
  swap
  · simp [Server.pleasePlay, h1, h2, Outcome.stop] at h
  by_cases h4 : s.movesFromActivePlayer_ = 0
  swap
  · by_cases h3 : s.movesFromActivePlayer_ < 1
    · simp [Server.pleasePlay, h1, h2, h3, h4, Outcome.stop] at h
    · simp [Server.pleasePlay, h1, h2, h3, Outcome.stop] at h
  cases hhand : s.hands_[s.activePlayer_.toNat]? with
  | none => simp [Server.pleasePlay, h1, h2, h4, hhand, Outcome.stop] at h
  | some hand =>
    by_cases h5 : 0 ≤ index ∧ index ≤ hand.length
    swap
    · simp [Server.pleasePlay, h1, h2, h4, hhand, h5, Outcome.stop] at h
    cases hcard : hand[index.toNat]? with
    | none => simp [Server.pleasePlay, h1, h2, h4, hhand, h5, hcard, Outcome.stop] at h
    | some card =>
      by_cases h6 : card.color = .INVALID_COLOR
      · simp [Server.pleasePlay, h1, h2, h4, hhand, h5, hcard, h6, Outcome.stop] at h
      · exact ⟨hand, card, rfl, hcard, h5.1, h5.2, h1.1, h1.2, h2, h4, h6⟩

/-- What an accepted `pleasePlay` leaves behind and which callbacks it issued. -/
theorem Server.pleasePlay_server (s : Server) (index : Int)
    (h : (s.pleasePlay index).fault = none) :
    ∃ hand card, s.hands_[s.activePlayer_.toNat]? = some hand ∧
      hand[index.toNat]? = some card ∧
      (s.pleasePlay index).server =
        { s with
          activeCard_ := card, activeCardIsObservable_ := false, movesFromActivePlayer_ := 1,
          piles_ := if card.value = (s.piles_ card.color).size_ + 1 then
              Function.update s.piles_ card.color
                { color := (s.piles_ card.color).color, size_ := (s.piles_ card.color).size_ + 1 }
            else s.piles_,
          discards_ := if card.value = (s.piles_ card.color).size_ + 1 then s.discards_
            else s.discards_ ++ [card],
          mulligansRemaining_ := if card.value = (s.piles_ card.color).size_ + 1 then
              s.mulligansRemaining_ else s.mulligansRemaining_ - 1,
          hintStonesRemaining_ :=
            if card.value = (s.piles_ card.color).size_ + 1 ∧ card.value = 5 ∧
                s.hintStonesRemaining_ < 8 then s.hintStonesRemaining_ + 1
            else s.hintStonesRemaining_,
          hands_ := s.hands_.set s.activePlayer_.toNat
            (hand.eraseIdx index.toNat ++
              if 0 < (if card.value = (s.piles_ card.color).size_ + 1 then
                  s.mulligansRemaining_ else s.mulligansRemaining_ - 1)
              then s.deck_.getLast?.toList else []),
          deck_ := if 0 < (if card.value = (s.piles_ card.color).size_ + 1 then
                  s.mulligansRemaining_ else s.mulligansRemaining_ - 1)
              then s.deck_.dropLast else s.deck_ } ∧
      (s.pleasePlay index).events =
        notifyAll s.players_size (.pleaseObserveBeforePlay s.activePlayer_ index)
          { s with activeCard_ := card, activeCardIsObservable_ := true,
                   movesFromActivePlayer_ := -1 } := by
  obtain ⟨hand, card, hhand, hcard, h5, h5', h1, h1', h2, h4, h6⟩ := s.pleasePlay_guards index h
  refine ⟨hand, card, hhand, hcard, ?_⟩
  have hlt : s.activePlayer_.toNat < s.hands_.length := by omega
  by_cases hp : card.value = (s.piles_ card.color).size_ + 1
  · by_cases hinc : 0 ≤ (s.piles_ card.color).size_ ∧ (s.piles_ card.color).size_ ≤ 4
    swap
    · simp [Server.pleasePlay, h1, h1', h2, h4, hhand, h5, h5', hcard, h6, Outcome.stop,
        Pile.nextValueIs, hp, Pile.increment_, hinc] at h
    by_cases h55 : (s.piles_ card.color).size_ + 1 = 5 <;>
    by_cases hh : s.hintStonesRemaining_ < 8 <;>
    by_cases hm : 0 < s.mulligansRemaining_ <;>
    simp [Server.pleasePlay, h1, h1', h2, h4, hhand, h5, h5', hcard, h6, Outcome.stop,
        Pile.nextValueIs, hp, Pile.increment_, hinc, h55, hh, hm, NUMHINTS,
        Server.regainHintStoneIfPossible_, Server.drawReplacement_eq, hlt]
  · by_cases hm1 : 0 ≤ s.mulligansRemaining_ - 1
    swap
    · simp [Server.pleasePlay, h1, h1', h2, h4, hhand, h5, h5', hcard, h6, Outcome.stop,
        Pile.nextValueIs, hp, Server.loseMulligan_, hm1] at h
    by_cases hm : 0 < s.mulligansRemaining_ - 1 <;>
    simp [Server.pleasePlay, h1, h1', h2, h4, hhand, h5, h5', hcard, h6, Outcome.stop,
        Pile.nextValueIs, hp, Server.loseMulligan_, hm1, hm,
        Server.drawReplacement_eq, hlt]

theorem Server.pleaseDiscard_guards (P : Params) (s : Server) (index : Int)
    (h : (s.pleaseDiscard P index).fault = none) :
    ∃ hand card, s.hands_[s.activePlayer_.toNat]? = some hand ∧
      hand[index.toNat]? = some card ∧ 0 ≤ index ∧ index ≤ hand.length ∧
      0 ≤ s.activePlayer_ ∧ s.activePlayer_ < s.numPlayers_ ∧
      s.movesFromActivePlayer_ = 0 ∧ s.discardingIsAllowed P = true := by
  by_cases h1 : 0 ≤ s.activePlayer_ ∧ s.activePlayer_ < s.numPlayers_
  swap
  · simp [Server.pleaseDiscard, h1, Outcome.stop] at h
  by_cases h4 : s.movesFromActivePlayer_ = 0
  swap
  · by_cases h3 : s.movesFromActivePlayer_ < 1
    · simp [Server.pleaseDiscard, h1, h3, h4, Outcome.stop] at h
    · simp [Server.pleaseDiscard, h1, h3, Outcome.stop] at h
  cases hhand : s.hands_[s.activePlayer_.toNat]? with
  | none => simp [Server.pleaseDiscard, h1, h4, hhand, Outcome.stop] at h
  | some hand =>
    by_cases h5 : 0 ≤ index ∧ index ≤ hand.length
    swap
    · simp [Server.pleaseDiscard, h1, h4, hhand, h5, Outcome.stop] at h
    by_cases h7 : s.discardingIsAllowed P = true
    swap
    · simp [Server.pleaseDiscard, h1, h4, hhand, h5, h7, Outcome.stop] at h
    cases hcard : hand[index.toNat]? with
    | none => simp [Server.pleaseDiscard, h1, h4, hhand, h5, h7, hcard, Outcome.stop] at h
    | some card => exact ⟨hand, card, rfl, hcard, h5.1, h5.2, h1.1, h1.2, h4, h7⟩

theorem getElem?_lt_length {α : Type} {l : List α} {i : Nat} {a : α} (h : l[i]? = some a) :
    i < l.length := by
  by_contra hn
  rw [List.getElem?_eq_none (by omega)] at h
  cases h

/-- What an accepted `pleaseDiscard` leaves behind and which callbacks it issued. -/
theorem Server.pleaseDiscard_server (P : Params) (s : Server) (index : Int)
    (h : (s.pleaseDiscard P index).fault = none) :
    ∃ hand card, s.hands_[s.activePlayer_.toNat]? = some hand ∧
      hand[index.toNat]? = some card ∧
      (s.pleaseDiscard P index).server =
        { s with
          activeCard_ := card, activeCardIsObservable_ := false, movesFromActivePlayer_ := 1,
          discards_ := s.discards_ ++ [card],
          hintStonesRemaining_ :=
            if s.hintStonesRemaining_ < 8 then s.hintStonesRemaining_ + 1
            else s.hintStonesRemaining_,
          hands_ := s.hands_.set s.activePlayer_.toNat
            (hand.eraseIdx index.toNat ++
              if 0 < s.mulligansRemaining_ then s.deck_.getLast?.toList else []),
          deck_ := if 0 < s.mulligansRemaining_ then s.deck_.dropLast else s.deck_ } ∧
      (s.pleaseDiscard P index).events =
        notifyAll s.numPlayers_ (.pleaseObserveBeforeDiscard s.activePlayer_ index)
          { s with activeCard_ := card, activeCardIsObservable_ := true,
                   movesFromActivePlayer_ := -1 } := by
  obtain ⟨hand, card, hhand, hcard, h5, h5', h1, h1', h4, h7⟩ := s.pleaseDiscard_guards P index h
  refine ⟨hand, card, hhand, hcard, ?_⟩
  have hlt : s.activePlayer_.toNat < s.hands_.length := getElem?_lt_length hhand
  by_cases hh : s.hintStonesRemaining_ < 8 <;>
  by_cases hm : 0 < s.mulligansRemaining_ <;>
  simp [Server.pleaseDiscard, h1, h1', h4, hhand, h5, h5', hcard, h7, Outcome.stop,
      hh, hm, NUMHINTS, Server.regainHintStoneIfPossible_, Server.drawReplacement_eq, hlt]

theorem Server.pleaseGiveColorHint_guards (P : Params) (s : Server) (dst : Int) (color : Color)
    (h : (s.pleaseGiveColorHint P dst color).fault = none) :
    (0 ≤ s.activePlayer_ ∧ s.activePlayer_ < s.hands_.length) ∧
      s.players_size = s.hands_.length ∧ s.movesFromActivePlayer_ = 0 ∧
      (0 ≤ dst ∧ dst < s.hands_.length) ∧ color ≠ .INVALID_COLOR ∧
      s.hintStonesRemaining_ ≠ 0 ∧ dst ≠ s.activePlayer_ ∧
      (P.ALLOW_EMPTY_HINTS = true ∨
        (hintLoop (fun card => card.color == color) (s.handOf dst) 0
          CardIndices.new).empty = false) := by
  by_cases h1 : 0 ≤ s.activePlayer_ ∧ s.activePlayer_ < s.hands_.length
  swap
  · simp [Server.pleaseGiveColorHint, h1, Outcome.stop] at h
  by_cases h2 : s.players_size = s.hands_.length
  swap
  · simp [Server.pleaseGiveColorHint, h1, h2, Outcome.stop] at h
  by_cases h4 : s.movesFromActivePlayer_ = 0
  swap
  · by_cases h3 : s.movesFromActivePlayer_ < 1
    · simp [Server.pleaseGiveColorHint, h1, h2, h3, h4, Outcome.stop] at h
    · simp [Server.pleaseGiveColorHint, h1, h2, h3, Outcome.stop] at h
  by_cases h5 : 0 ≤ dst ∧ dst < s.hands_.length
  swap
  · simp [Server.pleaseGiveColorHint, h1, h2, h4, h5, Outcome.stop] at h
  by_cases h6 : color = .INVALID_COLOR
  · simp [Server.pleaseGiveColorHint, h1, h2, h4, h5, h6, Color.toInt, Outcome.stop] at h
  have h6' : Color.RED.toInt ≤ color.toInt ∧ color.toInt ≤ Color.BLUE.toInt := by
    cases color <;> simp [Color.toInt] at h6 ⊢
  by_cases h7 : s.hintStonesRemaining_ = 0
  · simp [Server.pleaseGiveColorHint, h1, h2, h4, h5, h6', h7, Outcome.stop] at h
  by_cases h8 : dst = s.activePlayer_
  · simp [Server.pleaseGiveColorHint, h1, h2, h4, h5, h6', h7, h8, Outcome.stop] at h
  refine ⟨h1, h2, h4, h5, h6, h7, h8, ?_⟩
  by_cases h9 : P.ALLOW_EMPTY_HINTS = true
  · exact Or.inl h9
  · right
    by_contra h10
    simp [Server.pleaseGiveColorHint, h1, h2, h4, h5, h6', h7, h8, h9, h10, Outcome.stop] at h

/-- What an accepted colour hint leaves behind and which callbacks it issued. -/
theorem Server.pleaseGiveColorHint_server (P : Params) (s : Server) (dst : Int) (color : Color)
    (h : (s.pleaseGiveColorHint P dst color).fault = none) :
    (s.pleaseGiveColorHint P dst color).server =
        { s with hintStonesRemaining_ := s.hintStonesRemaining_ - 1,
                 movesFromActivePlayer_ := 1 } ∧
      (s.pleaseGiveColorHint P dst color).events =
        notifyAll s.players_size
          (.pleaseObserveColorHint s.activePlayer_ dst color
            (hintLoop (fun card => card.color == color) (s.handOf dst) 0 CardIndices.new))
          { s with movesFromActivePlayer_ := -1 } := by
  obtain ⟨h1, h2, h4, h5, h6, h7, h8, h9⟩ := s.pleaseGiveColorHint_guards P dst color h
  have h6' : Color.RED.toInt ≤ color.toInt ∧ color.toInt ≤ Color.BLUE.toInt := by
    cases color <;> simp [Color.toInt] at h6 ⊢
  rcases h9 with h9 | h9 <;>
  simp [Server.pleaseGiveColorHint, h1, h2, h4, h5, h6', h7, h8, h9, Outcome.stop]

theorem Server.pleaseGiveValueHint_guards (P : Params) (s : Server) (dst : Int) (value : Int)
    (h : (s.pleaseGiveValueHint P dst value).fault = none) :
    (0 ≤ s.activePlayer_ ∧ s.activePlayer_ < s.hands_.length) ∧
      s.players_size = s.hands_.length ∧ s.movesFromActivePlayer_ = 0 ∧
      (0 ≤ dst ∧ dst < s.hands_.length) ∧ (1 ≤ value ∧ value ≤ 5) ∧
      s.hintStonesRemaining_ ≠ 0 ∧ dst ≠ s.activePlayer_ ∧
      (P.ALLOW_EMPTY_HINTS = true ∨
        (hintLoop (fun card => card.value == value) (s.handOf dst) 0
          CardIndices.new).empty = false) := by
  by_cases h1 : 0 ≤ s.activePlayer_ ∧ s.activePlayer_ < s.hands_.length
  swap
  · simp [Server.pleaseGiveValueHint, h1, Outcome.stop] at h
  by_cases h2 : s.players_size = s.hands_.length
  swap
  · simp [Server.pleaseGiveValueHint, h1, h2, Outcome.stop] at h
  by_cases h4 : s.movesFromActivePlayer_ = 0
  swap
  · by_cases h3 : s.movesFromActivePlayer_ < 1
    · simp [Server.pleaseGiveValueHint, h1, h2, h3, h4, Outcome.stop] at h
    · simp [Server.pleaseGiveValueHint, h1, h2, h3, Outcome.stop] at h
  by_cases h5 : 0 ≤ dst ∧ dst < s.hands_.length
  swap
  · simp [Server.pleaseGiveValueHint, h1, h2, h4, h5, Outcome.stop] at h
  by_cases h6 : 1 ≤ value ∧ value ≤ 5
  swap
  · simp [Server.pleaseGiveValueHint, h1, h2, h4, h5, h6, Outcome.stop] at h
  by_cases h7 : s.hintStonesRemaining_ = 0
  · simp [Server.pleaseGiveValueHint, h1, h2, h4, h5, h6, h7, Outcome.stop] at h
  by_cases h8 : dst = s.activePlayer_
  · simp [Server.pleaseGiveValueHint, h1, h2, h4, h5, h6, h7, h8, Outcome.stop] at h
  refine ⟨h1, h2, h4, h5, h6, h7, h8, ?_⟩
  by_cases h9 : P.ALLOW_EMPTY_HINTS = true
  · exact Or.inl h9
  · right
    by_contra h10
    simp [Server.pleaseGiveValueHint, h1, h2, h4, h5, h6, h7, h8, h9, h10, Outcome.stop] at h

/-- What an accepted value hint leaves behind and which callbacks it issued. -/
theorem Server.pleaseGiveValueHint_server (P : Params) (s : Server) (dst : Int) (value : Int)
    (h : (s.pleaseGiveValueHint P dst value).fault = none) :
    (s.pleaseGiveValueHint P dst value).server =
        { s with hintStonesRemaining_ := s.hintStonesRemaining_ - 1,
                 movesFromActivePlayer_ := 1 } ∧
      (s.pleaseGiveValueHint P dst value).events =
        notifyAll s.players_size
          (.pleaseObserveValueHint s.activePlayer_ dst value
            (hintLoop (fun card => card.value == value) (s.handOf dst) 0 CardIndices.new))
          { s with movesFromActivePlayer_ := -1 } := by
  obtain ⟨h1, h2, h4, h5, h6, h7, h8, h9⟩ := s.pleaseGiveValueHint_guards P dst value h
  rcases h9 with h9 | h9 <;>
  simp [Server.pleaseGiveValueHint, h1, h2, h4, h5, h6, h7, h8, h9, Outcome.stop]

theorem Server.pleasePlay_of_playAccepted (s : Server) (index : Int) (hand : List Card)
    (card : Card) (h : s.playAccepted index hand card) : (s.pleasePlay index).fault = none := by
  obtain ⟨hhand, hcard, h5, h1, h2, h4, h6, h7⟩ := h
  have hlt : s.activePlayer_.toNat < s.hands_.length := getElem?_lt_length hhand
  have h5' : index ≤ hand.length := by
    have := getElem?_lt_length hcard
    omega
  by_cases hp : card.value = (s.piles_ card.color).size_ + 1
  · rw [if_pos hp] at h7
    by_cases h55 : (s.piles_ card.color).size_ + 1 = 5 <;>
    by_cases hh : s.hintStonesRemaining_ < 8 <;>
    simp [Server.pleasePlay, h1, h2, h4, hhand, h5, h5', hcard, h6, Outcome.stop,
        Pile.nextValueIs, hp, Pile.increment_, h7, h55, hh, NUMHINTS,
        Server.regainHintStoneIfPossible_, Server.drawReplacement_eq, hlt]
  · rw [if_neg hp] at h7
    have hm1 : 0 ≤ s.mulligansRemaining_ - 1 := by omega
    simp [Server.pleasePlay, h1, h2, h4, hhand, h5, h5', hcard, h6, Outcome.stop,
        Pile.nextValueIs, hp, Server.loseMulligan_, hm1,
        Server.drawReplacement_eq, hlt]

theorem Server.pleaseDiscard_of_discardAccepted (P : Params) (s : Server) (index : Int)
    (hand : List Card) (card : Card) (h : s.discardAccepted P index hand card) :
    (s.pleaseDiscard P index).fault = none := by
  obtain ⟨hhand, hcard, h5, h1, h4, h7⟩ := h
  have hlt : s.activePlayer_.toNat < s.hands_.length := getElem?_lt_length hhand
  have h5' : index ≤ hand.length := by
    have := getElem?_lt_length hcard
    omega
  simp [Server.pleaseDiscard, h1, h4, hhand, h5, h5', hcard, h7, Outcome.stop,
      Server.drawReplacement_eq, hlt]

/-! ## The example games are games -/

theorem exampleStart_reachable :
    Reachable Params.default 2 standardDeck (fun _ => 0) exampleStart :=
  .setup Server.fresh exampleStart rfl

theorem exampleLastMulligan_reachable :
    Reachable Params.default 2 standardDeck (fun _ => 0) exampleLastMulligan := by
  have r1 := Reachable.beginTurn _ exampleStart_reachable (by decide) rfl (by decide)
  have r2 := Reachable.pleasePlay _ 3 r1 (by decide)
  have r3 := Reachable.endTurn _ r2 rfl (by decide)
  have r4 := Reachable.beginTurn _ r3 (by decide) rfl (by decide)
  have r5 := Reachable.pleasePlay _ 0 r4 (by decide)
  have r6 := Reachable.endTurn _ r5 rfl (by decide)
  exact Reachable.beginTurn _ r6 (by decide) rfl (by decide)

theorem exampleNineCards_reachable :
    Reachable exampleParamsNine 2 standardDeck (fun _ => 0) exampleNineCards :=
  Reachable.beginTurn _ (Reachable.setup Server.fresh _ rfl) (by decide) rfl (by decide)

/-! ## Playing a card -/

/-- C3 (successful play). Let the active player, inside `pleaseMakeMove` and before any
other move, hold at index `index` a card of a real colour whose value is the size of the
pile of its colour plus one (cards have values up to 5, piles are not negative). Then
`pleasePlay index` is accepted, the pile of that colour grows by exactly one, every other
pile, the discards and the mulligans are unchanged, and `hintStonesRemaining` grows by one
exactly when the value is 5 and fewer than 8 hint stones remained; otherwise it is
unchanged. -/
theorem C3_successful_play (s : Server) (index : Int) (hand : List Card) (card : Card)
    (hactive : 0 ≤ s.activePlayer_ ∧ s.activePlayer_ < s.hands_.length)
    (hplayers : s.players_size = s.hands_.length)
    (hmoves : s.movesFromActivePlayer_ = 0)
    (hhand : s.hands_[s.activePlayer_.toNat]? = some hand)
    (hindex : 0 ≤ index) (hcard : hand[index.toNat]? = some card)
    (hcolor : card.color ≠ .INVALID_COLOR)
    (hpile : 0 ≤ (s.piles_ card.color).size) (hvalue : card.value ≤ 5)
    (hnext : card.value = (s.piles_ card.color).size + 1) :
    (s.pleasePlay index).fault = none ∧
    ((s.pleasePlay index).server.piles_ card.color).size = (s.piles_ card.color).size + 1 ∧
    (∀ color, color ≠ card.color → (s.pleasePlay index).server.piles_ color = s.piles_ color) ∧
    (s.pleasePlay index).server.discards_ = s.discards_ ∧
    (s.pleasePlay index).server.mulligansRemaining_ = s.mulligansRemaining_ ∧
    (s.pleasePlay index).server.hintStonesRemaining_ =
      (if card.value = 5 ∧ s.hintStonesRemaining_ < 8 then s.hintStonesRemaining_ + 1
       else s.hintStonesRemaining_) := by
  simp only [Pile.size] at hpile hnext ⊢
  have hacc : (s.pleasePlay index).fault = none := by
    apply s.pleasePlay_of_playAccepted index hand card
    refine ⟨hhand, hcard, hindex, hactive, hplayers, hmoves, hcolor, ?_⟩
    rw [if_pos hnext]
    omega
  obtain ⟨hand', card', hhand', hcard', hserver, -⟩ := s.pleasePlay_server index hacc
  rw [hhand] at hhand'
  cases hhand'
  rw [hcard] at hcard'
  cases hcard'
  refine ⟨hacc, ?_⟩
  rw [hserver]
  refine ⟨by simp [hnext], ?_, by simp [hnext], by simp [hnext], by simp [hnext]⟩
  intro color hne
  simp [hnext, Function.update, hne]

/-- Witness for C3: with the red pile at 4 and no hint stone, playing the red 5 is accepted
and gives a red pile of 5 and one hint stone. -/
theorem C3_successful_play_witness :
    (exampleRedFive.pleasePlay 0).fault = none ∧
    ((exampleRedFive.pleasePlay 0).server.piles_ .RED).size = 5 ∧
    (exampleRedFive.pleasePlay 0).server.hintStonesRemaining_ = 1 := by
  have h := C3_successful_play exampleRedFive 0
    [⟨.RED, 5⟩, ⟨.ORANGE, 1⟩, ⟨.YELLOW, 1⟩, ⟨.GREEN, 1⟩, ⟨.BLUE, 1⟩] ⟨.RED, 5⟩
    (by decide) (by decide) (by decide) (by decide) (by decide) (by decide) (by decide)
    (by decide) (by decide) (by decide)
  exact ⟨h.1, h.2.1.trans (by decide), h.2.2.2.2.2.trans (by decide)⟩

/-- C4 (failed play). Let the active player, inside `pleaseMakeMove` and before any other
move, hold at index `index` a card of a real colour whose value is not the size of the pile
of its colour plus one, while at least one mulligan remains. Then `pleasePlay index` is
accepted, the card is appended at the end of the discards, `mulligansRemaining` drops by
exactly one, and every pile and `hintStonesRemaining` are unchanged. -/
theorem C4_failed_play (s : Server) (index : Int) (hand : List Card) (card : Card)
    (hactive : 0 ≤ s.activePlayer_ ∧ s.activePlayer_ < s.hands_.length)
    (hplayers : s.players_size = s.hands_.length)
    (hmoves : s.movesFromActivePlayer_ = 0)
    (hhand : s.hands_[s.activePlayer_.toNat]? = some hand)
    (hindex : 0 ≤ index) (hcard : hand[index.toNat]? = some card)
    (hcolor : card.color ≠ .INVALID_COLOR)
    (hmull : 1 ≤ s.mulligansRemaining_)
    (hnext : (s.piles_ card.color).nextValueIs card.value = false) :
    (s.pleasePlay index).fault = none ∧
    (s.pleasePlay index).server.discards_ = s.discards_ ++ [card] ∧
    (s.pleasePlay index).server.mulligansRemaining_ = s.mulligansRemaining_ - 1 ∧
    (s.pleasePlay index).server.piles_ = s.piles_ ∧
    (s.pleasePlay index).server.hintStonesRemaining_ = s.hintStonesRemaining_ := by
  have hne : ¬ card.value = (s.piles_ card.color).size_ + 1 := by
    simpa [Pile.nextValueIs] using hnext
  have hacc : (s.pleasePlay index).fault = none := by
    apply s.pleasePlay_of_playAccepted index hand card
    refine ⟨hhand, hcard, hindex, hactive, hplayers, hmoves, hcolor, ?_⟩
    rw [if_neg hne]
    exact hmull
  obtain ⟨hand', card', hhand', hcard', hserver, -⟩ := s.pleasePlay_server index hacc
  rw [hhand] at hhand'
  cases hhand'
  rw [hcard] at hcard'
  cases hcard'
  refine ⟨hacc, ?_⟩
  rw [hserver]
  simp [hne]

/-- Witness for C4: with all piles empty and three mulligans, playing the red 2 is accepted,
the discards end in the red 2, two mulligans remain and the red pile is still empty. -/
theorem C4_failed_play_witness :
    (exampleRedTwo.pleasePlay 0).fault = none ∧
    (exampleRedTwo.pleasePlay 0).server.discards_ = [⟨.GREEN, 4⟩, ⟨.RED, 2⟩] ∧
    (exampleRedTwo.pleasePlay 0).server.mulligansRemaining_ = 2 ∧
    ((exampleRedTwo.pleasePlay 0).server.piles_ .RED).size = 0 := by
  have h := C4_failed_play exampleRedTwo 0
    [⟨.RED, 2⟩, ⟨.ORANGE, 1⟩, ⟨.YELLOW, 1⟩, ⟨.GREEN, 1⟩, ⟨.BLUE, 1⟩] ⟨.RED, 2⟩
    (by decide) (by decide) (by decide) (by decide) (by decide) (by decide) (by decide)
    (by decide) (by decide)
  exact ⟨h.1, h.2.1.trans (by decide), h.2.2.1.trans (by decide), by rw [h.2.2.2.1]; decide⟩

/-! ## The hand and the deck after a play or a discard -/

/-- C5 (as amended). After an accepted `pleasePlay index` or `pleaseDiscard index` the active
player's hand is the old hand with the card at `index` erased (later cards shifted down, order
kept), followed by the former top card of the deck when the deck was not empty and at least
one mulligan remains after the move; in that case the deck loses exactly its top card. When
the deck was empty or no mulligan remains after the move, nothing is appended and the deck is
unchanged. The hands of all other players are unchanged. -/
theorem C5_hand_after_play_or_discard (P : Params) (s : Server) (index : Int)
    (hand : List Card) (hhand : s.hands_[s.activePlayer_.toNat]? = some hand) :
    ((s.pleasePlay index).fault = none →
      (∀ rest top, s.deck_ = rest ++ [top] →
          0 < (s.pleasePlay index).server.mulligansRemaining_ →
          (s.pleasePlay index).server.hands_[s.activePlayer_.toNat]? =
            some (hand.eraseIdx index.toNat ++ [top]) ∧
          (s.pleasePlay index).server.deck_ = rest) ∧
      (s.deck_ = [] ∨ (s.pleasePlay index).server.mulligansRemaining_ ≤ 0 →
          (s.pleasePlay index).server.hands_[s.activePlayer_.toNat]? =
            some (hand.eraseIdx index.toNat) ∧
          (s.pleasePlay index).server.deck_ = s.deck_) ∧
      (∀ p : Nat, p ≠ s.activePlayer_.toNat →
          (s.pleasePlay index).server.hands_[p]? = s.hands_[p]?) ∧
      (s.pleasePlay index).server.hands_.length = s.hands_.length) ∧
    ((s.pleaseDiscard P index).fault = none →
      (∀ rest top, s.deck_ = rest ++ [top] →
          0 < (s.pleaseDiscard P index).server.mulligansRemaining_ →
          (s.pleaseDiscard P index).server.hands_[s.activePlayer_.toNat]? =
            some (hand.eraseIdx index.toNat ++ [top]) ∧
          (s.pleaseDiscard P index).server.deck_ = rest) ∧
      (s.deck_ = [] ∨ (s.pleaseDiscard P index).server.mulligansRemaining_ ≤ 0 →
          (s.pleaseDiscard P index).server.hands_[s.activePlayer_.toNat]? =
            some (hand.eraseIdx index.toNat) ∧
          (s.pleaseDiscard P index).server.deck_ = s.deck_) ∧
      (∀ p : Nat, p ≠ s.activePlayer_.toNat →
          (s.pleaseDiscard P index).server.hands_[p]? = s.hands_[p]?) ∧
      (s.pleaseDiscard P index).server.hands_.length = s.hands_.length) := by
  have hlt : s.activePlayer_.toNat < s.hands_.length := getElem?_lt_length hhand
  constructor
  · intro hacc
    obtain ⟨hand', card, hhand', -, hserver, -⟩ := s.pleasePlay_server index hacc
    rw [hhand] at hhand'
    cases hhand'
    rw [hserver]
    refine ⟨?_, ?_, ?_, by simp⟩
    · intro rest top hdeck hm
      simp only at hm
      simp [hdeck, hm, hlt]
    · rintro (hdeck | hm)
      · simp [hdeck, hlt]
      · simp only at hm
        have hm' := not_lt.mpr hm
        simp [hm', hlt]
    · intro p hp
      simp [List.getElem?_set_ne (Ne.symm hp)]
  · intro hacc
    obtain ⟨hand', card, hhand', -, hserver, -⟩ := s.pleaseDiscard_server P index hacc
    rw [hhand] at hhand'
    cases hhand'
    rw [hserver]
    refine ⟨?_, ?_, ?_, by simp⟩
    · intro rest top hdeck hm
      simp only at hm
      simp [hdeck, hm, hlt]
    · rintro (hdeck | hm)
      · simp [hdeck, hlt]
      · simp only at hm
        have hm' := not_lt.mpr hm
        simp [hm', hlt]
    · intro p hp
      simp [List.getElem?_set_ne (Ne.symm hp)]


/-- Witness for C5: a failed play with mulligans to spare and a discard both shift the hand
down and append the former top card of the deck. -/
theorem C5_hand_after_play_or_discard_witness :
    ((exampleRedTwo.pleasePlay 0).server.hands_[0]? =
        some [⟨.ORANGE, 1⟩, ⟨.YELLOW, 1⟩, ⟨.GREEN, 1⟩, ⟨.BLUE, 1⟩, ⟨.YELLOW, 3⟩] ∧
      (exampleRedTwo.pleasePlay 0).server.deck_ = [⟨.BLUE, 4⟩, ⟨.RED, 1⟩]) ∧
    ((exampleRedTwo.pleaseDiscard Params.default 1).server.hands_[0]? =
        some [⟨.RED, 2⟩, ⟨.YELLOW, 1⟩, ⟨.GREEN, 1⟩, ⟨.BLUE, 1⟩, ⟨.YELLOW, 3⟩] ∧
      (exampleRedTwo.pleaseDiscard Params.default 1).server.deck_ = [⟨.BLUE, 4⟩, ⟨.RED, 1⟩]) :=
  ⟨((C5_hand_after_play_or_discard Params.default exampleRedTwo 0
        [⟨.RED, 2⟩, ⟨.ORANGE, 1⟩, ⟨.YELLOW, 1⟩, ⟨.GREEN, 1⟩, ⟨.BLUE, 1⟩] (by decide)).1
      (by decide)).1 [⟨.BLUE, 4⟩, ⟨.RED, 1⟩] ⟨.YELLOW, 3⟩ (by decide) (by decide),
   ((C5_hand_after_play_or_discard Params.default exampleRedTwo 1
        [⟨.RED, 2⟩, ⟨.ORANGE, 1⟩, ⟨.YELLOW, 1⟩, ⟨.GREEN, 1⟩, ⟨.BLUE, 1⟩] (by decide)).2
      (by decide)).1 [⟨.BLUE, 4⟩, ⟨.RED, 1⟩] ⟨.YELLOW, 3⟩ (by decide) (by decide)⟩

/-- Counterexample to C5 as stated. In a game dealt from the standard deck, two failed plays
leave one mulligan. Player 0 then holds R1 R1 R1 R2 O1, the deck has 38 cards with an orange 1
on top, and the play of slot 3 (the red 2 on an empty red pile) is accepted. Afterwards the
hand is R1 R1 R1 O1: no card was appended, and the deck still has all its cards. -/
theorem C5_counterexample :
    Reachable Params.default 2 standardDeck (fun _ => 0) exampleLastMulligan ∧
    exampleLastMulligan.activePlayer_ = 0 ∧
    exampleLastMulligan.hands_[0]? =
      some [⟨.RED, 1⟩, ⟨.RED, 1⟩, ⟨.RED, 1⟩, ⟨.RED, 2⟩, ⟨.ORANGE, 1⟩] ∧
    exampleLastMulligan.deck_.length = 38 ∧
    exampleLastMulligan.deck_.getLast? = some ⟨.ORANGE, 1⟩ ∧
    (exampleLastMulligan.pleasePlay 3).fault = none ∧
    (exampleLastMulligan.pleasePlay 3).server.hands_[0]? =
      some [⟨.RED, 1⟩, ⟨.RED, 1⟩, ⟨.RED, 1⟩, ⟨.ORANGE, 1⟩] ∧
    (exampleLastMulligan.pleasePlay 3).server.hands_[0]? ≠
      some ([⟨.RED, 1⟩, ⟨.RED, 1⟩, ⟨.RED, 1⟩, ⟨.RED, 2⟩, ⟨.ORANGE, 1⟩].eraseIdx 3 ++
        [⟨.ORANGE, 1⟩]) ∧
    (exampleLastMulligan.pleasePlay 3).server.deck_ = exampleLastMulligan.deck_ := by
  exact ⟨exampleLastMulligan_reachable, by decide, by decide, by decide, by decide, by decide,
    by decide, by decide, by decide⟩

/-! ## Card indices of a hint -/

theorem and_two_pow_eq_zero_iff (m i : Nat) : m &&& 2 ^ i = 0 ↔ m.testBit i = false := by
  constructor
  · intro h
    by_contra hne
    have hb : m.testBit i = true := by simpa using hne
    have : (m &&& 2 ^ i).testBit i = true := by
      rw [Nat.testBit_and, hb, Nat.testBit_two_pow_self]
      rfl
    rw [h] at this
    simp at this
  · intro h
    apply Nat.eq_of_testBit_eq
    intro j
    rw [Nat.testBit_and, Nat.testBit_two_pow, Nat.zero_testBit]
    by_cases hij : i = j
    · subst hij
      simp [h]
    · simp [hij]

theorem CardIndices.add_mask_testBit (ci : CardIndices) (k j : Nat) (hci : ci.mask_ < 2 ^ 32) :
    (ci.add (k : Int)).mask_.testBit j =
      (ci.mask_.testBit j || (decide (j < 32) && decide (k = j))) := by
  simp only [CardIndices.add, Int.toNat_ofNat, Nat.testBit_mod_two_pow, Nat.testBit_or,
    Nat.one_shiftLeft, Nat.testBit_two_pow]
  by_cases hj : j < 32
  · simp [hj]
  · have : ci.mask_.testBit j = false := by
      apply Nat.testBit_lt_two_pow
      exact lt_of_lt_of_le hci (Nat.pow_le_pow_right (by norm_num) (by omega))
    simp [hj, this]

theorem CardIndices.add_mask_lt (ci : CardIndices) (i : Int) : (ci.add i).mask_ < 2 ^ 32 := by
  simp only [CardIndices.add]
  exact Nat.mod_lt _ (by norm_num)

/-- The loop that fills `card_indices`: the count grows by the number of cards passing the
test, and bit `j` (below 32) of the mask is set exactly for the slots that pass it. -/
theorem hintLoop_spec (hit : Card → Bool) (hand : List Card) (k : Nat) (ci : CardIndices)
    (hci : ci.mask_ < 2 ^ 32) :
    (hintLoop hit hand (k : Int) ci).mask_ < 2 ^ 32 ∧
    (hintLoop hit hand (k : Int) ci).count_ = ci.count_ + (hand.countP hit : Nat) ∧
    ∀ j : Nat, (hintLoop hit hand (k : Int) ci).mask_.testBit j =
      (ci.mask_.testBit j ||
        (decide (j < 32) && decide (k ≤ j) && ((hand[j - k]?).map hit).getD false)) := by
  induction hand generalizing k ci with
  | nil => exact ⟨by simpa [hintLoop] using hci, by simp [hintLoop], by simp [hintLoop]⟩
  | cons c rest ih =>
    have hk : ((k : Int) + 1) = ((k + 1 : Nat) : Int) := by push_cast; rfl
    simp only [hintLoop, hk]
    by_cases hc : hit c = true
    · simp only [hc, if_true]
      obtain ⟨h1, h2, h3⟩ := ih (k + 1) (ci.add k) (ci.add_mask_lt k)
      refine ⟨h1, ?_, ?_⟩
      · rw [h2]
        simp [CardIndices.add, List.countP_cons, hc]
        ring
      · intro j
        rw [h3, ci.add_mask_testBit k j hci]
        rcases Nat.lt_trichotomy j k with hjk | hjk | hjk
        · have h1 : ¬ k = j := by omega
          have h2 : ¬ k + 1 ≤ j := by omega
          have h3 : ¬ k ≤ j := by omega
          simp [h1, h2, h3]
        · subst hjk
          simp [hc]
        · have h1 : ¬ k = j := by omega
          have h2 : k + 1 ≤ j := by omega
          have h3 : k ≤ j := by omega
          have h4 : j - k = (j - (k + 1)) + 1 := by omega
          simp [h1, h2, h3, h4]
    · simp only [hc, Bool.false_eq_true, if_false]
      obtain ⟨h1, h2, h3⟩ := ih (k + 1) ci hci
      refine ⟨h1, ?_, ?_⟩
      · rw [h2]
        simp [List.countP_cons, hc]
      · intro j
        rw [h3]
        rcases Nat.lt_trichotomy j k with hjk | hjk | hjk
        · have h2 : ¬ k + 1 ≤ j := by omega
          have h3 : ¬ k ≤ j := by omega
          simp [h2, h3]
        · subst hjk
          simp [hc]
        · have h2 : k + 1 ≤ j := by omega
          have h3 : k ≤ j := by omega
          have h4 : j - k = (j - (k + 1)) + 1 := by omega
          simp [h2, h3, h4]


theorem CardIndices.contains_iff (ci : CardIndices) (i : Int) :
    ci.contains i = true ↔ 0 ≤ i ∧ i < 8 ∧ ci.mask_.testBit i.toNat = true := by
  unfold CardIndices.contains
  by_cases h : 0 ≤ i ∧ i < 8
  · have h32 : i.toNat < 32 := by omega
    rw [if_pos h, Nat.one_shiftLeft,
      Nat.mod_eq_of_lt (Nat.pow_lt_pow_right (by norm_num) h32)]
    have := and_two_pow_eq_zero_iff ci.mask_ i.toNat
    by_cases hb : ci.mask_.testBit i.toNat = true
    · have hne : ¬ ci.mask_ &&& 2 ^ i.toNat = 0 := by
        rw [this]; simp [hb]
      simp [hne, hb, h.1, h.2]
    · have he : ci.mask_ &&& 2 ^ i.toNat = 0 := by
        rw [this]; simpa using hb
      simp [he, hb]
  · rw [if_neg h]
    constructor
    · intro hf; cases hf
    · rintro ⟨h1, h2, -⟩; exact absurd ⟨h1, h2⟩ h

/-- The `CardIndices` computed for a hint: `contains` answers yes exactly for the slots below 8
whose card passes the test, and `size` is the number of cards passing it. -/
theorem hintLoop_contains (hit : Card → Bool) (hand : List Card) :
    (∀ i : Int, (hintLoop hit hand 0 CardIndices.new).contains i = true ↔
        0 ≤ i ∧ i < 8 ∧ ∃ card, hand[i.toNat]? = some card ∧ hit card = true) ∧
    (hintLoop hit hand 0 CardIndices.new).size = (hand.countP hit : Nat) := by
  obtain ⟨-, h2, h3⟩ := hintLoop_spec hit hand 0 CardIndices.new (by decide)
  simp only [Nat.cast_zero] at h2 h3
  constructor
  · intro i
    rw [CardIndices.contains_iff, h3]
    constructor
    · rintro ⟨h0, h8, hb⟩
      refine ⟨h0, h8, ?_⟩
      cases hc : hand[i.toNat]? with
      | none => simp [CardIndices.new, hc] at hb
      | some card =>
        refine ⟨card, rfl, ?_⟩
        have hb' : i.toNat < 32 ∧ hit card = true := by
          simpa [CardIndices.new, hc] using hb
        exact hb'.2
    · rintro ⟨h0, h8, card, hc, hhit⟩
      refine ⟨h0, h8, ?_⟩
      have : i.toNat < 32 := by omega
      simp [CardIndices.new, hc, hhit, this]
  · rw [CardIndices.size, h2]
    simp [CardIndices.new]

theorem notifyAll_bots (n : Int) (call : Callback) (s : Server) :
    (notifyAll n call s).map Event.bot = List.range n.toNat := by
  simp [notifyAll, Function.comp_def]

theorem notifyAll_call (n : Int) (call : Callback) (s : Server) :
    ∀ e ∈ notifyAll n call s, e.call = call := by
  intro e he
  simp only [notifyAll, List.mem_map] at he
  obtain ⟨i, -, rfl⟩ := he
  rfl

/-- C6 (as amended). For every accepted `pleaseGiveColorHint dst color` (resp.
`pleaseGiveValueHint dst value`) each of the players `0 .. n-1` receives the hint callback with
one and the same `CardIndices`, for which `contains(i)` holds exactly when `i` is one of the
slots 0..7 of the target's hand and the card in that slot has the hinted colour (resp. value),
and whose `size()` is the number of matching cards of the whole hand. -/
theorem C6_hint_card_indices (P : Params) (s : Server) (dst : Int) :
    (∀ color, (s.pleaseGiveColorHint P dst color).fault = none →
      ∃ card_indices : CardIndices,
        ((s.pleaseGiveColorHint P dst color).events.map Event.bot =
            List.range s.players_size ∧
          ∀ e ∈ (s.pleaseGiveColorHint P dst color).events,
            e.call = .pleaseObserveColorHint s.activePlayer_ dst color card_indices) ∧
        (∀ i : Int, card_indices.contains i = true ↔
          0 ≤ i ∧ i < 8 ∧ ∃ card, (s.handOf dst)[i.toNat]? = some card ∧ card.color = color) ∧
        card_indices.size = ((s.handOf dst).countP (fun card => card.color == color) : Nat)) ∧
    (∀ value, (s.pleaseGiveValueHint P dst value).fault = none →
      ∃ card_indices : CardIndices,
        ((s.pleaseGiveValueHint P dst value).events.map Event.bot =
            List.range s.players_size ∧
          ∀ e ∈ (s.pleaseGiveValueHint P dst value).events,
            e.call = .pleaseObserveValueHint s.activePlayer_ dst value card_indices) ∧
        (∀ i : Int, card_indices.contains i = true ↔
          0 ≤ i ∧ i < 8 ∧ ∃ card, (s.handOf dst)[i.toNat]? = some card ∧ card.value = value) ∧
        card_indices.size = ((s.handOf dst).countP (fun card => card.value == value) : Nat)) := by
  constructor
  · intro color hacc
    obtain ⟨-, hevents⟩ := s.pleaseGiveColorHint_server P dst color hacc
    obtain ⟨hc, hs⟩ := hintLoop_contains (fun card => card.color == color) (s.handOf dst)
    refine ⟨_, ⟨?_, ?_⟩, ?_, hs⟩
    · rw [hevents, notifyAll_bots]; simp
    · rw [hevents]; exact notifyAll_call _ _ _
    · intro i
      rw [hc i]
      simp
  · intro value hacc
    obtain ⟨-, hevents⟩ := s.pleaseGiveValueHint_server P dst value hacc
    obtain ⟨hc, hs⟩ := hintLoop_contains (fun card => card.value == value) (s.handOf dst)
    refine ⟨_, ⟨?_, ?_⟩, ?_, hs⟩
    · rw [hevents, notifyAll_bots]; simp
    · rw [hevents]; exact notifyAll_call _ _ _
    · intro i
      rw [hc i]
      simp


/-- Witness for C6: a RED hint to the hand R1 O1 R3 B2 R5 is accepted and every observer gets
card indices containing exactly 0, 2 and 4, of size 3. -/
theorem C6_hint_card_indices_witness :
    ∃ card_indices : CardIndices,
      (∀ e ∈ (exampleHintTarget.pleaseGiveColorHint Params.default 1 .RED).events,
        e.call = .pleaseObserveColorHint 0 1 .RED card_indices) ∧
      card_indices.contains 0 = true ∧ card_indices.contains 1 = false ∧
      card_indices.contains 2 = true ∧ card_indices.contains 3 = false ∧
      card_indices.contains 4 = true ∧ card_indices.size = 3 := by
  obtain ⟨ci, hev, hc, hs⟩ :=
    (C6_hint_card_indices Params.default exampleHintTarget 1).1 .RED (by decide)
  refine ⟨ci, hev.2, ?_, ?_, ?_, ?_, ?_, ?_⟩
  · exact (hc 0).2 ⟨by decide, by decide, ⟨.RED, 1⟩, by decide, rfl⟩
  · apply Bool.eq_false_iff.2
    intro h
    obtain ⟨-, -, card, h1, h2⟩ := (hc 1).1 h
    have h3 : (exampleHintTarget.handOf 1)[(1 : Int).toNat]? = some ⟨.ORANGE, 1⟩ := by decide
    rw [h3] at h1
    cases h1
    cases h2
  · exact (hc 2).2 ⟨by decide, by decide, ⟨.RED, 3⟩, by decide, rfl⟩
  · apply Bool.eq_false_iff.2
    intro h
    obtain ⟨-, -, card, h1, h2⟩ := (hc 3).1 h
    have h3 : (exampleHintTarget.handOf 1)[(3 : Int).toNat]? = some ⟨.BLUE, 2⟩ := by decide
    rw [h3] at h1
    cases h1
    cases h2
  · exact (hc 4).2 ⟨by decide, by decide, ⟨.RED, 5⟩, by decide, rfl⟩
  · rw [hs]
    decide

/-- Counterexample to C6 as stated. With `HAND_SIZE_OVERRIDE=9` player 1 is dealt nine cards,
the last of them (slot 8) an orange 4. The ORANGE hint of player 0 is accepted and both
observers receive card indices with mask 510 and count 8, for which `contains(8)` is false
although the card in slot 8 is orange. -/
theorem C6_counterexample :
    Reachable exampleParamsNine 2 standardDeck (fun _ => 0) exampleNineCards ∧
    (exampleNineCards.pleaseGiveColorHint exampleParamsNine 1 .ORANGE).fault = none ∧
    (exampleNineCards.handOf 1)[8]? = some ⟨.ORANGE, 4⟩ ∧
    (exampleNineCards.pleaseGiveColorHint exampleParamsNine 1 .ORANGE).events.map Event.call =
      [.pleaseObserveColorHint 0 1 .ORANGE ⟨510, 8⟩,
       .pleaseObserveColorHint 0 1 .ORANGE ⟨510, 8⟩] ∧
    CardIndices.contains ⟨510, 8⟩ 8 = false := by
  exact ⟨exampleNineCards_reachable, by decide, by decide, by decide, by decide⟩

/-! ## Rejected and accepted hints -/

/-- The mask of a hint is zero exactly when none of the first 32 slots passes the test. -/
theorem hintLoop_empty_iff (hit : Card → Bool) (hand : List Card) :
    (hintLoop hit hand 0 CardIndices.new).empty = true ↔
      ∀ j : Nat, j < 32 → ∀ card, hand[j]? = some card → hit card = false := by
  obtain ⟨-, -, h3⟩ := hintLoop_spec hit hand 0 CardIndices.new (by decide)
  simp only [Nat.cast_zero] at h3
  simp only [CardIndices.empty, beq_iff_eq]
  constructor
  · intro h0 j hj card hc
    have := h3 j
    rw [h0] at this
    simp [CardIndices.new, hj, hc] at this
    exact this
  · intro h
    apply Nat.eq_of_testBit_eq
    intro j
    rw [h3 j]
    by_cases hj : j < 32
    · cases hc : hand[j]? with
      | none => simp [CardIndices.new, hc]
      | some card => simp [CardIndices.new, hc, h j hj card hc]
    · simp [CardIndices.new, hj]

theorem hintLoop_empty_of_no_match (hit : Card → Bool) (hand : List Card)
    (h : ∀ card ∈ hand, hit card = false) :
    (hintLoop hit hand 0 CardIndices.new).empty = true := by
  rw [hintLoop_empty_iff]
  intro j _ card hc
  exact h card (List.getElem?_mem hc)

theorem hintLoop_not_empty_of_match (hit : Card → Bool) (hand : List Card)
    (hlen : hand.length ≤ 32) (card : Card) (hmem : card ∈ hand) (hhit : hit card = true) :
    (hintLoop hit hand 0 CardIndices.new).empty = false := by
  apply Bool.eq_false_iff.2
  intro he
  rw [hintLoop_empty_iff] at he
  obtain ⟨j, hj, hget⟩ := List.getElem_of_mem hmem
  have := he j (by omega) card (by rw [List.getElem?_eq_getElem hj, hget])
  rw [hhit] at this
  cases this

/-- A colour hint either completes or throws `ServerError` before anything happened, provided
the two C assertions at its head hold. -/
theorem Server.pleaseGiveColorHint_cases (P : Params) (s : Server) (dst : Int) (color : Color)
    (hactive : 0 ≤ s.activePlayer_ ∧ s.activePlayer_ < s.hands_.length)
    (hplayers : s.players_size = s.hands_.length) :
    (s.pleaseGiveColorHint P dst color).fault = none ∨
    ((∃ what, (s.pleaseGiveColorHint P dst color).fault = some (.ServerError what)) ∧
      (s.pleaseGiveColorHint P dst color).events = [] ∧
      (s.pleaseGiveColorHint P dst color).server = s) := by
  unfold Server.pleaseGiveColorHint
  simp only [hactive, hplayers, and_self, not_true_eq_false, if_false]
  split_ifs <;> simp [Outcome.stop]

/-- A value hint either completes or throws `ServerError` before anything happened, provided
the two C assertions at its head hold. -/
theorem Server.pleaseGiveValueHint_cases (P : Params) (s : Server) (dst : Int) (value : Int)
    (hactive : 0 ≤ s.activePlayer_ ∧ s.activePlayer_ < s.hands_.length)
    (hplayers : s.players_size = s.hands_.length) :
    (s.pleaseGiveValueHint P dst value).fault = none ∨
    ((∃ what, (s.pleaseGiveValueHint P dst value).fault = some (.ServerError what)) ∧
      (s.pleaseGiveValueHint P dst value).events = [] ∧
      (s.pleaseGiveValueHint P dst value).server = s) := by
  unfold Server.pleaseGiveValueHint
  simp only [hactive, hplayers, and_self, not_true_eq_false, if_false]
  split_ifs <;> simp [Outcome.stop]

theorem Server.pleaseGiveColorHint_accepted (P : Params) (s : Server) (dst : Int)
    (color : Color)
    (h1 : 0 ≤ s.activePlayer_ ∧ s.activePlayer_ < s.hands_.length)
    (h2 : s.players_size = s.hands_.length) (h4 : s.movesFromActivePlayer_ = 0)
    (h5 : 0 ≤ dst ∧ dst < s.hands_.length) (h6 : color ≠ .INVALID_COLOR)
    (h7 : s.hintStonesRemaining_ ≠ 0) (h8 : dst ≠ s.activePlayer_)
    (h9 : P.ALLOW_EMPTY_HINTS = true ∨
      (hintLoop (fun card => card.color == color) (s.handOf dst) 0
        CardIndices.new).empty = false) :
    (s.pleaseGiveColorHint P dst color).fault = none := by
  have h6' : Color.RED.toInt ≤ color.toInt ∧ color.toInt ≤ Color.BLUE.toInt := by
    cases color <;> simp [Color.toInt] at h6 ⊢
  rcases h9 with h9 | h9 <;>
  simp [Server.pleaseGiveColorHint, h1, h2, h4, h5, h6', h7, h8, h9, Outcome.stop]

theorem Server.pleaseGiveValueHint_accepted (P : Params) (s : Server) (dst : Int)
    (value : Int)
    (h1 : 0 ≤ s.activePlayer_ ∧ s.activePlayer_ < s.hands_.length)
    (h2 : s.players_size = s.hands_.length) (h4 : s.movesFromActivePlayer_ = 0)
    (h5 : 0 ≤ dst ∧ dst < s.hands_.length) (h6 : 1 ≤ value ∧ value ≤ 5)
    (h7 : s.hintStonesRemaining_ ≠ 0) (h8 : dst ≠ s.activePlayer_)
    (h9 : P.ALLOW_EMPTY_HINTS = true ∨
      (hintLoop (fun card => card.value == value) (s.handOf dst) 0
        CardIndices.new).empty = false) :
    (s.pleaseGiveValueHint P dst value).fault = none := by
  rcases h9 with h9 | h9 <;>
  simp [Server.pleaseGiveValueHint, h1, h2, h4, h5, h6, h7, h8, h9, Outcome.stop]


/-- C7 (hint errors and accepted hints). In a state in which the two C assertions at the head
of the hint mutators hold (the active player is a position of `hands_`, and there are as many
bots as hands): `pleaseGiveColorHint` and `pleaseGiveValueHint` throw a `ServerError`, notify
no observer and leave the server unchanged whenever no hint stone remains, or the target is
the active player, or (build without `HANABI_ALLOW_EMPTY_HINTS`) no card of the target's hand
has the named colour or value; with no hint stone remaining `discardingIsAllowed()` is true.
When the active bot has not moved yet, the target is another player, the colour is one of
`RED..BLUE` (the value one of 1..5), a hint stone remains and some card of the target's hand
(of at most 32 cards, the width of the mask) has the named attribute, the hint is accepted,
`hintStonesRemaining` drops by exactly one and piles, discards, mulligans, hands and deck are
unchanged. -/
theorem C7_hint_errors_and_effect (P : Params) (s : Server) (dst : Int)
    (hactive : 0 ≤ s.activePlayer_ ∧ s.activePlayer_ < s.hands_.length)
    (hplayers : s.players_size = s.hands_.length) :
    (∀ color : Color,
      (s.hintStonesRemaining_ = 0 ∨ dst = s.activePlayer_ ∨
          (P.ALLOW_EMPTY_HINTS = false ∧ ∀ card ∈ s.handOf dst, card.color ≠ color) →
        (∃ what, (s.pleaseGiveColorHint P dst color).fault = some (.ServerError what)) ∧
        (s.pleaseGiveColorHint P dst color).events = [] ∧
        (s.pleaseGiveColorHint P dst color).server = s) ∧
      (s.movesFromActivePlayer_ = 0 → 0 ≤ dst ∧ dst < s.hands_.length →
          color ≠ .INVALID_COLOR → s.hintStonesRemaining_ ≠ 0 → dst ≠ s.activePlayer_ →
          (s.handOf dst).length ≤ 32 → (∃ card ∈ s.handOf dst, card.color = color) →
        (s.pleaseGiveColorHint P dst color).fault = none ∧
        (s.pleaseGiveColorHint P dst color).server.hintStonesRemaining_ =
          s.hintStonesRemaining_ - 1 ∧
        (s.pleaseGiveColorHint P dst color).server.piles_ = s.piles_ ∧
        (s.pleaseGiveColorHint P dst color).server.discards_ = s.discards_ ∧
        (s.pleaseGiveColorHint P dst color).server.mulligansRemaining_ =
          s.mulligansRemaining_ ∧
        (s.pleaseGiveColorHint P dst color).server.hands_ = s.hands_ ∧
        (s.pleaseGiveColorHint P dst color).server.deck_ = s.deck_)) ∧
    (∀ value : Int,
      (s.hintStonesRemaining_ = 0 ∨ dst = s.activePlayer_ ∨
          (P.ALLOW_EMPTY_HINTS = false ∧ ∀ card ∈ s.handOf dst, card.value ≠ value) →
        (∃ what, (s.pleaseGiveValueHint P dst value).fault = some (.ServerError what)) ∧
        (s.pleaseGiveValueHint P dst value).events = [] ∧
        (s.pleaseGiveValueHint P dst value).server = s) ∧
      (s.movesFromActivePlayer_ = 0 → 0 ≤ dst ∧ dst < s.hands_.length →
          1 ≤ value ∧ value ≤ 5 → s.hintStonesRemaining_ ≠ 0 → dst ≠ s.activePlayer_ →
          (s.handOf dst).length ≤ 32 → (∃ card ∈ s.handOf dst, card.value = value) →
        (s.pleaseGiveValueHint P dst value).fault = none ∧
        (s.pleaseGiveValueHint P dst value).server.hintStonesRemaining_ =
          s.hintStonesRemaining_ - 1 ∧
        (s.pleaseGiveValueHint P dst value).server.piles_ = s.piles_ ∧
        (s.pleaseGiveValueHint P dst value).server.discards_ = s.discards_ ∧
        (s.pleaseGiveValueHint P dst value).server.mulligansRemaining_ =
          s.mulligansRemaining_ ∧
        (s.pleaseGiveValueHint P dst value).server.hands_ = s.hands_ ∧
        (s.pleaseGiveValueHint P dst value).server.deck_ = s.deck_)) ∧
    (s.hintStonesRemaining_ = 0 → s.discardingIsAllowed P = true) := by
  refine ⟨?_, ?_, ?_⟩
  · intro color
    constructor
    · intro hbad
      rcases s.pleaseGiveColorHint_cases P dst color hactive hplayers with hacc | herr
      · exfalso
        obtain ⟨-, -, -, -, -, h7, h8, h9⟩ := s.pleaseGiveColorHint_guards P dst color hacc
        rcases hbad with h | h | ⟨hE, hno⟩
        · exact h7 h
        · exact h8 h
        · have := hintLoop_empty_of_no_match (fun card => card.color == color) (s.handOf dst)
            (by intro card hm; simpa using hno card hm)
          rcases h9 with h9 | h9
          · rw [hE] at h9; cases h9
          · rw [this] at h9; cases h9
      · exact herr
    · intro h4 h5 h6 h7 h8 hlen ⟨card, hmem, hcol⟩
      have hacc := s.pleaseGiveColorHint_accepted P dst color hactive hplayers h4 h5 h6 h7 h8
        (Or.inr (hintLoop_not_empty_of_match _ _ hlen card hmem (by simpa using hcol)))
      refine ⟨hacc, ?_⟩
      rw [(s.pleaseGiveColorHint_server P dst color hacc).1]
      simp
  · intro value
    constructor
    · intro hbad
      rcases s.pleaseGiveValueHint_cases P dst value hactive hplayers with hacc | herr
      · exfalso
        obtain ⟨-, -, -, -, -, h7, h8, h9⟩ := s.pleaseGiveValueHint_guards P dst value hacc
        rcases hbad with h | h | ⟨hE, hno⟩
        · exact h7 h
        · exact h8 h
        · have := hintLoop_empty_of_no_match (fun card => card.value == value) (s.handOf dst)
            (by intro card hm; simpa using hno card hm)
          rcases h9 with h9 | h9
          · rw [hE] at h9; cases h9
          · rw [this] at h9; cases h9
      · exact herr
    · intro h4 h5 h6 h7 h8 hlen ⟨card, hmem, hval⟩
      have hacc := s.pleaseGiveValueHint_accepted P dst value hactive hplayers h4 h5 h6 h7 h8
        (Or.inr (hintLoop_not_empty_of_match _ _ hlen card hmem (by simpa using hval)))
      refine ⟨hacc, ?_⟩
      rw [(s.pleaseGiveValueHint_server P dst value hacc).1]
      simp
  · intro h
    simp [Server.discardingIsAllowed, h, NUMHINTS]


/-- Witness for C7: with no hint stone left a colour hint throws `ServerError` and discarding
is allowed; with all stones available, a RED hint to the hand R1 O1 R3 B2 R5 and a hint of
the value 2 are accepted and leave 7 stones. -/
theorem C7_hint_errors_and_effect_witness :
    (∃ what, (exampleRedFive.pleaseGiveColorHint Params.default 1 .ORANGE).fault =
      some (.ServerError what)) ∧
    exampleRedFive.discardingIsAllowed Params.default = true ∧
    (exampleHintTarget.pleaseGiveColorHint Params.default 1 .RED).fault = none ∧
    (exampleHintTarget.pleaseGiveColorHint Params.default 1 .RED).server.hintStonesRemaining_
      = 7 ∧
    (exampleHintTarget.pleaseGiveValueHint Params.default 1 2).fault = none ∧
    (exampleHintTarget.pleaseGiveValueHint Params.default 1 2).server.hintStonesRemaining_
      = 7 := by
  have h1 := C7_hint_errors_and_effect Params.default exampleRedFive 1 (by decide) (by decide)
  have h2 := C7_hint_errors_and_effect Params.default exampleHintTarget 1 (by decide)
    (by decide)
  have h3 := (h2.1 .RED).2 (by decide) (by decide) (by decide) (by decide) (by decide)
    (by decide) ⟨⟨.RED, 1⟩, by decide, rfl⟩
  have h4 := (h2.2.1 2).2 (by decide) (by decide) (by decide) (by decide) (by decide)
    (by decide) ⟨⟨.BLUE, 2⟩, by decide, rfl⟩
  exact ⟨((h1.1 .ORANGE).1 (Or.inl (by decide))).1, h1.2.2 (by decide), h3.1,
    h3.2.1.trans (by decide), h4.1, h4.2.1.trans (by decide)⟩

/-! ## Discarding -/

/-- A discard either completes or throws `ServerError` before anything happened, provided the
C assertion at its head holds and the active player has a hand. -/
theorem Server.pleaseDiscard_strict_full (P : Params) (s : Server) (index : Int)
    (hactive : 0 ≤ s.activePlayer_ ∧ s.activePlayer_ < s.numPlayers_)
    (hhands : s.numPlayers_ = s.hands_.length)
    (hnot : s.discardingIsAllowed P = false) :
    (∃ what, (s.pleaseDiscard P index).fault = some (.ServerError what)) ∧
      (s.pleaseDiscard P index).events = [] ∧ (s.pleaseDiscard P index).server = s := by
  have hlt : s.activePlayer_.toNat < s.hands_.length := by omega
  unfold Server.pleaseDiscard
  simp only [hactive, and_self, not_true_eq_false, if_false, List.getElem?_eq_getElem hlt, hnot]
  split_ifs <;> first | contradiction | simp [Outcome.stop]

/-- C8 (discarding with all hint stones, and the effect of a discard). In the build without
`HANABI_ALLOW_DISCARDING_EVEN_WITH_ALL_HINT_STONES`, in a state with an active player who has
a hand and with at most 8 hint stones: if `hintStonesRemaining` is 8, `pleaseDiscard index`
throws a `ServerError`, notifies no observer and leaves the server unchanged; and whenever
`pleaseDiscard index` is accepted, the card at `index` is appended at the end of the
discards, `hintStonesRemaining` grows by exactly one, and piles and mulligans are
unchanged. -/
theorem C8_discard_guard_and_effect (P : Params) (s : Server) (index : Int)
    (hstrict : P.ALLOW_DISCARDING_EVEN_WITH_ALL_HINT_STONES = false)
    (hactive : 0 ≤ s.activePlayer_ ∧ s.activePlayer_ < s.numPlayers_)
    (hhands : s.numPlayers_ = s.hands_.length)
    (hstones : s.hintStonesRemaining_ ≤ 8) :
    (s.hintStonesRemaining_ = 8 →
      (∃ what, (s.pleaseDiscard P index).fault = some (.ServerError what)) ∧
      (s.pleaseDiscard P index).events = [] ∧ (s.pleaseDiscard P index).server = s) ∧
    ((s.pleaseDiscard P index).fault = none →
      ∃ hand card, s.hands_[s.activePlayer_.toNat]? = some hand ∧
        hand[index.toNat]? = some card ∧
        (s.pleaseDiscard P index).server.discards_ = s.discards_ ++ [card] ∧
        (s.pleaseDiscard P index).server.hintStonesRemaining_ = s.hintStonesRemaining_ + 1 ∧
        (s.pleaseDiscard P index).server.piles_ = s.piles_ ∧
        (s.pleaseDiscard P index).server.mulligansRemaining_ = s.mulligansRemaining_) := by
  constructor
  · intro h8
    apply s.pleaseDiscard_strict_full P index hactive hhands
    simp [Server.discardingIsAllowed, hstrict, h8, NUMHINTS]
  · intro hacc
    obtain ⟨-, -, -, -, -, -, -, -, -, h7⟩ := s.pleaseDiscard_guards P index hacc
    obtain ⟨hand, card, hhand, hcard, hserver, -⟩ := s.pleaseDiscard_server P index hacc
    refine ⟨hand, card, hhand, hcard, ?_⟩
    have hne : s.hintStonesRemaining_ ≠ 8 := by
      simpa [Server.discardingIsAllowed, hstrict, NUMHINTS] using h7
    have hlt : s.hintStonesRemaining_ < 8 := by omega
    rw [hserver]
    simp [hlt]

/-- Witness for C8: with all 8 hint stones a discard throws `ServerError`; with 7 stones the
discard of slot 1 (an orange 1) is accepted, the discards end in that card and 8 stones
remain. -/
theorem C8_discard_guard_and_effect_witness :
    (∃ what, (exampleHintTarget.pleaseDiscard Params.default 0).fault =
      some (.ServerError what)) ∧
    (exampleRedTwo.pleaseDiscard Params.default 1).fault = none ∧
    (exampleRedTwo.pleaseDiscard Params.default 1).server.discards_ =
      [⟨.GREEN, 4⟩, ⟨.ORANGE, 1⟩] ∧
    (exampleRedTwo.pleaseDiscard Params.default 1).server.hintStonesRemaining_ = 8 := by
  have h1 := C8_discard_guard_and_effect Params.default exampleHintTarget 0 rfl (by decide)
    (by decide) (by decide)
  have h2 := C8_discard_guard_and_effect Params.default exampleRedTwo 1 rfl (by decide)
    (by decide) (by decide)
  obtain ⟨hand, card, -, -, -, hh, -, -⟩ := h2.2 (by decide)
  exact ⟨(h1.1 (by decide)).1, by decide, by decide, hh.trans (by decide)⟩

/-! ## Dealing -/

theorem Server.draw_eq (s : Server) (rest : List Card) (top : Card)
    (h : s.deck_ = rest ++ [top]) : s.draw_ = .ok (top, { s with deck_ := rest }) := by
  simp [Server.draw_, h]

theorem Server.draw_nil (s : Server) (h : s.deck_ = []) :
    s.draw_ = .error (.AssertionFailure "!deck_.empty()") := by
  simp [Server.draw_, h]

/-- Dealing one hand touches only `hands_` and `deck_` and keeps the number of hands. -/
theorem Server.dealHand_frame (i k : Nat) (s s' : Server) (h : Server.dealHand i k s = .ok s') :
    s' = { s with hands_ := s'.hands_, deck_ := s'.deck_ } ∧
    s'.hands_.length = s.hands_.length := by
  induction k generalizing s with
  | zero =>
    simp only [Server.dealHand, Except.ok.injEq] at h
    subst h
    exact ⟨rfl, rfl⟩
  | succ k ih =>
    rcases List.eq_nil_or_concat s.deck_ with hd | ⟨rest, top, hd⟩
    · simp [Server.dealHand, s.draw_nil hd] at h
    · rw [List.concat_eq_append] at hd
      simp only [Server.dealHand, s.draw_eq rest top hd] at h
      obtain ⟨h1, h2⟩ := ih _ h
      constructor
      · rw [h1]
        rfl
      · rw [h2]
        simp [Server.pushToHand]

/-- Dealing all hands touches only `hands_` and `deck_` and keeps the number of hands. -/
theorem Server.dealHands_frame (n : Nat) (is : List Nat) (s s' : Server)
    (h : Server.dealHands n is s = .ok s') :
    s' = { s with hands_ := s'.hands_, deck_ := s'.deck_ } ∧
    s'.hands_.length = s.hands_.length := by
  induction is generalizing s with
  | nil =>
    simp only [Server.dealHands, Except.ok.injEq] at h
    subst h
    exact ⟨rfl, rfl⟩
  | cons i rest ih =>
    simp only [Server.dealHands] at h
    cases h1 : Server.dealHand i n { s with hands_ := s.hands_.set i [] } with
    | error f => simp [h1] at h
    | ok s1 =>
      simp only [h1] at h
      obtain ⟨f1, l1⟩ := Server.dealHand_frame i n _ s1 h1
      obtain ⟨f2, l2⟩ := ih s1 h
      constructor
      · rw [f2, f1]
      · rw [l2, l1]
        simp

/-- The shape of the state that `runGame` hands to `runToCompletion`. -/
theorem Server.runGameSetup_shape (P : Params) (s0 s : Server) (players : Nat)
    (stackedDeck : List Card) (g : Nat → Nat)
    (h : Server.runGameSetup P s0 players stackedDeck g = .ok s) :
    s.players_size = players ∧ s.numPlayers_ = players ∧ s.hands_.length = players ∧
    s.piles_ = (fun color => { color := color, size_ := 0 }) ∧ s.discards_ = [] ∧
    s.mulligansRemaining_ = 3 ∧ s.hintStonesRemaining_ = 8 ∧ s.finalCountdown_ = 0 ∧
    s.activePlayer_ = 0 ∧ s.movesFromActivePlayer_ = -1 ∧ s.activeCardIsObservable_ = false := by
  unfold Server.runGameSetup at h
  simp only at h
  split at h
  · cases h
  · rename_i s3 h3
    obtain ⟨f, l⟩ := Server.dealHands_frame _ _ _ s3 h3
    simp only [Except.ok.injEq] at h
    subst h
    simp only [List.length_append, List.length_take, List.length_replicate] at l
    refine ⟨?_, ?_, ?_, ?_, ?_, ?_, ?_, ?_, rfl, rfl, rfl⟩
    · rw [f]
    · rw [f]
    · simp only [l]; omega
    · rw [f]
    · rw [f]
    · rw [f]; rfl
    · rw [f]; rfl
    · rw [f]

/-- The invariant holds in the state that `runGame` hands to `runToCompletion`. -/
theorem Server.runGameSetup_inv (P : Params) (s0 s : Server) (players : Nat)
    (stackedDeck : List Card) (g : Nat → Nat)
    (h : Server.runGameSetup P s0 players stackedDeck g = .ok s) : s.Inv players := by
  obtain ⟨h1, h2, h3, h4, -, h6, h7, h8, h9, h10, -⟩ :=
    Server.runGameSetup_shape P s0 s players stackedDeck g h
  refine ⟨h2, h1, h3, by rw [h7]; decide, by rw [h6]; decide, ?_, ?_, Or.inl h10, ?_⟩
  · intro color
    rw [h4]
    exact ⟨le_refl _, by norm_num⟩
  · rw [h8, h2]
    refine ⟨le_refl _, by omega, fun hne => absurd rfl hne⟩
  · rw [h9]
    refine ⟨le_refl _, ?_⟩
    rcases Nat.eq_zero_or_pos players with hp | hp
    · exact Or.inr ⟨hp, rfl⟩
    · left
      exact_mod_cast hp


/-! ## The invariant along a game -/

theorem Server.gameOver_false (P : Params) (s : Server) (h : s.gameOver P = .ok false) :
    ¬ (s.deck_ = [] ∧ s.finalCountdown_ = s.numPlayers_ + 1) ∧ s.mulligansRemaining_ ≠ 0 := by
  unfold Server.gameOver at h
  by_cases h1 : s.deck_ = [] ∧ s.finalCountdown_ = s.numPlayers_ + 1
  · rw [if_pos h1] at h
    cases h
  · by_cases h2 : s.mulligansRemaining_ = 0
    · rw [if_neg h1, if_pos h2] at h
      cases h
    · exact ⟨h1, h2⟩

theorem Server.pleasePlay_playAccepted (s : Server) (index : Int)
    (h : (s.pleasePlay index).fault = none) : ∃ hand card, s.playAccepted index hand card := by
  obtain ⟨hand, card, hhand, hcard, h5, h5', h1, h1', h2, h4, h6⟩ := s.pleasePlay_guards index h
  refine ⟨hand, card, hhand, hcard, h5, ⟨h1, h1'⟩, h2, h4, h6, ?_⟩
  by_cases hp : card.value = (s.piles_ card.color).size_ + 1
  · rw [if_pos hp]
    by_contra hinc
    simp [Server.pleasePlay, h1, h1', h2, h4, hhand, h5, h5', hcard, h6, Outcome.stop,
      Pile.nextValueIs, hp, Pile.increment_, hinc] at h
  · rw [if_neg hp]
    by_contra hm1
    have hm1' : ¬ 0 ≤ s.mulligansRemaining_ - 1 := by omega
    simp [Server.pleasePlay, h1, h1', h2, h4, hhand, h5, h5', hcard, h6, Outcome.stop,
      Pile.nextValueIs, hp, Server.loseMulligan_, hm1'] at h

theorem Server.Inv.beginTurn (P : Params) (players : Nat) (s : Server) (hs : s.Inv players)
    (hover : s.gameOver P = .ok false) (h : s.beginTurn.fault = none) :
    s.beginTurn.server.Inv players := by
  have hact : 0 ≤ s.activePlayer_ ∧ s.activePlayer_ < s.players_size := by
    by_contra hn
    simp [Server.beginTurn, hn, Outcome.stop] at h
  have hserver : s.beginTurn.server =
      { s with observingPlayer_ := s.activePlayer_, movesFromActivePlayer_ := 0 } := by
    simp [Server.beginTurn, hact, Outcome.stop]
  obtain ⟨-, hm⟩ := s.gameOver_false P hover
  rw [hserver]
  have hps := hs.playersSize
  exact ⟨hs.numPlayers, hs.playersSize, hs.handsLength, hs.hint, hs.mulligans, hs.piles,
    hs.countdown, Or.inr ⟨Or.inl ⟨rfl, by have := hs.mulligans; simp only; omega⟩,
      by simp only; omega⟩, hs.active⟩

theorem Server.Inv.pleasePlay (players : Nat) (s : Server) (index : Int) (hs : s.Inv players)
    (h : (s.pleasePlay index).fault = none) : (s.pleasePlay index).server.Inv players := by
  obtain ⟨hand, card, hacc⟩ := s.pleasePlay_playAccepted index h
  obtain ⟨hhand, hcard, h5, h1, h2, h4, h6, h7⟩ := hacc
  obtain ⟨hand', card', hhand', hcard', hserver, -⟩ := s.pleasePlay_server index h
  rw [hhand] at hhand'; cases hhand'
  rw [hcard] at hcard'; cases hcard'
  have hh := hs.hint
  have hm := hs.mulligans
  have hc := hs.countdown
  have hl := hs.handsLength
  rw [hserver]
  refine ⟨hs.numPlayers, hs.playersSize, by simpa using hs.handsLength, ?_, ?_, ?_, ?_,
    Or.inr ⟨Or.inr rfl, by simp only; omega⟩, hs.active⟩
  · simp only
    split_ifs <;> omega
  · simp only
    split_ifs with hp
    · exact hm
    · rw [if_neg hp] at h7
      omega
  · intro color
    simp only
    split_ifs with hp
    · rw [if_pos hp] at h7
      by_cases hcol : color = card.color
      · subst hcol
        simp only [Function.update_same]
        omega
      · rw [Function.update_noteq hcol]
        exact hs.piles color
    · exact hs.piles color
  · simp only
    refine ⟨hc.1, hc.2.1, ?_⟩
    intro hne
    have := hc.2.2 hne
    split_ifs <;> simp [this]


theorem Server.Inv.pleaseDiscard (P : Params) (players : Nat) (s : Server) (index : Int)
    (hs : s.Inv players) (h : (s.pleaseDiscard P index).fault = none) :
    (s.pleaseDiscard P index).server.Inv players := by
  obtain ⟨-, -, -, -, -, -, -, h1', -, -⟩ := s.pleaseDiscard_guards P index h
  obtain ⟨hand, card, hhand, hcard, hserver, -⟩ := s.pleaseDiscard_server P index h
  have hh := hs.hint
  have hc := hs.countdown
  have hn := hs.numPlayers
  rw [hserver]
  refine ⟨hs.numPlayers, hs.playersSize, by simpa using hs.handsLength, ?_, hs.mulligans,
    hs.piles, ?_, Or.inr ⟨Or.inr rfl, by simp only; omega⟩, hs.active⟩
  · simp only
    split_ifs <;> omega
  · simp only
    refine ⟨hc.1, hc.2.1, ?_⟩
    intro hne
    have := hc.2.2 hne
    split_ifs <;> simp [this]

theorem Server.Inv.pleaseGiveColorHint (P : Params) (players : Nat) (s : Server) (dst : Int)
    (color : Color) (hs : s.Inv players)
    (h : (s.pleaseGiveColorHint P dst color).fault = none) :
    (s.pleaseGiveColorHint P dst color).server.Inv players := by
  obtain ⟨h1, -, -, -, -, h7, -, -⟩ := s.pleaseGiveColorHint_guards P dst color h
  have hh := hs.hint
  have hl := hs.handsLength
  rw [(s.pleaseGiveColorHint_server P dst color h).1]
  exact ⟨hs.numPlayers, hs.playersSize, hs.handsLength, by simp only; omega, hs.mulligans,
    hs.piles, hs.countdown, Or.inr ⟨Or.inr rfl, by simp only; omega⟩, hs.active⟩

theorem Server.Inv.pleaseGiveValueHint (P : Params) (players : Nat) (s : Server) (dst : Int)
    (value : Int) (hs : s.Inv players)
    (h : (s.pleaseGiveValueHint P dst value).fault = none) :
    (s.pleaseGiveValueHint P dst value).server.Inv players := by
  obtain ⟨h1, -, -, -, -, h7, -, -⟩ := s.pleaseGiveValueHint_guards P dst value h
  have hh := hs.hint
  have hl := hs.handsLength
  rw [(s.pleaseGiveValueHint_server P dst value h).1]
  exact ⟨hs.numPlayers, hs.playersSize, hs.handsLength, by simp only; omega, hs.mulligans,
    hs.piles, hs.countdown, Or.inr ⟨Or.inr rfl, by simp only; omega⟩, hs.active⟩

/-- What a completed second half of a turn leaves behind. -/
theorem Server.endTurn_server (s : Server) (h : s.endTurn.fault = none) :
    s.movesFromActivePlayer_ = 1 ∧
    (0 ≤ s.finalCountdown_ ∧ s.finalCountdown_ ≤ s.numPlayers_) ∧
    s.endTurn.server =
      { s with
        movesFromActivePlayer_ := -1,
        observingPlayer_ := if 0 < s.numPlayers_ then s.numPlayers_ - 1 else s.observingPlayer_,
        activePlayer_ := (s.activePlayer_ + 1).tmod s.numPlayers_,
        finalCountdown_ := if s.deck_ = [] then s.finalCountdown_ + 1 else s.finalCountdown_ } ∧
    s.endTurn.events = notifyAll s.numPlayers_ .pleaseObserveAfterMove
      { s with movesFromActivePlayer_ := -1 } := by
  by_cases h1 : s.movesFromActivePlayer_ = 1
  swap
  · by_cases h0 : s.movesFromActivePlayer_ = 0
    · simp [Server.endTurn, h0, Outcome.stop] at h
    · simp [Server.endTurn, h0, h1, Outcome.stop] at h
  by_cases h2 : 0 ≤ s.finalCountdown_ ∧ s.finalCountdown_ ≤ s.numPlayers_
  swap
  · simp [Server.endTurn, h1, h2, Outcome.stop] at h
  refine ⟨h1, h2, ?_, ?_⟩
  · by_cases hd : s.deck_ = [] <;> simp [Server.endTurn, h1, h2, hd, Outcome.stop]
  · simp [Server.endTurn, h1, h2, Outcome.stop]

theorem Server.Inv.endTurn (P : Params) (players : Nat) (s : Server) (hs : s.Inv players)
    (hover : s.gameOver P = .ok false) (h : s.endTurn.fault = none) :
    s.endTurn.server.Inv players := by
  obtain ⟨h1, h2, hserver, -⟩ := s.endTurn_server h
  obtain ⟨hfc, -⟩ := s.gameOver_false P hover
  have hc := hs.countdown
  have hn := hs.numPlayers
  have ha := hs.active
  have hlt : s.activePlayer_ < players := by
    rcases hs.moves with hm | ⟨-, hm⟩
    · omega
    · exact hm
  have hpos : (0 : Int) < s.numPlayers_ := by omega
  rw [hserver]
  refine ⟨hs.numPlayers, hs.playersSize, hs.handsLength, hs.hint, hs.mulligans, hs.piles, ?_,
    Or.inl rfl, ?_⟩
  · simp only
    by_cases hd : s.deck_ = []
    · rw [if_pos hd]
      refine ⟨by omega, ?_, fun _ => hd⟩
      have : s.finalCountdown_ ≠ s.numPlayers_ + 1 := fun hEq => hfc ⟨hd, hEq⟩
      omega
    · rw [if_neg hd]
      exact hc
  · simp only
    have h0 : 0 ≤ s.activePlayer_ + 1 := by omega
    refine ⟨Int.tmod_nonneg _ h0, Or.inl ?_⟩
    have := Int.tmod_lt_of_pos (s.activePlayer_ + 1) hpos
    omega

/-- Every state of a game satisfies the invariant. -/
theorem Reachable.inv {P : Params} {players : Nat} {stackedDeck : List Card} {g : Nat → Nat}
    {s : Server} (h : Reachable P players stackedDeck g s) : s.Inv players := by
  induction h with
  | setup s0 s h => exact Server.runGameSetup_inv P s0 s players stackedDeck g h
  | beginTurn s _ _ hover h ih => exact Server.Inv.beginTurn P players s ih hover h
  | pleasePlay s index _ h ih => exact Server.Inv.pleasePlay players s index ih h
  | pleaseDiscard s index _ h ih => exact Server.Inv.pleaseDiscard P players s index ih h
  | pleaseGiveColorHint s dst color _ h ih =>
    exact Server.Inv.pleaseGiveColorHint P players s dst color ih h
  | pleaseGiveValueHint s dst value _ h ih =>
    exact Server.Inv.pleaseGiveValueHint P players s dst value ih h
  | endTurn s _ hover h ih => exact Server.Inv.endTurn P players s ih hover h

/-! ## Stones -/

/-- C2 (stone bounds). In every state of a game run by `runGame` in which each turn's bot
makes one accepted move, `0 <= hintStonesRemaining <= 8` and `0 <= mulligansRemaining <= 3`. -/
theorem C2_stone_bounds (P : Params) (players : Nat) (stackedDeck : List Card) (g : Nat → Nat)
    (s : Server) (h : Reachable P players stackedDeck g s) :
    (0 ≤ s.hintStonesRemaining_ ∧ s.hintStonesRemaining_ ≤ 8) ∧
    (0 ≤ s.mulligansRemaining_ ∧ s.mulligansRemaining_ ≤ 3) :=
  ⟨h.inv.hint, h.inv.mulligans⟩

/-- Witness for C2: the third turn of the example game is a state of a game; it has 8 hint
stones and 1 mulligan. -/
theorem C2_stone_bounds_witness :
    Reachable Params.default 2 standardDeck (fun _ => 0) exampleLastMulligan ∧
    exampleLastMulligan.hintStonesRemaining_ = 8 ∧
    exampleLastMulligan.mulligansRemaining_ = 1 ∧
    ((0 ≤ exampleLastMulligan.hintStonesRemaining_ ∧
        exampleLastMulligan.hintStonesRemaining_ ≤ 8) ∧
      (0 ≤ exampleLastMulligan.mulligansRemaining_ ∧
        exampleLastMulligan.mulligansRemaining_ ≤ 3)) :=
  ⟨exampleLastMulligan_reachable, by decide, by decide,
    C2_stone_bounds Params.default 2 standardDeck (fun _ => 0) exampleLastMulligan
      exampleLastMulligan_reachable⟩

/-! ## Score and end of the game -/

/-- The sum of the sizes of the five piles. -/
theorem Server.pileSum_eq (s : Server) (colors : List Color) (sum : Int)
    (h : ∀ color, 0 ≤ (s.piles_ color).size_ ∧ (s.piles_ color).size_ ≤ 5) :
    s.pileSum colors sum = .ok (sum + (colors.map fun color => (s.piles_ color).size_).sum) := by
  induction colors generalizing sum with
  | nil => simp [Server.pileSum]
  | cons color rest ih =>
    have hc := h color
    by_cases h0 : (s.piles_ color).size_ = 0
    · simp [Server.pileSum, Pile.empty, h0, ih]
    · have h1 : 1 ≤ (s.piles_ color).size_ := by omega
      simp [Server.pileSum, Pile.empty, h0, Pile.topCard, h1, hc.2, ih]
      ring

theorem exampleBombedOut_reachable :
    Reachable exampleParamsBonus 2 standardDeck (fun _ => 0) exampleBombedOut := by
  have r0 : Reachable exampleParamsBonus 2 standardDeck (fun _ => 0) exampleStart :=
    .setup Server.fresh exampleStart rfl
  have r1 := Reachable.beginTurn _ r0 (by decide) rfl (by decide)
  have r2 := Reachable.pleasePlay _ 3 r1 (by decide)
  have r3 := Reachable.endTurn _ r2 rfl (by decide)
  have r4 := Reachable.beginTurn _ r3 (by decide) rfl (by decide)
  have r5 := Reachable.pleasePlay _ 0 r4 (by decide)
  have r6 := Reachable.endTurn _ r5 rfl (by decide)
  have r7 := Reachable.beginTurn _ r6 (by decide) rfl (by decide)
  exact Reachable.pleasePlay _ 3 r7 (by decide)

/-- The score while mulligans remain is the sum of the pile sizes. -/
theorem Server.pileSum_all (s : Server)
    (h : ∀ color, 0 ≤ (s.piles_ color).size_ ∧ (s.piles_ color).size_ ≤ 5) :
    s.pileSum Color.all 0 = .ok ((s.piles_ .RED).size + (s.piles_ .ORANGE).size +
      (s.piles_ .YELLOW).size + (s.piles_ .GREEN).size + (s.piles_ .BLUE).size) := by
  rw [s.pileSum_eq Color.all 0 h]
  simp only [Color.all, List.map_cons, List.map_nil, List.sum_cons, List.sum_nil, Pile.size]
  congr 1
  ring

/-- C9 (end of the game). In every state of a game, `gameOver()` returns, and it returns true
if and only if `mulligansRemaining == 0`, or all five piles have size 5, or
`finalCountdown == numPlayers + 1`. -/
theorem C9_gameOver_iff (P : Params) (players : Nat) (stackedDeck : List Card) (g : Nat → Nat)
    (s : Server) (h : Reachable P players stackedDeck g s) :
    ∃ over : Bool, s.gameOver P = .ok over ∧
      (over = true ↔
        (s.mulligansRemaining_ = 0 ∨ (∀ color ∈ Color.all, (s.piles_ color).size = 5) ∨
          s.finalCountdown_ = s.numPlayers_ + 1)) := by
  have hinv := h.inv
  have hp := hinv.piles
  have hc := hinv.countdown
  have hn := hinv.numPlayers
  by_cases h1 : s.deck_ = [] ∧ s.finalCountdown_ = s.numPlayers_ + 1
  · exact ⟨true, by simp [Server.gameOver, h1], by simp [h1.2]⟩
  by_cases h2 : s.mulligansRemaining_ = 0
  · exact ⟨true, by simp [Server.gameOver, h1, h2], by simp [h2]⟩
  have h3 : s.finalCountdown_ ≠ s.numPlayers_ + 1 := by
    intro hEq
    exact h1 ⟨hc.2.2 (by omega), hEq⟩
  have hR := hp .RED
  have hO := hp .ORANGE
  have hY := hp .YELLOW
  have hG := hp .GREEN
  have hB := hp .BLUE
  simp only [Pile.size, Color.all, List.mem_cons, List.mem_singleton, forall_eq_or_imp,
    forall_eq, List.not_mem_nil, false_imp_iff, implies_true, and_true] at hR hO hY hG hB ⊢
  have hscore : s.currentScore P = .ok ((s.piles_ .RED).size_ + (s.piles_ .ORANGE).size_ +
      (s.piles_ .YELLOW).size_ + (s.piles_ .GREEN).size_ + (s.piles_ .BLUE).size_) := by
    simp [Server.currentScore, h2, s.pileSum_all hp, Pile.size]
  by_cases h25 : (s.piles_ .RED).size_ + (s.piles_ .ORANGE).size_ +
      (s.piles_ .YELLOW).size_ + (s.piles_ .GREEN).size_ + (s.piles_ .BLUE).size_ = 25
  · refine ⟨true, by simp [Server.gameOver, h1, h2, hscore, NUMCOLORS, h25], ?_⟩
    simp only [true_iff]
    right; left
    omega
  · refine ⟨false, by simp [Server.gameOver, h1, h2, hscore, NUMCOLORS, h25], ?_⟩
    simp only [Bool.false_eq_true, false_iff, not_or]
    refine ⟨h2, ?_, h3⟩
    intro hall
    omega

/-- Witness for C9: at the start of the third turn of the example game the game is not over;
after the third failed play no mulligan is left and the game is over. -/
theorem C9_gameOver_iff_witness :
    exampleLastMulligan.gameOver Params.default = .ok false ∧
    exampleBombedOut.gameOver exampleParamsBonus = .ok true ∧
    (∃ over : Bool, exampleBombedOut.gameOver exampleParamsBonus = .ok over ∧
      (over = true ↔
        (exampleBombedOut.mulligansRemaining_ = 0 ∨
          (∀ color ∈ Color.all, (exampleBombedOut.piles_ color).size = 5) ∨
          exampleBombedOut.finalCountdown_ = exampleBombedOut.numPlayers_ + 1))) :=
  ⟨rfl, rfl, C9_gameOver_iff exampleParamsBonus 2 standardDeck (fun _ => 0) exampleBombedOut
    exampleBombedOut_reachable⟩


/-- A value in the range of the 32-bit `int` is its own conversion. -/
theorem wrapInt32_of_int (v : Int) (h0 : -(2 : Int) ^ 31 ≤ v) (h1 : v < 2 ^ 31) :
    wrapInt32 v = v := by
  unfold wrapInt32
  norm_num at h0 h1 ⊢
  omega

/-- The conversion to the 32-bit `int` gives a value in its range. -/
theorem wrapInt32_range (v : Int) : -(2 : Int) ^ 31 ≤ wrapInt32 v ∧ wrapInt32 v < 2 ^ 31 := by
  unfold wrapInt32
  norm_num
  omega

/-- C10 (as amended). Let the parameters be `int`s. In every state of a game `currentScore()`
returns an `int`: the sum of the five pile sizes when `mulligansRemaining > 0`; when
`mulligansRemaining == 0`, 0 if `BOMB0` is set and otherwise `max(sum - BOMBD, 0)`, provided
that the difference `sum - BOMBD` fits an `int`, as it does for every `BOMBD` above
`-2^31 + 25`; and `gameOver()` is true in every state with `mulligansRemaining == 0`. The
result is never negative, and it is at most 25 whenever mulligans remain, or `BOMB0` is set,
or `BOMBD` is not negative. -/
theorem C10_currentScore (P : Params) (players : Nat) (stackedDeck : List Card)
    (g : Nat → Nat) (s : Server) (hP : P.isInt) (h : Reachable P players stackedDeck g s) :
    ∃ score : Int, s.currentScore P = .ok score ∧
      (0 < s.mulligansRemaining_ →
        score = (s.piles_ .RED).size + (s.piles_ .ORANGE).size + (s.piles_ .YELLOW).size +
          (s.piles_ .GREEN).size + (s.piles_ .BLUE).size) ∧
      (s.mulligansRemaining_ = 0 →
        (P.BOMB0 ≠ 0 → score = 0) ∧
        (P.BOMB0 = 0 →
          (s.piles_ .RED).size + (s.piles_ .ORANGE).size + (s.piles_ .YELLOW).size +
            (s.piles_ .GREEN).size + (s.piles_ .BLUE).size - P.BOMBD < 2 ^ 31 →
          score = max ((s.piles_ .RED).size + (s.piles_ .ORANGE).size +
            (s.piles_ .YELLOW).size + (s.piles_ .GREEN).size + (s.piles_ .BLUE).size -
            P.BOMBD) 0) ∧
        s.gameOver P = .ok true) ∧
      (-(2 : Int) ^ 31 + 25 < P.BOMBD →
        (s.piles_ .RED).size + (s.piles_ .ORANGE).size + (s.piles_ .YELLOW).size +
          (s.piles_ .GREEN).size + (s.piles_ .BLUE).size - P.BOMBD < 2 ^ 31) ∧
      0 ≤ score ∧ score < 2 ^ 31 ∧
      (0 < s.mulligansRemaining_ ∨ P.BOMB0 ≠ 0 ∨ 0 ≤ P.BOMBD → score ≤ 25) := by
  have hinv := h.inv
  have hp := hinv.piles
  have hR := hp .RED
  have hO := hp .ORANGE
  have hY := hp .YELLOW
  have hG := hp .GREEN
  have hB := hp .BLUE
  have hsum := s.pileSum_all hp
  obtain ⟨-, ⟨hd0, hd1⟩, -⟩ := hP
  simp only [Pile.size] at hsum ⊢
  norm_num at hd0 hd1 ⊢
  have hfit : -2147483623 < P.BOMBD →
      (s.piles_ .RED).size_ + (s.piles_ .ORANGE).size_ + (s.piles_ .YELLOW).size_ +
        (s.piles_ .GREEN).size_ + (s.piles_ .BLUE).size_ - P.BOMBD < 2147483648 := by
    intro hb
    omega
  by_cases hm : s.mulligansRemaining_ = 0
  · have hover : s.gameOver P = .ok true := by
      by_cases h1 : s.deck_ = [] ∧ s.finalCountdown_ = s.numPlayers_ + 1
      · simp [Server.gameOver, h1]
      · simp [Server.gameOver, h1, hm]
    by_cases hb : P.BOMB0 = 0
    · have hrange := wrapInt32_range ((s.piles_ .RED).size_ + (s.piles_ .ORANGE).size_ +
        (s.piles_ .YELLOW).size_ + (s.piles_ .GREEN).size_ + (s.piles_ .BLUE).size_ - P.BOMBD)
      norm_num at hrange
      have hscore : s.currentScore P = .ok (max (wrapInt32 ((s.piles_ .RED).size_ +
          (s.piles_ .ORANGE).size_ + (s.piles_ .YELLOW).size_ + (s.piles_ .GREEN).size_ +
          (s.piles_ .BLUE).size_ - P.BOMBD)) 0) := by
        simp only [Server.currentScore, hm, hb, hsum, ne_eq, not_true_eq_false, and_false,
          if_false, if_true]
      refine ⟨_, hscore, ?_, ?_, hfit, le_max_right _ _, ?_, ?_⟩
      · intro hpos; omega
      · intro _
        refine ⟨fun hne => absurd hb hne, fun _ hlt => ?_, hover⟩
        rw [wrapInt32_of_int _ (by norm_num; omega) (by norm_num; omega)]
      · exact max_lt hrange.2 (by norm_num)
      · rintro (hpos | hne | hd)
        · omega
        · exact absurd hb hne
        · rw [wrapInt32_of_int _ (by norm_num; omega) (by norm_num; omega)]
          apply max_le <;> omega
    · refine ⟨0, by simp [Server.currentScore, hm, hb], ?_, ?_, hfit, le_refl _, by norm_num,
        fun _ => by decide⟩
      · intro hpos; omega
      · intro _
        exact ⟨fun _ => rfl, fun h0 => absurd h0 hb, hover⟩
  · have hpos : 0 < s.mulligansRemaining_ := by
      have := hinv.mulligans
      omega
    refine ⟨_, by simp [Server.currentScore, hm, hsum], fun _ => rfl,
      fun h0 => absurd h0 hm, hfit, by omega, by omega, fun _ => by omega⟩

/-- Witness for C10: with the default parameters the bombed-out example game scores
`max(0 - 1, 0) = 0`, and at the start of its third turn the score is the pile sum 0. -/
theorem C10_currentScore_witness :
    Params.default.isInt ∧
    exampleLastMulligan.currentScore Params.default = .ok 0 ∧
    exampleBombedOut.currentScore Params.default = .ok 0 ∧
    (∃ score : Int, exampleLastMulligan.currentScore Params.default = .ok score ∧
      0 ≤ score ∧ score ≤ 25) := by
  obtain ⟨score, h1, -, -, -, h2, -, h3⟩ := C10_currentScore Params.default 2 standardDeck
    (fun _ => 0) exampleLastMulligan (by decide) exampleLastMulligan_reachable
  exact ⟨by decide, rfl, rfl, score, h1, h2, h3 (Or.inl (by decide))⟩

/-- Counterexample to C10 as stated. With `BOMBD=-26` (and `BOMB0=0`) the example game, dealt
from the standard deck, is bombed out by three failed plays with all piles empty, and
`currentScore()` returns `max(0 - (-26), 0) = 26`, which is not in [0, 25]. -/
theorem C10_counterexample :
    exampleParamsBonus.isInt ∧
    Reachable exampleParamsBonus 2 standardDeck (fun _ => 0) exampleBombedOut ∧
    exampleBombedOut.mulligansRemaining_ = 0 ∧
    exampleBombedOut.currentScore exampleParamsBonus = .ok 26 ∧
    ¬ ((26 : Int) ≤ 25) :=
  ⟨by decide, exampleBombedOut_reachable, by decide, rfl, by decide⟩

/-! ## Card conservation -/

theorem sum_count_set (c : Card) (hands : List (List Card)) (i : Nat) (hand new : List Card)
    (h : hands[i]? = some hand) :
    ((hands.set i new).map (List.count c)).sum + hand.count c =
      (hands.map (List.count c)).sum + new.count c := by
  induction hands generalizing i with
  | nil => simp at h
  | cons first rest ih =>
    cases i with
    | zero =>
      simp only [List.getElem?_cons_zero, Option.some.injEq] at h
      subst h
      simp only [List.set_cons_zero, List.map_cons, List.sum_cons]
      omega
    | succ i =>
      simp only [List.getElem?_cons_succ] at h
      have := ih i h
      simp only [List.set_cons_succ, List.map_cons, List.sum_cons]
      omega

theorem count_eraseIdx_add (c : Card) (hand : List Card) (i : Nat) (card : Card)
    (h : hand[i]? = some card) :
    (hand.eraseIdx i).count c + (if card = c then 1 else 0) = hand.count c := by
  induction hand generalizing i with
  | nil => simp at h
  | cons first rest ih =>
    cases i with
    | zero =>
      simp only [List.getElem?_cons_zero, Option.some.injEq] at h
      subst h
      simp only [List.eraseIdx_cons_zero, List.count_cons, beq_iff_eq]
    | succ i =>
      simp only [List.getElem?_cons_succ] at h
      have := ih i h
      simp only [List.eraseIdx_cons_succ, List.count_cons]
      omega

theorem count_getLast_dropLast (c : Card) (deck : List Card) :
    deck.getLast?.toList.count c + deck.dropLast.count c = deck.count c := by
  rcases List.eq_nil_or_concat deck with hd | ⟨rest, top, hd⟩
  · simp [hd]
  · rw [List.concat_eq_append] at hd
    subst hd
    simp [List.count_append]
    omega

theorem Pile.contains_increment (pile : Pile) (value v : Int) (h0 : 0 ≤ pile.size_)
    (hnext : value = pile.size_ + 1) :
    (Pile.contains { color := pile.color, size_ := pile.size_ + 1 } v = true) ↔
      (pile.contains v = true ∨ v = value) := by
  simp only [Pile.contains, decide_eq_true_eq]
  omega

theorem Pile.not_contains_next (pile : Pile) (value : Int) (hnext : value = pile.size_ + 1) :
    pile.contains value = false := by
  simp only [Pile.contains, decide_eq_false_iff_not]
  omega


theorem pileCount_played (piles : Color → Pile) (card c : Card)
    (h0 : 0 ≤ (piles card.color).size_) (hnext : card.value = (piles card.color).size_ + 1) :
    (if (Function.update piles card.color
          { color := (piles card.color).color, size_ := (piles card.color).size_ + 1 }
          c.color).contains c.value = true then 1 else 0) =
      (if (piles c.color).contains c.value = true then 1 else 0) +
        (if card = c then 1 else 0) := by
  by_cases hcol : c.color = card.color
  · rw [hcol, Function.update_same]
    have hiff := Pile.contains_increment (piles card.color) card.value c.value h0 hnext
    by_cases hval : c.value = card.value
    · have hc : card = c := by
        cases c; cases card; simp_all
      have hold := Pile.not_contains_next (piles card.color) card.value hnext
      rw [if_pos (hiff.2 (Or.inr hval)), if_pos hc, hval, hold]
      rfl
    · have hc : ¬ card = c := by
        intro hEq; exact hval (by rw [hEq])
      rw [if_neg hc]
      by_cases hold : (piles card.color).contains c.value = true
      · rw [if_pos (hiff.2 (Or.inl hold)), if_pos hold]
      · have hnot : ¬ (Pile.contains
            ⟨(piles card.color).color, (piles card.color).size_ + 1⟩ c.value = true) := by
          rw [hiff]; simp [hold, hval]
        rw [if_neg hnot, if_neg hold]
  · have hc : ¬ card = c := by
      intro hEq; exact hcol (by rw [hEq])
    rw [Function.update_noteq hcol, if_neg hc]
    rfl

/-- An accepted play moves cards between the deck, the hands, the discards and the piles and
neither creates nor loses a copy of any card. -/
theorem Server.totalCount_pleasePlay (s : Server) (index : Int)
    (h : (s.pleasePlay index).fault = none) (c : Card) :
    (s.pleasePlay index).server.totalCount c = s.totalCount c := by
  obtain ⟨hand, card, hacc⟩ := s.pleasePlay_playAccepted index h
  obtain ⟨hhand, hcard, h5, h1, h2, h4, h6, h7⟩ := hacc
  obtain ⟨hand', card', hhand', hcard', hserver, -⟩ := s.pleasePlay_server index h
  rw [hhand] at hhand'; cases hhand'
  rw [hcard] at hcard'; cases hcard'
  have e2 := count_eraseIdx_add c hand index.toNat card hcard
  have e3 := count_getLast_dropLast c s.deck_
  rw [hserver]
  simp only [Server.totalCount, Server.pileCount, Server.heldCount]
  by_cases hp : card.value = (s.piles_ card.color).size_ + 1
  · rw [if_pos hp] at h7
    have e4 := pileCount_played s.piles_ card c h7.1 hp
    simp only [if_pos hp]
    by_cases hm : 0 < s.mulligansRemaining_
    · have e1 := sum_count_set c s.hands_ s.activePlayer_.toNat hand
        (hand.eraseIdx index.toNat ++ s.deck_.getLast?.toList) hhand
      rw [List.count_append] at e1
      simp only [if_pos hm]
      omega
    · have e1 := sum_count_set c s.hands_ s.activePlayer_.toNat hand
        (hand.eraseIdx index.toNat ++ []) hhand
      rw [List.append_nil] at e1
      simp only [if_neg hm, List.append_nil]
      omega
  · simp only [if_neg hp, List.count_append, List.count_singleton, beq_iff_eq]
    by_cases hm : 0 < s.mulligansRemaining_ - 1
    · have e1 := sum_count_set c s.hands_ s.activePlayer_.toNat hand
        (hand.eraseIdx index.toNat ++ s.deck_.getLast?.toList) hhand
      rw [List.count_append] at e1
      simp only [if_pos hm]
      split_ifs at e2 ⊢ <;> omega
    · have e1 := sum_count_set c s.hands_ s.activePlayer_.toNat hand
        (hand.eraseIdx index.toNat ++ []) hhand
      rw [List.append_nil] at e1
      simp only [if_neg hm, List.append_nil]
      split_ifs at e2 ⊢ <;> omega

/-- An accepted discard neither creates nor loses a copy of any card. -/
theorem Server.totalCount_pleaseDiscard (P : Params) (s : Server) (index : Int)
    (h : (s.pleaseDiscard P index).fault = none) (c : Card) :
    (s.pleaseDiscard P index).server.totalCount c = s.totalCount c := by
  obtain ⟨hand, card, hhand, hcard, hserver, -⟩ := s.pleaseDiscard_server P index h
  have e2 := count_eraseIdx_add c hand index.toNat card hcard
  have e3 := count_getLast_dropLast c s.deck_
  rw [hserver]
  simp only [Server.totalCount, Server.pileCount, Server.heldCount, List.count_append,
    List.count_singleton, beq_iff_eq]
  by_cases hm : 0 < s.mulligansRemaining_
  · have e1 := sum_count_set c s.hands_ s.activePlayer_.toNat hand
      (hand.eraseIdx index.toNat ++ s.deck_.getLast?.toList) hhand
    rw [List.count_append] at e1
    simp only [if_pos hm]
    split_ifs at e2 ⊢ <;> omega
  · have e1 := sum_count_set c s.hands_ s.activePlayer_.toNat hand
      (hand.eraseIdx index.toNat ++ []) hhand
    rw [List.append_nil] at e1
    simp only [if_neg hm, List.append_nil]
    split_ifs at e2 ⊢ <;> omega


/-! ### The shuffle permutes -/

theorem swapAt_perm {α : Type} [DecidableEq α] (xs : List α) (i j : Nat) :
    (swapAt xs i j).Perm xs := by
  unfold swapAt
  cases hi : xs[i]? with
  | none => exact List.Perm.refl _
  | some a =>
    cases hj : xs[j]? with
    | none => exact List.Perm.refl _
    | some b =>
      simp only
      have hil : i < xs.length := getElem?_lt_length hi
      have hjl : j < xs.length := getElem?_lt_length hj
      have ha : xs[i] = a := by
        rw [List.getElem?_eq_getElem hil] at hi; exact Option.some.inj hi
      have hb : xs[j] = b := by
        rw [List.getElem?_eq_getElem hjl] at hj; exact Option.some.inj hj
      rw [List.perm_iff_count]
      intro c
      have hjl' : j < (xs.set i b).length := by simpa using hjl
      rw [List.count_set _ _ _ _ hjl', List.count_set _ _ _ _ hil, List.getElem_set, ha]
      have h1 := List.boole_getElem_le_count c xs i hil
      have h2 := List.boole_getElem_le_count c xs j hjl
      rw [ha] at h1
      rw [hb] at h2
      by_cases hij : i = j
      · subst hij
        have hab : a = b := ha.symm.trans hb
        subst hab
        simp only [if_true]
        split_ifs at h1 ⊢ <;> omega
      · simp only [if_neg hij, hb]
        split_ifs at h1 h2 ⊢ <;> omega

theorem portable_shuffle_loop_perm {α : Type} [DecidableEq α] (g : Nat → Nat) (k i : Nat)
    (xs : List α) : (portable_shuffle.loop g k i xs).Perm xs := by
  induction k generalizing i xs with
  | zero => exact List.Perm.refl _
  | succ k ih =>
    simp only [portable_shuffle.loop]
    refine (ih _ _).trans ?_
    split_ifs
    · exact swapAt_perm _ _ _
    · exact List.Perm.refl _

/-- The shuffle returns a permutation of its input, whatever the generator returns. -/
theorem portable_shuffle_perm {α : Type} [DecidableEq α] (first : List α) (g : Nat → Nat) :
    (portable_shuffle first g).Perm first :=
  portable_shuffle_loop_perm g _ _ _

/-- The deck built by `runGame` holds every card as often as `Card::count` says. -/
theorem standardDeck_count (c : Card) (hc : c.valid) :
    c.count = .ok (standardDeck.count c : Nat) := by
  obtain ⟨color, value⟩ := c
  obtain ⟨h1, h2, h3⟩ := hc
  simp only at h1 h2 h3
  interval_cases value <;> cases color <;> first | exact absurd rfl h1 | rfl


/-! ### Dealing keeps every card -/

theorem sum_count_take_set (c : Card) (hands : List (List Card)) (i j : Nat)
    (hand new : List Card) (h : hands[i]? = some hand) (hij : i < j) :
    (((hands.set i new).take j).map (List.count c)).sum + hand.count c =
      ((hands.take j).map (List.count c)).sum + new.count c := by
  rw [List.set_take]
  exact sum_count_set c (hands.take j) i hand new (by rw [List.getElem?_take_of_lt hij]; exact h)

theorem Server.dealHand_count (c : Card) (i k : Nat) (s s' : Server)
    (h : Server.dealHand i k s = .ok s') (hi : i < s.hands_.length) :
    ((s'.hands_.take (i + 1)).map (List.count c)).sum + s'.deck_.count c =
      ((s.hands_.take (i + 1)).map (List.count c)).sum + s.deck_.count c := by
  induction k generalizing s with
  | zero =>
    simp only [Server.dealHand, Except.ok.injEq] at h
    subst h
    rfl
  | succ k ih =>
    rcases List.eq_nil_or_concat s.deck_ with hd | ⟨rest, top, hd⟩
    · simp [Server.dealHand, s.draw_nil hd] at h
    · rw [List.concat_eq_append] at hd
      simp only [Server.dealHand, s.draw_eq rest top hd] at h
      have := ih _ h (by simpa [Server.pushToHand] using hi)
      rw [this]
      have hget : s.hands_[i]? = some s.hands_[i] := List.getElem?_eq_getElem hi
      have e1 := sum_count_take_set c s.hands_ i (i + 1) s.hands_[i]
        (s.hands_[i] ++ [top]) hget (Nat.lt_succ_self i)
      simp only [Server.pushToHand, List.getD_eq_getElem?_getD, hget, Option.getD_some, hd,
        List.count_append] at e1 ⊢
      omega

theorem Server.dealHands_count (c : Card) (n m i : Nat) (s s' : Server)
    (h : Server.dealHands n (List.range' i m) s = .ok s') (hlen : i + m = s.hands_.length) :
    (s'.hands_.map (List.count c)).sum + s'.deck_.count c =
      ((s.hands_.take i).map (List.count c)).sum + s.deck_.count c := by
  induction m generalizing i s with
  | zero =>
    simp only [List.range'_zero, Server.dealHands, Except.ok.injEq] at h
    subst h
    rw [List.take_of_length_le (by omega)]
  | succ m ih =>
    rw [List.range'_succ] at h
    simp only [Server.dealHands] at h
    cases h1 : Server.dealHand i n { s with hands_ := s.hands_.set i [] } with
    | error f => simp [h1] at h
    | ok s1 =>
      simp only [h1] at h
      have hi : i < s.hands_.length := by omega
      obtain ⟨-, l1⟩ := Server.dealHand_frame i n _ s1 h1
      simp only [List.length_set] at l1
      have e1 := ih (i + 1) s1 h (by omega)
      have e2 := Server.dealHand_count c i n _ s1 h1 (by simpa using hi)
      have hget : s.hands_[i]? = some s.hands_[i] := List.getElem?_eq_getElem hi
      have e3 := sum_count_take_set c s.hands_ i (i + 1) s.hands_[i] [] hget
        (Nat.lt_succ_self i)
      have e4 : ((s.hands_.take (i + 1)).map (List.count c)).sum =
          ((s.hands_.take i).map (List.count c)).sum + (s.hands_[i]).count c := by
        rw [List.take_succ, hget, List.map_append, List.sum_append]
        rfl
      simp only [List.count_nil] at e3
      simp only at e2
      omega

/-- In the state that `runGame` hands to `runToCompletion`, every card is in the hands and the
deck together exactly as often as in the deck that was dealt. -/
theorem Server.runGameSetup_totalCount (P : Params) (s0 s : Server) (players : Nat)
    (stackedDeck : List Card) (g : Nat → Nat)
    (h : Server.runGameSetup P s0 players stackedDeck g = .ok s) (c : Card) :
    s.totalCount c =
      (if stackedDeck ≠ [] then stackedDeck.reverse
        else portable_shuffle standardDeck g).count c := by
  obtain ⟨-, -, -, h4, h5, -⟩ := Server.runGameSetup_shape P s0 s players stackedDeck g h
  have hpile : s.pileCount c = 0 := by
    simp [Server.pileCount, h4, Pile.contains]
    omega
  unfold Server.runGameSetup at h
  simp only at h
  split at h
  · cases h
  · rename_i s3 h3
    simp only [Except.ok.injEq] at h
    rw [List.range_eq_range'] at h3
    have e := Server.dealHands_count c _ players 0 _ s3 h3
      (by simp only [List.length_append, List.length_take, List.length_replicate]; omega)
    simp only [List.take_zero, List.map_nil, List.sum_nil, Nat.zero_add] at e
    simp only [Server.totalCount, hpile, h5, Server.heldCount, List.count_nil]
    rw [← h]
    simp only
    omega


/-! ### Conservation along a game -/

theorem Server.beginTurn_server (s : Server) :
    s.beginTurn.server =
      { s with observingPlayer_ := s.activePlayer_, movesFromActivePlayer_ := 0 } := by
  unfold Server.beginTurn
  simp only [Outcome.stop]
  split_ifs <;> rfl

/-- In every state of a game each card is on the piles, in the discards, in the hands and in
the deck together exactly as often as in the deck that was dealt. -/
theorem Reachable.totalCount {P : Params} {players : Nat} {stackedDeck : List Card}
    {g : Nat → Nat} {s : Server} (h : Reachable P players stackedDeck g s) (c : Card) :
    s.totalCount c =
      (if stackedDeck ≠ [] then stackedDeck.reverse
        else portable_shuffle standardDeck g).count c := by
  induction h with
  | setup s0 s h => exact Server.runGameSetup_totalCount P s0 s players stackedDeck g h c
  | beginTurn s _ _ _ _ ih =>
    rw [← ih, s.beginTurn_server]
    rfl
  | pleasePlay s index _ h ih => rw [← ih, s.totalCount_pleasePlay index h c]
  | pleaseDiscard s index _ h ih => rw [← ih, s.totalCount_pleaseDiscard P index h c]
  | pleaseGiveColorHint s dst color _ h ih =>
    rw [← ih, (s.pleaseGiveColorHint_server P dst color h).1]
    rfl
  | pleaseGiveValueHint s dst value _ h ih =>
    rw [← ih, (s.pleaseGiveValueHint_server P dst value h).1]
    rfl
  | endTurn s _ _ h ih =>
    rw [← ih, (s.endTurn_server h).2.2.1]
    rfl

/-- C1 (card conservation). In every state of a game that `runGame` started from the standard
50-card deck (built and shuffled by `runGame`, or stacked in any order), in particular after
every accepted `pleasePlay` and `pleaseDiscard`, for every card (a colour `RED..BLUE` and a
value 1..5) the number of copies on the piles plus in the discards plus in all hands plus in
the deck equals `Card::count()` of that card: 3 for value 1, 2 for the values 2 to 4, 1 for
value 5. -/
theorem C1_card_conservation (P : Params) (players : Nat) (stackedDeck : List Card)
    (g : Nat → Nat) (s : Server) (h : Reachable P players stackedDeck g s)
    (hdeck : stackedDeck = [] ∨ stackedDeck.Perm standardDeck) (c : Card) (hc : c.valid) :
    c.count = .ok ((s.pileCount c + s.discards_.count c + s.heldCount c + s.deck_.count c :
      Nat) : Int) ∧
    s.pileCount c + s.discards_.count c + s.heldCount c + s.deck_.count c =
      (if c.value = 1 then 3 else if c.value = 5 then 1 else 2) := by
  have hperm : (if stackedDeck ≠ [] then stackedDeck.reverse
      else portable_shuffle standardDeck g).Perm standardDeck := by
    rcases hdeck with hnil | hp
    · rw [if_neg (by simp [hnil])]
      exact portable_shuffle_perm _ _
    · have hne : stackedDeck ≠ [] := by
        intro hnil
        rw [hnil] at hp
        have := hp.length_eq
        simp [standardDeck, Color.all, Card.count] at this
      rw [if_pos hne]
      exact (List.reverse_perm _).trans hp
  have htotal := h.totalCount c
  rw [hperm.count_eq] at htotal
  simp only [Server.totalCount] at htotal
  have hcount := standardDeck_count c hc
  rw [htotal]
  refine ⟨hcount, ?_⟩
  obtain ⟨-, h2, h3⟩ := hc
  have hInj : ∀ a b : Int, (Except.ok a : Except Fault Int) = .ok b → a = b := by
    intro a b hab; cases hab; rfl
  unfold Card.count at hcount
  split_ifs at hcount ⊢ with h1 h24 h5 <;>
    (have h0 := hInj _ _ hcount; omega)

/-- Witness for C1: at the start of the third turn of the example game, dealt from the
standard deck, one red 2 lies in the discards and the other is in a hand; `Card::count()`
of the red 2 is 2. -/
theorem C1_card_conservation_witness :
    Reachable Params.default 2 standardDeck (fun _ => 0) exampleLastMulligan ∧
    exampleLastMulligan.pileCount ⟨.RED, 2⟩ = 0 ∧
    exampleLastMulligan.discards_.count ⟨.RED, 2⟩ = 1 ∧
    exampleLastMulligan.heldCount ⟨.RED, 2⟩ = 1 ∧
    exampleLastMulligan.deck_.count ⟨.RED, 2⟩ = 0 ∧
    exampleLastMulligan.pileCount ⟨.RED, 2⟩ + exampleLastMulligan.discards_.count ⟨.RED, 2⟩ +
      exampleLastMulligan.heldCount ⟨.RED, 2⟩ + exampleLastMulligan.deck_.count ⟨.RED, 2⟩ = 2 :=
  ⟨exampleLastMulligan_reachable, by decide, by decide, by decide, by decide,
    (C1_card_conservation Params.default 2 standardDeck (fun _ => 0) exampleLastMulligan
      exampleLastMulligan_reachable (Or.inr (List.Perm.refl _)) ⟨.RED, 2⟩ (by decide)).2⟩

/-! ## Observing hands and the active card -/

theorem exampleAfterHint_reachable :
    Reachable Params.default 2 standardDeck (fun _ => 0) exampleAfterHint := by
  have r1 := Reachable.beginTurn _ exampleStart_reachable (by decide) rfl (by decide)
  have r2 := Reachable.pleaseGiveColorHint _ 1 .RED r1 (by decide)
  have r3 := Reachable.endTurn _ r2 rfl (by decide)
  exact Reachable.beginTurn _ r3 (by decide) rfl (by decide)

/-- C11 (looking at a hand). In a state with as many hands as players, `handOfPlayer(p)`
throws a `ServerError` if `p` is the observing player or `p` is outside `[0, numPlayers)`;
otherwise it returns exactly the hand `hands_[p]`. -/
theorem C11_handOfPlayer (s : Server) (player : Int)
    (hhands : s.numPlayers_ = s.hands_.length) :
    (player = s.observingPlayer_ ∨ ¬ (0 ≤ player ∧ player < s.numPlayers) →
      ∃ what, s.handOfPlayer player = .error (.ServerError what)) ∧
    (player ≠ s.observingPlayer_ → 0 ≤ player ∧ player < s.numPlayers →
      ∃ hand, s.hands_[player.toNat]? = some hand ∧ s.handOfPlayer player = .ok hand) := by
  simp only [Server.numPlayers]
  constructor
  · rintro (h | h)
    · exact ⟨"cannot observe own hand", by simp [Server.handOfPlayer, h]⟩
    · by_cases ho : player = s.observingPlayer_
      · exact ⟨"cannot observe own hand", by simp [Server.handOfPlayer, ho]⟩
      · exact ⟨"player index out of bounds", by
          simp only [Server.handOfPlayer, ne_eq, ho, not_false_eq_true,
            not_true_eq_false, if_false, h, if_true]⟩
  · intro ho hr
    have hlt : player.toNat < s.hands_.length := by omega
    refine ⟨s.hands_[player.toNat], List.getElem?_eq_getElem hlt, ?_⟩
    simp [Server.handOfPlayer, ho, hr, List.getElem?_eq_getElem hlt]

/-- Witness for C11: observer 0 may look at the hand of player 1, and neither at its own hand
nor at the hand of a player 2. -/
theorem C11_handOfPlayer_witness :
    exampleHintTarget.handOfPlayer 1 =
      .ok [⟨.RED, 1⟩, ⟨.ORANGE, 1⟩, ⟨.RED, 3⟩, ⟨.BLUE, 2⟩, ⟨.RED, 5⟩] ∧
    exampleHintTarget.handOfPlayer 0 = .error (.ServerError "cannot observe own hand") ∧
    (∃ what, exampleHintTarget.handOfPlayer 2 = .error (.ServerError what)) ∧
    (∃ hand, exampleHintTarget.hands_[(1 : Int).toNat]? = some hand ∧
      exampleHintTarget.handOfPlayer 1 = .ok hand) :=
  ⟨rfl, rfl,
    (C11_handOfPlayer exampleHintTarget 2 (by decide)).1 (Or.inr (by decide)),
    (C11_handOfPlayer exampleHintTarget 1 (by decide)).2 (by decide) (by decide)⟩

/-- C12 (card index equal to the hand size). The guard of `pleasePlay` and `pleaseDiscard` is
`0 <= index && index <= hands_[activePlayer_].size()`. In the example game player 0 holds
5 cards at its first move and player 1 holds 5 cards at its move after a hint, with 7 hint
stones left. The index 5 passes the guard in both mutators: no `ServerError` is thrown and
the card `hands_[activePlayer_][5]` is read past the end of the hand. The indices 6 and -1
are rejected with `ServerError("invalid card index")`. -/
theorem C12_index_equal_to_hand_size :
    Reachable Params.default 2 standardDeck (fun _ => 0) exampleStart.beginTurn.server ∧
    Reachable Params.default 2 standardDeck (fun _ => 0) exampleAfterHint ∧
    (exampleStart.beginTurn.server.handOf 0).length = 5 ∧
    (exampleAfterHint.handOf 1).length = 5 ∧
    exampleAfterHint.activePlayer_ = 1 ∧
    exampleAfterHint.discardingIsAllowed Params.default = true ∧
    (exampleStart.beginTurn.server.pleasePlay 5).fault =
      some (.OutOfBounds "hands_[activePlayer_][index]") ∧
    (exampleAfterHint.pleaseDiscard Params.default 5).fault =
      some (.OutOfBounds "hands_[activePlayer_][index]") ∧
    (exampleStart.beginTurn.server.pleasePlay 6).fault =
      some (.ServerError "invalid card index") ∧
    (exampleAfterHint.pleaseDiscard Params.default 6).fault =
      some (.ServerError "invalid card index") ∧
    (exampleStart.beginTurn.server.pleasePlay (-1)).fault =
      some (.ServerError "invalid card index") ∧
    (exampleAfterHint.pleaseDiscard Params.default (-1)).fault =
      some (.ServerError "invalid card index") :=
  ⟨Reachable.beginTurn _ exampleStart_reachable (by decide) rfl (by decide),
    exampleAfterHint_reachable, by decide, by decide, by decide, by decide, by decide,
    by decide, by decide, by decide, by decide, by decide⟩

/-! ## The window of the active card -/

/-- Between the calls of the server the active card is hidden. -/
theorem Reachable.activeCard_hidden {P : Params} {players : Nat} {stackedDeck : List Card}
    {g : Nat → Nat} {s : Server} (h : Reachable P players stackedDeck g s) :
    s.activeCardIsObservable_ = false := by
  induction h with
  | setup s0 s h =>
    exact (Server.runGameSetup_shape P s0 s players stackedDeck g h).2.2.2.2.2.2.2.2.2.2
  | beginTurn s _ _ _ _ ih => rw [s.beginTurn_server]; exact ih
  | pleasePlay s index _ h _ =>
    obtain ⟨hand, card, -, -, hserver, -⟩ := s.pleasePlay_server index h
    rw [hserver]
  | pleaseDiscard s index _ h _ =>
    obtain ⟨hand, card, -, -, hserver, -⟩ := s.pleaseDiscard_server P index h
    rw [hserver]
  | pleaseGiveColorHint s dst color _ h ih =>
    rw [(s.pleaseGiveColorHint_server P dst color h).1]; exact ih
  | pleaseGiveValueHint s dst value _ h ih =>
    rw [(s.pleaseGiveValueHint_server P dst value h).1]; exact ih
  | endTurn s _ _ h ih =>
    rw [(s.endTurn_server h).2.2.1]; exact ih

theorem notifyAll_view (n : Int) (call : Callback) (s : Server) :
    ∀ e ∈ notifyAll n call s, ∃ i : Nat, e.bot = i ∧
      e.view = { s with observingPlayer_ := (i : Int) } := by
  intro e he
  simp only [notifyAll, List.mem_map] at he
  obtain ⟨i, -, rfl⟩ := he
  exact ⟨i, rfl, rfl⟩

theorem Outcome.stop_or_else {c : Prop} [Decidable c] (f : Fault) (s : Server) (X : Outcome)
    (h : X.fault = none ∨ X.events = []) :
    (if c then Outcome.stop f s [] else X).fault = none ∨
      (if c then Outcome.stop f s [] else X).events = [] := by
  split_ifs
  · exact Or.inr rfl
  · exact h

theorem Server.pleaseGiveColorHint_rejected (P : Params) (s : Server) (dst : Int)
    (color : Color) :
    (s.pleaseGiveColorHint P dst color).fault = none ∨
      (s.pleaseGiveColorHint P dst color).events = [] := by
  unfold Server.pleaseGiveColorHint
  iterate 8 refine Outcome.stop_or_else _ _ _ ?_
  exact Outcome.stop_or_else _ _ _ (Or.inl rfl)

theorem Server.pleaseGiveValueHint_rejected (P : Params) (s : Server) (dst : Int)
    (value : Int) :
    (s.pleaseGiveValueHint P dst value).fault = none ∨
      (s.pleaseGiveValueHint P dst value).events = [] := by
  unfold Server.pleaseGiveValueHint
  iterate 8 refine Outcome.stop_or_else _ _ _ ?_
  exact Outcome.stop_or_else _ _ _ (Or.inl rfl)

theorem Server.beginTurn_events (s : Server) :
    ∃ tail, s.beginTurn.events = notifyAll s.numPlayers_ .pleaseObserveBeforeMove s ++ tail ∧
      (tail = [] ∨ tail = [{ bot := s.activePlayer_.toNat, call := .pleaseMakeMove, view :=
        { s with observingPlayer_ := s.activePlayer_, movesFromActivePlayer_ := 0 } }]) := by
  unfold Server.beginTurn
  by_cases h : 0 ≤ s.activePlayer_ ∧ s.activePlayer_ < s.players_size
  · exact ⟨_, by simp [h], Or.inr rfl⟩
  · exact ⟨[], by simp [h, Outcome.stop], Or.inl rfl⟩

theorem Server.endTurn_events (s : Server) :
    s.endTurn.events = [] ∨ s.endTurn.events =
      notifyAll s.numPlayers_ .pleaseObserveAfterMove { s with movesFromActivePlayer_ := -1 } := by
  unfold Server.endTurn
  by_cases h1 : s.movesFromActivePlayer_ ≠ 0
  swap
  · left; simp [h1, Outcome.stop]
  by_cases h2 : s.movesFromActivePlayer_ = 1
  swap
  · left; simp [h1, h2, Outcome.stop]
  right
  by_cases h3 : 0 ≤ s.finalCountdown_ ∧ s.finalCountdown_ ≤ s.numPlayers_
  · simp [h2, h3, Outcome.stop]
  · simp [h2, h3, Outcome.stop]

/-- The callbacks of a hint all carry the server with the flag of the active card as it was
before the hint. -/
theorem Server.pleaseGiveColorHint_views (P : Params) (s : Server) (dst : Int) (color : Color) :
    ∀ e ∈ (s.pleaseGiveColorHint P dst color).events,
      e.view.activeCardIsObservable_ = s.activeCardIsObservable_ := by
  intro e he
  rcases s.pleaseGiveColorHint_rejected P dst color with h | h
  · rw [(s.pleaseGiveColorHint_server P dst color h).2] at he
    obtain ⟨i, -, hv⟩ := notifyAll_view _ _ _ e he
    rw [hv]
  · rw [h] at he; simp at he

theorem Server.pleaseGiveValueHint_views (P : Params) (s : Server) (dst : Int) (value : Int) :
    ∀ e ∈ (s.pleaseGiveValueHint P dst value).events,
      e.view.activeCardIsObservable_ = s.activeCardIsObservable_ := by
  intro e he
  rcases s.pleaseGiveValueHint_rejected P dst value with h | h
  · rw [(s.pleaseGiveValueHint_server P dst value h).2] at he
    obtain ⟨i, -, hv⟩ := notifyAll_view _ _ _ e he
    rw [hv]
  · rw [h] at he; simp at he

theorem Server.beginTurn_views (s : Server) :
    ∀ e ∈ s.beginTurn.events, e.view.activeCardIsObservable_ = s.activeCardIsObservable_ := by
  intro e he
  obtain ⟨tail, hev, htail⟩ := s.beginTurn_events
  rw [hev, List.mem_append] at he
  rcases he with he | he
  · obtain ⟨i, -, hv⟩ := notifyAll_view _ _ _ e he
    rw [hv]
  · rcases htail with htail | htail
    · rw [htail] at he; simp at he
    · rw [htail, List.mem_singleton] at he
      rw [he]

theorem Server.endTurn_views (s : Server) :
    ∀ e ∈ s.endTurn.events, e.view.activeCardIsObservable_ = s.activeCardIsObservable_ := by
  intro e he
  rcases s.endTurn_events with h | h
  · rw [h] at he; simp at he
  · rw [h] at he
    obtain ⟨i, -, hv⟩ := notifyAll_view _ _ _ e he
    rw [hv]

/-- C13 (the active card). In every state of a game: each callback of the notification pass
of an accepted `pleasePlay` / `pleaseDiscard` (the calls `pleaseObserveBeforePlay` /
`pleaseObserveBeforeDiscard`) sees a server on which `activeCard()` succeeds and returns the
card being played or discarded; each callback `pleaseObserveBeforeMove` and `pleaseMakeMove`
issued at the start of a turn, each callback of a hint and each `pleaseObserveAfterMove`
sees a server on which `activeCard()` throws a `ServerError`. -/
theorem C13_activeCard_window (P : Params) (players : Nat) (stackedDeck : List Card)
    (g : Nat → Nat) (s : Server) (h : Reachable P players stackedDeck g s) :
    (∀ index, (s.pleasePlay index).fault = none →
      ∃ hand card, s.hands_[s.activePlayer_.toNat]? = some hand ∧
        hand[index.toNat]? = some card ∧
        ∀ e ∈ (s.pleasePlay index).events,
          e.call = .pleaseObserveBeforePlay s.activePlayer_ index ∧
          e.view.activeCard = .ok card) ∧
    (∀ index, (s.pleaseDiscard P index).fault = none →
      ∃ hand card, s.hands_[s.activePlayer_.toNat]? = some hand ∧
        hand[index.toNat]? = some card ∧
        ∀ e ∈ (s.pleaseDiscard P index).events,
          e.call = .pleaseObserveBeforeDiscard s.activePlayer_ index ∧
          e.view.activeCard = .ok card) ∧
    (∀ e ∈ s.beginTurn.events, e.view.activeCard =
      .error (.ServerError "called activeCard() from the wrong observer")) ∧
    (∀ dst color, ∀ e ∈ (s.pleaseGiveColorHint P dst color).events, e.view.activeCard =
      .error (.ServerError "called activeCard() from the wrong observer")) ∧
    (∀ dst value, ∀ e ∈ (s.pleaseGiveValueHint P dst value).events, e.view.activeCard =
      .error (.ServerError "called activeCard() from the wrong observer")) ∧
    (∀ e ∈ s.endTurn.events, e.view.activeCard =
      .error (.ServerError "called activeCard() from the wrong observer")) := by
  have hidden := h.activeCard_hidden
  refine ⟨?_, ?_, ?_, ?_, ?_, ?_⟩
  · intro index hacc
    obtain ⟨hand, card, hhand, hcard, -, hevents⟩ := s.pleasePlay_server index hacc
    refine ⟨hand, card, hhand, hcard, ?_⟩
    intro e he
    rw [hevents] at he
    obtain ⟨i, -, hv⟩ := notifyAll_view _ _ _ e he
    exact ⟨notifyAll_call _ _ _ e he, by rw [hv]; rfl⟩
  · intro index hacc
    obtain ⟨hand, card, hhand, hcard, -, hevents⟩ := s.pleaseDiscard_server P index hacc
    refine ⟨hand, card, hhand, hcard, ?_⟩
    intro e he
    rw [hevents] at he
    obtain ⟨i, -, hv⟩ := notifyAll_view _ _ _ e he
    exact ⟨notifyAll_call _ _ _ e he, by rw [hv]; rfl⟩
  · intro e he
    simp [Server.activeCard, s.beginTurn_views e he, hidden]
  · intro dst color e he
    simp [Server.activeCard, s.pleaseGiveColorHint_views P dst color e he, hidden]
  · intro dst value e he
    simp [Server.activeCard, s.pleaseGiveValueHint_views P dst value e he, hidden]
  · intro e he
    simp [Server.activeCard, s.endTurn_views e he, hidden]

/-- Witness for C13: in the third turn of the example game the two observers of the play of
slot 3 see the red 2 as active card, and a callback of a hint sees none. -/
theorem C13_activeCard_window_witness :
    (exampleLastMulligan.pleasePlay 3).events.map (fun e => e.view.activeCard) =
      [.ok ⟨.RED, 2⟩, .ok ⟨.RED, 2⟩] ∧
    (∃ hand card, exampleLastMulligan.hands_[exampleLastMulligan.activePlayer_.toNat]? =
        some hand ∧ hand[(3 : Int).toNat]? = some card ∧
        ∀ e ∈ (exampleLastMulligan.pleasePlay 3).events,
          e.call = .pleaseObserveBeforePlay exampleLastMulligan.activePlayer_ 3 ∧
          e.view.activeCard = .ok card) ∧
    (∀ e ∈ (exampleLastMulligan.pleaseGiveColorHint Params.default 1 .RED).events,
      e.view.activeCard =
        .error (.ServerError "called activeCard() from the wrong observer")) := by
  have h := C13_activeCard_window Params.default 2 standardDeck (fun _ => 0)
    exampleLastMulligan exampleLastMulligan_reachable
  exact ⟨rfl, h.1 3 (by decide), h.2.2.2.1 1 .RED⟩

/-! ## The hand size -/

/-- C15 (hand size), amended. `handSize()` returns `HAND_SIZE_OVERRIDE` whenever that parameter
is positive (so in particular when it is 3 or more), and the standard hand size when the
parameter is negative, as it is by default: 5 for 2 or 3 players, 4 for 4 or 5 players. -/
theorem C15_handSize (P : Params) (s : Server) :
    (0 < P.HAND_SIZE_OVERRIDE → s.handSize P = P.HAND_SIZE_OVERRIDE) ∧
    (P.HAND_SIZE_OVERRIDE < 0 → s.numPlayers_ = 2 ∨ s.numPlayers_ = 3 → s.handSize P = 5) ∧
    (P.HAND_SIZE_OVERRIDE < 0 → s.numPlayers_ = 4 ∨ s.numPlayers_ = 5 → s.handSize P = 4) := by
  refine ⟨?_, ?_, ?_⟩
  · intro h
    simp [Server.handSize, h.le]
  · intro h hn
    have h1 : ¬ (P.HAND_SIZE_OVERRIDE ≥ 0) := by omega
    have h2 : s.numPlayers_ ≤ 3 := by omega
    simp [Server.handSize, h1, h2]
  · intro h hn
    have h1 : ¬ (P.HAND_SIZE_OVERRIDE ≥ 0) := by omega
    have h2 : ¬ (s.numPlayers_ ≤ 3) := by omega
    simp [Server.handSize, h1, h2]

/-- Witness for C15: with the default parameters the two players of the example game have a
hand size of 5, and with `HAND_SIZE_OVERRIDE=9` a hand size of 9. -/
theorem C15_handSize_witness :
    exampleStart.handSize Params.default = 5 ∧ exampleNineCards.handSize exampleParamsNine = 9 :=
  ⟨(C15_handSize Params.default exampleStart).2.1 (by decide) (by decide),
   (C15_handSize exampleParamsNine exampleNineCards).1 (by decide)⟩

/-- Counterexample to C15 as stated: with `HAND_SIZE_OVERRIDE=2`, which is less than 3,
`runGame` for two players takes 2 as hand size, not the standard 5, and deals two cards to
each player. -/
theorem C15_counterexample :
    ∃ s, Server.runGameSetup exampleParamsTwo Server.fresh 2 standardDeck (fun _ => 0) = .ok s ∧
      ¬ (exampleParamsTwo.HAND_SIZE_OVERRIDE ≥ 3) ∧ s.numPlayers_ = 2 ∧
      s.handSize exampleParamsTwo = 2 ∧ s.handSize exampleParamsTwo ≠ 5 ∧
      s.hands_ = [[⟨.RED, 1⟩, ⟨.RED, 1⟩], [⟨.RED, 1⟩, ⟨.RED, 2⟩]] :=
  ⟨_, rfl, by decide, by decide, by decide, by decide, by decide⟩

/-! ## The order of moves -/

theorem MoveType.toInt_injective (a b : MoveType) (h : a.toInt = b.toInt) : a = b := by
  cases a <;> cases b <;> simp [MoveType.toInt] at h ⊢

theorem Move.lt_iff (a b : Move) :
    Move.lt a b = true ↔
      (a.type.toInt < b.type.toInt ∨ (a.type.toInt = b.type.toInt ∧
        (a.value < b.value ∨ (a.value = b.value ∧ a.to_ < b.to_)))) := by
  simp only [Move.lt, Bool.or_eq_true, Bool.and_eq_true, Bool.not_eq_true', decide_eq_true_eq,
    decide_eq_false_iff_not]
  omega

theorem Move.eq_iff (a b : Move) : Move.eq a b = true ↔ a = b := by
  simp only [Move.eq, Bool.and_eq_true, decide_eq_true_eq]
  constructor
  · rintro ⟨⟨h1, h2⟩, h3⟩
    cases a; cases b
    simp only [Move.mk.injEq]
    exact ⟨MoveType.toInt_injective _ _ h1, h2, h3⟩
  · rintro rfl
    exact ⟨⟨rfl, rfl⟩, rfl⟩

/-- C18 (order of moves). The `operator<` of `Move` compares lexicographically on
(type, value, to); `operator==` holds exactly for equal moves; of `a < b`, `a == b`, `b < a`
exactly one holds for all moves `a`, `b`; and `operator<` is transitive (and irreflexive). -/
theorem C18_move_order :
    (∀ a b : Move, Move.lt a b = true ↔
      (a.type.toInt < b.type.toInt ∨ (a.type.toInt = b.type.toInt ∧
        (a.value < b.value ∨ (a.value = b.value ∧ a.to_ < b.to_))))) ∧
    (∀ a b : Move, Move.eq a b = true ↔ a = b) ∧
    (∀ a b : Move,
      (Move.lt a b = true ∧ Move.eq a b = false ∧ Move.lt b a = false) ∨
      (Move.lt a b = false ∧ Move.eq a b = true ∧ Move.lt b a = false) ∨
      (Move.lt a b = false ∧ Move.eq a b = false ∧ Move.lt b a = true)) ∧
    (∀ a b c : Move, Move.lt a b = true → Move.lt b c = true → Move.lt a c = true) ∧
    (∀ a : Move, Move.lt a a = false) := by
  refine ⟨Move.lt_iff, Move.eq_iff, ?_, ?_, ?_⟩
  · intro a b
    have hab := Move.lt_iff a b
    have hba := Move.lt_iff b a
    have heq : Move.eq a b = true ↔
        (a.type.toInt = b.type.toInt ∧ a.value = b.value ∧ a.to_ = b.to_) := by
      simp only [Move.eq, Bool.and_eq_true, decide_eq_true_eq, and_assoc]
    cases h1 : Move.lt a b <;> cases h2 : Move.eq a b <;> cases h3 : Move.lt b a <;>
      simp only [h1, h2, h3, Bool.false_eq_true, false_iff, true_iff] at hab hba heq <;>
      first
        | (simp; done)
        | (exfalso; omega)
  · intro a b c hab hbc
    rw [Move.lt_iff] at hab hbc ⊢
    omega
  · intro a
    have h := Move.lt_iff a a
    cases h1 : Move.lt a a
    · rfl
    · rw [h1] at h
      simp at h

/-- Witness for C18: playing slot 1, discarding slot 0 and hinting colour 0 to player 1 are in
increasing order, and the first precedes the last. -/
theorem C18_move_order_witness :
    Move.lt ⟨.PLAY_CARD, 1, -1⟩ ⟨.HINT_COLOR, 0, 1⟩ = true :=
  C18_move_order.2.2.2.1 ⟨.PLAY_CARD, 1, -1⟩ ⟨.DISCARD_CARD, 0, -1⟩ ⟨.HINT_COLOR, 0, 1⟩
    (by decide) (by decide)

/-! ## The callbacks of a turn -/

theorem Server.endTurn_accepted (s : Server) (h1 : s.movesFromActivePlayer_ = 1)
    (h2 : 0 ≤ s.finalCountdown_ ∧ s.finalCountdown_ ≤ s.numPlayers_) :
    s.endTurn.fault = none := by
  by_cases hd : s.deck_ = [] <;> simp [Server.endTurn, h1, h2, hd, Outcome.stop]

/-- The call that `execute_` makes for a move, when the observer is the player who moves. -/
theorem execute_eq (P : Params) (move : Move) (server : Server)
    (hme : server.whoAmI = .ok server.activePlayer_) :
    execute_ P server.activePlayer_ move server =
      match move.type with
      | .PLAY_CARD => server.pleasePlay move.value
      | .DISCARD_CARD => server.pleaseDiscard P move.value
      | .HINT_COLOR => server.pleaseGiveColorHint P move.to_ (Color.ofInt move.value)
      | .HINT_VALUE => server.pleaseGiveValueHint P move.to_ (wrapInt8 move.value)
      | .INVALID_MOVE => .stop (.RuntimeError "Invalid move: ??? invalid") server [] := by
  cases hty : move.type <;> simp [execute_, hme, hty]

/-- What an accepted move leaves untouched, and the callbacks it issues: one pass over all
players with a view of the server that differs from the server before the move only in the
active card and the move counter. -/
theorem execute_accepted (P : Params) (move : Move) (server : Server)
    (hme : server.whoAmI = .ok server.activePlayer_)
    (hps : (server.players_size : Int) = server.numPlayers_)
    (h : (execute_ P server.activePlayer_ move server).fault = none) :
    ∃ call view,
      (execute_ P server.activePlayer_ move server).events =
        notifyAll server.numPlayers_ call view ∧
      ((move.type = .PLAY_CARD ∧
          call = .pleaseObserveBeforePlay server.activePlayer_ move.value) ∨
        (move.type = .DISCARD_CARD ∧
          call = .pleaseObserveBeforeDiscard server.activePlayer_ move.value) ∨
        (move.type = .HINT_COLOR ∧ ∃ card_indices,
          call = .pleaseObserveColorHint server.activePlayer_ move.to_
            (Color.ofInt move.value) card_indices) ∨
        (move.type = .HINT_VALUE ∧ ∃ card_indices,
          call = .pleaseObserveValueHint server.activePlayer_ move.to_
            (wrapInt8 move.value) card_indices)) ∧
      view = { server with activeCard_ := view.activeCard_,
                           activeCardIsObservable_ := view.activeCardIsObservable_,
                           movesFromActivePlayer_ := -1 } ∧
      (execute_ P server.activePlayer_ move server).server.movesFromActivePlayer_ = 1 ∧
      (execute_ P server.activePlayer_ move server).server.numPlayers_ = server.numPlayers_ ∧
      (execute_ P server.activePlayer_ move server).server.activePlayer_ =
        server.activePlayer_ ∧
      (execute_ P server.activePlayer_ move server).server.finalCountdown_ =
        server.finalCountdown_ := by
  rw [execute_eq P move server hme] at h ⊢
  cases hty : move.type
  · simp only [hty] at h ⊢
    obtain ⟨hand, card, -, -, hserver, hevents⟩ := server.pleasePlay_server move.value h
    rw [hps] at hevents
    exact ⟨_, _, hevents, Or.inl ⟨trivial, rfl⟩, rfl, by rw [hserver], by rw [hserver],
      by rw [hserver], by rw [hserver]⟩
  · simp only [hty] at h ⊢
    obtain ⟨hand, card, -, -, hserver, hevents⟩ := server.pleaseDiscard_server P move.value h
    exact ⟨_, _, hevents, Or.inr (Or.inl ⟨trivial, rfl⟩), rfl, by rw [hserver], by rw [hserver],
      by rw [hserver], by rw [hserver]⟩
  · simp only [hty] at h ⊢
    obtain ⟨hserver, hevents⟩ := server.pleaseGiveColorHint_server P _ _ h
    rw [hps] at hevents
    exact ⟨_, _, hevents, Or.inr (Or.inr (Or.inl ⟨trivial, _, rfl⟩)), rfl, by rw [hserver],
      by rw [hserver], by rw [hserver], by rw [hserver]⟩
  · simp only [hty] at h ⊢
    obtain ⟨hserver, hevents⟩ := server.pleaseGiveValueHint_server P _ _ h
    rw [hps] at hevents
    exact ⟨_, _, hevents, Or.inr (Or.inr (Or.inr ⟨trivial, _, rfl⟩)), rfl, by rw [hserver],
      by rw [hserver], by rw [hserver], by rw [hserver]⟩
  · simp [hty, Outcome.stop] at h


theorem notifyAll_whoAmI (n : Int) (call : Callback) (v : Server) (hn : v.numPlayers_ = n) :
    ∀ e ∈ notifyAll n call v, e.view.whoAmI = .ok (e.bot : Int) := by
  intro e he
  simp only [notifyAll, List.mem_map, List.mem_range] at he
  obtain ⟨i, hi, rfl⟩ := he
  have h1 : (0 : Int) ≤ (i : Int) ∧ (i : Int) < v.numPlayers_ := by omega
  simp [Server.whoAmI, h1]

/-- A move that `execute_` carries out leads from a state of the game to a state of the game. -/
theorem execute_reachable (P : Params) (players : Nat) (stackedDeck : List Card)
    (g : Nat → Nat) (move : Move) (server : Server)
    (hs : Reachable P players stackedDeck g server)
    (hme : server.whoAmI = .ok server.activePlayer_)
    (h : (execute_ P server.activePlayer_ move server).fault = none) :
    Reachable P players stackedDeck g (execute_ P server.activePlayer_ move server).server := by
  rw [execute_eq P move server hme] at h ⊢
  cases hty : move.type
  · simp only [hty] at h ⊢
    exact Reachable.pleasePlay _ _ hs h
  · simp only [hty] at h ⊢
    exact Reachable.pleaseDiscard _ _ hs h
  · simp only [hty] at h ⊢
    exact Reachable.pleaseGiveColorHint _ _ _ hs h
  · simp only [hty] at h ⊢
    exact Reachable.pleaseGiveValueHint _ _ _ hs h
  · simp [hty, Outcome.stop] at h

/-- In a state that satisfies the invariant `currentScore()` returns. -/
theorem Server.Inv.currentScore_returns (P : Params) (players : Nat) (s : Server)
    (hs : s.Inv players) : ∃ score, s.currentScore P = .ok score := by
  unfold Server.currentScore
  rw [s.pileSum_all hs.piles]
  by_cases h1 : s.mulligansRemaining_ = 0 ∧ P.BOMB0 ≠ 0
  · exact ⟨_, if_pos h1⟩
  · rw [if_neg h1]
    by_cases h2 : s.mulligansRemaining_ = 0
    · simp only [h2, if_true]
      exact ⟨_, rfl⟩
    · simp only [h2, if_false]
      exact ⟨_, rfl⟩

/-- In a state that satisfies the invariant `gameOver()` returns. -/
theorem Server.Inv.gameOver_returns (P : Params) (players : Nat) (s : Server)
    (hs : s.Inv players) : ∃ over, s.gameOver P = .ok over := by
  obtain ⟨score, hscore⟩ := hs.currentScore_returns P
  unfold Server.gameOver
  rw [hscore]
  by_cases h1 : s.deck_ = [] ∧ s.finalCountdown_ = s.numPlayers_ + 1
  · exact ⟨_, if_pos h1⟩
  · rw [if_neg h1]
    by_cases h2 : s.mulligansRemaining_ = 0
    · exact ⟨_, if_pos h2⟩
    · rw [if_neg h2]
      by_cases h3 : score = 5 * NUMCOLORS
      · simp only [h3, if_true]
        exact ⟨_, rfl⟩
      · simp only [h3, if_false]
        exact ⟨_, rfl⟩

theorem exampleThirdTurn_reachable :
    Reachable Params.default 2 standardDeck (fun _ => 0) exampleThirdTurn := by
  have r1 := Reachable.beginTurn _ exampleStart_reachable (by decide) rfl (by decide)
  have r2 := Reachable.pleasePlay _ 3 r1 (by decide)
  have r3 := Reachable.endTurn _ r2 rfl (by decide)
  have r4 := Reachable.beginTurn _ r3 (by decide) rfl (by decide)
  have r5 := Reachable.pleasePlay _ 0 r4 (by decide)
  exact Reachable.endTurn _ r5 rfl (by decide)

/-- C14 (callbacks of a turn), amended. Take a turn of `runToCompletion` in which the active
bot makes one accepted move. `gameOver()` returns after the move. The callbacks of the turn
are, in this order: `pleaseObserveBeforeMove` on the players 0..n-1; `pleaseMakeMove` on the
active player, with `whoAmI` the active player; the notification that matches the move on the
players 0..n-1, each seeing the server as it was before the move but for the active card and
the move counter; and, when the game is not over after the move, `pleaseObserveAfterMove` on
the players 0..n-1. Each pass visits the players in increasing order, `whoAmI` being the index
of the player visited. When the game is not over after the move, the active player is
`(activePlayer + 1) mod n` afterwards and `finalCountdown` has been incremented exactly when
the deck is empty. When the move ends the game, the turn stops after the move: no
`pleaseObserveAfterMove` is sent, and the server is left as the move left it, `activePlayer`
and `finalCountdown` being what they were before the turn. -/
theorem C14_turn_callbacks (P : Params) (players : Nat) (stackedDeck : List Card)
    (g : Nat → Nat) (s : Server) (move : Move)
    (hs : Reachable P players stackedDeck g s) (hmoves : s.movesFromActivePlayer_ = -1)
    (hover : s.gameOver P = .ok false)
    (hmove : (execute_ P s.activePlayer_ move s.beginTurn.server).fault = none) :
    ∃ call view after over,
      (execute_ P s.activePlayer_ move s.beginTurn.server).server.gameOver P = .ok over ∧
      (s.turn P move).fault = none ∧
      (s.turn P move).events =
        notifyAll s.numPlayers_ .pleaseObserveBeforeMove s ++
        [{ bot := s.activePlayer_.toNat, call := .pleaseMakeMove,
           view := s.beginTurn.server }] ++
        notifyAll s.numPlayers_ call view ++
        (if over = true then [] else notifyAll s.numPlayers_ .pleaseObserveAfterMove after) ∧
      (∀ c v, v.numPlayers_ = s.numPlayers_ →
        (notifyAll s.numPlayers_ c v).map Event.bot = List.range s.numPlayers_.toNat ∧
        ∀ e ∈ notifyAll s.numPlayers_ c v, e.call = c ∧ e.view.whoAmI = .ok (e.bot : Int)) ∧
      view.numPlayers_ = s.numPlayers_ ∧ after.numPlayers_ = s.numPlayers_ ∧
      (0 ≤ s.activePlayer_ ∧ s.activePlayer_ < s.numPlayers_) ∧
      s.beginTurn.server.whoAmI = .ok s.activePlayer_ ∧
      s.beginTurn.server.activePlayer = s.activePlayer_ ∧
      ((move.type = .PLAY_CARD ∧
          call = .pleaseObserveBeforePlay s.activePlayer_ move.value) ∨
        (move.type = .DISCARD_CARD ∧
          call = .pleaseObserveBeforeDiscard s.activePlayer_ move.value) ∨
        (move.type = .HINT_COLOR ∧ ∃ card_indices,
          call = .pleaseObserveColorHint s.activePlayer_ move.to_
            (Color.ofInt move.value) card_indices) ∨
        (move.type = .HINT_VALUE ∧ ∃ card_indices,
          call = .pleaseObserveValueHint s.activePlayer_ move.to_
            (wrapInt8 move.value) card_indices)) ∧
      view = { s with observingPlayer_ := s.activePlayer_,
                      activeCard_ := view.activeCard_,
                      activeCardIsObservable_ := view.activeCardIsObservable_,
                      movesFromActivePlayer_ := -1 } ∧
      after = { (execute_ P s.activePlayer_ move s.beginTurn.server).server with
                movesFromActivePlayer_ := -1 } ∧
      (over = false →
        (s.turn P move).server.activePlayer_ = (s.activePlayer_ + 1) % s.numPlayers_ ∧
        (s.turn P move).server.finalCountdown_ =
          (if (s.turn P move).server.deck_ = [] then s.finalCountdown_ + 1
            else s.finalCountdown_)) ∧
      (over = true →
        (∀ e ∈ (s.turn P move).events, e.call ≠ .pleaseObserveAfterMove) ∧
        (s.turn P move).server = (execute_ P s.activePlayer_ move s.beginTurn.server).server ∧
        (s.turn P move).server.activePlayer_ = s.activePlayer_ ∧
        (s.turn P move).server.finalCountdown_ = s.finalCountdown_) := by
  have hinv := hs.inv
  have hbs := s.beginTurn_server
  have hact : s.beginTurn.server.activePlayer_ = s.activePlayer_ := by rw [hbs]
  have hnum : s.beginTurn.server.numPlayers_ = s.numPlayers_ := by rw [hbs]
  have hrange : 0 ≤ s.activePlayer_ ∧ s.activePlayer_ < s.numPlayers_ := by
    by_contra hn
    have hw : s.beginTurn.server.whoAmI =
        .error (.AssertionFailure "0 <= observingPlayer_ && observingPlayer_ < numPlayers_") := by
      rw [hbs]
      simp only [Server.whoAmI]
      rw [if_pos hn]
    simp [execute_, hw, Outcome.stop] at hmove
  have hme : s.beginTurn.server.whoAmI = .ok s.beginTurn.server.activePlayer_ := by
    rw [hbs]
    simp [Server.whoAmI, hrange]
  have hps : (s.beginTurn.server.players_size : Int) = s.beginTurn.server.numPlayers_ := by
    rw [hbs]
    simp [hinv.playersSize, hinv.numPlayers]
  have hbf : s.beginTurn.fault = none := by
    have h1 : 0 ≤ s.activePlayer_ ∧ s.activePlayer_ < s.players_size := by
      have h2 := hinv.playersSize
      have h3 := hinv.numPlayers
      omega
    simp [Server.beginTurn, h1]
  have hbe : s.beginTurn.events = notifyAll s.numPlayers_ .pleaseObserveBeforeMove s ++
      [{ bot := s.activePlayer_.toNat, call := .pleaseMakeMove, view := s.beginTurn.server }] := by
    have h1 : 0 ≤ s.activePlayer_ ∧ s.activePlayer_ < s.players_size := by
      have h2 := hinv.playersSize
      have h3 := hinv.numPlayers
      omega
    simp [Server.beginTurn, h1]
  rw [← hact] at hmove
  obtain ⟨call, view, hev, hcall, hview, hm1, hn1, ha1, hf1⟩ :=
    execute_accepted P move s.beginTurn.server hme hps hmove
  have hr1 : Reachable P players stackedDeck g s.beginTurn.server :=
    Reachable.beginTurn s hs hmoves hover hbf
  have hr2 := execute_reachable P players stackedDeck g move _ hr1 hme hmove
  have hinv2 := hr2.inv
  obtain ⟨over, hgo⟩ := hinv2.gameOver_returns P
  have hc := hinv2.countdown
  have hshared : ∀ c v, v.numPlayers_ = s.numPlayers_ →
      (notifyAll s.numPlayers_ c v).map Event.bot = List.range s.numPlayers_.toNat ∧
      ∀ e ∈ notifyAll s.numPlayers_ c v, e.call = c ∧ e.view.whoAmI = .ok (e.bot : Int) :=
    fun c v hv => ⟨notifyAll_bots _ _ _, fun e he =>
      ⟨notifyAll_call _ _ _ e he, notifyAll_whoAmI _ _ _ hv e he⟩⟩
  cases over with
  | false =>
    obtain ⟨hfc, -⟩ := Server.gameOver_false P _ hgo
    have hef : (execute_ P s.beginTurn.server.activePlayer_ move
        s.beginTurn.server).server.endTurn.fault = none := by
      refine Server.endTurn_accepted _ hm1 ⟨hc.1, ?_⟩
      by_contra hgt
      have hne : (execute_ P s.beginTurn.server.activePlayer_ move
          s.beginTurn.server).server.finalCountdown_ ≠ 0 := by
        have h0 := hinv2.numPlayers
        omega
      exact hfc ⟨hc.2.2 hne, by omega⟩
    obtain ⟨-, -, hes, hee⟩ := Server.endTurn_server _ hef
    have hturn : s.turn P move =
        { fault := none,
          server := (execute_ P s.beginTurn.server.activePlayer_ move
            s.beginTurn.server).server.endTurn.server,
          events := s.beginTurn.events ++
            (execute_ P s.beginTurn.server.activePlayer_ move s.beginTurn.server).events ++
            (execute_ P s.beginTurn.server.activePlayer_ move
              s.beginTurn.server).server.endTurn.events } := by
      simp only [Server.turn, hbf, hmove, hgo, hef]
    rw [hact] at hev hme hes hee hn1 ha1 hf1 hturn hgo
    rw [hact] at hcall
    refine ⟨call, view, _, false, hgo, by rw [hturn], ?_, hshared, ?_, ?_, hrange, hme, hact,
      hcall, ?_, rfl, fun _ => ⟨?_, ?_⟩, fun h => by cases h⟩
    · rw [hturn]
      simp only [Bool.false_eq_true, if_false]
      rw [hbe, hev, hee, hnum, hn1, hnum]
    · rw [hview, hnum]
    · simp only
      rw [hn1, hnum]
    · rw [hview, hbs]
    · rw [hturn]
      simp only
      rw [hes]
      simp only
      rw [ha1, hn1, hnum]
      exact Int.tmod_eq_emod (by omega) (by omega)
    · rw [hturn]
      simp only
      rw [hes]
      simp only
      rw [hf1, hbs]
  | true =>
    have hturn : s.turn P move =
        { fault := none,
          server := (execute_ P s.beginTurn.server.activePlayer_ move
            s.beginTurn.server).server,
          events := s.beginTurn.events ++
            (execute_ P s.beginTurn.server.activePlayer_ move s.beginTurn.server).events } := by
      simp only [Server.turn, hbf, hmove, hgo]
    rw [hact] at hev hme hn1 ha1 hf1 hturn hgo
    rw [hact] at hcall
    refine ⟨call, view,
      { (execute_ P s.activePlayer_ move s.beginTurn.server).server with
        movesFromActivePlayer_ := -1 }, true, hgo, by rw [hturn], ?_, hshared, ?_, ?_, hrange,
      hme, hact, hcall, ?_, rfl, (fun h => by cases h), fun _ => ⟨?_, ?_, ?_, ?_⟩⟩
    · rw [hturn]
      simp only [if_true, List.append_nil]
      rw [hbe, hev, hnum]
    · rw [hview, hnum]
    · simp only
      rw [hn1, hnum]
    · rw [hview, hbs]
    · intro e he
      rw [hturn] at he
      simp only at he
      rw [hbe, hev, hnum] at he
      simp only [List.mem_append, List.mem_singleton] at he
      rcases he with (he | he) | he
      · rw [notifyAll_call _ _ _ e he]
        exact fun h => by cases h
      · rw [he]
        exact fun h => by cases h
      · rw [notifyAll_call _ _ _ e he]
        rcases hcall with ⟨-, h⟩ | ⟨-, h⟩ | ⟨-, _, h⟩ | ⟨-, _, h⟩ <;> rw [h] <;>
          exact fun h0 => by cases h0
    · rw [hturn]
    · rw [hturn]
      exact ha1
    · rw [hturn]
      simp only
      rw [hf1, hbs]

/-- Witness for C14: the first turn of the example game, in which player 0 gives player 1 the
hint RED, and its third turn, in which the play of slot 3 by player 0 fails, costs the last
mulligan and ends the game. -/
theorem C14_turn_callbacks_witness :
    ((exampleStart.turn Params.default ⟨.HINT_COLOR, 0, 1⟩).events.map
        (fun e => (e.bot, e.view.whoAmI.toOption)) =
      [(0, some 0), (1, some 1), (0, some 0), (0, some 0), (1, some 1), (0, some 0),
        (1, some 1)] ∧
    (exampleStart.turn Params.default ⟨.HINT_COLOR, 0, 1⟩).server.activePlayer_ =
      (exampleStart.activePlayer_ + 1) % exampleStart.numPlayers_ ∧
    (exampleStart.turn Params.default ⟨.HINT_COLOR, 0, 1⟩).server.finalCountdown_ =
      (if (exampleStart.turn Params.default ⟨.HINT_COLOR, 0, 1⟩).server.deck_ = [] then
        exampleStart.finalCountdown_ + 1 else exampleStart.finalCountdown_)) ∧
    ((∀ e ∈ (exampleThirdTurn.turn Params.default ⟨.PLAY_CARD, 3, -1⟩).events,
        e.call ≠ .pleaseObserveAfterMove) ∧
    (exampleThirdTurn.turn Params.default ⟨.PLAY_CARD, 3, -1⟩).server =
      (execute_ Params.default exampleThirdTurn.activePlayer_ ⟨.PLAY_CARD, 3, -1⟩
        exampleThirdTurn.beginTurn.server).server ∧
    (exampleThirdTurn.turn Params.default ⟨.PLAY_CARD, 3, -1⟩).server.activePlayer_ =
      exampleThirdTurn.activePlayer_ ∧
    (exampleThirdTurn.turn Params.default ⟨.PLAY_CARD, 3, -1⟩).server.finalCountdown_ =
      exampleThirdTurn.finalCountdown_) := by
  constructor
  · obtain ⟨call, view, after, over, hgo, h⟩ := C14_turn_callbacks Params.default 2
      standardDeck (fun _ => 0) exampleStart ⟨.HINT_COLOR, 0, 1⟩ exampleStart_reachable
      (by decide) rfl (by decide)
    have h0 : (execute_ Params.default exampleStart.activePlayer_ ⟨.HINT_COLOR, 0, 1⟩
        exampleStart.beginTurn.server).server.gameOver Params.default = .ok false := rfl
    rw [h0] at hgo
    have hover : over = false := (Except.ok.inj hgo).symm
    exact ⟨by decide, h.2.2.2.2.2.2.2.2.2.2.2.1 hover⟩
  · obtain ⟨call, view, after, over, hgo, h⟩ := C14_turn_callbacks Params.default 2
      standardDeck (fun _ => 0) exampleThirdTurn ⟨.PLAY_CARD, 3, -1⟩
      exampleThirdTurn_reachable (by decide) rfl (by decide)
    have h0 : (execute_ Params.default exampleThirdTurn.activePlayer_ ⟨.PLAY_CARD, 3, -1⟩
        exampleThirdTurn.beginTurn.server).server.gameOver Params.default = .ok true := rfl
    rw [h0] at hgo
    have hover : over = true := (Except.ok.inj hgo).symm
    exact h.2.2.2.2.2.2.2.2.2.2.2.2 hover

/-- Counterexample to C14 as stated: in the third turn of the example game player 0 makes an
accepted move, the play of slot 3, which fails and costs the last mulligan. The turn ends
there: no `pleaseObserveAfterMove` is issued and the active player stays player 0 instead of
becoming player (0 + 1) mod 2; the final countdown stays as well. -/
theorem C14_counterexample :
    Reachable Params.default 2 standardDeck (fun _ => 0) exampleThirdTurn ∧
    exampleThirdTurn.gameOver Params.default = .ok false ∧
    exampleThirdTurn.activePlayer_ = 0 ∧ exampleThirdTurn.numPlayers_ = 2 ∧
    (execute_ Params.default 0 ⟨.PLAY_CARD, 3, -1⟩ exampleThirdTurn.beginTurn.server).fault =
      none ∧
    (exampleThirdTurn.turn Params.default ⟨.PLAY_CARD, 3, -1⟩).fault = none ∧
    (exampleThirdTurn.turn Params.default ⟨.PLAY_CARD, 3, -1⟩).events.map
        (fun e => (e.bot, e.call)) =
      [(0, .pleaseObserveBeforeMove), (1, .pleaseObserveBeforeMove), (0, .pleaseMakeMove),
        (0, .pleaseObserveBeforePlay 0 3), (1, .pleaseObserveBeforePlay 0 3)] ∧
    (exampleThirdTurn.turn Params.default ⟨.PLAY_CARD, 3, -1⟩).server.activePlayer_ = 0 ∧
    (exampleThirdTurn.turn Params.default ⟨.PLAY_CARD, 3, -1⟩).server.activePlayer_ ≠
      (exampleThirdTurn.activePlayer_ + 1) % exampleThirdTurn.numPlayers_ ∧
    (exampleThirdTurn.turn Params.default ⟨.PLAY_CARD, 3, -1⟩).server.finalCountdown_ =
      exampleThirdTurn.finalCountdown_ :=
  ⟨exampleThirdTurn_reachable, rfl, by decide, by decide, by decide, by decide, by decide,
    by decide, by decide, by decide⟩

/-! ## The order in which the deck is dealt and drawn -/

/-- Dealing `k` cards to player `i` from a deck whose cards are, top first, `t`: the first `k`
cards of `t` go to the end of the hand in that order. -/
theorem Server.dealHand_exact (i k : Nat) (s : Server) (t : List Card)
    (hdeck : s.deck_ = t.reverse) (hi : i < s.hands_.length) (hk : k ≤ t.length) :
    Server.dealHand i k s = .ok
      { s with hands_ := s.hands_.set i (s.hands_.getD i [] ++ t.take k),
               deck_ := (t.drop k).reverse } := by
  induction k generalizing s t with
  | zero =>
    have hself := set_getD_self s.hands_ i [] hi
    simp [Server.dealHand, ← hdeck, hself]
  | succ k ih =>
    cases t with
    | nil => simp at hk
    | cons c t =>
      have hd : s.deck_ = t.reverse ++ [c] := by rw [hdeck, List.reverse_cons]
      simp only [Server.dealHand, s.draw_eq t.reverse c hd]
      rw [ih _ t rfl (by simpa [Server.pushToHand] using hi) (by simpa using hk)]
      simp [Server.pushToHand, hi]

/-- Dealing succeeds only when the deck holds enough cards. -/
theorem Server.dealHand_ok_length (i k : Nat) (s s' : Server)
    (h : Server.dealHand i k s = .ok s') : k ≤ s.deck_.length := by
  induction k generalizing s with
  | zero => exact Nat.zero_le _
  | succ k ih =>
    rcases List.eq_nil_or_concat s.deck_ with hd | ⟨rest, top, hd⟩
    · simp [Server.dealHand, s.draw_nil hd] at h
    · rw [List.concat_eq_append] at hd
      simp only [Server.dealHand, s.draw_eq rest top hd] at h
      have h1 := ih _ h
      simp only [Server.pushToHand] at h1
      rw [hd]
      simp
      exact h1

/-- Dealing `h` cards each to the players `a, a+1, .., a+m-1` from a deck whose cards are, top
first, `t`: player `a + j` gets the cards `t[j*h] .. t[j*h + h - 1]` in that order, the hands of
the players before `a` stay, and the deck keeps the cards from `t[m*h]` on. -/
theorem Server.dealHands_exact (h m a : Nat) (s : Server) (t : List Card)
    (hdeck : s.deck_ = t.reverse) (hlen : m * h ≤ t.length) (hhands : a + m ≤ s.hands_.length) :
    ∃ s', Server.dealHands h (List.range' a m) s = .ok s' ∧
      s'.deck_ = (t.drop (m * h)).reverse ∧ s'.hands_.length = s.hands_.length ∧
      (∀ q, q < a → s'.hands_[q]? = s.hands_[q]?) ∧
      (∀ j, j < m → s'.hands_[a + j]? = some ((t.drop (j * h)).take h)) := by
  induction m generalizing a s t with
  | zero =>
    refine ⟨s, rfl, ?_, rfl, fun _ _ => rfl, fun j hj => absurd hj (Nat.not_lt_zero j)⟩
    simpa using hdeck
  | succ m ih =>
    have hmul : (m + 1) * h = h + m * h := by ring
    have hh : h ≤ t.length := by omega
    have ha : a < s.hands_.length := by omega
    have h1 := Server.dealHand_exact a h { s with hands_ := s.hands_.set a [] } t hdeck
      (by simpa using ha) hh
    obtain ⟨s', hs', hd', hl', hq', hj'⟩ := ih (a + 1)
      { s with hands_ := (s.hands_.set a []).set a ((s.hands_.set a []).getD a [] ++ t.take h),
               deck_ := (t.drop h).reverse }
      (t.drop h) rfl (by simp; omega) (by simp; omega)
    refine ⟨s', ?_, ?_, ?_, ?_, ?_⟩
    · simp only [List.range', Server.dealHands, h1]
      exact hs'
    · rw [hd', List.drop_drop, hmul]
    · rw [hl']
      simp
    · intro q hq
      rw [hq' q (by omega)]
      simp only [List.set_set]
      rw [List.getElem?_set_ne (by omega)]
    · intro j hj
      cases j with
      | zero =>
        rw [Nat.add_zero, hq' a (by omega)]
        simp [ha]
      | succ j =>
        have e1 : a + (j + 1) = a + 1 + j := by omega
        have e2 : (j + 1) * h = h + j * h := by ring
        rw [e1, hj' j (by omega), List.drop_drop, e2]

/-- Dealing all hands succeeds only when the deck holds enough cards. -/
theorem Server.dealHands_ok_length (h m a : Nat) (s s' : Server)
    (hok : Server.dealHands h (List.range' a m) s = .ok s')
    (hhands : a + m ≤ s.hands_.length) : m * h ≤ s.deck_.length := by
  induction m generalizing a s with
  | zero => simp
  | succ m ih =>
    simp only [List.range', Server.dealHands] at hok
    cases h1 : Server.dealHand a h { s with hands_ := s.hands_.set a [] } with
    | error f => simp [h1] at hok
    | ok s1 =>
      simp only [h1] at hok
      have hh := Server.dealHand_ok_length a h _ s1 h1
      simp only at hh
      have h2 := Server.dealHand_exact a h { s with hands_ := s.hands_.set a [] }
        s.deck_.reverse (by simp) (by simp; omega) (by simpa using hh)
      rw [h1] at h2
      simp only [Except.ok.injEq] at h2
      have h3 := ih (a + 1) s1 hok (by rw [h2]; simp; omega)
      rw [h2] at h3
      simp at h3
      have hmul : (m + 1) * h = m * h + h := by ring
      omega

/-- What a successful deal has done, see `Server.dealHands_exact`. -/
theorem Server.dealHands_ok_exact (h m a : Nat) (s s' : Server) (t : List Card)
    (hok : Server.dealHands h (List.range' a m) s = .ok s')
    (hdeck : s.deck_ = t.reverse) (hhands : a + m ≤ s.hands_.length) :
    m * h ≤ t.length ∧ s'.deck_ = (t.drop (m * h)).reverse ∧
    (∀ j, j < m → s'.hands_[a + j]? = some ((t.drop (j * h)).take h)) := by
  have hlen := Server.dealHands_ok_length h m a s s' hok hhands
  rw [hdeck, List.length_reverse] at hlen
  obtain ⟨s1, hs1, hd1, -, -, hj1⟩ := Server.dealHands_exact h m a s t hdeck hlen hhands
  rw [hok] at hs1
  simp only [Except.ok.injEq] at hs1
  subst hs1
  exact ⟨hlen, hd1, hj1⟩

/-- The state that `runGame` hands to `runToCompletion`: with `t` the deck dealt, top card
first, and `h` the initial hand size, the deck held at least `players * h` cards, player `p` has
the cards `t[p*h] .. t[p*h + h - 1]` in that order, and the deck keeps the cards from
`t[players * h]` on. -/
theorem Server.runGameSetup_exact (P : Params) (s0 s : Server) (players : Nat)
    (stackedDeck : List Card) (g : Nat → Nat)
    (hok : Server.runGameSetup P s0 players stackedDeck g = .ok s) :
    players * initialHandSize P players ≤ (initialDeck stackedDeck g).length ∧
    s.deck_ = ((initialDeck stackedDeck g).drop (players * initialHandSize P players)).reverse ∧
    (∀ p, p < players → s.hands_[p]? =
      some (((initialDeck stackedDeck g).drop (p * initialHandSize P players)).take
        (initialHandSize P players))) := by
  unfold Server.runGameSetup at hok
  simp only at hok
  split at hok
  · cases hok
  · rename_i s3 h3
    simp only [Except.ok.injEq] at hok
    subst hok
    have hsize : (Server.handSize P
        { s0 with players_size := players, numPlayers_ := (players : Int) }).toNat =
        initialHandSize P players := rfl
    rw [hsize, List.range_eq_range'] at h3
    have hdeck : (if stackedDeck ≠ [] then stackedDeck.reverse
        else portable_shuffle standardDeck g) = (initialDeck stackedDeck g).reverse := by
      unfold initialDeck
      split_ifs <;> simp
    rw [hdeck] at h3
    obtain ⟨hlen, hd', hj'⟩ := Server.dealHands_ok_exact _ _ _ _ _
      (initialDeck stackedDeck g) h3 rfl (by simp; omega)
    refine ⟨hlen, hd', ?_⟩
    intro p hp
    have := hj' p hp
    simpa using this

/-- With a stacked deck of at least `players * h` cards `runGame` gets to `runToCompletion`. -/
theorem Server.runGameSetup_ok (P : Params) (s0 : Server) (players : Nat)
    (stackedDeck : List Card) (g : Nat → Nat)
    (hlen : players * initialHandSize P players ≤ (initialDeck stackedDeck g).length) :
    ∃ s, Server.runGameSetup P s0 players stackedDeck g = .ok s := by
  have hdeck : (if stackedDeck ≠ [] then stackedDeck.reverse
      else portable_shuffle standardDeck g) = (initialDeck stackedDeck g).reverse := by
    unfold initialDeck
    split_ifs <;> simp
  have hsize : (Server.handSize P
      { s0 with players_size := players, numPlayers_ := (players : Int) }).toNat =
      initialHandSize P players := rfl
  obtain ⟨s', hs', -⟩ := Server.dealHands_exact (initialHandSize P players)
    players 0
    { s0 with players_size := players, numPlayers_ := (players : Int),
              piles_ := fun color => { color := color, size_ := 0 },
              mulligansRemaining_ := NUMMULLIGANS, hintStonesRemaining_ := NUMHINTS,
              finalCountdown_ := 0, deck_ := (initialDeck stackedDeck g).reverse,
              discards_ := [],
              hands_ := (s0.hands_.take players) ++
                List.replicate (players - s0.hands_.length) [] }
    (initialDeck stackedDeck g) rfl hlen (by simp; omega)
  unfold Server.runGameSetup
  simp only
  rw [hsize, List.range_eq_range', hdeck, hs']
  exact ⟨_, rfl⟩

/-- One play or discard, seen from the deck `t` that was dealt (top card first): `m` mulligans
before the move and `m1` after it, the card in slot `idx` leaves the hand of player `a`. The
deck stays a tail of `t`, no hand exceeds `h` cards, and while cards and mulligans are left all
hands hold `h` cards. -/
theorem dealt_step (t : List Card) (n h : Nat) (hands : List (List Card)) (deck : List Card)
    (a idx : Nat) (hand : List Card) (card : Card) (m m1 : Int) (hm : m1 ≤ m)
    (hhand : hands[a]? = some hand) (hcard : hand[idx]? = some card)
    (hk : ∃ k, n * h ≤ k ∧ k ≤ t.length ∧ deck = (t.drop k).reverse)
    (hle : ∀ x ∈ hands, x.length ≤ h)
    (heq : deck ≠ [] → 0 < m → ∀ x ∈ hands, x.length = h) :
    (∃ k, n * h ≤ k ∧ k ≤ t.length ∧
      (if 0 < m1 then deck.dropLast else deck) = (t.drop k).reverse) ∧
    (∀ x ∈ hands.set a (hand.eraseIdx idx ++ if 0 < m1 then deck.getLast?.toList else []),
      x.length ≤ h) ∧
    ((if 0 < m1 then deck.dropLast else deck) ≠ [] → 0 < m1 →
      ∀ x ∈ hands.set a (hand.eraseIdx idx ++ if 0 < m1 then deck.getLast?.toList else []),
        x.length = h) := by
  have hidx : idx < hand.length := getElem?_lt_length hcard
  have hmem : hand ∈ hands := List.getElem?_mem hhand
  have herase : (hand.eraseIdx idx).length = hand.length - 1 := by
    rw [List.length_eraseIdx, if_pos hidx]
  have hlast : deck.getLast?.toList.length ≤ 1 := by
    cases deck.getLast? <;> simp
  refine ⟨?_, ?_, ?_⟩
  · obtain ⟨k, hk1, hk2, hk3⟩ := hk
    by_cases hm1 : 0 < m1
    · rw [if_pos hm1]
      by_cases hlt : k < t.length
      · refine ⟨k + 1, by omega, by omega, ?_⟩
        rw [hk3, List.dropLast_reverse, List.tail_drop]
      · refine ⟨k, hk1, hk2, ?_⟩
        have : t.drop k = [] := List.drop_eq_nil_of_le (by omega)
        rw [hk3, this]
        rfl
    · rw [if_neg hm1]
      exact ⟨k, hk1, hk2, hk3⟩
  · intro x hx
    rcases List.mem_or_eq_of_mem_set hx with hx | hx
    · exact hle x hx
    · have h1 := hle hand hmem
      rw [hx, List.length_append, herase]
      split_ifs
      · omega
      · simp only [List.length_nil]
        omega
  · intro hne hm1 x hx
    rw [if_pos hm1] at hne hx
    have hdne : deck ≠ [] := by
      intro h0
      rw [h0] at hne
      exact hne rfl
    have hall := heq hdne (by omega)
    rcases List.mem_or_eq_of_mem_set hx with hx | hx
    · exact hall x hx
    · have h1 := hall hand hmem
      obtain ⟨c, hc⟩ : ∃ c, deck.getLast? = some c := by
        cases hg : deck.getLast? with
        | none => exact absurd (List.getLast?_eq_none_iff.mp hg) hdne
        | some c => exact ⟨c, rfl⟩
      rw [hx, List.length_append, herase, hc]
      simp only [Option.toList_some, List.length_singleton]
      omega

/-- In every state of a game the deck holds the cards of the deck dealt that have not been
drawn, in their order; no hand has more cards than were dealt to it; and as long as the deck is
not empty and a mulligan is left every hand has as many cards as were dealt to it. -/
theorem Reachable.dealt {P : Params} {players : Nat} {stackedDeck : List Card}
    {g : Nat → Nat} {s : Server} (hs : Reachable P players stackedDeck g s) :
    (∃ k, players * initialHandSize P players ≤ k ∧ k ≤ (initialDeck stackedDeck g).length ∧
      s.deck_ = ((initialDeck stackedDeck g).drop k).reverse) ∧
    (∀ x ∈ s.hands_, x.length ≤ initialHandSize P players) ∧
    (s.deck_ ≠ [] → 0 < s.mulligansRemaining_ →
      ∀ x ∈ s.hands_, x.length = initialHandSize P players) := by
  induction hs with
  | setup s0 s h =>
    obtain ⟨hlen, hdeck, hhands⟩ := Server.runGameSetup_exact P s0 s players stackedDeck g h
    have hl := (Server.runGameSetup_shape P s0 s players stackedDeck g h).2.2.1
    have hall : ∀ x ∈ s.hands_, x.length = initialHandSize P players := by
      intro x hx
      obtain ⟨p, hp, rfl⟩ := List.getElem_of_mem hx
      have h1 := hhands p (by omega)
      rw [List.getElem?_eq_getElem hp] at h1
      simp only [Option.some.injEq] at h1
      rw [h1, List.length_take, List.length_drop]
      have h2 : (p + 1) * initialHandSize P players ≤ players * initialHandSize P players :=
        Nat.mul_le_mul_right _ (by omega)
      have h3 : (p + 1) * initialHandSize P players =
          p * initialHandSize P players + initialHandSize P players := by ring
      omega
    exact ⟨⟨_, le_refl _, hlen, hdeck⟩, fun x hx => (hall x hx).le, fun _ _ => hall⟩
  | beginTurn s _ _ _ _ ih => rw [s.beginTurn_server]; exact ih
  | pleasePlay s index hs h ih =>
    obtain ⟨hand, card, hhand, hcard, hserver, -⟩ := s.pleasePlay_server index h
    rw [hserver]
    exact dealt_step _ players _ s.hands_ s.deck_ _ _ hand card s.mulligansRemaining_ _
      (by split_ifs <;> omega) hhand hcard ih.1 ih.2.1 ih.2.2
  | pleaseDiscard s index hs h ih =>
    obtain ⟨hand, card, hhand, hcard, hserver, -⟩ := s.pleaseDiscard_server P index h
    rw [hserver]
    exact dealt_step _ players _ s.hands_ s.deck_ _ _ hand card s.mulligansRemaining_ _
      (le_refl _) hhand hcard ih.1 ih.2.1 ih.2.2
  | pleaseGiveColorHint s dst color _ h ih =>
    rw [(s.pleaseGiveColorHint_server P dst color h).1]; exact ih
  | pleaseGiveValueHint s dst value _ h ih =>
    rw [(s.pleaseGiveValueHint_server P dst value h).1]; exact ih
  | endTurn s _ _ h ih =>
    rw [(s.endTurn_server h).2.2.1]; exact ih


theorem initialDeck_stacked (stackedDeck : List Card) (g : Nat → Nat) (h : stackedDeck ≠ []) :
    initialDeck stackedDeck g = stackedDeck := by
  simp [initialDeck, h]

/-- The deck of a state of the game, in terms of the number of its cards. -/
theorem Reachable.deck_eq {P : Params} {players : Nat} {stackedDeck : List Card}
    {g : Nat → Nat} {s : Server} (hs : Reachable P players stackedDeck g s) :
    players * initialHandSize P players ≤
      (initialDeck stackedDeck g).length - s.deck_.length ∧
    s.deck_.length ≤ (initialDeck stackedDeck g).length ∧
    s.deck_ = ((initialDeck stackedDeck g).drop
      ((initialDeck stackedDeck g).length - s.deck_.length)).reverse ∧
    s.deck_.getLast? =
      (initialDeck stackedDeck g)[(initialDeck stackedDeck g).length - s.deck_.length]? := by
  obtain ⟨k, hk1, hk2, hk3⟩ := hs.dealt.1
  have hl : s.deck_.length = (initialDeck stackedDeck g).length - k := by
    rw [hk3, List.length_reverse, List.length_drop]
  have hk : (initialDeck stackedDeck g).length - s.deck_.length = k := by omega
  rw [hk]
  refine ⟨hk1, by omega, hk3, ?_⟩
  rw [hk3, List.getLast?_reverse, List.head?_drop]

/-- C16 (the stacked deck is dealt and drawn from index 0 on). Let `d` be a non-empty stacked
deck of at least `n * h` cards, for `n` players and the hand size `h`. Then `runGame` gets to
its turn loop, having dealt player `p` the cards `d[p*h], .., d[p*h + h - 1]` in that order
and keeping the cards from `d[n*h]` on in the deck. In every state of the game that follows
the deck holds the cards `d[k], d[k+1], ..` for some `k >= n*h`, its top card being `d[k]`,
and every replacement draw of a play or a discard puts `d[k]` at the end of the active hand
and leaves the deck with the cards from `d[k+1]` on: the replacement draws take
`d[n*h], d[n*h+1], ..` in that order. -/
theorem C16_stacked_deck_order (P : Params) (players : Nat) (d : List Card) (g : Nat → Nat)
    (hd : d ≠ []) (hlen : players * initialHandSize P players ≤ d.length) :
    (∀ s0, ∃ s, Server.runGameSetup P s0 players d g = .ok s ∧
      (∀ p, p < players → s.hands_[p]? =
        some ((d.drop (p * initialHandSize P players)).take (initialHandSize P players))) ∧
      s.deck_ = (d.drop (players * initialHandSize P players)).reverse) ∧
    (∀ s, Reachable P players d g s →
      players * initialHandSize P players ≤ d.length - s.deck_.length ∧
      s.deck_ = (d.drop (d.length - s.deck_.length)).reverse ∧
      (∀ index, (s.pleasePlay index).fault = none → s.deck_ ≠ [] →
        0 < (s.pleasePlay index).server.mulligansRemaining_ →
        ∃ hand card, s.hands_[s.activePlayer_.toNat]? = some hand ∧
          d[d.length - s.deck_.length]? = some card ∧
          (s.pleasePlay index).server.hands_[s.activePlayer_.toNat]? =
            some (hand.eraseIdx index.toNat ++ [card]) ∧
          (s.pleasePlay index).server.deck_ =
            (d.drop (d.length - s.deck_.length + 1)).reverse) ∧
      (∀ index, (s.pleaseDiscard P index).fault = none → s.deck_ ≠ [] →
        0 < (s.pleaseDiscard P index).server.mulligansRemaining_ →
        ∃ hand card, s.hands_[s.activePlayer_.toNat]? = some hand ∧
          d[d.length - s.deck_.length]? = some card ∧
          (s.pleaseDiscard P index).server.hands_[s.activePlayer_.toNat]? =
            some (hand.eraseIdx index.toNat ++ [card]) ∧
          (s.pleaseDiscard P index).server.deck_ =
            (d.drop (d.length - s.deck_.length + 1)).reverse)) := by
  have hinit := initialDeck_stacked d g hd
  constructor
  · intro s0
    obtain ⟨s, hs⟩ := Server.runGameSetup_ok P s0 players d g (by rw [hinit]; exact hlen)
    obtain ⟨-, hdeck, hhands⟩ := Server.runGameSetup_exact P s0 s players d g hs
    rw [hinit] at hdeck hhands
    exact ⟨s, hs, hhands, hdeck⟩
  · intro s hs
    obtain ⟨h1, h2, h3, h4⟩ := hs.deck_eq
    rw [hinit] at h1 h2 h3 h4
    have hdraw : s.deck_ ≠ [] → ∃ card, d[d.length - s.deck_.length]? = some card ∧
        s.deck_.getLast? = some card ∧
        s.deck_.dropLast = (d.drop (d.length - s.deck_.length + 1)).reverse := by
      intro hne
      have hpos : 0 < s.deck_.length := List.length_pos.mpr hne
      have hlt : d.length - s.deck_.length < d.length := by omega
      refine ⟨d[d.length - s.deck_.length], List.getElem?_eq_getElem hlt, ?_, ?_⟩
      · rw [h4, List.getElem?_eq_getElem hlt]
      · conv_lhs => rw [h3]
        rw [List.dropLast_reverse, List.tail_drop]
    refine ⟨h1, h3, ?_, ?_⟩
    · intro index hacc hne hm
      obtain ⟨hand, card, hhand, hcard, hserver, -⟩ := s.pleasePlay_server index hacc
      obtain ⟨top, ht1, ht2, ht3⟩ := hdraw hne
      have hlt : s.activePlayer_.toNat < s.hands_.length := getElem?_lt_length hhand
      rw [hserver] at hm ⊢
      simp only at hm ⊢
      rw [if_pos hm, if_pos hm, ht2, ht3]
      exact ⟨hand, top, hhand, ht1, by simp [hlt], rfl⟩
    · intro index hacc hne hm
      obtain ⟨hand, card, hhand, hcard, hserver, -⟩ := s.pleaseDiscard_server P index hacc
      obtain ⟨top, ht1, ht2, ht3⟩ := hdraw hne
      have hlt : s.activePlayer_.toNat < s.hands_.length := getElem?_lt_length hhand
      rw [hserver] at hm ⊢
      simp only at hm ⊢
      rw [if_pos hm, if_pos hm, ht2, ht3]
      exact ⟨hand, top, hhand, ht1, by simp [hlt], rfl⟩

/-- Witness for C16: the two-player game on the stacked deck R1 R1 R1 R2 R2, R3 R3 R4 R4 R5,
O1, .. (the standard deck in the order in which it is built); player 0 gets the first five
cards, player 1 the next five, and the first replacement draw takes the eleventh card. -/
theorem C16_stacked_deck_order_witness :
    (∃ s, Server.runGameSetup Params.default Server.fresh 2 standardDeck (fun _ => 0) = .ok s ∧
      (∀ p, p < 2 → s.hands_[p]? = some ((standardDeck.drop (p * initialHandSize
        Params.default 2)).take (initialHandSize Params.default 2))) ∧
      s.deck_ = (standardDeck.drop (2 * initialHandSize Params.default 2)).reverse) ∧
    exampleStart.hands_ = [[⟨.RED, 1⟩, ⟨.RED, 1⟩, ⟨.RED, 1⟩, ⟨.RED, 2⟩, ⟨.RED, 2⟩],
      [⟨.RED, 3⟩, ⟨.RED, 3⟩, ⟨.RED, 4⟩, ⟨.RED, 4⟩, ⟨.RED, 5⟩]] ∧
    (exampleStart.beginTurn.server.pleasePlay 3).server.hands_ =
      [[⟨.RED, 1⟩, ⟨.RED, 1⟩, ⟨.RED, 1⟩, ⟨.RED, 2⟩, ⟨.ORANGE, 1⟩],
        [⟨.RED, 3⟩, ⟨.RED, 3⟩, ⟨.RED, 4⟩, ⟨.RED, 4⟩, ⟨.RED, 5⟩]] :=
  ⟨(C16_stacked_deck_order Params.default 2 standardDeck (fun _ => 0) (by decide)
    (by decide)).1 Server.fresh, by decide, by decide⟩

/-! ## The last card of the deck -/

theorem Server.handSize_toNat (P : Params) (players : Nat) (s : Server)
    (h : s.numPlayers_ = players) : (s.handSize P).toNat = initialHandSize P players := by
  simp [Server.handSize, initialHandSize, h]

/-- What the last card of the deck does to the hand that draws it. -/
theorem last_card_step (h : Nat) (hands : List (List Card)) (deck : List Card) (a idx : Nat)
    (hand : List Card) (card : Card) (hhand : hands[a]? = some hand)
    (hcard : hand[idx]? = some card) (hone : deck.length = 1)
    (heq : ∀ x ∈ hands, x.length = h) :
    ∃ hand1, (hands.set a (hand.eraseIdx idx ++ deck.getLast?.toList))[a]? = some hand1 ∧
      hand1.length = h ∧ deck.dropLast = [] := by
  have hidx : idx < hand.length := getElem?_lt_length hcard
  have hlt : a < hands.length := getElem?_lt_length hhand
  have h1 := heq hand (List.getElem?_mem hhand)
  obtain ⟨c, rfl⟩ : ∃ c, deck = [c] := by
    match deck, hone with
    | [c], _ => exact ⟨c, rfl⟩
  refine ⟨hand.eraseIdx idx ++ [c], by simp [hlt], ?_, rfl⟩
  rw [List.length_append, List.length_eraseIdx, if_pos hidx, List.length_singleton]
  omega

/-- C17 (the last card of the deck), amended. Let exactly one card remain in the deck and let
the active player make an accepted play or discard after which a mulligan is left. Then that
player has drawn the card and ends the move with a full hand of `handSize()` cards, which
without `HAND_SIZE_OVERRIDE` is 5 cards for 2 or 3 players and 4 cards for 4 or 5 players; the
deck is empty; and when the move has not ended the game, the turn is completed and
`finalCountdown` is 1 at its end. -/
theorem C17_last_card (P : Params) (players : Nat) (stackedDeck : List Card) (g : Nat → Nat)
    (s : Server) (hs : Reachable P players stackedDeck g s) (hone : s.deck_.length = 1) :
    (∀ index, (s.pleasePlay index).fault = none →
      0 < (s.pleasePlay index).server.mulligansRemaining_ →
      (∃ hand, (s.pleasePlay index).server.hands_[s.activePlayer_.toNat]? = some hand ∧
        (hand.length : Int) = s.handSize P) ∧
      (s.pleasePlay index).server.deck_ = [] ∧
      ((s.pleasePlay index).server.gameOver P = .ok false →
        (s.pleasePlay index).server.endTurn.fault = none ∧
        (s.pleasePlay index).server.endTurn.server.finalCountdown_ = 1)) ∧
    (∀ index, (s.pleaseDiscard P index).fault = none →
      0 < (s.pleaseDiscard P index).server.mulligansRemaining_ →
      (∃ hand, (s.pleaseDiscard P index).server.hands_[s.activePlayer_.toNat]? = some hand ∧
        (hand.length : Int) = s.handSize P) ∧
      (s.pleaseDiscard P index).server.deck_ = [] ∧
      ((s.pleaseDiscard P index).server.gameOver P = .ok false →
        (s.pleaseDiscard P index).server.endTurn.fault = none ∧
        (s.pleaseDiscard P index).server.endTurn.server.finalCountdown_ = 1)) ∧
    (P.HAND_SIZE_OVERRIDE < 0 → players = 2 ∨ players = 3 → s.handSize P = 5) ∧
    (P.HAND_SIZE_OVERRIDE < 0 → players = 4 ∨ players = 5 → s.handSize P = 4) := by
  have hinv := hs.inv
  have hne : s.deck_ ≠ [] := by
    intro h0
    rw [h0] at hone
    simp at hone
  have hfc0 : s.finalCountdown_ = 0 := by
    by_contra h0
    exact hne (hinv.countdown.2.2 h0)
  have hsize := Server.handSize_toNat P players s hinv.numPlayers
  have hnonneg : 0 ≤ s.handSize P := by
    unfold Server.handSize
    split_ifs <;> omega
  have hend : ∀ s1 : Server, Reachable P players stackedDeck g s1 →
      s1.movesFromActivePlayer_ = 1 → s1.finalCountdown_ = 0 → s1.deck_ = [] →
      s1.endTurn.fault = none ∧ s1.endTurn.server.finalCountdown_ = 1 := by
    intro s1 hr1 hm1 hf1 hd1
    have hn1 := hr1.inv.numPlayers
    have hacc : s1.endTurn.fault = none :=
      s1.endTurn_accepted hm1 ⟨by omega, by omega⟩
    refine ⟨hacc, ?_⟩
    rw [(s1.endTurn_server hacc).2.2.1]
    simp [hd1, hf1]
  refine ⟨?_, ?_, ?_, ?_⟩
  · intro index hacc hm
    obtain ⟨hand, card, hhand, hcard, hserver, -⟩ := s.pleasePlay_server index hacc
    have hr1 := Reachable.pleasePlay s index hs hacc
    have hm0 : 0 < s.mulligansRemaining_ := by
      rw [hserver] at hm
      simp only at hm
      split_ifs at hm <;> omega
    obtain ⟨hand1, hh1, hl1, hd1⟩ := last_card_step (initialHandSize P players) s.hands_
      s.deck_ _ _ hand card hhand hcard hone (hs.dealt.2.2 hne hm0)
    have hdeck : (s.pleasePlay index).server.deck_ = [] := by
      rw [hserver] at hm ⊢
      simp only at hm ⊢
      rw [if_pos hm, hd1]
    refine ⟨⟨hand1, ?_, by omega⟩, hdeck, fun _ => hend _ hr1 ?_ ?_ hdeck⟩
    · rw [hserver] at hm ⊢
      simp only at hm ⊢
      rw [if_pos hm]
      exact hh1
    · rw [hserver]
    · rw [hserver]
      exact hfc0
  · intro index hacc hm
    obtain ⟨hand, card, hhand, hcard, hserver, -⟩ := s.pleaseDiscard_server P index hacc
    have hr1 := Reachable.pleaseDiscard s index hs hacc
    have hm0 : 0 < s.mulligansRemaining_ := by
      rw [hserver] at hm
      exact hm
    obtain ⟨hand1, hh1, hl1, hd1⟩ := last_card_step (initialHandSize P players) s.hands_
      s.deck_ _ _ hand card hhand hcard hone (hs.dealt.2.2 hne hm0)
    have hdeck : (s.pleaseDiscard P index).server.deck_ = [] := by
      rw [hserver]
      simp only
      rw [if_pos hm0, hd1]
    refine ⟨⟨hand1, ?_, by omega⟩, hdeck, fun _ => hend _ hr1 ?_ ?_ hdeck⟩
    · rw [hserver]
      simp only
      rw [if_pos hm0]
      exact hh1
    · rw [hserver]
    · rw [hserver]
      exact hfc0
  · intro ho hp
    have hn := hinv.numPlayers
    have h1 : ¬ (P.HAND_SIZE_OVERRIDE ≥ 0) := by omega
    have h2 : s.numPlayers_ ≤ 3 := by omega
    simp [Server.handSize, h1, h2]
  · intro ho hp
    have hn := hinv.numPlayers
    have h1 : ¬ (P.HAND_SIZE_OVERRIDE ≥ 0) := by omega
    have h2 : ¬ (s.numPlayers_ ≤ 3) := by omega
    simp [Server.handSize, h1, h2]

theorem exampleOneCardLeft_reachable :
    Reachable Params.default 2 exampleShortDeck (fun _ => 0) exampleOneCardLeft :=
  Reachable.beginTurn _ (Reachable.setup Server.fresh _ rfl) (by decide) rfl (by decide)

/-- Witness for C17: in a two-player game on a stacked deck of eleven cards player 0 plays a
red 1 in the first turn and draws the last card. -/
theorem C17_last_card_witness :
    (∃ hand, (exampleOneCardLeft.pleasePlay 0).server.hands_[
        exampleOneCardLeft.activePlayer_.toNat]? = some hand ∧
      (hand.length : Int) = exampleOneCardLeft.handSize Params.default) ∧
    (exampleOneCardLeft.pleasePlay 0).server.deck_ = [] ∧
    ((exampleOneCardLeft.pleasePlay 0).server.gameOver Params.default = .ok false →
      (exampleOneCardLeft.pleasePlay 0).server.endTurn.fault = none ∧
      (exampleOneCardLeft.pleasePlay 0).server.endTurn.server.finalCountdown_ = 1) :=
  (C17_last_card Params.default 2 exampleShortDeck (fun _ => 0) exampleOneCardLeft
    exampleOneCardLeft_reachable (by decide)).1 0 (by decide) (by decide)

theorem Except.eq_ok_of_toOption {α : Type} (x : Except Fault α) (a : α)
    (h : x.toOption = some a) : x = .ok a := by
  cases x with
  | error f => simp [Except.toOption] at h
  | ok b =>
    simp only [Except.toOption, Option.some.injEq] at h
    rw [h]

/-- A move that `execute_` accepts was made by the observer. -/
theorem execute_whoAmI (P : Params) (src : Int) (move : Move) (server : Server)
    (h : (execute_ P src move server).fault = none) : server.whoAmI = .ok src := by
  unfold execute_ at h
  cases hw : server.whoAmI with
  | error f => simp [hw, Outcome.stop] at h
  | ok me =>
    simp only [hw] at h
    by_cases hsrc : src = me
    · rw [hsrc]
    · simp [hsrc, Outcome.stop] at h

/-- A turn that completes leads from a state of the game to a state of the game. -/
theorem Server.turn_reachable (P : Params) (players : Nat) (stackedDeck : List Card)
    (g : Nat → Nat) (s : Server) (move : Move) (hs : Reachable P players stackedDeck g s)
    (hmoves : s.movesFromActivePlayer_ = -1) (hover : s.gameOver P = .ok false)
    (h : (s.turn P move).fault = none) :
    Reachable P players stackedDeck g (s.turn P move).server := by
  unfold Server.turn at h ⊢
  simp only at h ⊢
  cases hb : s.beginTurn.fault with
  | some f => simp [hb] at h
  | none =>
    simp only [hb] at h ⊢
    have hr1 := Reachable.beginTurn s hs hmoves hover hb
    cases he : (execute_ P s.beginTurn.server.activePlayer_ move s.beginTurn.server).fault with
    | some f => simp [he] at h
    | none =>
      simp only [he] at h ⊢
      have hme := execute_whoAmI P _ move _ he
      have hr2 := execute_reachable P players stackedDeck g move _ hr1 hme he
      cases hg : (execute_ P s.beginTurn.server.activePlayer_ move
          s.beginTurn.server).server.gameOver P with
      | error f => simp [hg] at h
      | ok b =>
        cases b with
        | true =>
          simp only [hg]
          exact hr2
        | false =>
          simp only [hg] at h ⊢
          exact Reachable.endTurn _ hr2 hg h

theorem exampleWinningGame_reachable (k : Nat) (hk : k ≤ 24) :
    Reachable Params.default 2 exampleWinningDeck (fun _ => 0) (exampleWinningGame k) := by
  have hall : ∀ j < 24, (exampleWinningGame j).movesFromActivePlayer_ = -1 ∧
      ((exampleWinningGame j).gameOver Params.default).toOption = some false ∧
      ((exampleWinningGame j).turn Params.default ⟨.PLAY_CARD, 0, -1⟩).fault = none := by
    decide!
  induction k with
  | zero => exact Reachable.setup Server.fresh _ rfl
  | succ k ih =>
    obtain ⟨h1, h2, h3⟩ := hall k (by omega)
    exact Server.turn_reachable _ _ _ _ _ _ (ih (by omega)) h1 (Except.eq_ok_of_toOption _ _ h2) h3

theorem exampleWinningGame_last_turn :
    Reachable Params.default 2 exampleWinningDeck (fun _ => 0)
      (exampleWinningGame 24).beginTurn.server := by
  have h : (exampleWinningGame 24).movesFromActivePlayer_ = -1 ∧
      ((exampleWinningGame 24).gameOver Params.default).toOption = some false ∧
      (exampleWinningGame 24).beginTurn.fault = none := by
    decide!
  exact Reachable.beginTurn (exampleWinningGame 24)
    (exampleWinningGame_reachable 24 (le_refl 24)) h.1
    (Except.eq_ok_of_toOption ((exampleWinningGame 24).gameOver Params.default) false h.2.1) h.2.2

/-- Counterexample to C17 as stated, in two games of two players. In the first, one card (O1)
is left in the deck and player 0 plays the red 1 of slot 0, which is accepted and costs no
mulligan: player 0 ends the move with the five cards R1 R1 R2 R2 O1, not with four. In the
second, 24 plays have built the piles up to B4, one card is left in the deck and player 0
plays the blue 5 of slot 0: the play is accepted, three mulligans are left, the last card is
drawn, and the game is over, so that the turn ends with `finalCountdown` 0, not 1. -/
theorem C17_counterexample :
    (Reachable Params.default 2 exampleShortDeck (fun _ => 0) exampleOneCardLeft ∧
      exampleOneCardLeft.numPlayers_ = 2 ∧ exampleOneCardLeft.activePlayer_ = 0 ∧
      exampleOneCardLeft.deck_ = [⟨.ORANGE, 1⟩] ∧
      (exampleOneCardLeft.pleasePlay 0).fault = none ∧
      (exampleOneCardLeft.pleasePlay 0).server.mulligansRemaining_ = 3 ∧
      (exampleOneCardLeft.pleasePlay 0).server.hands_[0]? =
        some [⟨.RED, 1⟩, ⟨.RED, 1⟩, ⟨.RED, 2⟩, ⟨.RED, 2⟩, ⟨.ORANGE, 1⟩] ∧
      ((exampleOneCardLeft.pleasePlay 0).server.handOf 0).length ≠ 4) ∧
    (Reachable Params.default 2 exampleWinningDeck (fun _ => 0)
        (exampleWinningGame 24).beginTurn.server ∧
      (exampleWinningGame 24).beginTurn.server.deck_ = [⟨.ORANGE, 4⟩] ∧
      (exampleWinningGame 24).beginTurn.server.activePlayer_ = 0 ∧
      ((exampleWinningGame 24).beginTurn.server.pleasePlay 0).fault = none ∧
      ((exampleWinningGame 24).beginTurn.server.pleasePlay 0).server.mulligansRemaining_ = 3 ∧
      ((exampleWinningGame 24).beginTurn.server.pleasePlay 0).server.deck_ = [] ∧
      (((exampleWinningGame 24).beginTurn.server.pleasePlay 0).server.gameOver
        Params.default).toOption = some true ∧
      ((exampleWinningGame 24).turn Params.default ⟨.PLAY_CARD, 0, -1⟩).fault = none ∧
      ((exampleWinningGame 24).turn Params.default ⟨.PLAY_CARD, 0, -1⟩).server.finalCountdown_
        = 0 ∧
      ((exampleWinningGame 24).turn Params.default ⟨.PLAY_CARD, 0, -1⟩).server.finalCountdown_
        ≠ 1) :=
  ⟨⟨exampleOneCardLeft_reachable, by decide, by decide, by decide, by decide, by decide,
      by decide, by decide⟩,
    ⟨exampleWinningGame_last_turn, by decide!⟩⟩

/-! ## Legal moves and their indices -/

theorem setInsert_mem (x m : Move) (l : List Move) (h : m ∈ setInsert x l) : m = x ∨ m ∈ l := by
  induction l with
  | nil =>
    simp only [setInsert, List.mem_singleton] at h
    exact Or.inl h
  | cons y ys ih =>
    simp only [setInsert] at h
    split_ifs at h
    · rcases List.mem_cons.mp h with h | h
      · exact Or.inl h
      · exact Or.inr h
    · rcases List.mem_cons.mp h with h | h
      · exact Or.inr (h ▸ List.mem_cons_self _ _)
      · rcases ih h with h | h
        · exact Or.inl h
        · exact Or.inr (List.mem_cons_of_mem _ h)
    · exact Or.inr h

theorem enumerateLegalMoves.own_mem (P : Params) (server : Server) (is : List Nat)
    (moves : List Move) (m : Move) (h : m ∈ enumerateLegalMoves.own P server is moves) :
    m ∈ moves ∨ ∃ i ∈ is, m = ⟨.PLAY_CARD, i, -1⟩ ∨ m = ⟨.DISCARD_CARD, i, -1⟩ := by
  induction is generalizing moves with
  | nil => exact Or.inl h
  | cons i rest ih =>
    simp only [enumerateLegalMoves.own] at h
    rcases ih _ h with h1 | ⟨j, hj, h1⟩
    · have h2 : m = ⟨.DISCARD_CARD, i, -1⟩ ∨ m = ⟨.PLAY_CARD, i, -1⟩ ∨ m ∈ moves := by
        split_ifs at h1
        · rcases setInsert_mem _ _ _ h1 with h1 | h1
          · exact Or.inl h1
          · exact Or.inr (setInsert_mem _ _ _ h1)
        · exact Or.inr (setInsert_mem _ _ _ h1)
      rcases h2 with h2 | h2 | h2
      · exact Or.inr ⟨i, List.mem_cons_self _ _, Or.inr h2⟩
      · exact Or.inr ⟨i, List.mem_cons_self _ _, Or.inl h2⟩
      · exact Or.inl h2
    · exact Or.inr ⟨j, List.mem_cons_of_mem _ hj, h1⟩

theorem enumerateLegalMoves.cards_mem (server : Server) (p : Int) (hand : List Card)
    (moves r : List Move) (m : Move)
    (hr : enumerateLegalMoves.cards server p hand moves = .ok r) (h : m ∈ r) :
    m ∈ moves ∨ ∃ card ∈ hand,
      m = ⟨.HINT_COLOR, card.color.toInt, p⟩ ∨ m = ⟨.HINT_VALUE, card.value, p⟩ := by
  induction hand generalizing moves with
  | nil =>
    simp only [enumerateLegalMoves.cards, Except.ok.injEq] at hr
    subst hr
    exact Or.inl h
  | cons card rest ih =>
    simp only [enumerateLegalMoves.cards] at hr
    cases hst : server.hintStonesRemaining with
    | error f => simp [hst] at hr
    | ok stones =>
      simp only [hst] at hr
      split_ifs at hr
      · rcases ih _ hr with h1 | ⟨c, hc, h1⟩
        · rcases setInsert_mem _ _ _ h1 with h1 | h1
          · exact Or.inr ⟨card, List.mem_cons_self _ _, Or.inr h1⟩
          · rcases setInsert_mem _ _ _ h1 with h1 | h1
            · exact Or.inr ⟨card, List.mem_cons_self _ _, Or.inl h1⟩
            · exact Or.inl h1
        · exact Or.inr ⟨c, List.mem_cons_of_mem _ hc, h1⟩
      · rcases ih _ hr with h1 | ⟨c, hc, h1⟩
        · exact Or.inl h1
        · exact Or.inr ⟨c, List.mem_cons_of_mem _ hc, h1⟩

theorem enumerateLegalMoves.partners_mem (server : Server) (me : Int)
    (hme : server.whoAmI = .ok me) (ps : List Nat) (moves r : List Move) (m : Move)
    (hr : enumerateLegalMoves.partners server ps moves = .ok r) (h : m ∈ r) :
    m ∈ moves ∨ ∃ p ∈ ps, (p : Int) ≠ me ∧ ∃ hand card,
      server.handOfPlayer p = .ok hand ∧ card ∈ hand ∧
      (m = ⟨.HINT_COLOR, card.color.toInt, p⟩ ∨ m = ⟨.HINT_VALUE, card.value, p⟩) := by
  induction ps generalizing moves with
  | nil =>
    simp only [enumerateLegalMoves.partners, Except.ok.injEq] at hr
    subst hr
    exact Or.inl h
  | cons p rest ih =>
    simp only [enumerateLegalMoves.partners, hme] at hr
    by_cases hp : (p : Int) = me
    · rw [if_pos hp] at hr
      rcases ih _ hr with h1 | ⟨q, hq, h1⟩
      · exact Or.inl h1
      · exact Or.inr ⟨q, List.mem_cons_of_mem _ hq, h1⟩
    · rw [if_neg hp] at hr
      cases hh : server.handOfPlayer p with
      | error f => simp [hh] at hr
      | ok hand =>
        simp only [hh] at hr
        cases hc : enumerateLegalMoves.cards server p hand moves with
        | error f => simp [hc] at hr
        | ok moves1 =>
          simp only [hc] at hr
          rcases ih _ hr with h1 | ⟨q, hq, h1⟩
          · rcases enumerateLegalMoves.cards_mem server p hand moves moves1 m hc h1 with
              h2 | ⟨card, hcard, h2⟩
            · exact Or.inl h2
            · exact Or.inr ⟨p, List.mem_cons_self _ _, hp, hand, card, hh, hcard, h2⟩
          · exact Or.inr ⟨q, List.mem_cons_of_mem _ hq, h1⟩

/-- The moves that `enumerateLegalMoves` returns: plays and discards of slots of the observer's
hand, and hints of the colour or the value of a card held by another player. -/
theorem enumerateLegalMoves_shape (P : Params) (server : Server) (moves : List Move)
    (h : enumerateLegalMoves P server = .ok moves) :
    ∃ me size, server.whoAmI = .ok me ∧ server.sizeOfHandOfPlayer me = .ok size ∧
      ∀ m ∈ moves,
        (∃ i : Nat, (i : Int) < size ∧
          (m = ⟨.PLAY_CARD, i, -1⟩ ∨ m = ⟨.DISCARD_CARD, i, -1⟩)) ∨
        (∃ p : Nat, (p : Int) < server.numPlayers ∧ (p : Int) ≠ me ∧ ∃ hand card,
          server.handOfPlayer p = .ok hand ∧ card ∈ hand ∧
          (m = ⟨.HINT_COLOR, card.color.toInt, p⟩ ∨ m = ⟨.HINT_VALUE, card.value, p⟩)) := by
  unfold enumerateLegalMoves at h
  cases hme : server.whoAmI with
  | error f => simp [hme] at h
  | ok me =>
    simp only [hme] at h
    cases hsz : server.sizeOfHandOfPlayer me with
    | error f => simp [hsz] at h
    | ok size =>
      simp only [hsz] at h
      refine ⟨me, size, rfl, hsz, ?_⟩
      intro m hm
      rcases enumerateLegalMoves.partners_mem server me hme _ _ _ m h hm with
        h1 | ⟨p, hp, hne, h1⟩
      · rcases enumerateLegalMoves.own_mem P server _ _ m h1 with h2 | ⟨i, hi, h2⟩
        · simp at h2
        · left
          refine ⟨i, ?_, h2⟩
          rw [List.mem_range] at hi
          omega
      · right
        refine ⟨p, ?_, hne, h1⟩
        rw [List.mem_range] at hp
        omega

theorem enumerateLegalMoves.cards_ok (server : Server) (p : Int) (hand : List Card)
    (moves : List Move) (hst : server.hintStonesRemaining_ ≤ NUMHINTS) :
    ∃ r, enumerateLegalMoves.cards server p hand moves = .ok r := by
  induction hand generalizing moves with
  | nil => exact ⟨moves, rfl⟩
  | cons card rest ih =>
    simp only [enumerateLegalMoves.cards, Server.hintStonesRemaining, hst, not_true_eq_false,
      if_false]
    split_ifs
    · exact ih _
    · exact ih _

theorem enumerateLegalMoves.partners_ok (server : Server) (me : Int)
    (hme : server.whoAmI = .ok me) (ps : List Nat) (moves : List Move)
    (hst : server.hintStonesRemaining_ ≤ NUMHINTS)
    (hps : ∀ p ∈ ps, (p : Int) < server.numPlayers_ ∧ p < server.hands_.length) :
    ∃ r, enumerateLegalMoves.partners server ps moves = .ok r := by
  induction ps generalizing moves with
  | nil => exact ⟨moves, rfl⟩
  | cons p rest ih =>
    have hrest : ∀ q ∈ rest, (q : Int) < server.numPlayers_ ∧ q < server.hands_.length :=
      fun q hq => hps q (List.mem_cons_of_mem _ hq)
    obtain ⟨hp1, hp2⟩ := hps p (List.mem_cons_self _ _)
    simp only [enumerateLegalMoves.partners, hme]
    by_cases hp : (p : Int) = me
    · rw [if_pos hp]
      exact ih _ hrest
    · rw [if_neg hp]
      have hobs : server.observingPlayer_ = me := by
        unfold Server.whoAmI at hme
        split_ifs at hme
        simpa using hme
      have hh : server.handOfPlayer p = .ok server.hands_[p] := by
        have h1 : (p : Int) ≠ server.observingPlayer_ := by rw [hobs]; exact hp
        have h2 : (0 : Int) ≤ p ∧ (p : Int) < server.numPlayers_ := ⟨by omega, hp1⟩
        simp [Server.handOfPlayer, h1, h2, hp2]
      simp only [hh]
      obtain ⟨r1, hr1⟩ := enumerateLegalMoves.cards_ok server p server.hands_[p] moves hst
      simp only [hr1]
      exact ih _ hrest

/-- The enumeration of the legal moves returns a result for every observer, as long as there is a
hand for every player and the count of hint stones is in its range. -/
theorem enumerateLegalMoves_ok (P : Params) (server : Server) (me : Int)
    (hme : server.whoAmI = .ok me) (hhands : server.numPlayers_ = server.hands_.length)
    (hst : server.hintStonesRemaining_ ≤ NUMHINTS) :
    ∃ moves, enumerateLegalMoves P server = .ok moves := by
  have hobs : (0 ≤ server.observingPlayer_ ∧ server.observingPlayer_ < server.numPlayers_) ∧
      server.observingPlayer_ = me := by
    unfold Server.whoAmI at hme
    split_ifs at hme with h1
    exact ⟨h1, by simpa using hme⟩
  have hsz : server.sizeOfHandOfPlayer me = .ok (server.handOf me).length := by
    have h1 : 0 ≤ me ∧ me < server.numPlayers_ := by rw [← hobs.2]; exact hobs.1
    have h2 : me.toNat < server.hands_.length := by omega
    simp [Server.sizeOfHandOfPlayer, Server.handOf, h1, h2]
  unfold enumerateLegalMoves
  simp only [hme, hsz]
  refine enumerateLegalMoves.partners_ok server me hme _ _ hst ?_
  intro p hp
  rw [List.mem_range] at hp
  simp only [Server.numPlayers] at hp
  omega


/-- The offset of a hinted player: counting from the observer upwards, around the table. -/
theorem targetOffset_eq (n me p : Int) (hme : 0 ≤ me ∧ me < n) (hp : 0 ≤ p ∧ p < n)
    (hne : p ≠ me) :
    ∃ o, (p + n - me).tmod n = o ∧ (p + n - me) % n = o ∧ 1 ≤ o ∧ o ≤ n - 1 ∧
      (me + o) % n = p := by
  have htmod : (p + n - me).tmod n = (p + n - me) % n :=
    Int.tmod_eq_emod (by omega) (by omega)
  by_cases hlt : me < p
  · have h1 : (p + n - me) % n = p - me := by
      have e : p + n - me = (p - me) + n := by ring
      rw [e, Int.add_emod_self, Int.emod_eq_of_lt (by omega) (by omega)]
    refine ⟨p - me, by rw [htmod, h1], h1, by omega, by omega, ?_⟩
    have e : me + (p - me) = p := by ring
    rw [e, Int.emod_eq_of_lt hp.1 hp.2]
  · have h1 : (p + n - me) % n = p + n - me := Int.emod_eq_of_lt (by omega) (by omega)
    refine ⟨p + n - me, by rw [htmod, h1], h1, by omega, by omega, ?_⟩
    have e : me + (p + n - me) = p + n := by ring
    rw [e, Int.add_emod_self, Int.emod_eq_of_lt hp.1 hp.2]

theorem indexToMove_discard (H n me i : Int) (hi : 0 ≤ i ∧ i < H) :
    indexToMove H n me i = some ⟨.DISCARD_CARD, i, -1⟩ := by
  unfold indexToMove
  rw [if_pos hi]

theorem indexToMove_play (H n me i : Int) (hi : 0 ≤ i ∧ i < H) :
    indexToMove H n me (i + H) = some ⟨.PLAY_CARD, i, -1⟩ := by
  unfold indexToMove
  rw [if_neg (by omega), if_pos (by omega)]
  have e : i + H - H = i := by omega
  rw [e]

theorem indexToMove_hintColor (H n me o c p : Int) (ho : 1 ≤ o ∧ o ≤ n - 1)
    (hc : 0 ≤ c ∧ c < 5) (hp : (me + o) % n = p) :
    indexToMove H n me ((o - 1) * 5 + c + H + H) = some ⟨.HINT_COLOR, c, p⟩ := by
  unfold indexToMove
  rw [if_neg (by omega), if_neg (by omega), if_pos (by omega)]
  have e1 : ((o - 1) * 5 + c + H + H - 2 * H) % 5 = c := by omega
  have e2 : ((o - 1) * 5 + c + H + H - 2 * H) / 5 + 1 = o := by omega
  rw [e1, e2, hp]

theorem indexToMove_hintValue (H n me o v p : Int) (ho : 1 ≤ o ∧ o ≤ n - 1)
    (hv : 1 ≤ v ∧ v ≤ 5) (hp : (me + o) % n = p) :
    indexToMove H n me ((o - 1) * 5 + v - 1 + H + H + (n - 1) * 5) =
      some ⟨.HINT_VALUE, v, p⟩ := by
  unfold indexToMove
  rw [if_neg (by omega), if_neg (by omega), if_neg (by omega), if_pos (by omega)]
  have e1 : ((o - 1) * 5 + v - 1 + H + H + (n - 1) * 5 - 2 * H - (n - 1) * 5) % 5 + 1 = v := by
    omega
  have e2 : ((o - 1) * 5 + v - 1 + H + H + (n - 1) * 5 - 2 * H - (n - 1) * 5) / 5 + 1 = o := by
    omega
  rw [e1, e2, hp]

theorem Server.handSize_nonneg (P : Params) (s : Server) : 0 ≤ s.handSize P := by
  unfold Server.handSize
  split_ifs <;> omega

theorem Server.sizeOfHandOfPlayer_ok (s : Server) (player size : Int)
    (h : s.sizeOfHandOfPlayer player = .ok size) :
    ∃ hand ∈ s.hands_, size = hand.length := by
  unfold Server.sizeOfHandOfPlayer at h
  split_ifs at h
  cases hh : s.hands_[player.toNat]? with
  | none => simp [hh] at h
  | some hand =>
    simp only [hh, Except.ok.injEq] at h
    exact ⟨hand, List.getElem?_mem hh, h.symm⟩

theorem Server.handOfPlayer_ok (s : Server) (player : Int) (hand : List Card)
    (h : s.handOfPlayer player = .ok hand) :
    hand ∈ s.hands_ ∧ 0 ≤ player ∧ player < s.numPlayers_ := by
  unfold Server.handOfPlayer at h
  split_ifs at h with h1 h2
  cases hh : s.hands_[player.toNat]? with
  | none => simp [hh] at h
  | some hand1 =>
    simp only [hh, Except.ok.injEq] at h
    subst h
    exact ⟨List.getElem?_mem hh, h2.1, h2.2⟩

theorem Card.valid_color (c : Card) (h : c.valid) : 0 ≤ c.color.toInt ∧ c.color.toInt < 5 := by
  obtain ⟨h1, -⟩ := h
  cases hc : c.color <;> simp [hc, Color.toInt] at h1 ⊢

/-- The index of a legal move lies in the canonical layout, and the layout gives the move
back. -/
theorem moveToIndex_legal (P : Params) (server : Server) (moves : List Move)
    (h : enumerateLegalMoves P server = .ok moves)
    (hsize : ∀ hand ∈ server.hands_, (hand.length : Int) ≤ server.handSize P)
    (hvalid : ∀ hand ∈ server.hands_, ∀ c ∈ hand, c.valid) :
    ∃ me, server.whoAmI = .ok me ∧ ∀ m ∈ moves, ∃ k, moveToIndex P m server = .ok k ∧
      0 ≤ k ∧ k < 2 * server.handSize P + (server.numPlayers - 1) * 10 ∧
      indexToMove (server.handSize P) server.numPlayers me k = some m := by
  obtain ⟨me, size, hme, hsz, hall⟩ := enumerateLegalMoves_shape P server moves h
  refine ⟨me, hme, ?_⟩
  have hobs : 0 ≤ me ∧ me < server.numPlayers_ := by
    unfold Server.whoAmI at hme
    split_ifs at hme with h1
    simp only [Except.ok.injEq] at hme
    rw [← hme]
    exact h1
  have hH := server.handSize_nonneg P
  obtain ⟨own, hown, hsizeq⟩ := server.sizeOfHandOfPlayer_ok me size hsz
  have hszle : size ≤ server.handSize P := by
    rw [hsizeq]
    exact hsize own hown
  intro m hm
  rcases hall m hm with ⟨i, hi, rfl | rfl⟩ | ⟨p, hp, hne, hand, card, hhand, hcard, rfl | rfl⟩
  · refine ⟨(i : Int) + server.handSize P, by simp [moveToIndex, hme], by omega, ?_, ?_⟩
    · simp only [Server.numPlayers]
      omega
    · exact indexToMove_play _ _ _ _ ⟨by omega, by omega⟩
  · refine ⟨(i : Int), by simp [moveToIndex, hme], by omega, ?_, ?_⟩
    · simp only [Server.numPlayers]
      omega
    · exact indexToMove_discard _ _ _ _ ⟨by omega, by omega⟩
  · obtain ⟨hmem, hp0, hp1⟩ := server.handOfPlayer_ok p hand hhand
    obtain ⟨o, ho1, -, ho3, ho4, ho5⟩ := targetOffset_eq server.numPlayers_ me p hobs
      ⟨hp0, hp1⟩ hne
    have hc := card.valid_color (hvalid hand hmem card hcard)
    refine ⟨(o - 1) * 5 + card.color.toInt + server.handSize P + server.handSize P, ?_, ?_, ?_,
      ?_⟩
    · simp [moveToIndex, hme, Server.numPlayers, ho1]
    · omega
    · simp only [Server.numPlayers]
      omega
    · exact indexToMove_hintColor _ _ _ _ _ _ ⟨ho3, ho4⟩ hc ho5
  · obtain ⟨hmem, hp0, hp1⟩ := server.handOfPlayer_ok p hand hhand
    obtain ⟨o, ho1, -, ho3, ho4, ho5⟩ := targetOffset_eq server.numPlayers_ me p hobs
      ⟨hp0, hp1⟩ hne
    have hv := (hvalid hand hmem card hcard).2
    refine ⟨(o - 1) * 5 + card.value - 1 + server.handSize P + server.handSize P +
      (server.numPlayers_ - 1) * 5, ?_, ?_, ?_, ?_⟩
    · simp [moveToIndex, hme, Server.numPlayers, ho1]
    · omega
    · simp only [Server.numPlayers]
      omega
    · exact indexToMove_hintValue _ _ _ _ _ _ ⟨ho3, ho4⟩ hv ho5

/-- C19 (the layout of move indices). With `H = handSize()`, `n = numPlayers()` and
`me = whoAmI()`, `moveToIndex` maps Discard(i) to `i`, Play(i) to `H + i`, HintColor(target, c)
to `2H + offset*5 + c` and HintValue(target, v) to `2H + (n-1)*5 + offset*5 + (v-1)`, where
`offset = ((target - me + n) mod n) - 1` (for every target from `me - n` on, so for every
player). And when no hand has more than `H` cards and the cards are cards of the game, the
legal moves are enumerated and the index of each of them lies in `[0, 2H + (n-1)*10)`. -/
theorem C19_moveToIndex_layout (P : Params) (server : Server) (me : Int)
    (hme : server.whoAmI = .ok me) :
    (∀ i, moveToIndex P ⟨.DISCARD_CARD, i, -1⟩ server = .ok i) ∧
    (∀ i, moveToIndex P ⟨.PLAY_CARD, i, -1⟩ server = .ok (server.handSize P + i)) ∧
    (∀ target c, 0 ≤ target - me + server.numPlayers →
      moveToIndex P ⟨.HINT_COLOR, c, target⟩ server =
        .ok (2 * server.handSize P +
          ((target - me + server.numPlayers) % server.numPlayers - 1) * 5 + c)) ∧
    (∀ target v, 0 ≤ target - me + server.numPlayers →
      moveToIndex P ⟨.HINT_VALUE, v, target⟩ server =
        .ok (2 * server.handSize P + (server.numPlayers - 1) * 5 +
          ((target - me + server.numPlayers) % server.numPlayers - 1) * 5 + (v - 1))) ∧
    (server.numPlayers_ = server.hands_.length → server.hintStonesRemaining_ ≤ NUMHINTS →
      (∀ hand ∈ server.hands_, (hand.length : Int) ≤ server.handSize P) →
      (∀ hand ∈ server.hands_, ∀ c ∈ hand, c.valid) →
      ∃ moves, enumerateLegalMoves P server = .ok moves ∧
        ∀ m ∈ moves, ∃ k, moveToIndex P m server = .ok k ∧
          0 ≤ k ∧ k < 2 * server.handSize P + (server.numPlayers - 1) * 10) := by
  have hobs : 0 ≤ me ∧ me < server.numPlayers_ := by
    unfold Server.whoAmI at hme
    split_ifs at hme with h1
    simp only [Except.ok.injEq] at hme
    rw [← hme]
    exact h1
  have hmod : ∀ target : Int, 0 ≤ target - me + server.numPlayers_ →
      (target + server.numPlayers_ - me).tmod server.numPlayers_ =
        (target - me + server.numPlayers_) % server.numPlayers_ := by
    intro target ht
    have e : target + server.numPlayers_ - me = target - me + server.numPlayers_ := by ring
    rw [e]
    exact Int.tmod_eq_emod ht (by omega)
  refine ⟨?_, ?_, ?_, ?_, ?_⟩
  · intro i
    simp [moveToIndex, hme]
  · intro i
    simp [moveToIndex, hme]
    ring
  · intro target c ht
    simp only [Server.numPlayers] at ht ⊢
    simp only [moveToIndex, hme, Server.numPlayers, hmod target ht, Except.ok.injEq]
    ring
  · intro target v ht
    simp only [Server.numPlayers] at ht ⊢
    simp only [moveToIndex, hme, Server.numPlayers, hmod target ht, Except.ok.injEq]
    ring
  · intro hhands hst hsize hvalid
    obtain ⟨moves, hmoves⟩ := enumerateLegalMoves_ok P server me hme hhands hst
    obtain ⟨me1, -, hall⟩ := moveToIndex_legal P server moves hmoves hsize hvalid
    refine ⟨moves, hmoves, ?_⟩
    intro m hm
    obtain ⟨k, hk1, hk2, hk3, -⟩ := hall m hm
    exact ⟨k, hk1, hk2, hk3⟩

/-- Witness for C19: the second turn of the example game, seen by player 1 who is about to
move; the hint of the value 2 to player 0 has index 2*5 + 5 + 0*5 + 1 = 16, and the thirteen
legal moves have indices below 20. -/
theorem C19_moveToIndex_layout_witness :
    moveToIndex Params.default ⟨.HINT_VALUE, 2, 0⟩ exampleAfterHint = .ok 16 ∧
    enumerateLegalMoves Params.default exampleAfterHint = .ok
      [⟨.PLAY_CARD, 0, -1⟩, ⟨.PLAY_CARD, 1, -1⟩, ⟨.PLAY_CARD, 2, -1⟩, ⟨.PLAY_CARD, 3, -1⟩,
        ⟨.PLAY_CARD, 4, -1⟩, ⟨.DISCARD_CARD, 0, -1⟩, ⟨.DISCARD_CARD, 1, -1⟩,
        ⟨.DISCARD_CARD, 2, -1⟩, ⟨.DISCARD_CARD, 3, -1⟩, ⟨.DISCARD_CARD, 4, -1⟩,
        ⟨.HINT_COLOR, 0, 0⟩, ⟨.HINT_VALUE, 1, 0⟩, ⟨.HINT_VALUE, 2, 0⟩] ∧
    (∃ moves, enumerateLegalMoves Params.default exampleAfterHint = .ok moves ∧
      ∀ m ∈ moves, ∃ k, moveToIndex Params.default m exampleAfterHint = .ok k ∧
        0 ≤ k ∧ k < 2 * exampleAfterHint.handSize Params.default +
          (exampleAfterHint.numPlayers - 1) * 10) :=
  ⟨(C19_moveToIndex_layout Params.default exampleAfterHint 1 rfl).2.2.2.1 0 2 (by decide),
    rfl,
    (C19_moveToIndex_layout Params.default exampleAfterHint 1 rfl).2.2.2.2 (by decide)
      (by decide) (by decide) (by decide)⟩

/-- C20 (move indices are injective on legal moves). In every position (an observer in
`[0, n)`, a hand for each of the `n` players, no hand larger than `handSize()`, cards of the
game) the legal moves are enumerated; the inverse built from the canonical layout, applied to
the index of a legal move, gives that move back; and so two legal moves with the same index are
the same move. -/
theorem C20_moveToIndex_injective (P : Params) (server : Server) (me : Int)
    (hme : server.whoAmI = .ok me) (hhands : server.numPlayers_ = server.hands_.length)
    (hst : server.hintStonesRemaining_ ≤ NUMHINTS)
    (hsize : ∀ hand ∈ server.hands_, (hand.length : Int) ≤ server.handSize P)
    (hvalid : ∀ hand ∈ server.hands_, ∀ c ∈ hand, c.valid) :
    ∃ moves, enumerateLegalMoves P server = .ok moves ∧
      (∀ m ∈ moves, ∃ k, moveToIndex P m server = .ok k ∧
        indexToMove (server.handSize P) server.numPlayers me k = some m) ∧
      (∀ m1 ∈ moves, ∀ m2 ∈ moves,
        moveToIndex P m1 server = moveToIndex P m2 server → m1 = m2) := by
  obtain ⟨moves, hmoves⟩ := enumerateLegalMoves_ok P server me hme hhands hst
  obtain ⟨me1, hme1, hall⟩ := moveToIndex_legal P server moves hmoves hsize hvalid
  rw [hme] at hme1
  simp only [Except.ok.injEq] at hme1
  subst hme1
  refine ⟨moves, hmoves, ?_, ?_⟩
  · intro m hm
    obtain ⟨k, hk1, -, -, hk4⟩ := hall m hm
    exact ⟨k, hk1, hk4⟩
  · intro m1 h1 m2 h2 heq
    obtain ⟨k1, hk1, -, -, hi1⟩ := hall m1 h1
    obtain ⟨k2, hk2, -, -, hi2⟩ := hall m2 h2
    rw [hk1, hk2] at heq
    simp only [Except.ok.injEq] at heq
    rw [heq] at hi1
    rw [hi1] at hi2
    simpa using hi2

/-- Witness for C20: the second turn of the example game, seen by player 1. -/
theorem C20_moveToIndex_injective_witness :
    ∃ moves, enumerateLegalMoves Params.default exampleAfterHint = .ok moves ∧
      (∀ m ∈ moves, ∃ k, moveToIndex Params.default m exampleAfterHint = .ok k ∧
        indexToMove (exampleAfterHint.handSize Params.default) exampleAfterHint.numPlayers 1 k =
          some m) ∧
      (∀ m1 ∈ moves, ∀ m2 ∈ moves,
        moveToIndex Params.default m1 exampleAfterHint =
          moveToIndex Params.default m2 exampleAfterHint → m1 = m2) :=
  C20_moveToIndex_injective Params.default exampleAfterHint 1 rfl (by decide) (by decide)
    (by decide) (by decide)

/-! ## Cards and their indices -/

/-- C21 (cards and indices). For every card with a colour `RED .. BLUE` and a value 1..5,
`cardToIndex` lies in `[0, 25)` and `indexToCard` gives the card back; for every index in
`[0, 25)`, `indexToCard` returns a card of the game whose `cardToIndex` is the index. -/
theorem C21_card_index_roundtrip :
    (∀ c : Card, c.valid →
      0 ≤ cardToIndex c ∧ cardToIndex c < 25 ∧ indexToCard (cardToIndex c) = .ok c) ∧
    (∀ i : Int, 0 ≤ i → i < 25 →
      ∃ c, indexToCard i = .ok c ∧ c.valid ∧ cardToIndex c = i) := by
  constructor
  · rintro ⟨color, value⟩ ⟨h1, h2, h3⟩
    simp only at h1 h2 h3
    interval_cases value <;> cases color <;>
      first
        | exact absurd rfl h1
        | exact ⟨by decide, by decide, rfl⟩
  · intro i h0 h25
    interval_cases i <;> exact ⟨_, rfl, by decide, rfl⟩

/-- Witness for C21: the green 3 has index 17. -/
theorem C21_card_index_roundtrip_witness :
    cardToIndex ⟨.GREEN, 3⟩ = 17 ∧ indexToCard 17 = .ok ⟨.GREEN, 3⟩ ∧
    (∃ c, indexToCard 17 = .ok c ∧ c.valid ∧ cardToIndex c = 17) :=
  ⟨rfl, (C21_card_index_roundtrip.1 ⟨.GREEN, 3⟩ (by decide)).2.2,
    C21_card_index_roundtrip.2 17 (by decide) (by decide)⟩

/-! ## Deck compositions -/

theorem Color.toInt_inj (a b : Color) (h : a.toInt = b.toInt) : a = b := by
  cases a <;> cases b <;> simp [Color.toInt] at h ⊢

theorem Card.lt_true_iff (a b : Card) :
    Card.lt a b = true ↔
      (a.color.toInt < b.color.toInt ∨ (a.color.toInt = b.color.toInt ∧ a.value < b.value)) := by
  simp [Card.lt]

theorem Card.eq_of_not_lt (a b : Card) (h1 : Card.lt a b = false) (h2 : Card.lt b a = false) :
    a = b := by
  have h1' : ¬ (Card.lt a b = true) := by simp [h1]
  have h2' : ¬ (Card.lt b a = true) := by simp [h2]
  rw [Card.lt_true_iff] at h1' h2'
  obtain ⟨ca, va⟩ := a
  obtain ⟨cb, vb⟩ := b
  simp only at h1' h2'
  have hc : ca.toInt = cb.toInt := by omega
  have hv : va = vb := by omega
  rw [Color.toInt_inj _ _ hc, hv]

theorem Card.lt_irrefl (a : Card) : Card.lt a a = false := by
  simp [Card.lt]

theorem Card.lt_asymm (a b : Card) (h : Card.lt a b = true) : Card.lt b a = false := by
  have h2 : ¬ (Card.lt b a = true) := by
    rw [Card.lt_true_iff] at h ⊢
    omega
  simpa using h2

theorem mem_insertKey (x c : Card) (ks : List Card) : x ∈ insertKey c ks ↔ x = c ∨ x ∈ ks := by
  induction ks with
  | nil => simp [insertKey]
  | cons k ks ih =>
    simp only [insertKey]
    by_cases h1 : Card.lt c k = true
    · simp [h1]
    · by_cases h2 : Card.lt k c = true
      · simp only [h1, h2, Bool.false_eq_true, if_false, if_true, List.mem_cons, ih]
        tauto
      · have hck : c = k := Card.eq_of_not_lt c k (by simpa using h1) (by simpa using h2)
        rw [if_neg h1, if_neg h2, hck, List.mem_cons]
        tauto

/-- A key that is in the map keeps the keys as they are. -/
theorem insertKey_of_mem (c : Card) (ks : List Card)
    (hs : ks.Pairwise (fun a b => Card.lt a b = true)) (hc : c ∈ ks) : insertKey c ks = ks := by
  induction ks with
  | nil => simp at hc
  | cons k ks ih =>
    rw [List.pairwise_cons] at hs
    rcases List.mem_cons.mp hc with rfl | hmem
    · simp [insertKey, Card.lt_irrefl]
    · have hlt := hs.1 c hmem
      simp [insertKey, Card.lt_asymm k c hlt, hlt, ih hs.2 hmem]

theorem DeckComposition.at_set (deck : DeckComposition) (c x : Card) (v : Int) :
    (deck.set c v).at x = if x = c then v else deck.at x := by
  by_cases hx : x = c
  · subst hx
    simp [DeckComposition.at, DeckComposition.set, mem_insertKey]
  · simp [DeckComposition.at, DeckComposition.set, mem_insertKey, hx]

theorem DeckComposition.mem_keys_of_at_pos (deck : DeckComposition) (c : Card)
    (h : 0 < deck.at c) : c ∈ deck.keys := by
  by_contra hn
  simp [DeckComposition.at, hn] at h

/-- What `removeFromDeck` has done when it returns: every card is a key with at least as many
copies as were removed, the keys are the same, and the copies removed are gone. -/
theorem removeFromDeck_ok (cards : List Card) (deck deck1 : DeckComposition)
    (hs : deck.keys.Pairwise (fun a b => Card.lt a b = true))
    (h : removeFromDeck cards deck = .ok deck1) :
    (∀ c ∈ cards, (cards.count c : Int) ≤ deck.at c) ∧ deck1.keys = deck.keys ∧
    (∀ c, deck1.at c = deck.at c - cards.count c) := by
  induction cards generalizing deck with
  | nil =>
    simp only [removeFromDeck, Except.ok.injEq] at h
    subst h
    simp
  | cons card rest ih =>
    simp only [removeFromDeck, DeckComposition.at_set, if_true] at h
    by_cases hneg : deck.at card - 1 < 0
    · simp [hneg] at h
    · rw [if_neg hneg] at h
      have hkey : card ∈ deck.keys := deck.mem_keys_of_at_pos card (by omega)
      have hkeys : (deck.set card (deck.at card - 1)).keys = deck.keys := by
        simp only [DeckComposition.set]
        exact insertKey_of_mem card deck.keys hs hkey
      obtain ⟨h1, h2, h3⟩ := ih (deck.set card (deck.at card - 1)) (by rw [hkeys]; exact hs) h
      refine ⟨?_, by rw [h2, hkeys], ?_⟩
      · intro c hc
        by_cases hcc : c = card
        · subst hcc
          by_cases hin : c ∈ rest
          · have := h1 c hin
            rw [DeckComposition.at_set, if_pos rfl] at this
            rw [List.count_cons_self]
            push_cast
            omega
          · rw [List.count_cons_self, List.count_eq_zero_of_not_mem hin]
            push_cast
            omega
        · have hin : c ∈ rest := by
            rcases List.mem_cons.mp hc with h0 | h0
            · exact absurd h0 hcc
            · exact h0
          have := h1 c hin
          rw [DeckComposition.at_set, if_neg hcc] at this
          rw [List.count_cons_of_ne hcc]
          exact this
      · intro c
        rw [h3 c, DeckComposition.at_set]
        by_cases hcc : c = card
        · subst hcc
          rw [if_pos rfl, List.count_cons_self]
          push_cast
          omega
        · rw [if_neg hcc, List.count_cons_of_ne hcc]

/-- The removal returns when no card is removed more often than the map has it. -/
theorem removeFromDeck_returns (cards : List Card) (deck : DeckComposition)
    (h : ∀ c ∈ cards, (cards.count c : Int) ≤ deck.at c) :
    ∃ deck1, removeFromDeck cards deck = .ok deck1 := by
  induction cards generalizing deck with
  | nil => exact ⟨deck, rfl⟩
  | cons card rest ih =>
    have hcard := h card (List.mem_cons_self _ _)
    rw [List.count_cons_self] at hcard
    push_cast at hcard
    have hneg : ¬ (deck.at card - 1 < 0) := by omega
    simp only [removeFromDeck, DeckComposition.at_set, if_true, if_neg hneg]
    apply ih
    intro c hc
    have hcount := h c (List.mem_cons_of_mem _ hc)
    rw [DeckComposition.at_set]
    by_cases hcc : c = card
    · subst hcc
      rw [if_pos rfl]
      rw [List.count_cons_self] at hcount
      push_cast at hcount
      omega
    · rw [if_neg hcc]
      rw [List.count_cons_of_ne hcc] at hcount
      exact hcount

theorem removeFromDeck_append (a b : List Card) (deck : DeckComposition) :
    removeFromDeck (a ++ b) deck =
      match removeFromDeck a deck with
      | .error f => .error f
      | .ok deck1 => removeFromDeck b deck1 := by
  induction a generalizing deck with
  | nil => rfl
  | cons card rest ih =>
    simp only [List.cons_append, removeFromDeck]
    split_ifs
    · rfl
    · exact ih _


theorem count_flatMap_sum {α : Type} (c : Card) (l : List α) (f : α → List Card) :
    (l.flatMap f).count c = (l.map fun x => (f x).count c).sum := by
  induction l with
  | nil => rfl
  | cons x xs ih => simp [List.flatMap_cons, List.count_append, ih]

theorem allCards_sorted : allCards.Pairwise (fun a b => Card.lt a b = true) := by
  decide

theorem allCards_valid : ∀ c ∈ allCards, c.valid := by
  decide

theorem mem_allCards_of_valid (c : Card) (h : c.valid) : c ∈ allCards := by
  obtain ⟨color, value⟩ := c
  obtain ⟨h1, h2, h3⟩ := h
  simp only at h1 h2 h3
  interval_cases value <;> cases color <;>
    first
      | exact absurd rfl h1
      | decide

theorem Card.count_of_valid (c : Card) (h : c.valid) :
    c.count = .ok (if c.value = 1 then 3 else if c.value = 5 then 1 else 2) := by
  obtain ⟨color, value⟩ := c
  obtain ⟨-, h2, h3⟩ := h
  simp only at h2 h3
  interval_cases value <;> rfl

theorem getCurrentDeckComposition.fill_spec (cs : List Card) (deck : DeckComposition)
    (hvalid : ∀ c ∈ cs, c.valid) :
    ∃ deck1, getCurrentDeckComposition.fill cs deck = .ok deck1 ∧
      deck1.keys = cs.foldl (fun ks c => insertKey c ks) deck.keys ∧
      (∀ x ∈ cs, x.count = .ok (deck1.at x)) ∧
      (∀ x, x ∉ cs → deck1.at x = deck.at x) := by
  induction cs generalizing deck with
  | nil => exact ⟨deck, rfl, rfl, by simp, fun _ _ => rfl⟩
  | cons c rest ih =>
    have hc := Card.count_of_valid c (hvalid c (List.mem_cons_self _ _))
    obtain ⟨deck1, h1, h2, h3, h4⟩ := ih
      (deck.set c (if c.value = 1 then 3 else if c.value = 5 then 1 else 2))
      (fun x hx => hvalid x (List.mem_cons_of_mem _ hx))
    refine ⟨deck1, ?_, ?_, ?_, ?_⟩
    · simp only [getCurrentDeckComposition.fill, hc]
      exact h1
    · rw [h2]
      rfl
    · intro x hx
      by_cases hin : x ∈ rest
      · exact h3 x hin
      · have hxc : x = c := by
          rcases List.mem_cons.mp hx with h0 | h0
          · exact h0
          · exact absurd h0 hin
        rw [h4 x hin, DeckComposition.at_set, if_pos hxc, hxc]
        exact hc
    · intro x hx
      have hxc : x ≠ c := fun h0 => hx (h0 ▸ List.mem_cons_self _ _)
      have hin : x ∉ rest := fun h0 => hx (List.mem_cons_of_mem _ h0)
      rw [h4 x hin, DeckComposition.at_set, if_neg hxc]

/-- The map with which `getCurrentDeckComposition` starts: the 25 cards of the game, each with
its `Card::count()`. -/
theorem getCurrentDeckComposition.fill_allCards :
    ∃ deck0, getCurrentDeckComposition.fill allCards DeckComposition.empty = .ok deck0 ∧
      deck0.keys = allCards ∧
      (∀ c : Card, c.valid → c.count = .ok (deck0.at c)) ∧
      (∀ c : Card, ¬ c.valid → deck0.at c = 0) := by
  obtain ⟨deck0, h1, h2, h3, h4⟩ :=
    getCurrentDeckComposition.fill_spec allCards DeckComposition.empty allCards_valid
  have hkeys : allCards.foldl (fun ks c => insertKey c ks) DeckComposition.empty.keys =
      allCards := by decide
  refine ⟨deck0, h1, by rw [h2, hkeys], fun c hc => h3 c (mem_allCards_of_valid c hc), ?_⟩
  intro c hc
  rw [h4 c (fun hm => hc (allCards_valid c hm))]
  rfl

/-- The loop over the players removes the hands of the players that are not skipped, one
after the other, when the hand of the observer is not among them. -/
theorem getCurrentDeckComposition.hands_eq (server : Server) (who : Int)
    (hwho : who = -1 ∨ who = server.observingPlayer_)
    (ps : List Nat)
    (hps : ∀ p ∈ ps, (p : Int) < server.numPlayers_ ∧ p < server.hands_.length)
    (deck : DeckComposition) :
    getCurrentDeckComposition.hands server who ps deck =
      removeFromDeck
        ((ps.filter fun (p : Nat) => decide (¬ (who = -1 ∨ (p : Int) = who))).flatMap
          fun (p : Nat) => server.handOf p) deck := by
  induction ps generalizing deck with
  | nil => rfl
  | cons p rest ih =>
    have hrest : ∀ q ∈ rest, (q : Int) < server.numPlayers_ ∧ q < server.hands_.length :=
      fun q hq => hps q (List.mem_cons_of_mem _ hq)
    obtain ⟨hp1, hp2⟩ := hps p (List.mem_cons_self _ _)
    simp only [getCurrentDeckComposition.hands]
    by_cases hskip : who = -1 ∨ (p : Int) = who
    · rw [if_pos hskip, ih hrest,
        List.filter_cons_of_neg (by simp only [decide_eq_true_eq, not_not]; exact hskip)]
    · rw [if_neg hskip,
        List.filter_cons_of_pos (by simp only [decide_eq_true_eq]; exact hskip),
        List.flatMap_cons, removeFromDeck_append]
      have hobs : (p : Int) ≠ server.observingPlayer_ := by
        rcases hwho with h | h
        · exact absurd (Or.inl h) hskip
        · rw [← h]
          exact fun h0 => hskip (Or.inr h0)
      have hrange : (0 : Int) ≤ p ∧ (p : Int) < server.numPlayers_ := ⟨by omega, hp1⟩
      have hh : server.handOfPlayer p = .ok (server.handOf p) := by
        simp [Server.handOfPlayer, Server.handOf, hobs, hrange, hp2]
      rw [hh]
      simp only
      cases removeFromDeck (server.handOf p) deck with
      | error f => rfl
      | ok deck1 => exact ih hrest deck1

theorem getCurrentDeckComposition.pile_cards_valid (server : Server) :
    ∀ c ∈ getCurrentDeckComposition.pile_cards server, c.valid := by
  intro c hc
  simp only [getCurrentDeckComposition.pile_cards, List.mem_flatMap, List.mem_map,
    List.mem_filter] at hc
  obtain ⟨color, hcolor, value, ⟨hvalue, -⟩, rfl⟩ := hc
  refine ⟨?_, ?_, ?_⟩
  · simp only [Color.all, List.mem_cons, List.mem_singleton, List.not_mem_nil, or_false] at hcolor
    rcases hcolor with h | h | h | h | h <;> simp [h]
  · simp only [List.mem_cons, List.mem_singleton, List.not_mem_nil, or_false] at hvalue
    rcases hvalue with h | h | h | h | h <;> simp [h]
  · simp only [List.mem_cons, List.mem_singleton, List.not_mem_nil, or_false] at hvalue
    rcases hvalue with h | h | h | h | h <;> simp [h]

theorem count_map_card (color color0 : Color) (v0 : Int) (l : List Int) :
    (l.map fun v => (⟨color, v⟩ : Card)).count ⟨color0, v0⟩ =
      if color = color0 then l.count v0 else 0 := by
  induction l with
  | nil => simp
  | cons v vs ih =>
    rw [List.map_cons, List.count_cons, ih, List.count_cons]
    by_cases hc : color = color0
    · subst hc
      by_cases hv : v = v0
      · subst hv
        simp
      · have hne : ¬ ((⟨color, v⟩ : Card) = ⟨color, v0⟩) := by
          intro h
          exact hv (by injection h)
        simp [hv, hne]
    · have hne : ¬ ((⟨color, v⟩ : Card) = ⟨color0, v0⟩) := by
        intro h
        exact hc (by injection h)
      simp [hc, hne]

theorem getCurrentDeckComposition.pile_cards_count (server : Server) (c : Card)
    (hc : c.valid) :
    (getCurrentDeckComposition.pile_cards server).count c = server.pileCount c := by
  obtain ⟨color, value⟩ := c
  obtain ⟨h1, h2, h3⟩ := hc
  simp only at h1 h2 h3
  have hfilter : ∀ p : Int → Bool,
      ([1, 2, 3, 4, 5].filter p).count value = if p value then 1 else 0 := by
    intro p
    by_cases hp : p value = true
    · rw [List.count_filter hp, if_pos hp]
      interval_cases value <;> decide
    · rw [if_neg hp]
      exact List.count_eq_zero_of_not_mem (fun hm => hp (List.mem_filter.mp hm).2)
  simp only [getCurrentDeckComposition.pile_cards, count_flatMap_sum, Server.pileCount,
    Color.all, count_map_card, hfilter, List.map_cons, List.map_nil, List.sum_cons,
    List.sum_nil]
  cases color <;> first | exact absurd rfl h1 | simp


theorem sum_map_filter_le {α : Type} (l : List α) (p : α → Bool) (f : α → Nat) :
    ((l.filter p).map f).sum ≤ (l.map f).sum := by
  induction l with
  | nil => simp
  | cons x xs ih =>
    by_cases hp : p x = true
    · rw [List.filter_cons_of_pos hp]
      simp only [List.map_cons, List.sum_cons]
      omega
    · rw [List.filter_cons_of_neg hp]
      simp only [List.map_cons, List.sum_cons]
      omega

theorem map_range_getD {α β : Type} (l : List α) (d : α) (f : α → β) :
    (List.range l.length).map (fun p => f (l.getD p d)) = l.map f := by
  apply List.ext_getElem
  · simp
  · intro i h1 h2
    simp only [List.length_map, List.length_range] at h1
    simp [List.getD_eq_getElem?_getD, List.getElem?_eq_getElem h1]

/-- The cards that `getCurrentDeckComposition` removes from the full deck, in the order in
which it removes them. -/
theorem getCurrentDeckComposition_eq (server : Server) (who : Int)
    (hwho : who = -1 ∨ who = server.observingPlayer_)
    (hhands : server.numPlayers_ = server.hands_.length) :
    ∃ deck0, deck0.keys = allCards ∧
      (∀ c : Card, c.valid → c.count = .ok (deck0.at c)) ∧
      (∀ c : Card, ¬ c.valid → deck0.at c = 0) ∧
      getCurrentDeckComposition server who =
        removeFromDeck (server.discards_ ++
          (((List.range server.numPlayers.toNat).filter
              fun (p : Nat) => decide (¬ (who = -1 ∨ (p : Int) = who))).flatMap
            fun (p : Nat) => server.handOf p) ++
          getCurrentDeckComposition.pile_cards server) deck0 := by
  obtain ⟨deck0, h1, h2, h3, h4⟩ := getCurrentDeckComposition.fill_allCards
  refine ⟨deck0, h2, h3, h4, ?_⟩
  have hps : ∀ p ∈ List.range server.numPlayers.toNat,
      (p : Int) < server.numPlayers_ ∧ p < server.hands_.length := by
    intro p hp
    rw [List.mem_range] at hp
    simp only [Server.numPlayers] at hp
    omega
  unfold getCurrentDeckComposition
  simp only [h1]
  rw [List.append_assoc, removeFromDeck_append]
  cases removeFromDeck server.discards_ deck0 with
  | error f => rfl
  | ok deck1 =>
    simp only
    rw [getCurrentDeckComposition.hands_eq server who hwho _ hps, removeFromDeck_append]

theorem standardDeck_valid : ∀ c ∈ standardDeck, c.valid := by
  decide

/-- The copies of a card that `getCurrentDeckComposition` removes. -/
theorem getCurrentDeckComposition.removed_count (server : Server) (who : Int) (c : Card) :
    (server.discards_ ++
      (((List.range server.numPlayers.toNat).filter
          fun (p : Nat) => decide (¬ (who = -1 ∨ (p : Int) = who))).flatMap
        fun (p : Nat) => server.handOf p) ++
      getCurrentDeckComposition.pile_cards server).count c =
    server.discards_.count c + (if who = -1 then 0 else server.heldByOthers who c) +
      (getCurrentDeckComposition.pile_cards server).count c := by
  rw [List.count_append, List.count_append, count_flatMap_sum]
  congr 2
  by_cases hw : who = -1
  · rw [if_pos hw]
    have : ((List.range server.numPlayers.toNat).filter
        fun (p : Nat) => decide (¬ (who = -1 ∨ (p : Int) = who))) = [] := by
      rw [List.filter_eq_nil_iff]
      intro p _
      simp [hw]
    rw [this]
    rfl
  · rw [if_neg hw]
    have : ((List.range server.numPlayers.toNat).filter
        fun (p : Nat) => decide (¬ (who = -1 ∨ (p : Int) = who))) =
        ((List.range server.numPlayers.toNat).filter
          fun (p : Nat) => decide ((p : Int) ≠ who)) := by
      apply List.filter_congr
      intro p _
      simp [hw]
    rw [this]
    rfl

theorem Server.heldByOthers_le (s : Server) (who : Int) (c : Card)
    (hhands : s.numPlayers_ = s.hands_.length) : s.heldByOthers who c ≤ s.heldCount c := by
  unfold Server.heldByOthers Server.heldCount
  refine le_trans (sum_map_filter_le _ _ _) ?_
  have hn : s.numPlayers.toNat = s.hands_.length := by
    simp only [Server.numPlayers]
    omega
  rw [hn]
  have := map_range_getD s.hands_ [] (List.count c)
  simp only [Server.handOf, Int.toNat_ofNat]
  rw [this]

/-- The loop over the players, asked for the composition seen by a player `who` that is
neither -1 nor the observer `o`: the hands of the players before `o`, other than `who`, are
removed, and the request for the hand of `o` is refused. -/
theorem getCurrentDeckComposition.hands_observer (server : Server) (who : Int) (o : Nat)
    (hobs : (o : Int) = server.observingPlayer_) (hw : who ≠ -1) (hne : (o : Int) ≠ who)
    (ps : List Nat) (ho : o ∈ ps)
    (hps : ∀ p ∈ ps, (p : Int) < server.numPlayers_ ∧ p < server.hands_.length)
    (deck : DeckComposition) :
    getCurrentDeckComposition.hands server who ps deck =
      match removeFromDeck
        (((ps.takeWhile fun (p : Nat) => decide (p ≠ o)).filter
            fun (p : Nat) => decide ((p : Int) ≠ who)).flatMap
          fun (p : Nat) => server.handOf p) deck with
      | .error f => .error f
      | .ok _ => .error (.ServerError "cannot observe own hand") := by
  induction ps generalizing deck with
  | nil => simp at ho
  | cons p rest ih =>
    have hrest : ∀ q ∈ rest, (q : Int) < server.numPlayers_ ∧ q < server.hands_.length :=
      fun q hq => hps q (List.mem_cons_of_mem _ hq)
    obtain ⟨hp1, hp2⟩ := hps p (List.mem_cons_self _ _)
    simp only [getCurrentDeckComposition.hands]
    by_cases hpo : p = o
    · subst hpo
      have hskip : ¬ (who = -1 ∨ (p : Int) = who) := by
        rintro (h | h)
        · exact hw h
        · exact hne h
      rw [if_neg hskip, List.takeWhile_cons_of_neg (by simp)]
      simp [Server.handOfPlayer, hobs, removeFromDeck]
    · have hin : o ∈ rest := by
        rcases List.mem_cons.mp ho with h | h
        · exact absurd h.symm hpo
        · exact h
      rw [List.takeWhile_cons_of_pos (by simpa using hpo)]
      by_cases hskip : who = -1 ∨ (p : Int) = who
      · rw [if_pos hskip, ih hin hrest,
          List.filter_cons_of_neg (by
            rcases hskip with h | h
            · exact absurd h hw
            · simp [h])]
      · have hpw : (p : Int) ≠ who := fun h => hskip (Or.inr h)
        rw [if_neg hskip, List.filter_cons_of_pos (by simpa using hpw), List.flatMap_cons,
          removeFromDeck_append]
        have hobs2 : (p : Int) ≠ server.observingPlayer_ := by
          rw [← hobs]
          exact_mod_cast hpo
        have hrange : (0 : Int) ≤ p ∧ (p : Int) < server.numPlayers_ := ⟨by omega, hp1⟩
        have hh : server.handOfPlayer p = .ok (server.handOf p) := by
          simp [Server.handOfPlayer, Server.handOf, hobs2, hrange, hp2]
        rw [hh]
        simp only
        cases removeFromDeck (server.handOf p) deck with
        | error f => rfl
        | ok deck1 => exact ih hin hrest deck1


theorem count_flatMap_sublist {α : Type} (c : Card) (f : α → List Card) {l1 l2 : List α}
    (h : l1.Sublist l2) : (l1.flatMap f).count c ≤ (l2.flatMap f).count c := by
  induction h with
  | slnil => exact le_refl _
  | cons a _ ih =>
    rw [List.flatMap_cons, List.count_append]
    omega
  | cons₂ a _ ih =>
    rw [List.flatMap_cons, List.flatMap_cons, List.count_append, List.count_append]
    omega

/-- The hands of some of the players hold no more copies of a card than all hands. -/
theorem Server.count_hands_le (s : Server) (c : Card) (ps : List Nat)
    (hps : ps.Sublist (List.range s.hands_.length)) :
    (ps.flatMap fun (p : Nat) => s.handOf p).count c ≤ s.heldCount c := by
  refine le_trans (count_flatMap_sublist c _ hps) ?_
  rw [count_flatMap_sum]
  unfold Server.heldCount
  have := map_range_getD s.hands_ [] (List.count c)
  simp only [Server.handOf, Int.toNat_ofNat]
  rw [this]

/-- A request for the composition seen by a player that is neither -1 nor the observer does not
return; under card conservation it ends in the refusal of the observer's own hand. -/
theorem getCurrentDeckComposition_refused (server : Server) (who : Int)
    (hhands : server.numPlayers_ = server.hands_.length)
    (hw : who ≠ -1) (hne : who ≠ server.observingPlayer_)
    (hobs : 0 ≤ server.observingPlayer_ ∧ server.observingPlayer_ < server.numPlayers_) :
    (∀ deck, getCurrentDeckComposition server who ≠ .ok deck) ∧
    ((∀ c, server.totalCount c = standardDeck.count c) →
      getCurrentDeckComposition server who =
        .error (.ServerError "cannot observe own hand")) := by
  obtain ⟨deck0, h1, h2, h3, h4⟩ := getCurrentDeckComposition.fill_allCards
  have hps : ∀ p ∈ List.range server.numPlayers.toNat,
      (p : Int) < server.numPlayers_ ∧ p < server.hands_.length := by
    intro p hp
    rw [List.mem_range] at hp
    simp only [Server.numPlayers] at hp
    omega
  have ho : server.observingPlayer_.toNat ∈ List.range server.numPlayers.toNat := by
    rw [List.mem_range]
    simp only [Server.numPlayers]
    omega
  have hcast : ((server.observingPlayer_.toNat : Nat) : Int) = server.observingPlayer_ := by
    omega
  have hloop := fun deck => getCurrentDeckComposition.hands_observer server who
    server.observingPlayer_.toNat hcast hw (by rw [hcast]; exact fun h => hne h.symm)
    (List.range server.numPlayers.toNat) ho hps deck
  constructor
  · intro deck hdeck
    unfold getCurrentDeckComposition at hdeck
    simp only [h1] at hdeck
    cases hd : removeFromDeck server.discards_ deck0 with
    | error f => simp [hd] at hdeck
    | ok deck1 =>
      obtain ⟨f, hf⟩ : ∃ f, getCurrentDeckComposition.hands server who
          (List.range server.numPlayers.toNat) deck1 = .error f := by
        rw [hloop deck1]
        cases removeFromDeck
          ((((List.range server.numPlayers.toNat).takeWhile
                fun (p : Nat) => decide (p ≠ server.observingPlayer_.toNat)).filter
              fun (p : Nat) => decide ((p : Int) ≠ who)).flatMap
            fun (p : Nat) => server.handOf p) deck1 with
        | error f => exact ⟨f, rfl⟩
        | ok deck2 => exact ⟨_, rfl⟩
      rw [hd] at hdeck
      simp only [hf] at hdeck
      cases hdeck
  · intro hcons
    have hsub : (((List.range server.numPlayers.toNat).takeWhile
          fun (p : Nat) => decide (p ≠ server.observingPlayer_.toNat)).filter
        fun (p : Nat) => decide ((p : Int) ≠ who)).Sublist
        (List.range server.hands_.length) := by
      have hn : server.numPlayers.toNat = server.hands_.length := by
        simp only [Server.numPlayers]
        omega
      rw [← hn]
      exact (List.filter_sublist _).trans (List.takeWhile_sublist _)
    obtain ⟨deck2, hall⟩ := removeFromDeck_returns (server.discards_ ++
        ((((List.range server.numPlayers.toNat).takeWhile
              fun (p : Nat) => decide (p ≠ server.observingPlayer_.toNat)).filter
            fun (p : Nat) => decide ((p : Int) ≠ who)).flatMap
          fun (p : Nat) => server.handOf p)) deck0 (by
      intro c hc
      have hle := server.count_hands_le c _ hsub
      have htotal := hcons c
      simp only [Server.totalCount] at htotal
      have hpos := List.count_pos_iff.mpr hc
      rw [List.count_append] at hpos ⊢
      have hstd : 0 < standardDeck.count c := by omega
      have hvalid : c.valid := standardDeck_valid c (List.count_pos_iff.mp hstd)
      have h5 := h3 c hvalid
      rw [standardDeck_count c hvalid] at h5
      simp only [Except.ok.injEq] at h5
      rw [← h5]
      have : server.discards_.count c + (((((List.range server.numPlayers.toNat).takeWhile
              fun (p : Nat) => decide (p ≠ server.observingPlayer_.toNat)).filter
            fun (p : Nat) => decide ((p : Int) ≠ who)).flatMap
          fun (p : Nat) => server.handOf p)).count c ≤ standardDeck.count c := by
        omega
      exact_mod_cast this)
    rw [removeFromDeck_append] at hall
    unfold getCurrentDeckComposition
    simp only [h1]
    cases hd : removeFromDeck server.discards_ deck0 with
    | error f => simp [hd] at hall
    | ok deck1 =>
      rw [hd] at hall
      simp only at hall
      simp only
      rw [hloop deck1, hall]

/-- C22 (deck composition), amended. Let `who` be -1 or the observing player. When
`getCurrentDeckComposition(server, who)` returns, its map has the 25 cards of the game as keys
and maps each of them to `Card::count()` minus its copies in the discards, minus 1 if its pile
contains it, minus (unless `who` is -1) its copies in the hands of the players other than
`who`; every entry is at least 0. And under card conservation (each card is on the piles, in
the discards, in the hands and in the deck together as often as the standard deck has it) it
returns. For any other `who`, the observer being one of the players, the call does not return:
it asks for the hand of the observer, and under card conservation it ends in the
`ServerError` "cannot observe own hand" that `handOfPlayer` throws. -/
theorem C22_deck_composition (server : Server) (who : Int)
    (hhands : server.numPlayers_ = server.hands_.length) :
    (who = -1 ∨ who = server.observingPlayer_ →
      (∀ deck, getCurrentDeckComposition server who = .ok deck →
        deck.keys = allCards ∧
        ∀ c : Card, c.valid → ∃ n, c.count = .ok n ∧
          deck.at c = n - server.discards_.count c - server.pileCount c -
            (if who = -1 then 0 else (server.heldByOthers who c : Int)) ∧
          0 ≤ deck.at c) ∧
      ((∀ c, server.totalCount c = standardDeck.count c) →
        ∃ deck, getCurrentDeckComposition server who = .ok deck)) ∧
    (who ≠ -1 → who ≠ server.observingPlayer_ →
      0 ≤ server.observingPlayer_ ∧ server.observingPlayer_ < server.numPlayers_ →
      (∀ deck, getCurrentDeckComposition server who ≠ .ok deck) ∧
      ((∀ c, server.totalCount c = standardDeck.count c) →
        getCurrentDeckComposition server who =
          .error (.ServerError "cannot observe own hand"))) := by
  refine ⟨fun hwho => ?_,
    fun hw hne hobs => getCurrentDeckComposition_refused server who hhands hw hne hobs⟩
  obtain ⟨deck0, hkeys, hcount, hzero, heq⟩ := getCurrentDeckComposition_eq server who hwho hhands
  have hsorted : deck0.keys.Pairwise (fun a b => Card.lt a b = true) := by
    rw [hkeys]
    exact allCards_sorted
  constructor
  · intro deck hdeck
    rw [heq] at hdeck
    obtain ⟨h1, h2, h3⟩ := removeFromDeck_ok _ deck0 deck hsorted hdeck
    refine ⟨by rw [h2, hkeys], ?_⟩
    intro c hc
    refine ⟨deck0.at c, hcount c hc, ?_, ?_⟩
    · rw [h3 c, getCurrentDeckComposition.removed_count,
        getCurrentDeckComposition.pile_cards_count server c hc]
      split_ifs <;> push_cast <;> omega
    · rw [h3 c]
      by_cases hmem : c ∈ (server.discards_ ++
          (((List.range server.numPlayers.toNat).filter
              fun (p : Nat) => decide (¬ (who = -1 ∨ (p : Int) = who))).flatMap
            fun (p : Nat) => server.handOf p) ++
          getCurrentDeckComposition.pile_cards server)
      · have := h1 c hmem
        omega
      · rw [List.count_eq_zero_of_not_mem hmem]
        have h5 := hcount c hc
        rw [Card.count_of_valid c hc] at h5
        simp only [Except.ok.injEq] at h5
        push_cast
        rw [← h5]
        split_ifs <;> omega
  · intro hcons
    rw [heq]
    apply removeFromDeck_returns
    intro c hc
    have hle : (server.discards_ ++
          (((List.range server.numPlayers.toNat).filter
              fun (p : Nat) => decide (¬ (who = -1 ∨ (p : Int) = who))).flatMap
            fun (p : Nat) => server.handOf p) ++
          getCurrentDeckComposition.pile_cards server).count c ≤
        server.discards_.count c + server.heldCount c +
          (getCurrentDeckComposition.pile_cards server).count c := by
      rw [getCurrentDeckComposition.removed_count]
      have := server.heldByOthers_le who c hhands
      split_ifs <;> omega
    have hvalid : c.valid := by
      by_cases hp : c ∈ getCurrentDeckComposition.pile_cards server
      · exact getCurrentDeckComposition.pile_cards_valid server c hp
      · rw [List.count_eq_zero_of_not_mem hp] at hle
        have hpos : 0 < (server.discards_ ++
          (((List.range server.numPlayers.toNat).filter
              fun (p : Nat) => decide (¬ (who = -1 ∨ (p : Int) = who))).flatMap
            fun (p : Nat) => server.handOf p) ++
          getCurrentDeckComposition.pile_cards server).count c := List.count_pos_iff.mpr hc
        have htotal := hcons c
        simp only [Server.totalCount] at htotal
        have hstd : 0 < standardDeck.count c := by omega
        exact standardDeck_valid c (List.count_pos_iff.mp hstd)
    rw [getCurrentDeckComposition.pile_cards_count server c hvalid] at hle
    have htotal := hcons c
    simp only [Server.totalCount] at htotal
    have h5 := hcount c hvalid
    rw [standardDeck_count c hvalid] at h5
    simp only [Except.ok.injEq] at h5
    rw [← h5]
    have : (server.discards_ ++
          (((List.range server.numPlayers.toNat).filter
              fun (p : Nat) => decide (¬ (who = -1 ∨ (p : Int) = who))).flatMap
            fun (p : Nat) => server.handOf p) ++
          getCurrentDeckComposition.pile_cards server).count c ≤ standardDeck.count c := by
      omega
    exact_mod_cast this

/-- Card conservation in a game that started from the standard deck, shuffled by `runGame` or
stacked in any order. -/
theorem Reachable.totalCount_standard {P : Params} {players : Nat} {stackedDeck : List Card}
    {g : Nat → Nat} {s : Server} (h : Reachable P players stackedDeck g s)
    (hdeck : stackedDeck = [] ∨ stackedDeck.Perm standardDeck) (c : Card) :
    s.totalCount c = standardDeck.count c := by
  rw [h.totalCount c]
  apply List.Perm.count_eq
  rcases hdeck with hnil | hp
  · rw [if_neg (by simp [hnil])]
    exact portable_shuffle_perm _ _
  · have hne : stackedDeck ≠ [] := by
      intro hnil
      rw [hnil] at hp
      have := hp.length_eq
      simp [standardDeck, Color.all, Card.count] at this
    rw [if_pos hne]
    exact (List.reverse_perm _).trans hp

/-- Witness for C22: the second turn of the example game, seen by player 1 who is about to
move. Player 0 holds R1 R1 R1 R2 R2, so that no red 1 and no red 2 is left for player 1, whose
own cards R3 R3 R4 R4 R5 are not subtracted. The composition seen by player 0 is refused. -/
theorem C22_deck_composition_witness :
    (∃ deck, getCurrentDeckComposition exampleAfterHint 1 = .ok deck) ∧
    ((getCurrentDeckComposition exampleAfterHint 1).toOption.map fun deck =>
        (deck.entries.take 6, exampleAfterHint.heldByOthers 1 ⟨.RED, 1⟩)) =
      some ([(⟨.RED, 1⟩, 0), (⟨.RED, 2⟩, 0), (⟨.RED, 3⟩, 2), (⟨.RED, 4⟩, 2), (⟨.RED, 5⟩, 1),
        (⟨.ORANGE, 1⟩, 3)], 3) ∧
    getCurrentDeckComposition exampleAfterHint 0 =
      .error (.ServerError "cannot observe own hand") :=
  ⟨((C22_deck_composition exampleAfterHint 1 (by decide)).1 (Or.inr (by decide))).2
      (exampleAfterHint_reachable.totalCount_standard (Or.inr (List.Perm.refl _))),
    by decide,
    ((C22_deck_composition exampleAfterHint 0 (by decide)).2 (by decide) (by decide)
      (by decide)).2
      (exampleAfterHint_reachable.totalCount_standard (Or.inr (List.Perm.refl _)))⟩

/-- Counterexample to C22 as stated: in the second turn of the two-player example game the
observer is player 1; for `who = 0` the function asks for the hand of player 1, which the
server refuses, and no composition is returned. -/
theorem C22_counterexample :
    Reachable Params.default 2 standardDeck (fun _ => 0) exampleAfterHint ∧
    exampleAfterHint.numPlayers = 2 ∧ exampleAfterHint.whoAmI = .ok 1 ∧
    getCurrentDeckComposition exampleAfterHint 0 =
      .error (.ServerError "cannot observe own hand") :=
  ⟨exampleAfterHint_reachable, by decide, rfl, rfl⟩

/-! ## Beliefs after a hint -/

/-- Erasing, key by key, the keys that fail a test leaves the entries that pass it. -/
theorem foldl_eraseKey (p : Hand → Bool) (keys : List Hand) (handDist : HandDist) :
    keys.foldl (fun dist hand => if p hand then dist.eraseKey hand else dist) handDist =
      handDist.filter fun kv => !(decide (kv.1 ∈ keys) && p kv.1) := by
  induction keys generalizing handDist with
  | nil => simp
  | cons k ks ih =>
    rw [List.foldl_cons, ih]
    by_cases hp : p k = true
    · rw [if_pos hp, HandDist.eraseKey, List.filter_filter]
      apply List.filter_congr
      intro kv _
      by_cases hk : kv.1 = k
      · simp [hk, hp]
      · simp [hk]
    · rw [if_neg hp]
      apply List.filter_congr
      intro kv _
      by_cases hk : kv.1 = k
      · simp [hk, hp]
      · simp [hk]

/-- The value of `keep`: each slot from `i` on carries the hinted attribute exactly when the
hint names the slot. -/
theorem filterBeliefsConsistentWithHint_.keep_iff (move : Move) (card_indices : CardIndices)
    (hand : List Card) (i : Int) :
    filterBeliefsConsistentWithHint_.keep move card_indices none hand i = true ↔
      ∀ j (h : j < hand.length),
        ((if move.type = .HINT_COLOR then hand[j].color.toInt else hand[j].value) =
          move.value ↔ card_indices.contains (i + j) = true) := by
  induction hand generalizing i with
  | nil => simp [filterBeliefsConsistentWithHint_.keep]
  | cons card rest ih =>
    simp only [filterBeliefsConsistentWithHint_.keep, Bool.false_eq_true, if_false]
    constructor
    · intro h j hj
      by_cases hcons : (if card_indices.contains i = true then
          decide ((if move.type = .HINT_COLOR then card.color.toInt else card.value) = move.value)
          else decide ((if move.type = .HINT_COLOR then card.color.toInt else card.value) ≠
            move.value)) = true
      · simp only [hcons, Bool.not_true, Bool.false_eq_true, if_false] at h
        cases j with
        | zero =>
          simp only [List.getElem_cons_zero, Nat.cast_zero, add_zero]
          by_cases hc : card_indices.contains i = true
          · simp only [hc, if_true, decide_eq_true_eq] at hcons
            simp [hc, hcons]
          · simp only [hc, Bool.false_eq_true, if_false, decide_eq_true_eq] at hcons
            simp [hc, hcons]
        | succ j =>
          have := (ih (i + 1)).mp h j (by simpa using hj)
          simp only [List.getElem_cons_succ]
          rw [this]
          push_cast
          rw [show i + 1 + (j : Int) = i + ((j : Int) + 1) by ring]
      · exfalso
        apply hcons
        by_cases hc : card_indices.contains i = true
        · simp only [hc, if_true, decide_eq_true_eq]
          simp only [hc, if_true, decide_eq_true_eq, Bool.not_eq_true, Bool.not_true] at hcons
          simp [hc, hcons] at h
        · simp only [hc, Bool.false_eq_true, if_false, decide_eq_true_eq]
          simp only [hc, Bool.false_eq_true, if_false, decide_eq_true_eq] at hcons
          simp [hc, hcons] at h
    · intro h
      have h0 := h 0 (by simp)
      simp only [List.getElem_cons_zero, Nat.cast_zero, add_zero] at h0
      have hcons : (if card_indices.contains i = true then
          decide ((if move.type = .HINT_COLOR then card.color.toInt else card.value) = move.value)
          else decide ((if move.type = .HINT_COLOR then card.color.toInt else card.value) ≠
            move.value)) = true := by
        by_cases hc : card_indices.contains i = true
        · simp only [hc, if_true, decide_eq_true_eq]
          exact h0.mpr hc
        · simp only [hc, Bool.false_eq_true, if_false, decide_eq_true_eq]
          exact fun heq => hc (h0.mp heq)
      simp only [hcons, Bool.not_true, Bool.false_eq_true, if_false]
      rw [ih (i + 1)]
      intro j hj
      have := h (j + 1) (by simpa using hj)
      simp only [List.getElem_cons_succ] at this
      rw [this]
      push_cast
      rw [show i + 1 + (j : Int) = i + ((j : Int) + 1) by ring]

theorem filterBeliefsConsistentWithHint_eq (move : Move) (card_indices : CardIndices)
    (handDist : HandDist) (relevant_indices : Option CardIndices) :
    filterBeliefsConsistentWithHint_ move card_indices handDist relevant_indices =
      handDist.filter fun kv =>
        filterBeliefsConsistentWithHint_.keep move card_indices relevant_indices kv.1 0 := by
  unfold filterBeliefsConsistentWithHint_
  rw [foldl_eraseKey (fun hand =>
    !filterBeliefsConsistentWithHint_.keep move card_indices relevant_indices hand 0)]
  apply List.filter_congr
  intro kv hkv
  have hmem : kv.1 ∈ copyKeys handDist := List.mem_map_of_mem _ hkv
  simp [hmem]

/-- C23 (beliefs after a hint). Without `relevant_indices`, `filterBeliefsConsistentWithHint_`
leaves in the hand distribution exactly the entries of its input whose hand has, in every
slot `i`, the hinted attribute (the colour for a colour hint, else the value) equal to
`move.value` exactly when `card_indices.contains(i)`; the entries that stay keep their place
and their value, and none is added. -/
theorem C23_filter_hint (move : Move) (card_indices : CardIndices) (handDist : HandDist) :
    (∀ hand val, (hand, val) ∈ filterBeliefsConsistentWithHint_ move card_indices handDist none ↔
      ((hand, val) ∈ handDist ∧
        ∀ i (h : i < hand.length),
          ((if move.type = .HINT_COLOR then hand[i].color.toInt else hand[i].value) =
            move.value ↔ card_indices.contains i = true))) ∧
    (filterBeliefsConsistentWithHint_ move card_indices handDist none).Sublist handDist := by
  rw [filterBeliefsConsistentWithHint_eq]
  refine ⟨?_, List.filter_sublist _⟩
  intro hand val
  rw [List.mem_filter, filterBeliefsConsistentWithHint_.keep_iff]
  simp only [zero_add]

/-- Witness for C23: of four hands, the hint RED touching the slots 1 and 3 keeps the one
hand that is red in exactly these slots, with its probability; it removes a hand that is red
in slot 0 too, a hand that is not red in slot 1, and a hand that is red in slot 4 too. -/
theorem C23_filter_hint_witness :
    filterBeliefsConsistentWithHint_ ⟨.HINT_COLOR, 0, 1⟩ ((CardIndices.new.add 1).add 3)
        exampleHintDist none =
      [([⟨.ORANGE, 1⟩, ⟨.RED, 1⟩, ⟨.ORANGE, 2⟩, ⟨.RED, 2⟩, ⟨.ORANGE, 3⟩], ⟨1 / 2⟩)] ∧
    (filterBeliefsConsistentWithHint_ ⟨.HINT_COLOR, 0, 1⟩ ((CardIndices.new.add 1).add 3)
        exampleHintDist none).Sublist exampleHintDist :=
  ⟨by decide!, (C23_filter_hint ⟨.HINT_COLOR, 0, 1⟩ ((CardIndices.new.add 1).add 3)
    exampleHintDist).2⟩

/-! ## Beliefs after a revealed card -/

/-- When `getCurrentDeckComposition` returns, no entry of the map is negative. -/
theorem getCurrentDeckComposition_nonneg (server : Server) (who : Int)
    (hwho : who = -1 ∨ who = server.observingPlayer_)
    (hhands : server.numPlayers_ = server.hands_.length) (deck : DeckComposition)
    (hdeck : getCurrentDeckComposition server who = .ok deck) (c : Card) : 0 ≤ deck.at c := by
  obtain ⟨deck0, hkeys, hcount, hzero, heq⟩ := getCurrentDeckComposition_eq server who hwho hhands
  have hsorted : deck0.keys.Pairwise (fun a b => Card.lt a b = true) := by
    rw [hkeys]
    exact allCards_sorted
  rw [heq] at hdeck
  obtain ⟨h1, h2, h3⟩ := removeFromDeck_ok _ deck0 deck hsorted hdeck
  rw [h3 c]
  by_cases hmem : c ∈ (server.discards_ ++
      (((List.range server.numPlayers.toNat).filter
          fun (p : Nat) => decide (¬ (who = -1 ∨ (p : Int) = who))).flatMap
        fun (p : Nat) => server.handOf p) ++
      getCurrentDeckComposition.pile_cards server)
  · have := h1 c hmem
    omega
  · rw [List.count_eq_zero_of_not_mem hmem]
    by_cases hc : c.valid
    · have h5 := hcount c hc
      rw [Card.count_of_valid c hc] at h5
      simp only [Except.ok.injEq] at h5
      push_cast
      rw [← h5]
      split_ifs <;> omega
    · rw [hzero c hc]
      simp

/-- The keys of the map that `getCurrentDeckComposition` returns are the 25 cards. -/
theorem getCurrentDeckComposition_keys (server : Server) (who : Int)
    (hwho : who = -1 ∨ who = server.observingPlayer_)
    (hhands : server.numPlayers_ = server.hands_.length) (deck : DeckComposition)
    (hdeck : getCurrentDeckComposition server who = .ok deck) : deck.keys = allCards := by
  obtain ⟨deck0, hkeys, hcount, hzero, heq⟩ := getCurrentDeckComposition_eq server who hwho hhands
  have hsorted : deck0.keys.Pairwise (fun a b => Card.lt a b = true) := by
    rw [hkeys]
    exact allCards_sorted
  rw [heq] at hdeck
  obtain ⟨h1, h2, h3⟩ := removeFromDeck_ok _ deck0 deck hsorted hdeck
  rw [h2, hkeys]

theorem HandDist.valueAt_of_mem (handDist : HandDist) (hand : Hand) (val : HandDistVal)
    (hkeys : (copyKeys handDist).Nodup) (hmem : (hand, val) ∈ handDist) :
    handDist.valueAt hand = val := by
  induction handDist with
  | nil => simp at hmem
  | cons kv rest ih =>
    simp only [copyKeys, List.map_cons, List.nodup_cons] at hkeys
    rcases List.mem_cons.mp hmem with heq | hrest
    · subst heq
      simp [HandDist.valueAt]
    · have hne : kv.1 ≠ hand := by
        intro heq
        apply hkeys.1
        rw [heq]
        exact List.mem_map_of_mem Prod.fst hrest
      have := ih hkeys.2 hrest
      simp only [HandDist.valueAt] at this ⊢
      rw [List.find?_cons_of_neg _ (by simpa using hne)]
      exact this

theorem HandDist.valueAt_of_not_mem (handDist : HandDist) (hand : Hand)
    (hmem : hand ∉ copyKeys handDist) : handDist.valueAt hand = ⟨0⟩ := by
  have : handDist.find? (fun kv => decide (kv.1 = hand)) = none := by
    rw [List.find?_eq_none]
    intro kv hkv
    simp only [decide_eq_true_eq]
    intro heq
    apply hmem
    rw [← heq]
    exact List.mem_map_of_mem Prod.fst hkv
  simp [HandDist.valueAt, this]

/-- Erasing a key right after an assignment to it is erasing the key. -/
theorem HandDist.eraseKey_assign (handDist : HandDist) (hand : Hand) (val : HandDistVal) :
    (handDist.assign hand val).eraseKey hand = handDist.eraseKey hand := by
  unfold HandDist.assign HandDist.eraseKey
  split_ifs with hmem
  · clear hmem
    induction handDist with
    | nil => rfl
    | cons kv rest ih =>
      by_cases hk : kv.1 = hand
      · simpa [hk, List.filter_cons] using ih
      · simpa [hk, List.filter_cons] using ih
  · simp [List.filter_append]

/-- An entry-wise change of the value of one key, or its removal, as a `filterMap`. -/
theorem filterMap_key_const (handDist : HandDist) (hand : Hand)
    (o : Option (Hand × HandDistVal)) :
    handDist.filterMap (fun kv => if kv.1 = hand then o else some kv) =
      match o with
      | some e => handDist.map fun kv => if kv.1 = hand then e else kv
      | none => handDist.eraseKey hand := by
  cases o with
  | none =>
    simp only [HandDist.eraseKey]
    induction handDist with
    | nil => rfl
    | cons kv rest ih =>
      by_cases hk : kv.1 = hand
      · simp [hk, List.filterMap_cons, List.filter_cons, ih]
      · simp [hk, List.filterMap_cons, List.filter_cons, ih]
  | some e =>
    simp only
    induction handDist with
    | nil => rfl
    | cons kv rest ih =>
      by_cases hk : kv.1 = hand
      · simp [hk, List.filterMap_cons, ih]
      · simp [hk, List.filterMap_cons, ih]

/-- The new entry of a key in `updateBeliefsFromRevealedCard_`, if it keeps one. -/
theorem updateBeliefsFromRevealedCard_.in_hand_eq (revealed_card : Card)
    (relevant_indices : Option CardIndices) (hand : List Card) (i : Nat) (n : Int) :
    updateBeliefsFromRevealedCard_.in_hand revealed_card relevant_indices hand (i : Int) n =
      n + ((hand.enumFrom i).countP fun jc =>
        (match relevant_indices with
          | some relevant => relevant.contains (jc.1 : Int)
          | none => true) && decide (jc.2 = revealed_card) : Nat) := by
  induction hand generalizing i n with
  | nil => simp [updateBeliefsFromRevealedCard_.in_hand]
  | cons card rest ih =>
    have ih1 := fun m => ih (i + 1) m
    push_cast at ih1
    simp only [updateBeliefsFromRevealedCard_.in_hand, List.enumFrom_cons, List.countP_cons]
    cases relevant_indices with
    | none =>
      by_cases hc : card = revealed_card
      · simp only [hc, Bool.false_eq_true, if_false, if_true, ih1]
        simp
        ring
      · simp only [hc, Bool.false_eq_true, if_false, ih1]
        simp
    | some relevant =>
      by_cases hr : relevant.contains (i : Int) = true
      · by_cases hc : card = revealed_card
        · simp only [hr, hc, Bool.not_true, Bool.false_eq_true, if_false, if_true, ih1]
          simp
          ring
        · simp only [hr, hc, Bool.not_true, Bool.false_eq_true, if_false, ih1]
          simp
      · simp only [hr, Bool.not_false, if_true, ih1]
        simp [hr]

theorem updateBeliefsFromRevealedCard_.in_hand_copies (revealed_card : Card)
    (relevant_indices : Option CardIndices) (hand : List Card) :
    updateBeliefsFromRevealedCard_.in_hand revealed_card relevant_indices hand 0 0 =
      (revealedCopies revealed_card relevant_indices hand : Int) := by
  have := updateBeliefsFromRevealedCard_.in_hand_eq revealed_card relevant_indices hand 0 0
  simp only [Nat.cast_zero, zero_add] at this
  rw [this, revealedCopies]

/-- Without `relevant_indices` the copies counted are those of the whole hand. -/
theorem revealedCopies_none (revealed_card : Card) (hand : Hand) :
    revealedCopies revealed_card none hand = hand.count revealed_card := by
  unfold revealedCopies
  generalize 0 = i
  induction hand generalizing i with
  | nil => rfl
  | cons card rest ih =>
    rw [List.enumFrom_cons, List.countP_cons, ih, List.count_cons]
    simp

theorem HandDist.eq_of_key_eq (handDist : HandDist) (hkeys : (copyKeys handDist).Nodup)
    (kv kv1 : Hand × HandDistVal) (h : kv ∈ handDist) (h1 : kv1 ∈ handDist)
    (heq : kv.1 = kv1.1) : kv = kv1 := by
  have hv := handDist.valueAt_of_mem kv.1 kv.2 hkeys h
  have hv1 := handDist.valueAt_of_mem kv1.1 kv1.2 hkeys h1
  rw [heq, hv1] at hv
  exact Prod.ext heq hv.symm

/-- One round of the loop of `updateBeliefsFromRevealedCard_` changes the entry of its key as
C25 says, and no other entry. -/
theorem updateBeliefsFromRevealedCard_.step_eq (revealed_card : Card) (remaining : Int)
    (relevant_indices : Option CardIndices) (handDist : HandDist) (hand : Hand)
    (hkeys : (copyKeys handDist).Nodup) :
    updateBeliefsFromRevealedCard_.step revealed_card remaining relevant_indices handDist hand =
      handDist.filterMap fun kv =>
        if kv.1 = hand then revealedCardEntry revealed_card remaining relevant_indices kv
        else some kv := by
  unfold updateBeliefsFromRevealedCard_.step
  simp only [updateBeliefsFromRevealedCard_.in_hand_copies]
  by_cases hmem : hand ∈ copyKeys handDist
  · obtain ⟨kv0, hkv0, hfst⟩ := List.mem_map.mp hmem
    subst hfst
    have hval := handDist.valueAt_of_mem kv0.1 kv0.2 hkeys hkv0
    have hcongr : (handDist.filterMap fun kv =>
        if kv.1 = kv0.1 then revealedCardEntry revealed_card remaining relevant_indices kv
        else some kv) =
        handDist.filterMap fun kv =>
          if kv.1 = kv0.1 then revealedCardEntry revealed_card remaining relevant_indices kv0
          else some kv := by
      apply List.filterMap_congr
      intro kv hkv
      by_cases h : kv.1 = kv0.1
      · rw [handDist.eq_of_key_eq hkeys kv kv0 hkv hkv0 h]
      · simp [h]
    rw [hcongr, filterMap_key_const, hval]
    by_cases hk : revealedCopies revealed_card relevant_indices kv0.1 = 0
    · have hmap : (handDist.map fun kv => if kv.1 = kv0.1 then kv0 else kv) = handDist := by
        conv_rhs => rw [← List.map_id handDist]
        apply List.map_congr_left
        intro kv hkv
        by_cases h : kv.1 = kv0.1
        · rw [if_pos h, handDist.eq_of_key_eq hkeys kv kv0 hkv hkv0 h]
          rfl
        · rw [if_neg h]
          rfl
      simp [revealedCardEntry, hk, hmap]
    · have hpos : (revealedCopies revealed_card relevant_indices kv0.1 : Int) > 0 := by omega
      rw [if_pos hpos]
      simp only [revealedCardEntry, hk, if_false, mul_div_assoc]
      by_cases hprob : 0 < kv0.2.prob *
          (((remaining - (revealedCopies revealed_card relevant_indices kv0.1 : Int) : Int) : ℚ) /
            (remaining : ℚ))
      · rw [if_pos hprob, if_pos hprob, HandDist.assign, if_pos hmem]
      · rw [if_neg hprob, if_neg hprob, HandDist.eraseKey_assign]
  · have hcongr : (handDist.filterMap fun kv =>
        if kv.1 = hand then revealedCardEntry revealed_card remaining relevant_indices kv
        else some kv) = handDist.filterMap some := by
      apply List.filterMap_congr
      intro kv hkv
      have : kv.1 ≠ hand := by
        intro heq
        apply hmem
        rw [← heq]
        exact List.mem_map_of_mem Prod.fst hkv
      rw [if_neg this]
    have herase : handDist.eraseKey hand = handDist := by
      unfold HandDist.eraseKey
      rw [List.filter_eq_self]
      intro kv hkv
      simp only [decide_eq_true_eq]
      intro heq
      apply hmem
      rw [← heq]
      exact List.mem_map_of_mem Prod.fst hkv
    rw [hcongr, List.filterMap_some, handDist.valueAt_of_not_mem hand hmem]
    split_ifs with h1 h2
    · simp at h2
    · rw [HandDist.eraseKey_assign, herase]
    · rfl

/-- The entry of C25 keeps the key. -/
theorem revealedCardEntry_fst (revealed_card : Card) (remaining : Int)
    (relevant_indices : Option CardIndices) (kv kv1 : Hand × HandDistVal)
    (h : revealedCardEntry revealed_card remaining relevant_indices kv = some kv1) :
    kv1.1 = kv.1 := by
  unfold revealedCardEntry at h
  simp only at h
  split_ifs at h <;> simp only [Option.some.injEq] at h <;> rw [← h]

theorem copyKeys_filterMap_sublist (handDist : HandDist)
    (f : Hand × HandDistVal → Option (Hand × HandDistVal))
    (hf : ∀ kv kv1, f kv = some kv1 → kv1.1 = kv.1) :
    (copyKeys (handDist.filterMap f)).Sublist (copyKeys handDist) := by
  induction handDist with
  | nil => exact List.Sublist.refl _
  | cons kv rest ih =>
    simp only [copyKeys, List.filterMap_cons, List.map_cons] at ih ⊢
    cases hkv : f kv with
    | none => exact ih.cons _
    | some kv1 =>
      simp only [List.map_cons]
      rw [hf kv kv1 hkv]
      exact ih.cons₂ _

/-- The loop of `updateBeliefsFromRevealedCard_` over keys that are all different. -/
theorem updateBeliefsFromRevealedCard_.foldl_eq (revealed_card : Card) (remaining : Int)
    (relevant_indices : Option CardIndices) (keys : List Hand) (handDist : HandDist)
    (hkeys : (copyKeys handDist).Nodup) (hnodup : keys.Nodup) :
    keys.foldl (updateBeliefsFromRevealedCard_.step revealed_card remaining relevant_indices)
        handDist =
      handDist.filterMap fun kv =>
        if kv.1 ∈ keys then revealedCardEntry revealed_card remaining relevant_indices kv
        else some kv := by
  induction keys generalizing handDist with
  | nil => simp
  | cons k ks ih =>
    rw [List.nodup_cons] at hnodup
    rw [List.foldl_cons, updateBeliefsFromRevealedCard_.step_eq _ _ _ _ _ hkeys,
      ih _ ?_ hnodup.2, List.filterMap_filterMap]
    · apply List.filterMap_congr
      intro kv _
      by_cases hk : kv.1 = k
      · rw [if_pos hk, if_pos (by rw [hk]; exact List.mem_cons_self _ _)]
        cases he : revealedCardEntry revealed_card remaining relevant_indices kv with
        | none => rfl
        | some kv1 =>
          have := revealedCardEntry_fst _ _ _ _ _ he
          simp only [Option.some_bind]
          rw [if_neg]
          rw [this, hk]
          exact hnodup.1
      · rw [if_neg hk]
        simp only [Option.some_bind, List.mem_cons, hk, false_or]
    · refine (copyKeys_filterMap_sublist handDist _ ?_).nodup hkeys
      intro kv kv1 h
      split_ifs at h
      · exact revealedCardEntry_fst _ _ _ _ _ h
      · simp only [Option.some.injEq] at h
        rw [← h]

/-- C25 (beliefs after a revealed card). Let `who` be -1 or the observer, let the deck
composition be returned and let the keys of the hand distribution be all different (it is a
map). Then `updateBeliefsFromRevealedCard_` returns, with `remaining` = (deck composition
count of the revealed card) + 1, the distribution in which every key holding `k ≥ 1` copies
of the revealed card in the considered slots has its probability multiplied by
`(remaining - k) / remaining`, keys whose resulting probability is not above 0 are erased and
the other entries are unchanged, each entry that stays keeping its place. Without
`relevant_indices` the `k` of a hand is the number of copies in the whole hand. The `float`
arithmetic is modelled by exact rationals. -/
theorem C25_revealed_card (who : Int) (revealed_card : Card) (server : Server)
    (handDist : HandDist) (relevant_indices : Option CardIndices) (deck : DeckComposition)
    (hwho : who = -1 ∨ who = server.observingPlayer_)
    (hhands : server.numPlayers_ = server.hands_.length)
    (hdeck : getCurrentDeckComposition server who = .ok deck)
    (hkeys : (copyKeys handDist).Nodup) :
    updateBeliefsFromRevealedCard_ who revealed_card server handDist relevant_indices =
      .ok (handDist.filterMap
        (revealedCardEntry revealed_card (deck.at revealed_card + 1) relevant_indices)) ∧
    (∀ kv, revealedCardEntry revealed_card (deck.at revealed_card + 1) relevant_indices kv =
      if revealedCopies revealed_card relevant_indices kv.1 = 0 then some kv
      else if 0 < kv.2.prob *
          (((deck.at revealed_card + 1 -
              (revealedCopies revealed_card relevant_indices kv.1 : Int) : Int) : ℚ) /
            ((deck.at revealed_card + 1 : Int) : ℚ)) then
        some (kv.1, ⟨kv.2.prob *
          (((deck.at revealed_card + 1 -
              (revealedCopies revealed_card relevant_indices kv.1 : Int) : Int) : ℚ) /
            ((deck.at revealed_card + 1 : Int) : ℚ))⟩)
      else none) ∧
    (∀ hand, revealedCopies revealed_card none hand = hand.count revealed_card) := by
  refine ⟨?_, fun kv => rfl, revealedCopies_none revealed_card⟩
  have hnn := getCurrentDeckComposition_nonneg server who hwho hhands deck hdeck revealed_card
  unfold updateBeliefsFromRevealedCard_
  rw [hdeck]
  simp only
  rw [if_neg (by simp only [not_not]; omega),
    updateBeliefsFromRevealedCard_.foldl_eq _ _ _ _ _ hkeys hkeys]
  congr 1
  apply List.filterMap_congr
  intro kv hkv
  rw [if_pos (show kv.1 ∈ copyKeys handDist from List.mem_map_of_mem Prod.fst hkv)]

/-- Witness for C25: in the second turn of the example game the deck composition of player 1
has two red 3s, so that `remaining` is 3 for a revealed red 3: the hand with two red 3s goes
from 1/2 to 1/6, the hand with one from 1/4 to 1/6, and the hand with none keeps 1/4. For a
revealed red 1, of which the composition has none, the hand with a red 1 is erased. -/
theorem C25_revealed_card_witness :
    (updateBeliefsFromRevealedCard_ 1 ⟨.RED, 3⟩ exampleAfterHint exampleRevealDist
        none).toOption =
      some [([⟨.RED, 3⟩, ⟨.RED, 3⟩, ⟨.RED, 4⟩, ⟨.RED, 4⟩, ⟨.RED, 5⟩], ⟨1 / 6⟩),
        ([⟨.RED, 3⟩, ⟨.ORANGE, 1⟩, ⟨.RED, 4⟩, ⟨.RED, 4⟩, ⟨.RED, 5⟩], ⟨1 / 6⟩),
        ([⟨.RED, 1⟩, ⟨.ORANGE, 1⟩, ⟨.RED, 4⟩, ⟨.RED, 4⟩, ⟨.RED, 5⟩], ⟨1 / 4⟩)] ∧
    (updateBeliefsFromRevealedCard_ 1 ⟨.RED, 1⟩ exampleAfterHint exampleRevealDist
        none).toOption =
      some [([⟨.RED, 3⟩, ⟨.RED, 3⟩, ⟨.RED, 4⟩, ⟨.RED, 4⟩, ⟨.RED, 5⟩], ⟨1 / 2⟩),
        ([⟨.RED, 3⟩, ⟨.ORANGE, 1⟩, ⟨.RED, 4⟩, ⟨.RED, 4⟩, ⟨.RED, 5⟩], ⟨1 / 4⟩)] := by
  obtain ⟨deck, hdeck⟩ : ∃ deck, getCurrentDeckComposition exampleAfterHint 1 = .ok deck :=
    ⟨_, rfl⟩
  have hat : deck.at ⟨.RED, 3⟩ = 2 := by
    have : (getCurrentDeckComposition exampleAfterHint 1).toOption.map
        (fun d => d.at ⟨.RED, 3⟩) = some 2 := by decide!
    rw [hdeck] at this
    simpa [Except.toOption] using this
  constructor
  · rw [(C25_revealed_card 1 ⟨.RED, 3⟩ exampleAfterHint exampleRevealDist none deck
      (Or.inr (by decide)) (by decide) hdeck (by decide)).1, hat]
    decide!
  · decide!

/-! ## The CDF of a hand distribution -/

theorem foldl_add_eq_sum (ws : List ℚ) (a : ℚ) :
    ws.foldl (fun total p => total + p) a = a + ws.sum := by
  induction ws generalizing a with
  | nil => simp
  | cons w rest ih => rw [List.foldl_cons, ih, List.sum_cons, add_assoc]

/-- The entries that the second loop of `pdfToCdf` writes. -/
theorem pdfToCdf.loop_entries (total_prob : ℚ) (ws : List ℚ) (accum : ℚ) :
    pdfToCdf.loop total_prob ws accum =
      (List.range ws.length).map fun i => (accum + (ws.take i).sum) / total_prob := by
  induction ws generalizing accum with
  | nil => rfl
  | cons w rest ih =>
    rw [pdfToCdf.loop, ih, List.length_cons, List.range_succ_eq_map, List.map_cons, List.map_map]
    congr 1
    · simp
    · apply List.map_congr_left
      intro i _
      simp only [Function.comp, List.take_succ_cons, List.sum_cons, add_assoc]

theorem sum_take_mono (ws : List ℚ) (hnonneg : ∀ w ∈ ws, 0 ≤ w) (i j : Nat) (hij : i ≤ j) :
    (ws.take i).sum ≤ (ws.take j).sum := by
  induction ws generalizing i j with
  | nil => simp
  | cons w rest ih =>
    cases i with
    | zero =>
      simp only [List.take_zero, List.sum_nil]
      apply List.sum_nonneg
      intro x hx
      exact hnonneg x (List.mem_of_mem_take hx)
    | succ i =>
      cases j with
      | zero => omega
      | succ j =>
        simp only [List.take_succ_cons, List.sum_cons]
        have := ih (fun x hx => hnonneg x (List.mem_cons_of_mem _ hx)) i j (by omega)
        linarith

theorem sum_take_le (ws : List ℚ) (hnonneg : ∀ w ∈ ws, 0 ≤ w) (i : Nat) :
    (ws.take i).sum ≤ ws.sum := by
  by_cases hi : i ≤ ws.length
  · have := sum_take_mono ws hnonneg i ws.length hi
    rwa [List.take_length] at this
  · rw [List.take_of_length_le (by omega)]

/-- What `pdfToCdf` returns on a PDF of positive mass, when `cdf` has as many entries. -/
theorem pdfToCdf_eq (pdf cdf : HandDistCDF) (hsize : cdf.probs.length = pdf.probs.length)
    (hM : 0 < pdf.probs.sum) :
    pdfToCdf pdf cdf = .ok { cdf with probs :=
      (List.range pdf.probs.length).map fun i => (pdf.probs.take i).sum / pdf.probs.sum } := by
  unfold pdfToCdf
  simp only [foldl_add_eq_sum, zero_add, hsize, ne_eq, not_true_eq_false, if_false, hM,
    gt_iff_lt, pdfToCdf.loop_entries]

/-- C28 (PDF to CDF), amended. For every PDF with `N ≥ 1` non-negative weights of total mass
`M > 0`, and a `cdf` with `N` entries, `pdfToCdf` returns; the hands of `cdf` are unchanged and
its `N` new entries are non-decreasing and lie between 0 and 1; entry `i` is the mass of the
weights before index `i`, divided by `M`; so the first entry is 0 and the final entry is
`1 - w / M` for the last weight `w`, which is 1 only if the last weight is 0. The doubles are
modelled by exact rationals. -/
theorem C28_pdf_to_cdf (pdf cdf : HandDistCDF) (hN : 1 ≤ pdf.probs.length)
    (hsize : cdf.probs.length = pdf.probs.length) (hnonneg : ∀ w ∈ pdf.probs, 0 ≤ w)
    (hM : 0 < pdf.probs.sum) :
    ∃ result, pdfToCdf pdf cdf = .ok result ∧ result.hands = cdf.hands ∧
      result.probs.length = pdf.probs.length ∧
      result.probs.Pairwise (fun a b => a ≤ b) ∧
      (∀ p ∈ result.probs, 0 ≤ p ∧ p ≤ 1) ∧
      (∀ i, i < pdf.probs.length →
        result.probs[i]? = some ((pdf.probs.take i).sum / pdf.probs.sum)) ∧
      result.probs[0]? = some 0 ∧
      result.probs.getLast? = pdf.probs.getLast?.map (fun w => 1 - w / pdf.probs.sum) ∧
      (result.probs.getLast? = some 1 ↔ pdf.probs.getLast? = some 0) := by
  have hidx : ∀ i, i < pdf.probs.length →
      ((List.range pdf.probs.length).map fun i => (pdf.probs.take i).sum / pdf.probs.sum)[i]? =
        some ((pdf.probs.take i).sum / pdf.probs.sum) := by
    intro i hi
    rw [List.getElem?_map, List.getElem?_range hi]
    rfl
  have hlast : (((List.range pdf.probs.length).map fun i =>
        (pdf.probs.take i).sum / pdf.probs.sum)).getLast? =
      pdf.probs.getLast?.map (fun w => 1 - w / pdf.probs.sum) := by
    rw [List.getLast?_eq_getElem?, List.length_map, List.length_range,
      hidx _ (by omega), List.getLast?_eq_getElem?]
    have hlt : pdf.probs.length - 1 < pdf.probs.length := by omega
    rw [List.getElem?_eq_getElem hlt, Option.map_some']
    congr 1
    have hsum : pdf.probs.sum =
        (pdf.probs.take (pdf.probs.length - 1)).sum + pdf.probs[pdf.probs.length - 1] := by
      conv_lhs => rw [← List.take_append_drop (pdf.probs.length - 1) pdf.probs]
      rw [List.sum_append, List.drop_eq_getElem_cons hlt,
        List.drop_of_length_le (by omega)]
      simp
    have hne : pdf.probs.sum ≠ 0 := ne_of_gt hM
    field_simp
    linarith
  refine ⟨_, pdfToCdf_eq pdf cdf hsize hM, rfl, by simp, ?_, ?_, hidx, ?_, hlast, ?_⟩
  · rw [List.pairwise_map]
    refine List.Pairwise.imp ?_ (List.pairwise_lt_range _)
    intro i j hij
    exact div_le_div_of_nonneg_right (sum_take_mono _ hnonneg i j (le_of_lt hij)) (le_of_lt hM)
  · intro p hp
    simp only [List.mem_map, List.mem_range] at hp
    obtain ⟨i, _, rfl⟩ := hp
    constructor
    · apply div_nonneg _ (le_of_lt hM)
      apply List.sum_nonneg
      intro x hx
      exact hnonneg x (List.mem_of_mem_take hx)
    · rw [div_le_one hM]
      exact sum_take_le _ hnonneg i
  · rw [hidx 0 (by omega)]
    simp
  · simp only
    rw [hlast]
    cases pdf.probs.getLast? with
    | none => simp
    | some w =>
      simp only [Option.map_some', Option.some.injEq]
      constructor
      · intro h
        have : w / pdf.probs.sum = 0 := by linarith
        rcases div_eq_zero_iff.mp this with h0 | h0
        · exact h0
        · exact absurd h0 (ne_of_gt hM)
      · intro h
        rw [h]
        simp

/-- Witness for C28: the weights 1/4, 1/2, 1/4, 0 give the entries 0, 1/4, 3/4, 1. -/
theorem C28_pdf_to_cdf_witness :
    ∃ result, pdfToCdf ⟨[1 / 4, 1 / 2, 1 / 4, 0], []⟩ ⟨[0, 0, 0, 0], []⟩ = .ok result ∧
      result.probs = [0, 1 / 4, 3 / 4, 1] := by
  obtain ⟨result, h, -⟩ := C28_pdf_to_cdf ⟨[1 / 4, 1 / 2, 1 / 4, 0], []⟩ ⟨[0, 0, 0, 0], []⟩
    (by decide) (by decide) (by decide!) (by decide!)
  refine ⟨result, h, ?_⟩
  have h2 : (pdfToCdf ⟨[1 / 4, 1 / 2, 1 / 4, 0], []⟩ ⟨[0, 0, 0, 0], []⟩).toOption.map
      (fun r => r.probs) = some [0, 1 / 4, 3 / 4, 1] := by decide!
  rw [h] at h2
  simpa [Except.toOption] using h2

/-- Counterexample to C28 as stated: for the two weights 1 and 1, of mass 2, `pdfToCdf`
produces the entries 0 and 1/2; the final value is 1/2 and not 1. -/
theorem C28_counterexample :
    (pdfToCdf ⟨[1, 1], []⟩ ⟨[1, 1], []⟩).toOption = some ⟨[0, 1 / 2], []⟩ ∧
    ((pdfToCdf ⟨[1, 1], []⟩ ⟨[1, 1], []⟩).toOption.map fun r => r.probs.getLast?) =
      some (some (1 / 2)) ∧
    (1 / 2 : ℚ) ≠ 1 := by
  decide!

/-! ## Sampling from the CDF -/

theorem wrapInt32_of_lt (v : Int) (h0 : 0 ≤ v) (h1 : v < 2 ^ 31) : wrapInt32 v = v := by
  unfold wrapInt32
  norm_num at h1 ⊢
  omega

/-- The position that `upper_bound` returns: the entries before it are not above `prob`; it is
the end or its entry is above `prob`. -/
theorem upper_bound_spec (probs : List ℚ) (prob : ℚ) :
    upper_bound probs prob ≤ probs.length ∧
    (∀ j p, j < upper_bound probs prob → probs[j]? = some p → p ≤ prob) ∧
    (∀ p, probs[upper_bound probs prob]? = some p → prob < p) := by
  refine ⟨List.findIdx_le_length _, ?_, ?_⟩
  · intro j p hj hp
    have hlt : j < probs.length := getElem?_lt_length hp
    have := List.not_of_lt_findIdx hj
    rw [List.getElem?_eq_getElem hlt, Option.some.injEq] at hp
    rw [hp] at this
    simpa using this
  · intro p hp
    have hlt : upper_bound probs prob < probs.length := getElem?_lt_length hp
    have := @List.findIdx_getElem _ (fun p => decide (prob < p)) probs hlt
    rw [List.getElem?_eq_getElem hlt, Option.some.injEq] at hp
    unfold upper_bound at hp
    rw [hp] at this
    simpa using this

/-- C29 (sampling from the CDF), amended. Let the CDF have as many hands as entries, fewer
than 2^31, the entries non-decreasing and the first one 0, and let `u ≥ 0` be below some
entry. Let `k` be the index of the first entry strictly greater than `u` (the entries before
`k` are at most `u`, those from `k` on are greater). Then `k ≥ 1` and `sampleFromCDF_`
returns `cdf.hands[k - 1]`, the hand of the last entry that is at most `u`. -/
theorem C29_sample_from_cdf (cdf : HandDistCDF) (u : ℚ)
    (hsorted : cdf.probs.Pairwise (fun a b => a ≤ b))
    (hlen : cdf.hands.length = cdf.probs.length) (hsize : cdf.probs.length < 2 ^ 31)
    (hfirst : cdf.probs[0]? = some 0) (hu : 0 ≤ u) (hex : ∃ p ∈ cdf.probs, u < p) :
    ∃ k hand, 1 ≤ k ∧ k < cdf.probs.length ∧
      (∀ j p, j < k → cdf.probs[j]? = some p → p ≤ u) ∧
      (∀ j p, k ≤ j → cdf.probs[j]? = some p → u < p) ∧
      cdf.hands[k - 1]? = some hand ∧ sampleFromCDF_ cdf u = .ok hand := by
  obtain ⟨hle, hbefore, hat⟩ := upper_bound_spec cdf.probs u
  have hk : upper_bound cdf.probs u < cdf.probs.length := by
    apply List.findIdx_lt_length_of_exists
    obtain ⟨p, hp, hup⟩ := hex
    exact ⟨p, hp, by simpa using hup⟩
  have hk1 : 1 ≤ upper_bound cdf.probs u := by
    by_contra h0
    have h0 : upper_bound cdf.probs u = 0 := by omega
    have := hat 0 (by rw [h0]; exact hfirst)
    linarith
  have hatk : u < cdf.probs[upper_bound cdf.probs u] :=
    hat _ (List.getElem?_eq_getElem hk)
  have hprev : cdf.probs[upper_bound cdf.probs u - 1] ≤ u :=
    hbefore _ _ (by omega) (List.getElem?_eq_getElem (by omega))
  have hidx : wrapInt32 ((upper_bound cdf.probs u : Int) - 1) =
      ((upper_bound cdf.probs u - 1 : Nat) : Int) := by
    rw [wrapInt32_of_lt _ (by omega) (by norm_num at hsize ⊢; omega)]
    omega
  have hhand : upper_bound cdf.probs u - 1 < cdf.hands.length := by omega
  refine ⟨upper_bound cdf.probs u, cdf.hands[upper_bound cdf.probs u - 1], hk1, hk, hbefore,
    ?_, List.getElem?_eq_getElem hhand, ?_⟩
  · intro j p hj hp
    have hlt : j < cdf.probs.length := getElem?_lt_length hp
    rw [List.getElem?_eq_getElem hlt, Option.some.injEq] at hp
    rw [← hp]
    rcases Nat.eq_or_lt_of_le hj with heq | hlt2
    · subst heq
      exact hatk
    · exact lt_of_lt_of_le hatk (List.pairwise_iff_getElem.mp hsorted _ _ hk hlt hlt2)
  · unfold sampleFromCDF_
    simp only [hidx, Int.toNat_ofNat]
    have hmod : ((upper_bound cdf.probs u - 1 : Nat) : Int) % 2 ^ 64 =
        ((upper_bound cdf.probs u - 1 : Nat) : Int) := by
      apply Int.emod_eq_of_lt (by omega)
      norm_num at hsize ⊢
      omega
    have hnext : (((upper_bound cdf.probs u - 1 : Nat) : Int) + 1).toNat =
        upper_bound cdf.probs u := by omega
    rw [hmod, if_neg (by omega), List.getElem?_eq_getElem hhand, hnext,
      List.getElem?_eq_getElem hk, List.getElem?_eq_getElem (by omega)]
    simp only
    rw [if_pos (Or.inl (by linarith))]

/-- Witness for C29: for the CDF 0, 1/2 of two hands and `u = 1/4` the first entry above `u`
has index 1, and the hand returned is the one of index 0. -/
theorem C29_sample_from_cdf_witness :
    ∃ k hand, 1 ≤ k ∧ k < exampleCDF.probs.length ∧
      (∀ j p, j < k → exampleCDF.probs[j]? = some p → p ≤ 1 / 4) ∧
      (∀ j p, k ≤ j → exampleCDF.probs[j]? = some p → (1 / 4 : ℚ) < p) ∧
      exampleCDF.hands[k - 1]? = some hand ∧ sampleFromCDF_ exampleCDF (1 / 4) = .ok hand :=
  C29_sample_from_cdf exampleCDF (1 / 4) (by decide!) (by decide) (by decide) (by decide!)
    (by decide!) ⟨1 / 2, by decide!, by decide!⟩

/-- Counterexample to C29 as stated: the CDF 0, 1/2 of the hands R1 R2 and O1 O2 (two hands of
equal weight) and `u = 1/4`. The first entry strictly greater than `u` is the one of index 1,
whose hand is O1 O2; `sampleFromCDF_` returns the hand of index 0, R1 R2. -/
theorem C29_counterexample :
    (pdfToCdf ⟨[1, 1], exampleCDF.hands⟩ ⟨[1, 1], exampleCDF.hands⟩).toOption =
      some exampleCDF ∧
    upper_bound exampleCDF.probs (1 / 4) = 1 ∧
    exampleCDF.hands[1]? = some [⟨.ORANGE, 1⟩, ⟨.ORANGE, 2⟩] ∧
    (sampleFromCDF_ exampleCDF (1 / 4)).toOption = some [⟨.RED, 1⟩, ⟨.RED, 2⟩] := by
  decide!

/-! ## Private beliefs -/

theorem cardToIndex_range (c : Card) (h : c.valid) : 0 ≤ cardToIndex c ∧ cardToIndex c < 25 := by
  obtain ⟨color, value⟩ := c
  obtain ⟨h1, h2, h3⟩ := h
  simp only at h1 h2 h3
  cases color <;> simp only [cardToIndex, Color.toInt] <;>
    first
      | exact absurd rfl h1
      | omega

theorem cardToIndex_injective (c c1 : Card) (h : c.valid) (h1 : c1.valid)
    (heq : cardToIndex c = cardToIndex c1) : c = c1 := by
  obtain ⟨color, value⟩ := c
  obtain ⟨color1, value1⟩ := c1
  obtain ⟨ha, hb, hc⟩ := h
  obtain ⟨ha1, hb1, hc1⟩ := h1
  simp only at ha hb hc ha1 hb1 hc1
  have hcol : color.toInt = color1.toInt := by
    cases color <;> cases color1 <;> simp only [cardToIndex, Color.toInt] at heq ⊢ <;> omega
  have hcolor := Color.toInt_inj _ _ hcol
  subst hcolor
  simp only [cardToIndex] at heq
  have : value = value1 := by omega
  rw [this]

theorem indexToCard_cardToIndex (c : Card) (h : c.valid) : indexToCard (cardToIndex c) = .ok c := by
  obtain ⟨color, value⟩ := c
  obtain ⟨h1, h2, h3⟩ := h
  simp only at h1 h2 h3
  interval_cases value <;> cases color <;>
    first
      | exact absurd rfl h1
      | rfl

theorem constructPrivateBeliefs_.fill_map (deck : DeckComposition) (cards : List Card)
    (h : ∀ c ∈ cards, c.valid ∧ c ∈ deck.keys) :
    constructPrivateBeliefs_.fill deck (cards.map cardToIndex) = .ok (cards.map deck.value) := by
  induction cards with
  | nil => rfl
  | cons c rest ih =>
    have hc := h c (List.mem_cons_self _ _)
    simp only [List.map_cons, constructPrivateBeliefs_.fill, indexToCard_cardToIndex c hc.1,
      hc.2, if_true, ih (fun x hx => h x (List.mem_cons_of_mem _ hx))]

/-- The array that the first loop of a thread fills, for a map whose keys are the 25 cards. -/
theorem constructPrivateBeliefs_.fill_eq (deck : DeckComposition) (hkeys : deck.keys = allCards) :
    ∃ fast_deck,
      constructPrivateBeliefs_.fill deck ((List.range 25).map fun (i : Nat) => (i : Int)) =
        .ok fast_deck ∧
      fast_deck.length = 25 ∧
      ∀ c : Card, c.valid → fast_deck[(cardToIndex c).toNat]? = some (deck.at c) := by
  have hidx : ((List.range 25).map fun (i : Nat) => (i : Int)) = allCards.map cardToIndex := by
    decide
  refine ⟨allCards.map deck.value, ?_, by rw [List.length_map]; rfl, ?_⟩
  · rw [hidx]
    apply constructPrivateBeliefs_.fill_map
    intro c hc
    exact ⟨allCards_valid c hc, by rw [hkeys]; exact hc⟩
  · rintro ⟨color, value⟩ ⟨h1, h2, h3⟩
    simp only at h1 h2 h3
    interval_cases value <;> cases color <;>
      first
        | exact absurd rfl h1
        | simp [DeckComposition.at, hkeys, allCards, cardToIndex, Color.toInt, Color.all]

/-- Writing the entry of a card into the array changes the count of that card only. -/
theorem constructPrivateBeliefs_.entry_set (fast_deck : List Int) (D : Card → Int) (card : Card)
    (v : Int) (hcard : card.valid) (hlen : fast_deck.length = 25)
    (hrep : ∀ c : Card, c.valid → fast_deck[(cardToIndex c).toNat]? = some (D c)) :
    (fast_deck.set (cardToIndex card).toNat v).length = 25 ∧
    ∀ c : Card, c.valid →
      (fast_deck.set (cardToIndex card).toNat v)[(cardToIndex c).toNat]? =
        some (Function.update D card v c) := by
  refine ⟨by rw [List.length_set, hlen], ?_⟩
  intro c hc
  have hr := cardToIndex_range card hcard
  have hr1 := cardToIndex_range c hc
  rw [List.getElem?_set]
  by_cases heq : c = card
  · subst heq
    rw [if_pos rfl, if_pos (by omega), Function.update_same]
  · have hne : (cardToIndex card).toNat ≠ (cardToIndex c).toNat := by
      intro h
      apply heq
      apply cardToIndex_injective c card hc hcard
      omega
    rw [if_neg hne, Function.update_noteq heq, hrep c hc]

theorem constructPrivateBeliefs_.entry_eq (fast_deck : List Int) (D : Card → Int) (card : Card)
    (hcard : card.valid)
    (hrep : ∀ c : Card, c.valid → fast_deck[(cardToIndex c).toNat]? = some (D c)) :
    constructPrivateBeliefs_.entry fast_deck (cardToIndex card) = some (D card) := by
  have hr := cardToIndex_range card hcard
  rw [constructPrivateBeliefs_.entry, if_pos hr, hrep card hcard]

/-- The loop that multiplies a prior by the counts of the cards of a hand, drawn in order. -/
theorem constructPrivateBeliefs_.draw_weight (hand : List Card) (fast_deck : List Int)
    (D : Card → Int) (prior : ℚ) (hvalid : ∀ c ∈ hand, c.valid) (hlen : fast_deck.length = 25)
    (hrep : ∀ c : Card, c.valid → fast_deck[(cardToIndex c).toNat]? = some (D c)) :
    ∃ fast_deck1,
      constructPrivateBeliefs_.draw fast_deck hand prior =
        .ok (prior * drawWeight D hand, fast_deck1) ∧
      fast_deck1.length = 25 ∧
      ∀ c : Card, c.valid → fast_deck1[(cardToIndex c).toNat]? = some (D c - hand.count c) := by
  induction hand generalizing fast_deck D prior with
  | nil =>
    refine ⟨fast_deck, by simp [constructPrivateBeliefs_.draw, drawWeight], hlen, ?_⟩
    intro c hc
    simp [hrep c hc]
  | cons card rest ih =>
    have hcard := hvalid card (List.mem_cons_self _ _)
    obtain ⟨hlen1, hrep1⟩ :=
      constructPrivateBeliefs_.entry_set fast_deck D card (D card - 1) hcard hlen hrep
    obtain ⟨fast_deck1, h1, h2, h3⟩ := ih _ _ (prior * (D card : ℚ))
      (fun x hx => hvalid x (List.mem_cons_of_mem _ hx)) hlen1 hrep1
    refine ⟨fast_deck1, ?_, h2, ?_⟩
    · simp only [constructPrivateBeliefs_.draw,
        constructPrivateBeliefs_.entry_eq fast_deck D card hcard hrep, h1, drawWeight, mul_assoc]
    · intro c hc
      rw [h3 c hc]
      congr 1
      by_cases heq : c = card
      · subst heq
        rw [Function.update_same, List.count_cons_self]
        push_cast
        ring
      · rw [Function.update_noteq heq, List.count_cons_of_ne heq]

/-- The loops that put the cards of a hand back into the array, or take them out. -/
theorem constructPrivateBeliefs_.shift_eq (delta : Int) (hand : List Card) (fast_deck : List Int)
    (D : Card → Int) (hvalid : ∀ c ∈ hand, c.valid) (hlen : fast_deck.length = 25)
    (hrep : ∀ c : Card, c.valid → fast_deck[(cardToIndex c).toNat]? = some (D c)) :
    ∃ fast_deck1,
      constructPrivateBeliefs_.shift delta fast_deck hand = .ok fast_deck1 ∧
      fast_deck1.length = 25 ∧
      ∀ c : Card, c.valid →
        fast_deck1[(cardToIndex c).toNat]? = some (D c + delta * hand.count c) := by
  induction hand generalizing fast_deck D with
  | nil =>
    refine ⟨fast_deck, rfl, hlen, ?_⟩
    intro c hc
    simp [hrep c hc]
  | cons card rest ih =>
    have hcard := hvalid card (List.mem_cons_self _ _)
    obtain ⟨hlen1, hrep1⟩ :=
      constructPrivateBeliefs_.entry_set fast_deck D card (D card + delta) hcard hlen hrep
    obtain ⟨fast_deck1, h1, h2, h3⟩ := ih _ _
      (fun x hx => hvalid x (List.mem_cons_of_mem _ hx)) hlen1 hrep1
    refine ⟨fast_deck1, ?_, h2, ?_⟩
    · simp only [constructPrivateBeliefs_.shift,
        constructPrivateBeliefs_.entry_eq fast_deck D card hcard hrep, h1]
    · intro c hc
      rw [h3 c hc]
      congr 1
      by_cases heq : c = card
      · subst heq
        rw [Function.update_same, List.count_cons_self]
        push_cast
        ring
      · rw [Function.update_noteq heq, List.count_cons_of_ne heq]

/-- One round of the loop over the hands of the public PDF. -/
theorem constructPrivateBeliefs_.body_returns (partnerHand my_hand : Hand) (fast_deck : List Int)
    (D : Card → Int) (public_prob : ℚ) (hvalid : ∀ c ∈ my_hand, c.valid)
    (hpartner : ∀ c ∈ partnerHand, c.valid) (hlen : fast_deck.length = 25)
    (hrep : ∀ c : Card, c.valid → fast_deck[(cardToIndex c).toNat]? = some (D c))
    (hold : 0 < drawWeight D my_hand) :
    ∃ fast_deck1,
      constructPrivateBeliefs_.body partnerHand fast_deck my_hand public_prob =
        .ok (public_prob * drawWeight (fun c => D c - partnerHand.count c) my_hand /
          drawWeight D my_hand, fast_deck1) ∧
      fast_deck1.length = 25 ∧
      ∀ c : Card, c.valid → fast_deck1[(cardToIndex c).toNat]? = some (D c) := by
  obtain ⟨fd1, e1, l1, r1⟩ :=
    constructPrivateBeliefs_.draw_weight my_hand fast_deck D 1 hvalid hlen hrep
  obtain ⟨fd2, e2, l2, r2⟩ := constructPrivateBeliefs_.shift_eq 1 my_hand fd1 _ hvalid l1 r1
  have r2a : ∀ c : Card, c.valid → fd2[(cardToIndex c).toNat]? = some (D c) := by
    intro c hc
    rw [r2 c hc]
    congr 1
    ring
  obtain ⟨fd3, e3, l3, r3⟩ :=
    constructPrivateBeliefs_.shift_eq (-1) partnerHand fd2 D hpartner l2 r2a
  have r3a : ∀ c : Card, c.valid →
      fd3[(cardToIndex c).toNat]? = some ((fun c => D c - partnerHand.count c) c) := by
    intro c hc
    rw [r3 c hc]
    congr 1
    ring
  obtain ⟨fd4, e4, l4, r4⟩ :=
    constructPrivateBeliefs_.draw_weight my_hand fd3 _ 1 hvalid l3 r3a
  obtain ⟨fd5, e5, l5, r5⟩ := constructPrivateBeliefs_.shift_eq 1 my_hand fd4 _ hvalid l4 r4
  have r5a : ∀ c : Card, c.valid →
      fd5[(cardToIndex c).toNat]? = some (D c - partnerHand.count c) := by
    intro c hc
    rw [r5 c hc]
    congr 1
    ring
  obtain ⟨fd6, e6, l6, r6⟩ :=
    constructPrivateBeliefs_.shift_eq 1 partnerHand fd5 _ hpartner l5 r5a
  refine ⟨fd6, ?_, l6, ?_⟩
  · simp only [constructPrivateBeliefs_.body, e1, one_mul, hold, gt_iff_lt, not_true_eq_false,
      if_false, e2, e3, e4, e5, e6]
  · intro c hc
    rw [r6 c hc]
    congr 1
    ring

/-- The loop over the hands of the public PDF. -/
theorem constructPrivateBeliefs_.loop_weights (partnerHand : Hand) (probs : List ℚ)
    (hands : List Hand) (fast_deck : List Int) (D : Card → Int)
    (hhands : probs.length ≤ hands.length) (hvalid : ∀ h ∈ hands, ∀ c ∈ h, c.valid)
    (hpartner : ∀ c ∈ partnerHand, c.valid) (hlen : fast_deck.length = 25)
    (hrep : ∀ c : Card, c.valid → fast_deck[(cardToIndex c).toNat]? = some (D c))
    (hold : ∀ h ∈ hands, 0 < drawWeight D h) :
    constructPrivateBeliefs_.loop partnerHand probs hands fast_deck =
      .ok (List.zipWith
          (fun p h => p * drawWeight (fun c => D c - partnerHand.count c) h / drawWeight D h)
          probs hands,
        ((List.zipWith
          (fun p h => p * drawWeight (fun c => D c - partnerHand.count c) h / drawWeight D h)
          probs hands).count 0 : Nat)) := by
  induction probs generalizing hands fast_deck with
  | nil => simp [constructPrivateBeliefs_.loop]
  | cons p probs ih =>
    cases hands with
    | nil => simp at hhands
    | cons h hands =>
      obtain ⟨fd1, e1, l1, r1⟩ := constructPrivateBeliefs_.body_returns partnerHand h fast_deck D p
        (hvalid h (List.mem_cons_self _ _)) hpartner hlen hrep (hold h (List.mem_cons_self _ _))
      have := ih hands fd1 (by simpa using hhands)
        (fun x hx => hvalid x (List.mem_cons_of_mem _ hx)) l1 r1
        (fun x hx => hold x (List.mem_cons_of_mem _ hx))
      simp only [constructPrivateBeliefs_.loop, e1, this, List.zipWith_cons_cons,
        List.count_cons]
      congr 2
      split_ifs with h1 h2 h2
      · simp
      · exact absurd (by simp [h1]) h2
      · exact absurd (by simpa using h2) h1
      · simp

theorem count_zero_add_countP (l : List ℚ) :
    l.count 0 + l.countP (fun p => decide (p ≠ 0)) = l.length := by
  induction l with
  | nil => rfl
  | cons p rest ih =>
    rw [List.count_cons, List.countP_cons, List.length_cons]
    simp only [ne_eq] at ih ⊢
    by_cases hp : p = 0
    · simp only [hp, beq_self_eq_true, if_true, ne_eq, not_true_eq_false, decide_False,
        Bool.false_eq_true, if_false]
      omega
    · have hb : (p == 0) = false := by simpa using hp
      simp only [hb, Bool.false_eq_true, if_false, ne_eq, hp, not_false_eq_true, decide_True,
        if_true]
      omega

/-- C30 (private beliefs), amended. Let the public deck composition be returned, let the
two PDFs have as many entries, the public PDF a hand for each entry, all cards be cards of the
game, and every hand of the public PDF have a positive product of remaining counts when it is
drawn in order from the public deck. Then `constructPrivateBeliefs_` returns; the private PDF
keeps its hands, and for every hand `h` of the public PDF its weight is the public weight
times (the product of remaining counts when `h` is drawn in order from the public deck with
the partner's hand removed) divided by (the same product from the public deck with the
partner's hand included). A hand whose new weight is 0 stays in the private PDF, with the
weight 0; the number returned is the number of entries whose weight is not 0. The doubles
are modelled by exact rationals. -/
theorem C30_private_beliefs (partnerHand : Hand) (publicPDF privatePDF : HandDistCDF)
    (server : Server) (deck : DeckComposition)
    (hhands : server.numPlayers_ = server.hands_.length)
    (hdeck : getCurrentDeckComposition server (-1) = .ok deck)
    (hsize : publicPDF.probs.length = privatePDF.probs.length)
    (hlen : publicPDF.hands.length = publicPDF.probs.length)
    (hvalid : ∀ h ∈ publicPDF.hands, ∀ c ∈ h, c.valid)
    (hpartner : ∀ c ∈ partnerHand, c.valid)
    (hold : ∀ h ∈ publicPDF.hands, 0 < drawWeight deck.at h) :
    ∃ result n,
      constructPrivateBeliefs_ partnerHand publicPDF privatePDF server = .ok (result, n) ∧
      result.hands = privatePDF.hands ∧
      result.probs = List.zipWith
        (fun p h =>
          p * drawWeight (fun c => deck.at c - partnerHand.count c) h / drawWeight deck.at h)
        publicPDF.probs publicPDF.hands ∧
      result.probs.length = publicPDF.probs.length ∧
      n = (result.probs.countP fun p => decide (p ≠ 0) : Nat) := by
  have hkeys := getCurrentDeckComposition_keys server (-1) (Or.inl rfl) hhands deck hdeck
  obtain ⟨fast_deck, hfill, hl, hrep⟩ := constructPrivateBeliefs_.fill_eq deck hkeys
  have hloop := constructPrivateBeliefs_.loop_weights partnerHand publicPDF.probs publicPDF.hands
    fast_deck deck.at (by omega) hvalid hpartner hl hrep hold
  have hlength : (List.zipWith
      (fun p h =>
        p * drawWeight (fun c => deck.at c - partnerHand.count c) h / drawWeight deck.at h)
      publicPDF.probs publicPDF.hands).length = publicPDF.probs.length := by
    rw [List.length_zipWith, hlen, min_self]
  refine ⟨HandDistCDF.mk (List.zipWith
      (fun p h =>
        p * drawWeight (fun c => deck.at c - partnerHand.count c) h / drawWeight deck.at h)
      publicPDF.probs publicPDF.hands) privatePDF.hands,
    (publicPDF.probs.length : Int) - ((List.zipWith
      (fun p h =>
        p * drawWeight (fun c => deck.at c - partnerHand.count c) h / drawWeight deck.at h)
      publicPDF.probs publicPDF.hands).count 0 : Nat), ?_, rfl, rfl, hlength, ?_⟩
  · unfold constructPrivateBeliefs_
    rw [if_neg (by simp [hsize]), hdeck]
    simp only [hfill, hloop]
  · have := count_zero_add_countP (List.zipWith
      (fun p h =>
        p * drawWeight (fun c => deck.at c - partnerHand.count c) h / drawWeight deck.at h)
      publicPDF.probs publicPDF.hands)
    rw [hlength] at this
    simp only
    omega

/-- Witness for C30: the second turn of the example game, the partner of player 1 holding
R1 R1 R1 R2 R2. The hand R3 R3 R4 R4 R5 keeps its weight 1/2, and the hand R1 R3 R4 R4 R5,
which needs a fourth red 1, gets the weight 0: the number returned is 1. -/
theorem C30_private_beliefs_witness :
    ∃ result n,
      constructPrivateBeliefs_ [⟨.RED, 1⟩, ⟨.RED, 1⟩, ⟨.RED, 1⟩, ⟨.RED, 2⟩, ⟨.RED, 2⟩]
        examplePublicPDF examplePublicPDF exampleAfterHint = .ok (result, n) ∧
      result.hands = examplePublicPDF.hands ∧
      result.probs.length = examplePublicPDF.probs.length ∧
      n = (result.probs.countP fun p => decide (p ≠ 0) : Nat) := by
  obtain ⟨deck, hdeck⟩ : ∃ deck, getCurrentDeckComposition exampleAfterHint (-1) = .ok deck :=
    ⟨_, rfl⟩
  have hat : ∀ h ∈ examplePublicPDF.hands, 0 < drawWeight deck.at h := by
    have : (getCurrentDeckComposition exampleAfterHint (-1)).toOption.map
        (fun d => decide (∀ h ∈ examplePublicPDF.hands, 0 < drawWeight d.at h)) =
        some true := by decide!
    rw [hdeck] at this
    simpa [Except.toOption] using this
  obtain ⟨result, n, h1, h2, -, h3, h4⟩ := C30_private_beliefs
    [⟨.RED, 1⟩, ⟨.RED, 1⟩, ⟨.RED, 1⟩, ⟨.RED, 2⟩, ⟨.RED, 2⟩] examplePublicPDF examplePublicPDF
    exampleAfterHint deck (by decide) hdeck rfl (by decide) (by decide) (by decide) hat
  exact ⟨result, n, h1, h2, h3, h4⟩

/-- Counterexample to C30 as stated: in the second turn of the example game, with the partner
hand R1 R1 R1 R2 R2 of player 0, the hand R1 R3 R4 R4 R5 of the public PDF gets the weight 0.
It is not dropped: the private PDF still has both hands, the second with the weight 0, and
the number returned is 1. -/
theorem C30_counterexample :
    Reachable Params.default 2 standardDeck (fun _ => 0) exampleAfterHint ∧
    exampleAfterHint.handOfPlayer 0 =
      .ok [⟨.RED, 1⟩, ⟨.RED, 1⟩, ⟨.RED, 1⟩, ⟨.RED, 2⟩, ⟨.RED, 2⟩] ∧
    (constructPrivateBeliefs_ [⟨.RED, 1⟩, ⟨.RED, 1⟩, ⟨.RED, 1⟩, ⟨.RED, 2⟩, ⟨.RED, 2⟩]
        examplePublicPDF examplePublicPDF exampleAfterHint).toOption =
      some ({ probs := [1 / 2, 0],
              hands := [[⟨.RED, 3⟩, ⟨.RED, 3⟩, ⟨.RED, 4⟩, ⟨.RED, 4⟩, ⟨.RED, 5⟩],
                [⟨.RED, 1⟩, ⟨.RED, 3⟩, ⟨.RED, 4⟩, ⟨.RED, 4⟩, ⟨.RED, 5⟩]] }, 1) :=
  ⟨exampleAfterHint_reachable, rfl, by decide!⟩

/-! ## Beliefs after the observer's own draw -/

theorem addToDeck_spec (cards : List Card) (deck : DeckComposition)
    (hs : deck.keys.Pairwise (fun a b => Card.lt a b = true))
    (hmem : ∀ c ∈ cards, c ∈ deck.keys) :
    (addToDeck cards deck).keys = deck.keys ∧
    ∀ c, (addToDeck cards deck).at c = deck.at c + cards.count c := by
  induction cards generalizing deck with
  | nil => simp [addToDeck]
  | cons card rest ih =>
    have hkeys : (deck.set card (deck.at card + 1)).keys = deck.keys := by
      simp only [DeckComposition.set]
      exact insertKey_of_mem card deck.keys hs (hmem card (List.mem_cons_self _ _))
    obtain ⟨h1, h2⟩ := ih (deck.set card (deck.at card + 1)) (by rw [hkeys]; exact hs)
      (fun c hc => by rw [hkeys]; exact hmem c (List.mem_cons_of_mem _ hc))
    refine ⟨by rw [addToDeck, h1, hkeys], ?_⟩
    intro c
    rw [addToDeck, h2, DeckComposition.at_set]
    by_cases hc : c = card
    · subst hc
      rw [if_pos rfl, List.count_cons_self]
      push_cast
      ring
    · rw [if_neg hc, List.count_cons_of_ne hc]

/-- Removing cards from a map and putting them back gives a map with the same keys and
counts. -/
theorem addToDeck_removeFromDeck (cards : List Card) (deck deck1 : DeckComposition)
    (hs : deck.keys.Pairwise (fun a b => Card.lt a b = true))
    (h : removeFromDeck cards deck = .ok deck1) :
    (addToDeck cards deck1).keys = deck.keys ∧
    ∀ c, (addToDeck cards deck1).at c = deck.at c := by
  obtain ⟨h1, h2, h3⟩ := removeFromDeck_ok cards deck deck1 hs h
  have hmem : ∀ c ∈ cards, c ∈ deck1.keys := by
    intro c hc
    rw [h2]
    apply deck.mem_keys_of_at_pos
    have := h1 c hc
    have hpos : 0 < cards.count c := List.count_pos_iff.mpr hc
    omega
  obtain ⟨h4, h5⟩ := addToDeck_spec cards deck1 (by rw [h2]; exact hs) hmem
  refine ⟨by rw [h4, h2], ?_⟩
  intro c
  rw [h5, h3]
  ring

theorem Card.lt_pairwise_nodup (keys : List Card)
    (hs : keys.Pairwise (fun a b => Card.lt a b = true)) : keys.Nodup := by
  refine List.Pairwise.imp ?_ hs
  intro a b hab heq
  rw [heq, Card.lt_irrefl] at hab
  exact absurd hab (by simp)

/-- Two lists that agree after the erasure of slot `i` and in slot `i` are equal. -/
theorem eraseIdx_injective (l l1 : List Card) (i : Nat) (a : Card)
    (h : l.eraseIdx i = l1.eraseIdx i) (hl : l[i]? = some a) (hl1 : l1[i]? = some a) :
    l = l1 := by
  induction i generalizing l l1 with
  | zero =>
    cases l with
    | nil => simp at hl
    | cons x xs =>
      cases l1 with
      | nil => simp at hl1
      | cons y ys =>
        simp only [List.eraseIdx_cons_zero] at h
        simp only [List.getElem?_cons_zero, Option.some.injEq] at hl hl1
        rw [h, hl, hl1]
  | succ i ih =>
    cases l with
    | nil => simp at hl
    | cons x xs =>
      cases l1 with
      | nil => simp at hl1
      | cons y ys =>
        simp only [List.eraseIdx_cons_succ, List.cons.injEq] at h
        simp only [List.getElem?_cons_succ] at hl hl1
        rw [h.1, ih xs ys h.2 hl hl1]

/-- The loop that extends a shortened hand by every card with a positive count. -/
theorem updateBeliefsFromMyDraw_.extend_eq (hand_size : Int) (val : HandDistVal)
    (new_hand : Hand) (deck : DeckComposition) (cards : List Card) (dist : HandDist)
    (hsize : (new_hand.length : Int) + 1 = hand_size) (hnodup : cards.Nodup)
    (hfresh : ∀ c ∈ cards, new_hand ++ [c] ∉ copyKeys dist) :
    updateBeliefsFromMyDraw_.extend hand_size val new_hand deck cards dist =
      .ok (dist ++ (cards.filter fun c => decide (deck.at c > 0)).map
        fun c => (new_hand ++ [c], val)) := by
  induction cards generalizing dist with
  | nil => simp [updateBeliefsFromMyDraw_.extend]
  | cons card rest ih =>
    rw [List.nodup_cons] at hnodup
    have hlen : (((new_hand ++ [card]).length : Nat) : Int) = hand_size := by
      rw [List.length_append, List.length_singleton]
      push_cast
      exact hsize
    have hnew := hfresh card (List.mem_cons_self _ _)
    by_cases hpos : deck.at card > 0
    · have hcount : dist.countKey (new_hand ++ [card]) = 0 := by
        simp [HandDist.countKey, hnew]
      rw [updateBeliefsFromMyDraw_.extend, if_pos hpos, if_neg (not_not.mpr hlen),
        if_neg (not_not.mpr hcount), ih _ hnodup.2, HandDist.assign, if_neg hnew]
      · rw [List.filter_cons_of_pos (by simpa using hpos), List.map_cons, List.append_assoc]
        rfl
      · intro c hc hmem
        rw [HandDist.assign, if_neg hnew] at hmem
        simp only [copyKeys, List.map_append, List.map_cons, List.map_nil, List.mem_append,
          List.mem_singleton] at hmem
        rcases hmem with hmem | hmem
        · exact hfresh c (List.mem_cons_of_mem _ hc) hmem
        · have := List.append_cancel_left hmem
          simp only [List.cons.injEq, and_true] at this
          rw [this] at hc
          exact hnodup.1 hc
    · rw [updateBeliefsFromMyDraw_.extend, if_neg hpos, ih _ hnodup.2
        (fun c hc => hfresh c (List.mem_cons_of_mem _ hc)),
        List.filter_cons_of_neg (by simpa using hpos)]

/-- The keys of the entries that an old entry leaves. -/
theorem myDrawEntries_key (card_index : Int) (played_card : Card) (drawn : Bool)
    (deck : DeckComposition) (kv e : Hand × HandDistVal)
    (he : e ∈ myDrawEntries card_index played_card drawn deck kv) :
    kv.1[card_index.toNat]? = some played_card ∧ e.2 = kv.2 ∧
    ∃ suffix : List Card, suffix.length = (if drawn = true then 1 else 0) ∧
      e.1 = kv.1.eraseIdx card_index.toNat ++ suffix := by
  unfold myDrawEntries at he
  by_cases hm : kv.1[card_index.toNat]? = some played_card
  · rw [if_pos hm] at he
    refine ⟨hm, ?_⟩
    cases drawn with
    | true =>
      simp only [if_true, List.mem_map, List.mem_filter] at he
      obtain ⟨c, -, rfl⟩ := he
      exact ⟨rfl, [c], rfl, rfl⟩
    | false =>
      simp only [Bool.false_eq_true, if_false, List.mem_singleton] at he
      subst he
      exact ⟨rfl, [], rfl, by simp⟩
  · rw [if_neg hm] at he
    simp at he

/-- One round of the loop of `updateBeliefsFromMyDraw_` over the old entries. -/
theorem updateBeliefsFromMyDraw_.body_appends (P : Params) (who card_index : Int)
    (played_card : Card) (server : Server) (hand_size size : Int) (drawn : Bool)
    (deck0 deck : DeckComposition) (dist : HandDist) (kv : Hand × HandDistVal)
    (hs : deck0.keys.Pairwise (fun a b => Card.lt a b = true))
    (hk : deck.keys = deck0.keys) (ha : ∀ c, deck.at c = deck0.at c)
    (h0 : 0 ≤ card_index) (hidx : card_index.toNat < kv.1.length)
    (hsz : server.sizeOfHandOfPlayer who = .ok size)
    (hdrawn : drawn = decide (size = server.handSize P))
    (hnd : drawn = false →
      (if server.cardsRemainingInDeck = 0 then .ok true else server.gameOver P) = .ok true)
    (hlen : kv.1[card_index.toNat]? = some played_card →
      ((kv.1.eraseIdx card_index.toNat).length : Int) + (if drawn = true then 1 else 0) =
        hand_size)
    (hposs : kv.1[card_index.toNat]? = some played_card →
      ∀ c ∈ kv.1.eraseIdx card_index.toNat,
        ((kv.1.eraseIdx card_index.toNat).count c : Int) ≤ deck0.at c)
    (hfresh : kv.1[card_index.toNat]? = some played_card →
      ∀ suffix : List Card, suffix.length = (if drawn = true then 1 else 0) →
        kv.1.eraseIdx card_index.toNat ++ suffix ∉ copyKeys dist) :
    ∃ deck2,
      updateBeliefsFromMyDraw_.body P who card_index played_card server hand_size deck dist kv =
        .ok (deck2, dist ++ myDrawEntries card_index played_card drawn deck0 kv) ∧
      deck2.keys = deck0.keys ∧ ∀ c, deck2.at c = deck0.at c := by
  unfold updateBeliefsFromMyDraw_.body myDrawEntries
  rw [if_pos h0, List.getElem?_eq_getElem hidx]
  simp only [Option.some.injEq]
  by_cases hm : kv.1[card_index.toNat] = played_card
  · have hm1 : kv.1[card_index.toNat]? = some played_card := by
      rw [List.getElem?_eq_getElem hidx, hm]
    have hsd : deck.keys.Pairwise (fun a b => Card.lt a b = true) := by
      rw [hk]
      exact hs
    obtain ⟨deck1, hrem⟩ := removeFromDeck_returns (kv.1.eraseIdx card_index.toNat) deck
      (fun c hc => by rw [ha]; exact hposs hm1 c hc)
    obtain ⟨-, hk1, ha1⟩ := removeFromDeck_ok _ deck deck1 hsd hrem
    obtain ⟨hk2, ha2⟩ := addToDeck_removeFromDeck _ deck deck1 hsd hrem
    rw [if_neg (not_not.mpr hm), if_pos hm, hrem]
    simp only [hsz]
    cases drawn with
    | true =>
      have hsize : size = server.handSize P := by simpa using hdrawn.symm
      have hl := hlen hm1
      simp only [if_true] at hl
      rw [if_pos hsize, updateBeliefsFromMyDraw_.extend_eq hand_size kv.2 _ deck1 deck1.keys dist
        hl (Card.lt_pairwise_nodup _ (by rw [hk1]; exact hsd))
        (fun c _ => hfresh hm1 [c] rfl)]
      refine ⟨_, ?_, by rw [hk2, hk], fun c => by rw [ha2, ha]⟩
      simp only [if_true, hk1, hk, ha1, ha]
    | false =>
      have hsize : ¬ size = server.handSize P := by simpa using hdrawn.symm
      have hl := hlen hm1
      simp only [Bool.false_eq_true, if_false, add_zero] at hl
      have hf := hfresh hm1 [] rfl
      rw [List.append_nil] at hf
      rw [if_neg hsize, hnd rfl]
      simp only
      rw [if_neg (not_not.mpr hl), HandDist.assign, if_neg hf]
      exact ⟨_, rfl, by rw [hk2, hk], fun c => by rw [ha2, ha]⟩
  · rw [if_pos hm, if_neg hm, List.append_nil]
    exact ⟨deck, rfl, hk, ha⟩

/-- The loop of `updateBeliefsFromMyDraw_` over the old entries. -/
theorem updateBeliefsFromMyDraw_.loop_appends (P : Params) (who card_index : Int)
    (played_card : Card) (server : Server) (hand_size size : Int) (drawn : Bool)
    (deck0 : DeckComposition) (entries : List (Hand × HandDistVal)) (deck : DeckComposition)
    (dist : HandDist)
    (hs : deck0.keys.Pairwise (fun a b => Card.lt a b = true))
    (hk : deck.keys = deck0.keys) (ha : ∀ c, deck.at c = deck0.at c)
    (h0 : 0 ≤ card_index) (hidx : ∀ kv ∈ entries, card_index.toNat < kv.1.length)
    (hsz : server.sizeOfHandOfPlayer who = .ok size)
    (hdrawn : drawn = decide (size = server.handSize P))
    (hnd : drawn = false →
      (if server.cardsRemainingInDeck = 0 then .ok true else server.gameOver P) = .ok true)
    (hnodup : (copyKeys entries).Nodup)
    (hlen : ∀ kv ∈ entries, kv.1[card_index.toNat]? = some played_card →
      ((kv.1.eraseIdx card_index.toNat).length : Int) + (if drawn = true then 1 else 0) =
        hand_size)
    (hposs : ∀ kv ∈ entries, kv.1[card_index.toNat]? = some played_card →
      ∀ c ∈ kv.1.eraseIdx card_index.toNat,
        ((kv.1.eraseIdx card_index.toNat).count c : Int) ≤ deck0.at c)
    (hfresh : ∀ kv ∈ entries, kv.1[card_index.toNat]? = some played_card →
      ∀ suffix : List Card, suffix.length = (if drawn = true then 1 else 0) →
        kv.1.eraseIdx card_index.toNat ++ suffix ∉ copyKeys dist) :
    updateBeliefsFromMyDraw_.loop P who card_index played_card server hand_size entries deck
        dist =
      .ok (dist ++ entries.flatMap (myDrawEntries card_index played_card drawn deck0)) := by
  induction entries generalizing deck dist with
  | nil => simp [updateBeliefsFromMyDraw_.loop]
  | cons kv rest ih =>
    simp only [copyKeys, List.map_cons, List.nodup_cons] at hnodup
    obtain ⟨deck2, hbody, hk2, ha2⟩ := updateBeliefsFromMyDraw_.body_appends P who card_index
      played_card server hand_size size drawn deck0 deck dist kv hs hk ha h0
      (hidx kv (List.mem_cons_self _ _)) hsz hdrawn hnd (hlen kv (List.mem_cons_self _ _))
      (hposs kv (List.mem_cons_self _ _)) (hfresh kv (List.mem_cons_self _ _))
    rw [updateBeliefsFromMyDraw_.loop, hbody]
    simp only
    rw [ih deck2 _ hk2 ha2 (fun x hx => hidx x (List.mem_cons_of_mem _ hx)) hnodup.2
      (fun x hx => hlen x (List.mem_cons_of_mem _ hx))
      (fun x hx => hposs x (List.mem_cons_of_mem _ hx)), List.flatMap_cons, List.append_assoc]
    intro x hx hmx suffix hsuffix hmem
    simp only [copyKeys, List.map_append, List.mem_append] at hmem
    rcases hmem with hmem | hmem
    · exact hfresh x (List.mem_cons_of_mem _ hx) hmx suffix hsuffix hmem
    · obtain ⟨e, he, hfst⟩ := List.mem_map.mp hmem
      obtain ⟨hmkv, -, suffix1, hs1, hkey⟩ := myDrawEntries_key _ _ _ _ _ _ he
      rw [hkey] at hfst
      have := List.append_inj' hfst (by rw [hs1, hsuffix])
      have heq := eraseIdx_injective _ _ _ _ this.1 hmkv hmx
      apply hnodup.1
      rw [heq]
      exact List.mem_map_of_mem Prod.fst hx

/-- The entries of the map that `getCurrentDeckComposition` returns, for the cards of the
game. -/
theorem getCurrentDeckComposition_at (server : Server) (who : Int)
    (hwho : who = -1 ∨ who = server.observingPlayer_)
    (hhands : server.numPlayers_ = server.hands_.length) (deck : DeckComposition)
    (hdeck : getCurrentDeckComposition server who = .ok deck) (c : Card) (hc : c.valid) :
    deck.at c = (standardDeck.count c : Int) - server.discards_.count c - server.pileCount c -
      (if who = -1 then 0 else (server.heldByOthers who c : Int)) := by
  obtain ⟨deck0, hkeys, hcount, hzero, heq⟩ := getCurrentDeckComposition_eq server who hwho hhands
  have hsorted : deck0.keys.Pairwise (fun a b => Card.lt a b = true) := by
    rw [hkeys]
    exact allCards_sorted
  rw [heq] at hdeck
  obtain ⟨h1, h2, h3⟩ := removeFromDeck_ok _ deck0 deck hsorted hdeck
  have h5 := hcount c hc
  rw [standardDeck_count c hc] at h5
  simp only [Except.ok.injEq] at h5
  rw [h3 c, getCurrentDeckComposition.removed_count,
    getCurrentDeckComposition.pile_cards_count server c hc, ← h5]
  split_ifs <;> push_cast <;> omega

theorem sum_map_filter_ne (l : List Nat) (a : Nat) (f : Nat → Nat) (hl : l.Nodup)
    (ha : a ∈ l) :
    (l.map f).sum = ((l.filter fun p => decide (p ≠ a)).map f).sum + f a := by
  induction l with
  | nil => simp at ha
  | cons x xs ih =>
    rw [List.nodup_cons] at hl
    by_cases hx : x = a
    · subst hx
      have hfilter : (xs.filter fun p => decide (p ≠ x)) = xs := by
        rw [List.filter_eq_self]
        intro p hp
        simp only [ne_eq, decide_not, Bool.not_eq_true', decide_eq_false_iff_not]
        intro hpx
        rw [hpx] at hp
        exact hl.1 hp
      rw [List.filter_cons_of_neg (by simp), hfilter, List.map_cons, List.sum_cons]
      omega
    · have hmem : a ∈ xs := by
        rcases List.mem_cons.mp ha with h | h
        · exact absurd h.symm hx
        · exact h
      rw [List.filter_cons_of_pos (by simpa using hx), List.map_cons, List.sum_cons,
        List.map_cons, List.sum_cons, ih hl.2 hmem]
      omega

/-- The cards in all hands are those in the hand of `who` and those in the other hands. -/
theorem Server.heldCount_split (s : Server) (who : Int) (c : Card)
    (hrange : 0 ≤ who ∧ who < s.numPlayers_)
    (hhands : s.numPlayers_ = s.hands_.length) :
    s.heldCount c = s.heldByOthers who c + (s.handOf who).count c := by
  unfold Server.heldByOthers Server.heldCount
  have hn : s.numPlayers.toNat = s.hands_.length := by
    simp only [Server.numPlayers]
    omega
  rw [hn]
  have hmap := map_range_getD s.hands_ [] (List.count c)
  have hfilter : ((List.range s.hands_.length).filter fun (p : Nat) => decide ((p : Int) ≠ who)) =
      (List.range s.hands_.length).filter fun (p : Nat) => decide (p ≠ who.toNat) := by
    apply List.filter_congr
    intro p _
    apply decide_eq_decide.mpr
    omega
  have hsplit := sum_map_filter_ne (List.range s.hands_.length) who.toNat
    (fun p => (s.hands_.getD p []).count c) (List.nodup_range _)
    (List.mem_range.mpr (by omega))
  rw [hfilter, ← hmap, hsplit]
  simp only [Server.handOf, Int.toNat_ofNat]

/-- Under card conservation the deck composition of the observer has room for its hand. -/
theorem getCurrentDeckComposition_own (server : Server) (who : Int)
    (hwho : who = server.observingPlayer_) (hrange : 0 ≤ who ∧ who < server.numPlayers_)
    (hhands : server.numPlayers_ = server.hands_.length)
    (hcons : ∀ c, server.totalCount c = standardDeck.count c) (deck : DeckComposition)
    (hdeck : getCurrentDeckComposition server who = .ok deck) (c : Card) :
    ((server.handOf who).count c : Int) ≤ deck.at c := by
  have hsplit := server.heldCount_split who c hrange hhands
  have htotal := hcons c
  unfold Server.totalCount at htotal
  by_cases hc : c.valid
  · rw [getCurrentDeckComposition_at server who (Or.inr hwho) hhands deck hdeck c hc,
      if_neg (by omega)]
    omega
  · have hzero : standardDeck.count c = 0 :=
      List.count_eq_zero_of_not_mem fun hmem => hc (standardDeck_valid c hmem)
    have hnn := getCurrentDeckComposition_nonneg server who (Or.inr hwho) hhands deck hdeck c
    omega

/-- What `updateBeliefsFromMyDraw_` returns when the hands of the old distribution are all
different, have a slot `card_index`, and those with the played card in that slot have the
length that the new hand size asks for and fit into the deck composition without that slot. -/
theorem updateBeliefsFromMyDraw_.returns_entries (P : Params) (who card_index : Int) (played_card : Card)
    (server : Server) (handDist : HandDist) (public_beliefs : Bool) (deck : DeckComposition)
    (hand_size : Int)
    (hwho : public_beliefs = true ∨ who = server.observingPlayer_)
    (hhands : server.numPlayers_ = server.hands_.length)
    (hdeck : getCurrentDeckComposition server (if public_beliefs = true then -1 else who) =
      .ok deck)
    (hsz : server.sizeOfHandOfPlayer who = .ok hand_size)
    (hnd : hand_size ≠ server.handSize P →
      (if server.cardsRemainingInDeck = 0 then .ok true else server.gameOver P) = .ok true)
    (h0 : 0 ≤ card_index) (hidx : ∀ kv ∈ handDist, card_index.toNat < kv.1.length)
    (hnodup : (copyKeys handDist).Nodup)
    (hlen : ∀ kv ∈ handDist, kv.1[card_index.toNat]? = some played_card →
      ((kv.1.eraseIdx card_index.toNat).length : Int) +
        (if hand_size = server.handSize P then 1 else 0) = hand_size)
    (hposs : ∀ kv ∈ handDist, kv.1[card_index.toNat]? = some played_card →
      ∀ c ∈ kv.1.eraseIdx card_index.toNat,
        ((kv.1.eraseIdx card_index.toNat).count c : Int) ≤ deck.at c) :
    updateBeliefsFromMyDraw_ P who card_index played_card server handDist public_beliefs =
      .ok (handDist.flatMap
        (myDrawEntries card_index played_card (decide (hand_size = server.handSize P)) deck)) := by
  have hkeys : deck.keys = allCards := by
    apply getCurrentDeckComposition_keys server _ _ hhands deck hdeck
    rcases hwho with hp | hw
    · rw [if_pos hp]
      exact Or.inl rfl
    · by_cases hp : public_beliefs = true
      · rw [if_pos hp]
        exact Or.inl rfl
      · rw [if_neg hp]
        exact Or.inr hw
  unfold updateBeliefsFromMyDraw_
  rw [hdeck]
  simp only [hsz]
  rw [updateBeliefsFromMyDraw_.loop_appends P who card_index played_card server hand_size hand_size
    (decide (hand_size = server.handSize P)) deck handDist deck [] (by rw [hkeys]; exact allCards_sorted)
    rfl (fun _ => rfl) h0 hidx hsz rfl (fun h => hnd (by simpa using h)) hnodup
    (fun kv hkv hm => by simpa using hlen kv hkv hm) hposs
    (fun _ _ _ _ _ hmem => by simp [copyKeys] at hmem), List.nil_append]

/-- C24 (beliefs after the observer's own draw). In `updateBeliefsFromMyDraw_` the count of a
card that may have been drawn is only tested for `> 0`, and the extended hand gets the value
of the old hand as it is (`new_hand_distribution[new_hand] = kv.second`). In the first turn
of the example game player 0 plays its slot 0, a red 1, and draws; its old distribution
holds the hands R1 R1 R1 R2 R2 and O1 R1 R1 R2 R2 with probability 1/2 each. The second hand
is removed, its slot 0 not being the played card. The first leaves 20 hands R1 R1 R2 R2 + c,
one for each card c with a positive remaining count; the remaining count of the orange 1 is 3
and that of the orange 5 is 1, and both extended hands have the probability 1/2 of the old
hand, not the old probability weighted by 3 and by 1. -/
theorem C24_my_draw_unweighted :
    exampleAfterPlay.observingPlayer_ = 0 ∧
    exampleAfterPlay.handOf 0 =
      [⟨.RED, 1⟩, ⟨.RED, 1⟩, ⟨.RED, 2⟩, ⟨.RED, 2⟩, ⟨.ORANGE, 1⟩] ∧
    ((getCurrentDeckComposition exampleAfterPlay 0).toOption.bind fun deck =>
      (removeFromDeck [⟨.RED, 1⟩, ⟨.RED, 1⟩, ⟨.RED, 2⟩, ⟨.RED, 2⟩] deck).toOption.map
        fun deck1 => (deck1.at ⟨.ORANGE, 1⟩, deck1.at ⟨.ORANGE, 5⟩)) = some (3, 1) ∧
    ((updateBeliefsFromMyDraw_ Params.default 0 0 ⟨.RED, 1⟩ exampleAfterPlay exampleMyDrawDist
        false).toOption.map fun dist =>
      (dist.length, dist.map fun kv => kv.1.take 4,
        dist.valueAt [⟨.RED, 1⟩, ⟨.RED, 1⟩, ⟨.RED, 2⟩, ⟨.RED, 2⟩, ⟨.ORANGE, 1⟩],
        dist.valueAt [⟨.RED, 1⟩, ⟨.RED, 1⟩, ⟨.RED, 2⟩, ⟨.RED, 2⟩, ⟨.ORANGE, 5⟩])) =
      some (20, List.replicate 20 [⟨.RED, 1⟩, ⟨.RED, 1⟩, ⟨.RED, 2⟩, ⟨.RED, 2⟩], ⟨1 / 2⟩,
        ⟨1 / 2⟩) := by
  decide!

/-! ## The initial hand distribution -/

theorem DeckComposition.set_keys (deck : DeckComposition) (card : Card) (v : Int)
    (hs : deck.keys.Pairwise (fun a b => Card.lt a b = true)) (hmem : card ∈ deck.keys) :
    (deck.set card v).keys = deck.keys :=
  insertKey_of_mem card deck.keys hs hmem

theorem DeckComposition.set_at (deck : DeckComposition) (card : Card) (v : Int) :
    (deck.set card v).at = Function.update deck.at card v := by
  funext c
  rw [DeckComposition.at_set]
  by_cases hc : c = card
  · rw [if_pos hc, hc, Function.update_same]
  · rw [if_neg hc, Function.update_noteq hc]

/-- The line `deck[card]++` after `deck[card]--` gives the map back. -/
theorem DeckComposition.set_restore (deck : DeckComposition) (card : Card) (v : Int)
    (hs : deck.keys.Pairwise (fun a b => Card.lt a b = true)) (hmem : card ∈ deck.keys) :
    (deck.set card v).set card (deck.at card) = deck := by
  have hk := deck.set_keys card v hs hmem
  obtain ⟨keys, value⟩ := deck
  simp only [DeckComposition.set, DeckComposition.at] at hk ⊢
  simp only at hmem
  rw [hk, hk, if_pos hmem, Function.update_idem, Function.update_eq_self]

/-- A loop whose rounds leave the deck as it is and append entries. -/
theorem foldl_append_entries
    (step : Option (DeckComposition × HandDist) → Card → Option (DeckComposition × HandDist))
    (deck : DeckComposition) (E : Card → List (Hand × HandDistVal))
    (Q : HandDist → Card → Prop) (ks : List Card) (dist : HandDist)
    (hstep : ∀ card ∈ ks, ∀ d, Q d card → step (some (deck, d)) card = some (deck, d ++ E card))
    (hQ : ∀ d card card1, card ∈ ks → card1 ∈ ks → card ≠ card1 → Q d card1 →
      Q (d ++ E card) card1)
    (hnodup : ks.Nodup) (h0 : ∀ card ∈ ks, Q dist card) :
    ks.foldl step (some (deck, dist)) = some (deck, dist ++ ks.flatMap E) := by
  induction ks generalizing dist with
  | nil => simp
  | cons card rest ih =>
    rw [List.nodup_cons] at hnodup
    rw [List.foldl_cons, hstep card (List.mem_cons_self _ _) dist (h0 card (List.mem_cons_self _ _)),
      ih _ (fun c hc => hstep c (List.mem_cons_of_mem _ hc))
        (fun d c c1 hc hc1 => hQ d c c1 (List.mem_cons_of_mem _ hc) (List.mem_cons_of_mem _ hc1))
        hnodup.2, List.flatMap_cons, List.append_assoc]
    intro c hc
    apply hQ dist card c (List.mem_cons_self _ _) (List.mem_cons_of_mem _ hc)
    · intro heq
      rw [heq] at hnodup
      exact hnodup.1 hc
    · exact h0 c (List.mem_cons_of_mem _ hc)

/-- What `populateInitialHandDistribution_` does with a hand that lacks `n` cards, when the
bound on the depth is at least `n` and no key of the distribution starts with the hand: the
deck is given back as it was, and every way to complete the hand by `n` cards drawn from the
deck is appended, with the probability multiplied by the product of the remaining counts. -/
theorem populateInitialHandDistribution_.appends_hands (handSize : Int) (n : Nat) (fuel : Nat) (hand : Hand)
    (prob : ℚ) (deck : DeckComposition) (handDist : HandDist) (hfuel : n ≤ fuel)
    (hsize : handSize = (hand.length : Int) + n)
    (hs : deck.keys.Pairwise (fun a b => Card.lt a b = true))
    (hfresh : ∀ k ∈ copyKeys handDist, ¬ hand <+: k) :
    populateInitialHandDistribution_ handSize fuel hand prob deck handDist =
      some (deck, handDist ++ (drawableHands deck.keys n deck.at).map fun rest =>
        (hand ++ rest, ⟨prob * drawWeight deck.at rest⟩)) := by
  induction n generalizing fuel hand prob deck handDist with
  | zero =>
    have hlen : (hand.length : Int) = handSize := by
      rw [hsize]
      simp
    have hnew : hand ∉ copyKeys handDist := fun hmem => hfresh hand hmem (List.prefix_refl _)
    rw [populateInitialHandDistribution_.eq_def, if_pos hlen, HandDist.assign, if_neg hnew]
    simp [drawableHands, drawWeight]
  | succ n ih =>
    have hlen : ¬ (hand.length : Int) = handSize := by
      rw [hsize]
      push_cast
      omega
    obtain ⟨fuel1, rfl⟩ : ∃ fuel1, fuel = fuel1 + 1 := ⟨fuel - 1, by omega⟩
    rw [populateInitialHandDistribution_.eq_def, if_neg hlen]
    simp only
    rw [foldl_append_entries _ deck
      (fun card =>
        if deck.at card > 0 then
          (drawableHands deck.keys n (Function.update deck.at card (deck.at card - 1))).map
            fun rest => (hand ++ card :: rest,
              ⟨prob * ((deck.at card : Int) : ℚ) *
                drawWeight (Function.update deck.at card (deck.at card - 1)) rest⟩)
        else [])
      (fun d card => ∀ k ∈ copyKeys d, ¬ (hand ++ [card]) <+: k) deck.keys handDist]
    · congr 2
      rw [drawableHands, List.map_flatMap]
      congr 1
      apply List.flatMap_congr
      intro card _
      by_cases hpos : deck.at card > 0
      · rw [if_pos hpos, if_pos hpos, List.map_map]
        apply List.map_congr_left
        intro rest _
        simp only [Function.comp, drawWeight, mul_assoc]
      · rw [if_neg hpos, if_neg hpos, List.map_nil]
    · intro card hcard d hd
      unfold populateInitialHandDistribution_.step
      simp only
      by_cases hpos : deck.at card > 0
      · have hk := deck.set_keys card (deck.at card - 1) hs hcard
        rw [if_pos hpos, ih fuel1 (hand ++ [card]) _ (deck.set card (deck.at card - 1)) d
          (by omega) (by rw [hsize, List.length_append, List.length_singleton]; push_cast; ring)
          (by rw [hk]; exact hs) hd]
        simp only
        rw [if_pos hpos, DeckComposition.at_set, if_pos rfl, sub_add_cancel,
          deck.set_restore card _ hs hcard, hk, DeckComposition.set_at]
        congr 3
        apply List.map_congr_left
        intro rest _
        rw [List.append_assoc, List.singleton_append]
      · rw [if_neg hpos, if_neg hpos, List.append_nil]
    · intro d card card1 _ _ hne hd k hk
      simp only [copyKeys, List.map_append, List.mem_append] at hk
      rcases hk with hk | hk
      · exact hd k hk
      · intro hpre
        obtain ⟨e, he, rfl⟩ := List.mem_map.mp hk
        by_cases hpos : deck.at card > 0
        · rw [if_pos hpos] at he
          obtain ⟨rest, -, rfl⟩ := List.mem_map.mp he
          simp only at hpre
          rw [List.prefix_append_right_inj] at hpre
          have := List.cons_prefix_cons.mp (show [card1] <+: card :: rest from hpre)
          exact hne this.1.symm
        · rw [if_neg hpos] at he
          simp at he
    · exact Card.lt_pairwise_nodup _ hs
    · intro card _ k hk hpre
      exact hfresh k hk ((List.prefix_append hand [card]).trans hpre)

/-- The hands that can be drawn: those of the right length that use cards of the supply, none
more often than the supply has it. -/
theorem mem_drawableHands (keys : List Card) (n : Nat) (D : Card → Int) (hand : Hand) :
    hand ∈ drawableHands keys n D ↔
      hand.length = n ∧ ∀ c ∈ hand, c ∈ keys ∧ (hand.count c : Int) ≤ D c := by
  induction n generalizing D hand with
  | zero =>
    simp only [drawableHands, List.mem_singleton]
    constructor
    · rintro rfl
      simp
    · rintro ⟨h, -⟩
      exact List.length_eq_zero.mp h
  | succ n ih =>
    simp only [drawableHands, List.mem_flatMap]
    constructor
    · rintro ⟨card, hcard, hmem⟩
      by_cases hpos : D card > 0
      · rw [if_pos hpos] at hmem
        obtain ⟨rest, hrest, rfl⟩ := List.mem_map.mp hmem
        obtain ⟨hlen, hall⟩ := (ih _ rest).mp hrest
        refine ⟨by rw [List.length_cons, hlen], ?_⟩
        intro c hc
        by_cases heq : c = card
        · subst heq
          refine ⟨hcard, ?_⟩
          rw [List.count_cons_self]
          by_cases hin : c ∈ rest
          · have := (hall c hin).2
            rw [Function.update_same] at this
            push_cast
            omega
          · rw [List.count_eq_zero_of_not_mem hin]
            push_cast
            omega
        · have hin : c ∈ rest := by
            rcases List.mem_cons.mp hc with h | h
            · exact absurd h heq
            · exact h
          have := hall c hin
          rw [Function.update_noteq heq] at this
          rw [List.count_cons_of_ne heq]
          exact this
      · rw [if_neg hpos] at hmem
        simp at hmem
    · rintro ⟨hlen, hall⟩
      cases hand with
      | nil => simp at hlen
      | cons card rest =>
        have hcard := hall card (List.mem_cons_self _ _)
        rw [List.count_cons_self] at hcard
        push_cast at hcard
        have hpos : D card > 0 := by omega
        refine ⟨card, hcard.1, ?_⟩
        rw [if_pos hpos]
        apply List.mem_map_of_mem
        rw [ih]
        refine ⟨by simpa using hlen, ?_⟩
        intro c hc
        have hc1 := hall c (List.mem_cons_of_mem _ hc)
        refine ⟨hc1.1, ?_⟩
        by_cases heq : c = card
        · subst heq
          rw [Function.update_same]
          omega
        · rw [Function.update_noteq heq]
          rw [List.count_cons_of_ne heq] at hc1
          exact hc1.2

theorem drawableHands_nodup (keys : List Card) (n : Nat) (D : Card → Int) (hk : keys.Nodup) :
    (drawableHands keys n D).Nodup := by
  induction n generalizing D with
  | zero => simp [drawableHands]
  | succ n ih =>
    rw [drawableHands, List.nodup_flatMap]
    constructor
    · intro card _
      split_ifs
      · exact (ih _).map (fun a b h => (List.cons.inj h).2)
      · exact List.nodup_nil
    · refine List.Pairwise.imp ?_ hk
      intro a b hab
      simp only [Function.onFun]
      intro x hxa hxb
      split_ifs at hxa hxb
      · obtain ⟨ra, -, rfl⟩ := List.mem_map.mp hxa
        obtain ⟨rb, -, hb⟩ := List.mem_map.mp hxb
        exact hab (List.cons.inj hb).1.symm
      all_goals simp at hxa hxb

/-- C26 (initial hand distribution). Let `handSize ≥ 0`, and let the bound on the depth of the
recursion be at least `handSize`. Called with an empty hand, probability 1, an empty
distribution and a deck composition `D` (its keys in increasing order, as a `std::map` has
them), `populateInitialHandDistribution_` returns; `D` is the same after the call; the keys of
the distribution are all different and are exactly the ordered hands of `handSize` cards of
`D` that use no card more often than `D` has it; and the weight of a key is the product, over
its cards in order, of the count of that card remaining in `D` when it is drawn. `init_`
returns this distribution for the deck composition of the server. The `float`s are modelled
by exact rationals. -/
theorem C26_initial_hand_distribution (handSize : Int) (deck : DeckComposition) (fuel : Nat)
    (hsize : 0 ≤ handSize) (hs : deck.keys.Pairwise (fun a b => Card.lt a b = true))
    (hfuel : handSize.toNat ≤ fuel) :
    ∃ dist, populateInitialHandDistribution_ handSize fuel [] 1 deck [] = some (deck, dist) ∧
      (copyKeys dist).Nodup ∧
      (∀ hand, hand ∈ copyKeys dist ↔
        ((hand.length : Int) = handSize ∧
          ∀ c ∈ hand, c ∈ deck.keys ∧ (hand.count c : Int) ≤ deck.at c)) ∧
      (∀ hand val, (hand, val) ∈ dist → val.prob = drawWeight deck.at hand) ∧
      (∀ P me_ server, getCurrentDeckComposition server me_ = .ok deck →
        server.handSize P = handSize → init_ fuel P me_ server [] = some (.ok dist)) := by
  have h := populateInitialHandDistribution_.appends_hands handSize handSize.toNat fuel [] 1 deck []
    hfuel (by simp [hsize]) hs (by simp [copyKeys])
  simp only [List.nil_append, one_mul] at h
  have hkeys : copyKeys ((drawableHands deck.keys handSize.toNat deck.at).map fun rest =>
      ((rest, ⟨drawWeight deck.at rest⟩) : Hand × HandDistVal)) =
      drawableHands deck.keys handSize.toNat deck.at := by
    rw [copyKeys, List.map_map]
    exact List.map_id _
  refine ⟨_, h, ?_, ?_, ?_, ?_⟩
  · rw [hkeys]
    exact drawableHands_nodup _ _ _ (Card.lt_pairwise_nodup _ hs)
  · intro hand
    rw [hkeys, mem_drawableHands]
    constructor
    · rintro ⟨h1, h2⟩
      exact ⟨by omega, h2⟩
    · rintro ⟨h1, h2⟩
      exact ⟨by omega, h2⟩
  · intro hand val hmem
    obtain ⟨rest, -, heq⟩ := List.mem_map.mp hmem
    simp only [Prod.mk.injEq] at heq
    rw [← heq.1, ← heq.2]
  · intro P me_ server hdeck hhs
    unfold init_
    simp only [List.isEmpty_nil, not_true_eq_false, if_false, hdeck, hhs, h]

/-- Witness for C26: from two red 1s and one red 2 the hands of two cards are R1 R1, R1 R2
and R2 R1, each of weight 2; the deck composition is given back. -/
theorem C26_initial_hand_distribution_witness :
    ∃ dist, populateInitialHandDistribution_ 2 2 [] 1 exampleSmallDeck [] =
        some (exampleSmallDeck, dist) ∧
      copyKeys dist = [[⟨.RED, 1⟩, ⟨.RED, 1⟩], [⟨.RED, 1⟩, ⟨.RED, 2⟩], [⟨.RED, 2⟩, ⟨.RED, 1⟩]] ∧
      dist.map (fun kv => kv.2.prob) = [2, 2, 2] := by
  obtain ⟨dist, h, -⟩ := C26_initial_hand_distribution 2 exampleSmallDeck 2 (by decide)
    (by decide) (by decide)
  refine ⟨dist, h, ?_⟩
  have h2 : (populateInitialHandDistribution_ 2 2 [] 1 exampleSmallDeck []).map
      (fun r => (copyKeys r.2, r.2.map fun kv => kv.2.prob)) =
      some ([[⟨.RED, 1⟩, ⟨.RED, 1⟩], [⟨.RED, 1⟩, ⟨.RED, 2⟩], [⟨.RED, 2⟩, ⟨.RED, 1⟩]],
        [2, 2, 2]) := by decide!
  rw [h] at h2
  simpa using h2

/-! ## The true hand stays a key -/

/-- Under card conservation `getCurrentDeckComposition` returns. -/
theorem getCurrentDeckComposition_returns (server : Server) (who : Int)
    (hwho : who = -1 ∨ who = server.observingPlayer_)
    (hhands : server.numPlayers_ = server.hands_.length)
    (hcons : ∀ c, server.totalCount c = standardDeck.count c) :
    ∃ deck, getCurrentDeckComposition server who = .ok deck := by
  obtain ⟨deck0, hkeys, hcount, hzero, heq⟩ := getCurrentDeckComposition_eq server who hwho hhands
  rw [heq]
  apply removeFromDeck_returns
  intro c hc
  have hle : (server.discards_ ++
        (((List.range server.numPlayers.toNat).filter
            fun (p : Nat) => decide (¬ (who = -1 ∨ (p : Int) = who))).flatMap
          fun (p : Nat) => server.handOf p) ++
        getCurrentDeckComposition.pile_cards server).count c ≤
      server.discards_.count c + server.heldCount c +
        (getCurrentDeckComposition.pile_cards server).count c := by
    rw [getCurrentDeckComposition.removed_count]
    have := server.heldByOthers_le who c hhands
    split_ifs <;> omega
  have hvalid : c.valid := by
    by_cases hp : c ∈ getCurrentDeckComposition.pile_cards server
    · exact getCurrentDeckComposition.pile_cards_valid server c hp
    · rw [List.count_eq_zero_of_not_mem hp] at hle
      have hpos : 0 < (server.discards_ ++
        (((List.range server.numPlayers.toNat).filter
            fun (p : Nat) => decide (¬ (who = -1 ∨ (p : Int) = who))).flatMap
          fun (p : Nat) => server.handOf p) ++
        getCurrentDeckComposition.pile_cards server).count c := List.count_pos_iff.mpr hc
      have htotal := hcons c
      simp only [Server.totalCount] at htotal
      have hstd : 0 < standardDeck.count c := by omega
      exact standardDeck_valid c (List.count_pos_iff.mp hstd)
  rw [getCurrentDeckComposition.pile_cards_count server c hvalid] at hle
  have htotal := hcons c
  simp only [Server.totalCount] at htotal
  have h5 := hcount c hvalid
  rw [standardDeck_count c hvalid] at h5
  simp only [Except.ok.injEq] at h5
  rw [← h5]
  have : (server.discards_ ++
        (((List.range server.numPlayers.toNat).filter
            fun (p : Nat) => decide (¬ (who = -1 ∨ (p : Int) = who))).flatMap
          fun (p : Nat) => server.handOf p) ++
        getCurrentDeckComposition.pile_cards server).count c ≤ standardDeck.count c := by
    omega
  exact_mod_cast this

theorem Server.cheatGetHand_ok (s : Server) (index : Int) (hand : List Card)
    (h : s.cheatGetHand index = .ok hand) :
    0 ≤ index ∧ s.hands_[index.toNat]? = some hand ∧ s.handOf index = hand := by
  unfold Server.cheatGetHand at h
  by_cases h0 : 0 ≤ index
  · rw [if_pos h0] at h
    cases hh : s.hands_[index.toNat]? with
    | none => simp [hh] at h
    | some hand1 =>
      simp only [hh, Except.ok.injEq] at h
      subst h
      exact ⟨h0, rfl, by simp [Server.handOf, List.getD_eq_getElem?_getD, hh]⟩
  · rw [if_neg h0] at h
    simp at h

theorem checkBeliefs__ok (handDist : HandDist) (trueHand : Hand)
    (h : trueHand ∈ copyKeys handDist) : checkBeliefs_ handDist trueHand = .ok () := by
  simp [checkBeliefs_, HandDist.countKey, h]

/-- The true hand passes the test of a hint whose card indices the server has computed from
it, when it has at most 8 cards. -/
theorem filterBeliefsConsistentWithHint_.keep_true (move : Move) (hit : Card → Bool)
    (trueHand : Hand) (hlen : trueHand.length ≤ 8)
    (hhit : ∀ card : Card, hit card = true ↔
      (if move.type = .HINT_COLOR then card.color.toInt else card.value) = move.value) :
    filterBeliefsConsistentWithHint_.keep move (hintLoop hit trueHand 0 CardIndices.new) none
      trueHand 0 = true := by
  rw [filterBeliefsConsistentWithHint_.keep_iff]
  intro j hj
  rw [zero_add, (hintLoop_contains hit trueHand).1, ← hhit]
  constructor
  · intro h
    exact ⟨by omega, by omega, trueHand[j], by simp [List.getElem?_eq_getElem hj], h⟩
  · rintro ⟨-, -, card, hcard, h⟩
    simp only [Int.toNat_ofNat, List.getElem?_eq_getElem hj, Option.some.injEq] at hcard
    rw [hcard]
    exact h

theorem filterBeliefsConsistentWithHint__mem (move : Move) (card_indices : CardIndices)
    (handDist : HandDist) (trueHand : Hand) (hmem : trueHand ∈ copyKeys handDist)
    (hkeep : filterBeliefsConsistentWithHint_.keep move card_indices none trueHand 0 = true) :
    trueHand ∈ copyKeys (filterBeliefsConsistentWithHint_ move card_indices handDist none) := by
  obtain ⟨kv, hkv, rfl⟩ := List.mem_map.mp hmem
  rw [filterBeliefsConsistentWithHint_eq]
  exact List.mem_map_of_mem Prod.fst (List.mem_filter.mpr ⟨hkv, hkeep⟩)

/-- After `init_` the hand of the observer is a key. -/
theorem init__trueHand (fuel : Nat) (P : Params) (me_ : Int) (server : Server) (trueHand : Hand)
    (hme : me_ = server.observingPlayer_) (hrange : 0 ≤ me_ ∧ me_ < server.numPlayers_)
    (hhands : server.numPlayers_ = server.hands_.length)
    (hcons : ∀ c, server.totalCount c = standardDeck.count c)
    (htrue : server.cheatGetHand me_ = .ok trueHand)
    (hsize : (trueHand.length : Int) = server.handSize P)
    (hfuel : (server.handSize P).toNat ≤ fuel) :
    ∃ dist, init_ fuel P me_ server [] = some (.ok dist) ∧ trueHand ∈ copyKeys dist := by
  obtain ⟨deck, hdeck⟩ := getCurrentDeckComposition_returns server me_ (Or.inr hme) hhands hcons
  have hkeys := getCurrentDeckComposition_keys server me_ (Or.inr hme) hhands deck hdeck
  have hs : deck.keys.Pairwise (fun a b => Card.lt a b = true) := by
    rw [hkeys]
    exact allCards_sorted
  have h := populateInitialHandDistribution_.appends_hands (server.handSize P) (server.handSize P).toNat
    fuel [] 1 deck [] hfuel (by simp [server.handSize_nonneg P]) hs (by simp [copyKeys])
  simp only [List.nil_append, one_mul] at h
  obtain ⟨-, -, hhand⟩ := server.cheatGetHand_ok me_ trueHand htrue
  have hinit : init_ fuel P me_ server [] = some (.ok
      ((drawableHands deck.keys (server.handSize P).toNat deck.at).map fun rest =>
        ((rest, ⟨drawWeight deck.at rest⟩) : Hand × HandDistVal))) := by
    simp only [init_, List.isEmpty_nil, not_true_eq_false, if_false, hdeck, h]
  refine ⟨_, hinit, ?_⟩
  rw [copyKeys, List.map_map]
  apply List.mem_map.mpr
  refine ⟨trueHand, ?_, rfl⟩
  rw [mem_drawableHands]
  refine ⟨by omega, ?_⟩
  intro c hc
  have hown := getCurrentDeckComposition_own server me_ hme hrange hhands hcons deck hdeck c
  rw [hhand] at hown
  have hpos : 0 < trueHand.count c := List.count_pos_iff.mpr hc
  exact ⟨deck.mem_keys_of_at_pos c (by omega), hown⟩

/-- After `updateBeliefsFromMyDraw_` the new hand of the observer is a key, if its old hand
was one. -/
theorem updateBeliefsFromMyDraw__trueHand (P : Params) (who card_index : Int)
    (played_card : Card) (server : Server) (handDist : HandDist) (old_hand trueHand : Hand)
    (drawn_cards : List Card) (val : HandDistVal)
    (hwho : who = server.observingPlayer_) (hrange : 0 ≤ who ∧ who < server.numPlayers_)
    (hhands : server.numPlayers_ = server.hands_.length)
    (hcons : ∀ c, server.totalCount c = standardDeck.count c)
    (htrue : server.cheatGetHand who = .ok trueHand)
    (hold : (old_hand, val) ∈ handDist) (h0 : 0 ≤ card_index)
    (hplayed : old_hand[card_index.toNat]? = some played_card)
    (hnew : trueHand = old_hand.eraseIdx card_index.toNat ++ drawn_cards)
    (hdraw : (drawn_cards.length = 1 ∧ (trueHand.length : Int) = server.handSize P) ∨
      (drawn_cards = [] ∧ (trueHand.length : Int) ≠ server.handSize P ∧
        (server.deck_ = [] ∨ server.gameOver P = .ok true)))
    (hnodup : (copyKeys handDist).Nodup)
    (hlen : ∀ kv ∈ handDist, kv.1.length = old_hand.length)
    (hposs : ∀ deck, getCurrentDeckComposition server who = .ok deck →
      ∀ kv ∈ handDist, kv.1[card_index.toNat]? = some played_card →
        ∀ c ∈ kv.1.eraseIdx card_index.toNat,
          ((kv.1.eraseIdx card_index.toNat).count c : Int) ≤ deck.at c) :
    ∃ dist,
      updateBeliefsFromMyDraw_ P who card_index played_card server handDist false = .ok dist ∧
      trueHand ∈ copyKeys dist := by
  obtain ⟨deck, hdeck⟩ := getCurrentDeckComposition_returns server who (Or.inr hwho) hhands hcons
  obtain ⟨-, hget, hhand⟩ := server.cheatGetHand_ok who trueHand htrue
  have hidx : card_index.toNat < old_hand.length := getElem?_lt_length hplayed
  have hsz : server.sizeOfHandOfPlayer who = .ok (trueHand.length : Int) := by
    unfold Server.sizeOfHandOfPlayer
    rw [if_neg (not_not.mpr hrange), hget]
  have hlen1 : ∀ kv ∈ handDist,
      (kv.1.eraseIdx card_index.toNat).length = old_hand.length - 1 := by
    intro kv hkv
    rw [List.length_eraseIdx, hlen kv hkv, if_pos hidx]
  have htl : trueHand.length = old_hand.length - 1 + drawn_cards.length := by
    rw [hnew, List.length_append, List.length_eraseIdx, if_pos hidx]
  have hspec := updateBeliefsFromMyDraw_.returns_entries P who card_index played_card server handDist false
    deck (trueHand.length : Int) (Or.inr hwho) hhands (by simpa using hdeck) hsz
    (by
      intro hne
      rcases hdraw with ⟨-, h⟩ | ⟨-, -, h⟩
      · exact absurd h hne
      · by_cases hz : server.cardsRemainingInDeck = 0
        · rw [if_pos hz]
        · rw [if_neg hz]
          rcases h with h | h
          · exact absurd (by simp [Server.cardsRemainingInDeck, h]) hz
          · exact h)
    h0 (fun kv hkv => by rw [hlen kv hkv]; exact hidx) hnodup
    (by
      intro kv hkv _
      rw [hlen1 kv hkv]
      rcases hdraw with ⟨h1, h2⟩ | ⟨h1, h2, -⟩
      · rw [if_pos h2]
        omega
      · rw [if_neg h2]
        rw [h1] at htl
        simp only [List.length_nil, add_zero] at htl
        omega)
    (hposs deck hdeck)
  refine ⟨_, hspec, ?_⟩
  apply List.mem_map.mpr
  refine ⟨(trueHand, val), ?_, rfl⟩
  apply List.mem_flatMap.mpr
  refine ⟨(old_hand, val), hold, ?_⟩
  unfold myDrawEntries
  simp only
  rw [if_pos hplayed]
  rcases hdraw with ⟨h1, h2⟩ | ⟨h1, h2, -⟩
  · obtain ⟨c, hc⟩ := List.length_eq_one.mp h1
    rw [hc] at hnew
    have hdec : decide ((trueHand.length : Int) = server.handSize P) = true := by simpa using h2
    rw [hdec, if_pos rfl]
    apply List.mem_map.mpr
    refine ⟨c, ?_, by rw [hnew]⟩
    have hown := getCurrentDeckComposition_own server who hwho hrange hhands hcons deck hdeck c
    rw [hhand, hnew, List.count_append, List.count_singleton_self] at hown
    push_cast at hown
    have hpos : deck.at c - ((old_hand.eraseIdx card_index.toNat).count c : Int) > 0 := by omega
    exact List.mem_filter.mpr ⟨deck.mem_keys_of_at_pos c (by omega), by simpa using hpos⟩
  · have hdec : decide ((trueHand.length : Int) = server.handSize P) = false := by simpa using h2
    rw [hdec]
    simp only [Bool.false_eq_true, if_false, List.mem_singleton]
    rw [hnew, h1, List.append_nil]

/-- C27 (the true hand stays a key), amended. (a) After `init_` on a server state that keeps
every card, in which the observer holds `handSize()` cards, its true hand is a key. (b) If
the true hand has at most 8 cards and is a key, and `card_indices` is what the server
computes from the true hand for a colour or a value, it is still a key after
`filterBeliefsConsistentWithHint_`. (c) Let the true hand be a key before the observer's own
play or discard of slot `card_index`, let the keys of the map be all different and as long as
the true hand, and let every key with the played card in that slot fit, without that slot,
into the deck composition; then `updateBeliefsFromMyDraw_` returns and the true hand after
the move, which is the old hand without that slot, followed by the card drawn if one was
drawn, is a key. In each case `checkBeliefs_` does not throw. -/
theorem C27_true_hand_stays_key :
    (∀ (fuel : Nat) (P : Params) (me_ : Int) (server : Server) (trueHand : Hand),
      me_ = server.observingPlayer_ → (0 ≤ me_ ∧ me_ < server.numPlayers_) →
      server.numPlayers_ = server.hands_.length →
      (∀ c, server.totalCount c = standardDeck.count c) →
      server.cheatGetHand me_ = .ok trueHand →
      (trueHand.length : Int) = server.handSize P → (server.handSize P).toNat ≤ fuel →
      ∃ dist, init_ fuel P me_ server [] = some (.ok dist) ∧ trueHand ∈ copyKeys dist ∧
        checkBeliefs_ dist trueHand = .ok ()) ∧
    (∀ (to_ : Int) (handDist : HandDist) (trueHand : Hand),
      trueHand.length ≤ 8 → trueHand ∈ copyKeys handDist →
      (∀ color : Color,
        trueHand ∈ copyKeys (filterBeliefsConsistentWithHint_ ⟨.HINT_COLOR, color.toInt, to_⟩
          (hintLoop (fun card => card.color == color) trueHand 0 CardIndices.new) handDist
          none) ∧
        checkBeliefs_ (filterBeliefsConsistentWithHint_ ⟨.HINT_COLOR, color.toInt, to_⟩
          (hintLoop (fun card => card.color == color) trueHand 0 CardIndices.new) handDist
          none) trueHand = .ok ()) ∧
      (∀ value : Int,
        trueHand ∈ copyKeys (filterBeliefsConsistentWithHint_ ⟨.HINT_VALUE, value, to_⟩
          (hintLoop (fun card => card.value == value) trueHand 0 CardIndices.new) handDist
          none) ∧
        checkBeliefs_ (filterBeliefsConsistentWithHint_ ⟨.HINT_VALUE, value, to_⟩
          (hintLoop (fun card => card.value == value) trueHand 0 CardIndices.new) handDist
          none) trueHand = .ok ())) ∧
    (∀ (P : Params) (who card_index : Int) (played_card : Card) (server : Server)
      (handDist : HandDist) (old_hand trueHand : Hand) (drawn_cards : List Card)
      (val : HandDistVal),
      who = server.observingPlayer_ → (0 ≤ who ∧ who < server.numPlayers_) →
      server.numPlayers_ = server.hands_.length →
      (∀ c, server.totalCount c = standardDeck.count c) →
      server.cheatGetHand who = .ok trueHand →
      (old_hand, val) ∈ handDist → 0 ≤ card_index →
      old_hand[card_index.toNat]? = some played_card →
      trueHand = old_hand.eraseIdx card_index.toNat ++ drawn_cards →
      ((drawn_cards.length = 1 ∧ (trueHand.length : Int) = server.handSize P) ∨
        (drawn_cards = [] ∧ (trueHand.length : Int) ≠ server.handSize P ∧
          (server.deck_ = [] ∨ server.gameOver P = .ok true))) →
      (copyKeys handDist).Nodup →
      (∀ kv ∈ handDist, kv.1.length = old_hand.length) →
      (∀ deck, getCurrentDeckComposition server who = .ok deck →
        ∀ kv ∈ handDist, kv.1[card_index.toNat]? = some played_card →
          ∀ c ∈ kv.1.eraseIdx card_index.toNat,
            ((kv.1.eraseIdx card_index.toNat).count c : Int) ≤ deck.at c) →
      ∃ dist,
        updateBeliefsFromMyDraw_ P who card_index played_card server handDist false =
          .ok dist ∧
        trueHand ∈ copyKeys dist ∧ checkBeliefs_ dist trueHand = .ok ()) := by
  refine ⟨?_, ?_, ?_⟩
  · intro fuel P me_ server trueHand hme hrange hhands hcons htrue hsize hfuel
    obtain ⟨dist, h1, h2⟩ :=
      init__trueHand fuel P me_ server trueHand hme hrange hhands hcons htrue hsize hfuel
    exact ⟨dist, h1, h2, checkBeliefs__ok dist trueHand h2⟩
  · intro to_ handDist trueHand hlen hmem
    constructor
    · intro color
      have hkeep := filterBeliefsConsistentWithHint_.keep_true ⟨.HINT_COLOR, color.toInt, to_⟩
        (fun card => card.color == color) trueHand hlen (by
          intro card
          simp only [beq_iff_eq, if_true]
          exact ⟨fun h => by rw [h], fun h => Color.toInt_inj _ _ h⟩)
      have := filterBeliefsConsistentWithHint__mem _ _ handDist trueHand hmem hkeep
      exact ⟨this, checkBeliefs__ok _ _ this⟩
    · intro value
      have hkeep := filterBeliefsConsistentWithHint_.keep_true ⟨.HINT_VALUE, value, to_⟩
        (fun card => card.value == value) trueHand hlen (by
          intro card
          simp [beq_iff_eq])
      have := filterBeliefsConsistentWithHint__mem _ _ handDist trueHand hmem hkeep
      exact ⟨this, checkBeliefs__ok _ _ this⟩
  · intro P who card_index played_card server handDist old_hand trueHand drawn_cards val hwho
      hrange hhands hcons htrue hold h0 hplayed hnew hdraw hnodup hlen hposs
    obtain ⟨dist, h1, h2⟩ := updateBeliefsFromMyDraw__trueHand P who card_index played_card
      server handDist old_hand trueHand drawn_cards val hwho hrange hhands hcons htrue hold h0
      hplayed hnew hdraw hnodup hlen hposs
    exact ⟨dist, h1, h2, checkBeliefs__ok dist trueHand h2⟩

theorem exampleAfterPlay_totalCount (c : Card) :
    exampleAfterPlay.totalCount c = standardDeck.count c :=
  (Reachable.pleasePlay _ 0
    (Reachable.beginTurn _ exampleStart_reachable (by decide) rfl (by decide))
    (by decide)).totalCount_standard (Or.inr (List.Perm.refl _)) c

/-- Witness for C27: (a) the start of the example game, seen by player 0, who holds
R1 R1 R1 R2 R2; (b) the hint RED to the hand O1 R1 O2 R2 O3; (c) player 0 after it has played
its slot 0, a red 1, and drawn an orange 1, its old distribution holding its old hand. -/
theorem C27_true_hand_stays_key_witness :
    (∃ dist, init_ 5 Params.default 0 exampleStart [] = some (.ok dist) ∧
      [⟨.RED, 1⟩, ⟨.RED, 1⟩, ⟨.RED, 1⟩, ⟨.RED, 2⟩, ⟨.RED, 2⟩] ∈ copyKeys dist ∧
      checkBeliefs_ dist [⟨.RED, 1⟩, ⟨.RED, 1⟩, ⟨.RED, 1⟩, ⟨.RED, 2⟩, ⟨.RED, 2⟩] = .ok ()) ∧
    [⟨.ORANGE, 1⟩, ⟨.RED, 1⟩, ⟨.ORANGE, 2⟩, ⟨.RED, 2⟩, ⟨.ORANGE, 3⟩] ∈
      copyKeys (filterBeliefsConsistentWithHint_ ⟨.HINT_COLOR, Color.RED.toInt, 1⟩
        (hintLoop (fun card => card.color == Color.RED)
          [⟨.ORANGE, 1⟩, ⟨.RED, 1⟩, ⟨.ORANGE, 2⟩, ⟨.RED, 2⟩, ⟨.ORANGE, 3⟩] 0 CardIndices.new)
        exampleHintDist none) ∧
    (∃ dist,
      updateBeliefsFromMyDraw_ Params.default 0 0 ⟨.RED, 1⟩ exampleAfterPlay exampleMyDrawDist
        false = .ok dist ∧
      [⟨.RED, 1⟩, ⟨.RED, 1⟩, ⟨.RED, 2⟩, ⟨.RED, 2⟩, ⟨.ORANGE, 1⟩] ∈ copyKeys dist ∧
      checkBeliefs_ dist [⟨.RED, 1⟩, ⟨.RED, 1⟩, ⟨.RED, 2⟩, ⟨.RED, 2⟩, ⟨.ORANGE, 1⟩] =
        .ok ()) := by
  refine ⟨?_, ?_, ?_⟩
  · exact C27_true_hand_stays_key.1 5 Params.default 0 exampleStart _ (by decide) (by decide)
      (by decide) (exampleStart_reachable.totalCount_standard (Or.inr (List.Perm.refl _))) rfl
      (by decide) (by decide)
  · exact ((C27_true_hand_stays_key.2.1 1 exampleHintDist _ (by decide) (by decide)).1
      Color.RED).1
  · refine C27_true_hand_stays_key.2.2 Params.default 0 0 ⟨.RED, 1⟩ exampleAfterPlay
      exampleMyDrawDist [⟨.RED, 1⟩, ⟨.RED, 1⟩, ⟨.RED, 1⟩, ⟨.RED, 2⟩, ⟨.RED, 2⟩] _
      [⟨.ORANGE, 1⟩] ⟨1 / 2⟩ (by decide) (by decide) (by decide) exampleAfterPlay_totalCount
      rfl (by decide!) (by decide) (by decide) (by decide) (Or.inl (by decide)) (by decide)
      (by decide) ?_
    intro deck hdeck
    have h : (getCurrentDeckComposition exampleAfterPlay 0).toOption.map
        (fun d => decide (∀ kv ∈ exampleMyDrawDist,
          kv.1[(0 : Int).toNat]? = some (⟨.RED, 1⟩ : Card) →
            ∀ c ∈ kv.1.eraseIdx (0 : Int).toNat,
              ((kv.1.eraseIdx (0 : Int).toNat).count c : Int) ≤ d.at c)) = some true := by
      decide!
    rw [hdeck] at h
    simpa [Except.toOption] using h

/-- Counterexample to C27 as stated, part (b): with `HAND_SIZE_OVERRIDE=9` player 1 holds nine
cards, the last of them (slot 8) an orange 4. For the hint ORANGE of player 0 the server
computes card indices with mask 510 and count 8, for which `contains(8)` is false. The
filter asks of the hand in slot 8 a colour other than orange, and removes the true hand of
player 1 from a map that holds it: `checkBeliefs_` throws. -/
theorem C27_counterexample :
    Reachable exampleParamsNine 2 standardDeck (fun _ => 0) exampleNineCards ∧
    (exampleNineCards.cheatGetHand 1).toOption = some exampleNineHand ∧
    hintLoop (fun card => card.color == Color.ORANGE) exampleNineHand 0 CardIndices.new =
      ⟨510, 8⟩ ∧
    (exampleNineCards.pleaseGiveColorHint exampleParamsNine 1 .ORANGE).events.map Event.call =
      [.pleaseObserveColorHint 0 1 .ORANGE ⟨510, 8⟩,
       .pleaseObserveColorHint 0 1 .ORANGE ⟨510, 8⟩] ∧
    exampleNineHand ∈ copyKeys [(exampleNineHand, ⟨1⟩)] ∧
    filterBeliefsConsistentWithHint_ ⟨.HINT_COLOR, Color.ORANGE.toInt, 1⟩ ⟨510, 8⟩
      [(exampleNineHand, ⟨1⟩)] none = [] ∧
    checkBeliefs_ (filterBeliefsConsistentWithHint_ ⟨.HINT_COLOR, Color.ORANGE.toInt, 1⟩
      ⟨510, 8⟩ [(exampleNineHand, ⟨1⟩)] none) exampleNineHand =
      .error (.RuntimeError "Belief check failed.") := by
  have hfilter : filterBeliefsConsistentWithHint_ ⟨.HINT_COLOR, Color.ORANGE.toInt, 1⟩
      ⟨510, 8⟩ [(exampleNineHand, ⟨1⟩)] none = [] := by decide!
  refine ⟨exampleNineCards_reachable, by decide, by decide, by decide, by decide, hfilter, ?_⟩
  rw [hfilter]
  rfl

/-! ## Search statistics -/

theorem Dbl.add_fin (a b : ℚ) : (Dbl.fin a).add (.fin b) = .fin (a + b) := rfl

theorem Dbl.sub_fin (a b : ℚ) : (Dbl.fin a).sub (.fin b) = .fin (a - b) := by
  simp only [Dbl.sub, Dbl.neg, Dbl.add, sub_eq_add_neg]

theorem Dbl.mul_fin (a b : ℚ) : (Dbl.fin a).mul (.fin b) = .fin (a * b) := rfl

theorem Dbl.div_fin (a b : ℚ) (hb : b ≠ 0) : (Dbl.fin a).div (.fin b) = .fin (a / b) := by
  simp only [Dbl.div, hb, if_false]

/-- One step of `add` on finite values, as long as the counter does not wrap. -/
theorem UCBStats.add_finite (pruned : Bool) (mean M2 bias x : ℚ) (n : Nat) (hn : n + 1 < 2 ^ 31) :
    (UCBStats.mk pruned (.fin mean) (.fin M2) n (.fin bias)).add (.fin x) =
      UCBStats.mk pruned (.fin (mean + (x - mean) / (n + 1)))
        (.fin (M2 + (x - mean) * (x - (mean + (x - mean) / (n + 1))))) (n + 1 : Nat)
        (.fin bias) := by
  have hN : wrapInt32 ((n : Int) + 1) = ((n + 1 : Nat) : Int) := by
    rw [wrapInt32_of_lt _ (by omega) (by norm_num at hn ⊢; omega)]
    rfl
  have hne : ((n : ℚ) + 1) ≠ 0 := by positivity
  have hc : (((n + 1 : Nat) : Int) : ℚ) = (n : ℚ) + 1 := by push_cast; ring
  simp only [UCBStats.add, hN, Dbl.ofInt, Dbl.sub_fin, hc, Dbl.div_fin _ _ hne, Dbl.add_fin,
    Dbl.mul_fin]

/-- The state of Welford's recurrence after the samples `xs`: the count, the mean `S / n` and
`M2 = Q - S^2 / n`, for the sum `S` of the samples and the sum `Q` of their squares. -/
theorem UCBStats.foldl_add (xs : List ℚ) (hsize : xs.length < 2 ^ 31) :
    xs.foldl (fun s x => s.add (.fin x)) UCBStats.new =
      UCBStats.mk false (.fin (xs.sum / xs.length))
        (.fin ((xs.map fun x => x ^ 2).sum - xs.sum ^ 2 / xs.length)) xs.length (.fin 0) := by
  induction xs using List.reverseRecOn with
  | nil => simp [UCBStats.new]
  | append_singleton xs x ih =>
    rw [List.length_append, List.length_singleton] at hsize
    rw [List.foldl_append, ih (by omega), List.foldl_cons, List.foldl_nil,
      UCBStats.add_finite _ _ _ _ _ _ hsize]
    simp only [List.length_append, List.length_singleton, List.sum_append, List.sum_singleton,
      List.map_append, List.map_singleton, Nat.cast_add, Nat.cast_one, List.sum_cons,
      List.sum_nil, add_zero]
    have hne1 : ((xs.length : ℚ) + 1) ≠ 0 := by positivity
    by_cases h0 : xs.length = 0
    · have hnil : xs = [] := List.length_eq_zero.mp h0
      subst hnil
      simp
    · have hne : (xs.length : ℚ) ≠ 0 := by exact_mod_cast h0
      congr 2
      · field_simp
        ring
      · field_simp
        ring

/-- The sum of the squared deviations from any `m`, by the sums of the samples and of their
squares. -/
theorem sum_sq_dev (xs : List ℚ) (m : ℚ) :
    (xs.map fun x => (x - m) ^ 2).sum =
      (xs.map fun x => x ^ 2).sum - 2 * m * xs.sum + xs.length * m ^ 2 := by
  induction xs with
  | nil => simp
  | cons x xs ih =>
    simp only [List.map_cons, List.sum_cons, List.length_cons, Nat.cast_add, Nat.cast_one, ih]
    ring

/-- C31 (Welford). After `add(x1)`, ..., `add(xn)` on a fresh `UCBStats`, for `n ≥ 1` finite
samples (fewer than 2^31, so that the `int` counter does not wrap), `N` is `n`, `mean` is the
arithmetic mean of the samples and `M2` is the sum of their squared deviations from that mean,
over exact rationals; `pruned` is still false and `bias` still 0, and `add` never changes
`bias` or `pruned`, whatever the statistics and the sample. -/
theorem C31_welford (xs : List ℚ) (hn : 1 ≤ xs.length) (hsize : xs.length < 2 ^ 31) :
    xs.foldl (fun s x => s.add (.fin x)) UCBStats.new =
      UCBStats.mk false (.fin (xs.sum / xs.length))
        (.fin ((xs.map fun x => (x - xs.sum / xs.length) ^ 2).sum)) xs.length (.fin 0) ∧
    ∀ (s : UCBStats) (x : Dbl), (s.add x).bias = s.bias ∧ (s.add x).pruned = s.pruned := by
  refine ⟨?_, fun s x => ⟨rfl, rfl⟩⟩
  rw [UCBStats.foldl_add xs hsize, sum_sq_dev]
  have hne : (xs.length : ℚ) ≠ 0 := by
    have : 0 < xs.length := hn
    positivity
  congr 2
  field_simp
  ring

/-- Witness for C31: the samples 2, 4, 9 leave `N = 3`, the mean 5 and
`M2 = 9 + 1 + 16 = 26`. -/
theorem C31_welford_witness :
    (([2, 4, 9] : List ℚ).foldl (fun s x => s.add (.fin x)) UCBStats.new =
      UCBStats.mk false (.fin 5) (.fin 26) 3 (.fin 0)) ∧
    ([2, 4, 9] : List ℚ).foldl (fun s x => s.add (.fin x)) UCBStats.new =
      UCBStats.mk false (.fin (([2, 4, 9] : List ℚ).sum / ([2, 4, 9] : List ℚ).length))
        (.fin ((([2, 4, 9] : List ℚ).map fun x =>
          (x - ([2, 4, 9] : List ℚ).sum / ([2, 4, 9] : List ℚ).length) ^ 2).sum))
        ([2, 4, 9] : List ℚ).length (.fin 0) :=
  ⟨by decide!, (C31_welford [2, 4, 9] (by decide) (by decide)).1⟩


/-! ## The order of `double`s and of moves -/

theorem Dbl.lt_self (a : Dbl) : Dbl.lt a a = false := by
  cases a <;> simp [Dbl.lt]

theorem Dbl.lt_chain (a b c : Dbl) (h1 : Dbl.lt a b = true) (h2 : Dbl.lt b c = true) :
    Dbl.lt a c = true := by
  cases a <;> cases b <;> cases c <;> simp [Dbl.lt] at h1 h2 ⊢
  exact lt_trans h1 h2

theorem Move.not_lt_self (a : Move) : Move.lt a a = false := by
  rw [← Bool.not_eq_true, Move.lt_iff]
  omega

theorem Move.lt_of_lt_of_lt (a b c : Move) (h1 : Move.lt a b = true) (h2 : Move.lt b c = true) :
    Move.lt a c = true := by
  rw [Move.lt_iff] at h1 h2 ⊢
  omega

theorem Move.not_lt_of_lt (a b : Move) (h : Move.lt a b = true) : Move.lt b a = false := by
  rw [← Bool.not_eq_true, Move.lt_iff]
  rw [Move.lt_iff] at h
  omega

theorem Move.same_of_not_lt (a b : Move) (h1 : Move.lt a b = false) (h2 : Move.lt b a = false) :
    a = b := by
  rw [← Bool.not_eq_true, Move.lt_iff] at h1 h2
  have ht : a.type.toInt = b.type.toInt := by omega
  have hv : a.value = b.value := by omega
  have hto : a.to_ = b.to_ := by omega
  cases a; cases b
  simp only [Move.mk.injEq]
  exact ⟨MoveType.toInt_injective _ _ ht, hv, hto⟩

theorem Move.ne_of_lt (a b : Move) (h : Move.lt a b = true) : a ≠ b := by
  rintro rfl
  rw [Move.not_lt_self] at h
  cases h

/-- The test of `std::map` for "same key" is equality of moves. -/
theorem Move.equiv_iff (a b : Move) : (!Move.lt a b && !Move.lt b a) = true ↔ a = b := by
  constructor
  · intro h
    simp only [Bool.and_eq_true, Bool.not_eq_true'] at h
    exact Move.same_of_not_lt a b h.1 h.2
  · rintro rfl
    simp [Move.not_lt_self]

/-! ## Insertion into a `std::set` of moves -/

theorem setInsert_mem_self (m : Move) (l : List Move) : m ∈ setInsert m l := by
  induction l with
  | nil => simp [setInsert]
  | cons x xs ih =>
    rw [setInsert]
    by_cases h1 : Move.lt m x = true
    · rw [if_pos h1]
      exact List.mem_cons_self _ _
    · by_cases h2 : Move.lt x m = true
      · rw [if_neg h1, if_pos h2]
        exact List.mem_cons_of_mem _ ih
      · rw [if_neg h1, if_neg h2,
          Move.same_of_not_lt m x (by simpa using h1) (by simpa using h2)]
        exact List.mem_cons_self _ _

theorem setInsert_mem_old (m x : Move) (l : List Move) (h : x ∈ l) : x ∈ setInsert m l := by
  induction l with
  | nil => cases h
  | cons y ys ih =>
    rw [setInsert]
    by_cases h1 : Move.lt m y = true
    · rw [if_pos h1]
      exact List.mem_cons_of_mem _ h
    · by_cases h2 : Move.lt y m = true
      · rw [if_neg h1, if_pos h2]
        rcases List.mem_cons.mp h with rfl | h
        · exact List.mem_cons_self _ _
        · exact List.mem_cons_of_mem _ (ih h)
      · rw [if_neg h1, if_neg h2]
        exact h

/-- The sequence of the elements of the set stays strictly increasing. -/
theorem setInsert_pairwise (m : Move) (l : List Move)
    (h : l.Pairwise fun a b => Move.lt a b = true) :
    (setInsert m l).Pairwise fun a b => Move.lt a b = true := by
  induction l with
  | nil => simp [setInsert]
  | cons x xs ih =>
    rw [List.pairwise_cons] at h
    rw [setInsert]
    by_cases h1 : Move.lt m x = true
    · rw [if_pos h1, List.pairwise_cons]
      refine ⟨?_, List.pairwise_cons.mpr h⟩
      intro b hb
      rcases List.mem_cons.mp hb with rfl | hb
      · exact h1
      · exact Move.lt_of_lt_of_lt _ _ _ h1 (h.1 b hb)
    · by_cases h2 : Move.lt x m = true
      · rw [if_neg h1, if_pos h2, List.pairwise_cons]
        refine ⟨?_, ih h.2⟩
        intro b hb
        rcases setInsert_mem m b xs hb with rfl | hb
        · exact h2
        · exact h.1 b hb
      · rw [if_neg h1, if_neg h2]
        exact List.pairwise_cons.mpr h

/-! ## The map of the search statistics -/

theorem SearchStats.find_eq (stats : SearchStats) (move : Move) :
    SearchStats.find stats move =
      (List.find? (fun kv => decide (kv.1 = move)) stats).map Prod.snd := by
  unfold SearchStats.find
  congr 2
  funext kv
  rw [Bool.eq_iff_iff, Move.equiv_iff, decide_eq_true_eq]

theorem SearchStats.find_mem (stats : SearchStats) (move : Move) (s : UCBStats)
    (h : SearchStats.find stats move = some s) : (move, s) ∈ stats := by
  rw [SearchStats.find_eq, Option.map_eq_some'] at h
  obtain ⟨kv, hkv, rfl⟩ := h
  have h1 := List.find?_some hkv
  have h2 := List.mem_of_find?_eq_some hkv
  simp only [decide_eq_true_eq] at h1
  rw [← h1]
  exact h2

theorem SearchStats.find_none (stats : SearchStats) (move : Move)
    (h : SearchStats.find stats move = none) : ∀ kv ∈ stats, kv.1 ≠ move := by
  rw [SearchStats.find_eq, Option.map_eq_none', List.find?_eq_none] at h
  intro kv hkv
  simpa using h kv hkv

theorem SearchStats.at_mem (stats : SearchStats) (move : Move) (s : UCBStats)
    (h : SearchStats.at stats move = .ok s) : (move, s) ∈ stats := by
  unfold SearchStats.at at h
  cases hf : SearchStats.find stats move with
  | none => simp [hf] at h
  | some s1 =>
    simp only [hf, Except.ok.injEq] at h
    rw [← h]
    exact SearchStats.find_mem stats move s1 hf

/-- In a map, the entry of a key is the one that `find` returns. -/
theorem SearchStats.find_of_mem (stats : SearchStats) (hs : SearchStats.Sorted stats)
    (move : Move) (s : UCBStats) (h : (move, s) ∈ stats) :
    SearchStats.find stats move = some s := by
  induction stats with
  | nil => cases h
  | cons kv rest ih =>
    unfold SearchStats.Sorted at hs
    rw [List.pairwise_cons] at hs
    rw [SearchStats.find_eq, List.find?_cons]
    by_cases hk : kv.1 = move
    · simp only [hk, decide_True, Option.map_some']
      rcases List.mem_cons.mp h with h1 | h1
      · rw [← h1]
      · have := hs.1 _ h1
        rw [hk] at this
        rw [Move.not_lt_self] at this
        cases this
    · simp only [hk, decide_False]
      rcases List.mem_cons.mp h with h1 | h1
      · exact absurd (by rw [← h1]) hk
      · rw [← SearchStats.find_eq]
        exact ih hs.2 h1

theorem SearchStats.update_keys (move : Move) (f : UCBStats → UCBStats) (stats : SearchStats) :
    (SearchStats.update move f stats).map Prod.fst = setInsert move (stats.map Prod.fst) := by
  induction stats with
  | nil => rfl
  | cons kv rest ih =>
    rw [SearchStats.update, List.map_cons, setInsert]
    by_cases h1 : Move.lt move kv.1 = true
    · rw [if_pos h1, if_pos h1]
      rfl
    · by_cases h2 : Move.lt kv.1 move = true
      · rw [if_neg h1, if_pos h2, if_neg h1, if_pos h2, List.map_cons, ih]
      · rw [if_neg h1, if_neg h2, if_neg h1, if_neg h2]
        rfl

theorem SearchStats.sorted_iff (stats : SearchStats) :
    SearchStats.Sorted stats ↔ (stats.map Prod.fst).Pairwise fun a b => Move.lt a b = true := by
  unfold SearchStats.Sorted
  rw [List.pairwise_map]

theorem SearchStats.update_sorted (move : Move) (f : UCBStats → UCBStats) (stats : SearchStats)
    (hs : SearchStats.Sorted stats) : SearchStats.Sorted (SearchStats.update move f stats) := by
  rw [SearchStats.sorted_iff] at hs ⊢
  rw [SearchStats.update_keys]
  exact setInsert_pairwise move _ hs

/-- The entries after `stats[move]` has been replaced by its image under `f`. -/
theorem SearchStats.mem_update (move : Move) (f : UCBStats → UCBStats) (stats : SearchStats)
    (hs : SearchStats.Sorted stats) (kv : Move × UCBStats) :
    kv ∈ SearchStats.update move f stats ↔
      (kv ∈ stats ∧ kv.1 ≠ move) ∨ kv = (move, f (SearchStats.get stats move)) := by
  induction stats with
  | nil =>
    simp [SearchStats.update, SearchStats.get, SearchStats.find]
  | cons x rest ih =>
    unfold SearchStats.Sorted at hs
    rw [List.pairwise_cons] at hs
    have hget : SearchStats.get (x :: rest) move =
        if x.1 = move then x.2 else SearchStats.get rest move := by
      unfold SearchStats.get
      rw [SearchStats.find_eq, SearchStats.find_eq, List.find?_cons]
      by_cases hk : x.1 = move <;> simp [hk]
    rw [SearchStats.update]
    by_cases h1 : Move.lt move x.1 = true
    · have hne : x.1 ≠ move := fun h => Move.ne_of_lt _ _ h1 h.symm
      have hnone : ∀ y ∈ rest, y.1 ≠ move := by
        intro y hy h
        have := Move.lt_of_lt_of_lt _ _ _ h1 (hs.1 y hy)
        rw [h, Move.not_lt_self] at this
        cases this
      have hget2 : SearchStats.get rest move = UCBStats.new := by
        unfold SearchStats.get
        rw [SearchStats.find_eq, List.find?_eq_none.mpr (by simpa using hnone)]
        rfl
      rw [if_pos h1, hget, if_neg hne, hget2]
      simp only [List.mem_cons]
      constructor
      · rintro (h | h | h)
        · exact Or.inr h
        · exact Or.inl ⟨Or.inl h, by rw [h]; exact hne⟩
        · exact Or.inl ⟨Or.inr h, hnone _ h⟩
      · rintro (⟨h | h, -⟩ | h)
        · exact Or.inr (Or.inl h)
        · exact Or.inr (Or.inr h)
        · exact Or.inl h
    · by_cases h2 : Move.lt x.1 move = true
      · have hne : x.1 ≠ move := Move.ne_of_lt _ _ h2
        rw [if_neg h1, if_pos h2, hget, if_neg hne]
        simp only [List.mem_cons, ih hs.2]
        constructor
        · rintro (h | ⟨h, h3⟩ | h)
          · exact Or.inl ⟨Or.inl h, by rw [h]; exact hne⟩
          · exact Or.inl ⟨Or.inr h, h3⟩
          · exact Or.inr h
        · rintro (⟨h | h, h3⟩ | h)
          · exact Or.inl h
          · exact Or.inr (Or.inl ⟨h, h3⟩)
          · exact Or.inr (Or.inr h)
      · have heq : x.1 = move :=
          (Move.same_of_not_lt move x.1 (by simpa using h1) (by simpa using h2)).symm
        have hnone : ∀ y ∈ rest, y.1 ≠ move := by
          intro y hy h
          have := hs.1 y hy
          rw [h, heq, Move.not_lt_self] at this
          cases this
        rw [if_neg h1, if_neg h2, hget, if_pos heq, heq]
        simp only [List.mem_cons]
        constructor
        · rintro (h | h)
          · exact Or.inr h
          · exact Or.inl ⟨Or.inr h, hnone _ h⟩
        · rintro (⟨h | h, h3⟩ | h)
          · exact absurd (by rw [h, heq]) h3
          · exact Or.inr h
          · exact Or.inl h

/-- The value that `stats[move]` reads is that of the entry of `move`, if there is one. -/
theorem SearchStats.get_of_mem (stats : SearchStats) (hs : SearchStats.Sorted stats)
    (move : Move) (s : UCBStats) (h : (move, s) ∈ stats) : SearchStats.get stats move = s := by
  unfold SearchStats.get
  rw [SearchStats.find_of_mem stats hs move s h]

/-- Reading `stats[move]` for a key changes nothing. -/
theorem SearchStats.update_id (move : Move) (stats : SearchStats)
    (h : ∃ s, (move, s) ∈ stats) (hs : SearchStats.Sorted stats) :
    SearchStats.update move id stats = stats := by
  induction stats with
  | nil =>
    obtain ⟨s, h⟩ := h
    cases h
  | cons x rest ih =>
    unfold SearchStats.Sorted at hs
    rw [List.pairwise_cons] at hs
    obtain ⟨s, h⟩ := h
    rw [SearchStats.update]
    rcases List.mem_cons.mp h with h1 | h1
    · have hx : x.1 = move := by rw [← h1]
      rw [hx, Move.not_lt_self, if_neg (by simp), if_neg (by simp), ← hx]
      rfl
    · have hlt := hs.1 _ h1
      simp only at hlt
      rw [if_neg (by rw [Move.not_lt_of_lt _ _ hlt]; simp), if_pos hlt, ih ⟨s, h1⟩ hs.2]


/-! ## Loops that keep the best entry -/

/-- A loop that keeps the best entry seen so far: it takes an eligible entry when the score
of the entry is greater than the one kept, or when nothing is kept yet (`fresh`). Either
nothing was taken, and then no eligible entry could be; or the state is that of an eligible
entry that no eligible entry beats. -/
theorem argmax_foldl {α σ : Type} (score : α → Dbl) (elig : α → Bool) (mk : α → σ)
    (val : σ → Dbl) (fresh : σ → Bool) (init : σ) (l : List α)
    (hval : ∀ a, val (mk a) = score a) (hfresh : ∀ a ∈ l, fresh (mk a) = false) :
    (l.foldl (fun acc a => if elig a && (Dbl.lt (val acc) (score a) || fresh acc) then mk a
        else acc) init = init ∧
      ∀ b ∈ l, elig b = true → fresh init = false ∧ Dbl.lt (val init) (score b) = false) ∨
    ∃ a ∈ l, elig a = true ∧
      l.foldl (fun acc a => if elig a && (Dbl.lt (val acc) (score a) || fresh acc) then mk a
        else acc) init = mk a ∧
      (∀ b ∈ l, elig b = true → Dbl.lt (score a) (score b) = false) ∧
      (fresh init = false → Dbl.lt (val init) (score a) = true) := by
  induction l using List.reverseRecOn with
  | nil => left; simp
  | append_singleton l x ih =>
    have hfresh1 : ∀ a ∈ l, fresh (mk a) = false :=
      fun a ha => hfresh a (List.mem_append_left _ ha)
    rw [List.foldl_append, List.foldl_cons, List.foldl_nil]
    rcases ih hfresh1 with ⟨hacc, hall⟩ | ⟨a, ha, hea, hacc, hmax, hinit⟩
    · rw [hacc]
      by_cases hc : (elig x && (Dbl.lt (val init) (score x) || fresh init)) = true
      · right
        rw [if_pos hc]
        simp only [Bool.and_eq_true, Bool.or_eq_true] at hc
        refine ⟨x, by simp, hc.1, rfl, ?_, ?_⟩
        · intro b hb heb
          rcases List.mem_append.mp hb with hb | hb
          · obtain ⟨h1, h2⟩ := hall b hb heb
            have h3 : Dbl.lt (val init) (score x) = true := by
              rcases hc.2 with h | h
              · exact h
              · rw [h1] at h; cases h
            by_contra h4
            rw [Bool.not_eq_false] at h4
            rw [Dbl.lt_chain _ _ _ h3 h4] at h2
            cases h2
          · rw [List.mem_singleton] at hb
            rw [hb, Dbl.lt_self]
        · intro h1
          rcases hc.2 with h | h
          · exact h
          · rw [h1] at h; cases h
      · left
        rw [if_neg hc]
        refine ⟨rfl, ?_⟩
        intro b hb heb
        rcases List.mem_append.mp hb with hb | hb
        · exact hall b hb heb
        · rw [List.mem_singleton] at hb
          subst hb
          simp only [heb, Bool.true_and, Bool.or_eq_true, not_or, Bool.not_eq_true] at hc
          exact ⟨hc.2, hc.1⟩
    · rw [hacc, hval, hfresh a (List.mem_append_left _ ha), Bool.or_false]
      right
      by_cases hc : (elig x && Dbl.lt (score a) (score x)) = true
      · rw [if_pos hc]
        simp only [Bool.and_eq_true] at hc
        refine ⟨x, by simp, hc.1, rfl, ?_, ?_⟩
        · intro b hb heb
          rcases List.mem_append.mp hb with hb | hb
          · have h2 := hmax b hb heb
            by_contra h4
            rw [Bool.not_eq_false] at h4
            rw [Dbl.lt_chain _ _ _ hc.2 h4] at h2
            cases h2
          · rw [List.mem_singleton] at hb
            rw [hb, Dbl.lt_self]
        · intro h1
          exact Dbl.lt_chain _ _ _ (hinit h1) hc.2
      · rw [if_neg hc]
        refine ⟨a, List.mem_append_left _ ha, hea, rfl, ?_, hinit⟩
        intro b hb heb
        rcases List.mem_append.mp hb with hb | hb
        · exact hmax b hb heb
        · rw [List.mem_singleton] at hb
          subst hb
          simpa [heb] using hc

/-- What the loop of the branch without baseline leaves in `best_lcb` and `best_move`: the
lower bound and the key of an entry whose lower bound no entry exceeds. -/
theorem canPruneMove.best_lcb_max (sqrt : ℚ → ℚ) (stats : SearchStats)
    (hne : stats ≠ []) (hkeys : ∀ kv ∈ stats, kv.1.type ≠ .INVALID_MOVE) :
    ∃ best ∈ stats, canPruneMove.best_lcb sqrt stats = (best.2.lcb sqrt, best.1) ∧
      ∀ kv ∈ stats, Dbl.lt (best.2.lcb sqrt) (kv.2.lcb sqrt) = false := by
  have h := argmax_foldl (fun kv : Move × UCBStats => kv.2.lcb sqrt) (fun _ => true)
    (fun kv => (kv.2.lcb sqrt, kv.1)) (fun acc : Dbl × Move => acc.1)
    (fun acc => decide (acc.2.type = .INVALID_MOVE)) (.fin 0, canPruneMove.no_move) stats
    (fun _ => rfl) (fun a ha => by simpa using hkeys a ha)
  simp only [Bool.true_and] at h
  rcases h with ⟨-, hall⟩ | ⟨a, ha, -, hacc, hmax, -⟩
  · obtain ⟨x, hx⟩ := List.exists_mem_of_ne_nil stats hne
    have := (hall x hx trivial).1
    simp [canPruneMove.no_move] at this
  · exact ⟨a, ha, hacc, fun kv hkv => hmax kv hkv trivial⟩

/-- The result of `canPruneMove` with UCB and without baseline, for a move that has an
entry. -/
theorem canPruneMove_ucb (S : SearchBotParams) (sqrt : ℚ → ℚ) (stats : SearchStats)
    (move bp_move : Move) (this_ucb : UCBStats) (hucb : S.UCB ≠ 0)
    (hbase : S.SEARCH_BASELINE = 0) (hkeys : ∀ kv ∈ stats, kv.1.type ≠ .INVALID_MOVE)
    (hthis : SearchStats.at stats move = .ok this_ucb) :
    (move, this_ucb) ∈ stats ∧
    ∃ best ∈ stats, (∀ kv ∈ stats, Dbl.lt (best.2.lcb sqrt) (kv.2.lcb sqrt) = false) ∧
      canPruneMove.best_lcb sqrt stats = (best.2.lcb sqrt, best.1) ∧
      canPruneMove S sqrt stats move bp_move =
        .ok (Dbl.lt (this_ucb.ucb sqrt) (best.2.lcb sqrt)) := by
  have hmem := SearchStats.at_mem stats move this_ucb hthis
  have hne : stats ≠ [] := List.ne_nil_of_mem hmem
  obtain ⟨best, hbest, hacc, hmax⟩ := canPruneMove.best_lcb_max sqrt stats hne hkeys
  refine ⟨hmem, best, hbest, hmax, hacc, ?_⟩
  have hty : ¬ (best.1.type = .INVALID_MOVE) := hkeys best hbest
  simp only [canPruneMove, hbase, ne_eq, not_true_eq_false, false_and, if_false, hucb, hthis,
    hacc, hty]

/-- With UCB disabled `canPruneMove` returns false. -/
theorem canPruneMove_no_ucb (S : SearchBotParams) (sqrt : ℚ → ℚ) (stats : SearchStats)
    (move bp_move : Move) (hucb : S.UCB = 0) :
    canPruneMove S sqrt stats move bp_move = .ok false := by
  unfold canPruneMove
  by_cases h : S.SEARCH_BASELINE ≠ 0 ∧ Move.eq move bp_move = true
  · rw [if_pos h]
  · rw [if_neg h, if_pos hucb]


/-- C32 (pruning by confidence bounds). With UCB enabled and baseline mode off, for a move that
has an entry in statistics whose keys are moves, `canPruneMove` returns true exactly when the
upper confidence bound `mean + 2 * stderr + bias` of the move is strictly below the lower
confidence bound `mean - 2 * stderr + bias` of the best move, an entry whose lower bound no
entry exceeds. With fewer than 100 samples the standard error is `1000000 / sqrt(N)`: it is
`+inf` for no sample and at least 100000 as long as `sqrt(N)` is at most 10; with 100 samples
or more it is `sqrt(M2 / (N - 1)) / sqrt(N)`. With UCB disabled the function returns false
for every move and all statistics. -/
theorem C32_ucb_pruning (S : SearchBotParams) (sqrt : ℚ → ℚ) (stats : SearchStats)
    (move bp_move : Move) (this_ucb : UCBStats) (hucb : S.UCB ≠ 0)
    (hbase : S.SEARCH_BASELINE = 0) (hkeys : ∀ kv ∈ stats, kv.1.type ≠ .INVALID_MOVE)
    (hthis : SearchStats.at stats move = .ok this_ucb) :
    (∃ best ∈ stats, (∀ kv ∈ stats, Dbl.lt (best.2.lcb sqrt) (kv.2.lcb sqrt) = false) ∧
      canPruneMove S sqrt stats move bp_move =
        .ok (Dbl.lt (this_ucb.ucb sqrt) (best.2.lcb sqrt))) ∧
    (move, this_ucb) ∈ stats ∧
    (∀ s : UCBStats,
      s.ucb sqrt = (s.mean.add ((Dbl.fin 2).mul (s.stderr sqrt))).add s.bias ∧
      s.lcb sqrt = (s.mean.sub ((Dbl.fin 2).mul (s.stderr sqrt))).add s.bias) ∧
    (∀ s : UCBStats, s.N < 100 →
      s.stderr sqrt = (Dbl.fin 1000000).div (Dbl.sqrt sqrt (.ofInt s.N))) ∧
    (∀ s : UCBStats, s.N = 0 → sqrt 0 = 0 → s.stderr sqrt = .pinf) ∧
    (∀ s : UCBStats, 0 < s.N → s.N < 100 → 0 < sqrt s.N → sqrt s.N ≤ 10 →
      ∃ e, s.stderr sqrt = .fin e ∧ 100000 ≤ e) ∧
    (∀ s : UCBStats, 100 ≤ s.N →
      s.stderr sqrt =
        (Dbl.sqrt sqrt (s.M2.div (.ofInt (s.N - 1)))).div (Dbl.sqrt sqrt (.ofInt s.N))) ∧
    ∀ (S1 : SearchBotParams) (stats1 : SearchStats) (m b : Move), S1.UCB = 0 →
      canPruneMove S1 sqrt stats1 m b = .ok false := by
  obtain ⟨hmem, best, hbest, hmax, -, hres⟩ :=
    canPruneMove_ucb S sqrt stats move bp_move this_ucb hucb hbase hkeys hthis
  refine ⟨⟨best, hbest, hmax, hres⟩, hmem, fun s => ⟨rfl, rfl⟩, ?_, ?_, ?_, ?_,
    fun S1 stats1 m b h => canPruneMove_no_ucb S1 sqrt stats1 m b h⟩
  · intro s hs
    have hs1 : s.N < UCBStats.MIN_SAMPLES := hs
    rw [UCBStats.stderr, UCBStats.std, if_pos hs1]
  · intro s hs h0
    have hs1 : s.N < UCBStats.MIN_SAMPLES := by rw [hs]; decide
    rw [UCBStats.stderr, UCBStats.std, if_pos hs1, hs]
    simp [Dbl.ofInt, Dbl.sqrt, h0, Dbl.div, Dbl.signed]
  · intro s hpos hs hsq hle
    have hs1 : s.N < UCBStats.MIN_SAMPLES := hs
    have hnn : ¬ ((s.N : ℚ) < 0) := by
      have : (0 : ℚ) < (s.N : ℚ) := by exact_mod_cast hpos
      linarith
    refine ⟨1000000 / sqrt s.N, ?_, ?_⟩
    · rw [UCBStats.stderr, UCBStats.std, if_pos hs1]
      simp only [Dbl.ofInt, Dbl.sqrt, hnn, if_false]
      rw [Dbl.div_fin _ _ (ne_of_gt hsq)]
    · rw [le_div_iff₀ hsq]
      linarith
  · intro s hs
    have hs1 : ¬ (s.N < UCBStats.MIN_SAMPLES) := by
      unfold UCBStats.MIN_SAMPLES
      omega
    rw [UCBStats.stderr, UCBStats.std, if_neg hs1]

/-- Witness for C32: with the default parameters and the statistics `exampleUcbStats`, the
play of slot 0 has the upper bound `0 + 2 * 0 + 1/10` and the colour hint the lower bound
`25 - 2 * 0 + 0`, the greatest one: the play can be pruned, the hint cannot. -/
theorem C32_ucb_pruning_witness :
    canPruneMove SearchBotParams.default exampleSqrt exampleUcbStats ⟨.PLAY_CARD, 0, -1⟩
      ⟨.PLAY_CARD, 0, -1⟩ = .ok true ∧
    canPruneMove SearchBotParams.default exampleSqrt exampleUcbStats ⟨.HINT_COLOR, 0, 1⟩
      ⟨.PLAY_CARD, 0, -1⟩ = .ok false ∧
    ∃ best ∈ exampleUcbStats,
      (∀ kv ∈ exampleUcbStats,
        Dbl.lt (best.2.lcb exampleSqrt) (kv.2.lcb exampleSqrt) = false) ∧
      canPruneMove SearchBotParams.default exampleSqrt exampleUcbStats ⟨.PLAY_CARD, 0, -1⟩
          ⟨.PLAY_CARD, 0, -1⟩ =
        .ok (Dbl.lt (UCBStats.ucb exampleSqrt ⟨false, .fin 0, .fin 0, 100, .fin (1 / 10)⟩)
          (best.2.lcb exampleSqrt)) :=
  ⟨Except.eq_ok_of_toOption _ _ (by decide!), Except.eq_ok_of_toOption _ _ (by decide!),
    (C32_ucb_pruning SearchBotParams.default exampleSqrt exampleUcbStats ⟨.PLAY_CARD, 0, -1⟩
      ⟨.PLAY_CARD, 0, -1⟩ ⟨false, .fin 0, .fin 0, 100, .fin (1 / 10)⟩ (by decide) rfl
      (by decide) (Except.eq_ok_of_toOption _ _ (by decide!))).1⟩

/-- Counterexample to C33 as stated: with the default parameters, baseline mode off, the
blueprint move (the play of slot 0, which has the bias) is pruned by the statistics
`exampleUcbStats`: its upper bound 1/10 is below the lower bound 25 of the colour hint. -/
theorem C33_counterexample :
    SearchBotParams.default.SEARCH_BASELINE = 0 ∧
    canPruneMove SearchBotParams.default exampleSqrt exampleUcbStats ⟨.PLAY_CARD, 0, -1⟩
      ⟨.PLAY_CARD, 0, -1⟩ = .ok true :=
  ⟨rfl, Except.eq_ok_of_toOption _ _ (by decide!)⟩

/-- C33 (the blueprint move), amended. The blueprint move is never pruned when baseline mode is
ON, nor when UCB is disabled: `canPruneMove(stats, bp_move, bp_move)` returns false for all
statistics. With baseline mode off and UCB enabled the blueprint move is treated as every other
move: it is pruned exactly when its upper confidence bound is strictly below the greatest lower
confidence bound of the entries. -/
theorem C33_blueprint_move (S : SearchBotParams) (sqrt : ℚ → ℚ) (stats : SearchStats)
    (bp_move : Move) :
    (S.SEARCH_BASELINE ≠ 0 → canPruneMove S sqrt stats bp_move bp_move = .ok false) ∧
    (S.UCB = 0 → canPruneMove S sqrt stats bp_move bp_move = .ok false) ∧
    (S.SEARCH_BASELINE = 0 → S.UCB ≠ 0 → (∀ kv ∈ stats, kv.1.type ≠ .INVALID_MOVE) →
      ∀ this_ucb, SearchStats.at stats bp_move = .ok this_ucb →
        ∃ best ∈ stats, (∀ kv ∈ stats, Dbl.lt (best.2.lcb sqrt) (kv.2.lcb sqrt) = false) ∧
          canPruneMove S sqrt stats bp_move bp_move =
            .ok (Dbl.lt (this_ucb.ucb sqrt) (best.2.lcb sqrt))) := by
  refine ⟨?_, canPruneMove_no_ucb S sqrt stats bp_move bp_move, ?_⟩
  · intro hbase
    unfold canPruneMove
    rw [if_pos ⟨hbase, (Move.eq_iff _ _).mpr rfl⟩]
  · intro hbase hucb hkeys this_ucb hthis
    obtain ⟨-, best, hbest, hmax, -, hres⟩ :=
      canPruneMove_ucb S sqrt stats bp_move bp_move this_ucb hucb hbase hkeys hthis
    exact ⟨best, hbest, hmax, hres⟩

/-- Witness for C33: with baseline mode on, the blueprint move is kept by the statistics
`exampleUcbStats`, which prune it when baseline mode is off. -/
theorem C33_blueprint_move_witness :
    canPruneMove { SearchBotParams.default with SEARCH_BASELINE := 1 } exampleSqrt
      exampleUcbStats ⟨.PLAY_CARD, 0, -1⟩ ⟨.PLAY_CARD, 0, -1⟩ = .ok false :=
  (C33_blueprint_move { SearchBotParams.default with SEARCH_BASELINE := 1 } exampleSqrt
    exampleUcbStats ⟨.PLAY_CARD, 0, -1⟩).1 (by decide)


/-! ## The statistics of a search -/

theorem SearchStats.key_update (move : Move) (f : UCBStats → UCBStats) (stats : SearchStats)
    (hs : SearchStats.Sorted stats) (k : Move) (h : ∃ s, (k, s) ∈ stats) :
    ∃ s, (k, s) ∈ SearchStats.update move f stats := by
  obtain ⟨s, h⟩ := h
  by_cases hk : k = move
  · exact ⟨_, (SearchStats.mem_update move f stats hs _).mpr (Or.inr (by rw [hk]))⟩
  · exact ⟨s, (SearchStats.mem_update move f stats hs _).mpr (Or.inl ⟨h, hk⟩)⟩

theorem SearchStats.key_update_self (move : Move) (f : UCBStats → UCBStats)
    (stats : SearchStats) (hs : SearchStats.Sorted stats) :
    ∃ s, (move, s) ∈ SearchStats.update move f stats :=
  ⟨_, (SearchStats.mem_update move f stats hs _).mpr (Or.inr rfl)⟩

/-- The bias of the value that `stats[move]` reads. -/
theorem SearchStats.Biased.get_bias (S : SearchBotParams) (bp_move : Move) (keys : List Move)
    (stats : SearchStats) (h : SearchStats.Biased S bp_move keys stats) (move : Move) :
    (SearchStats.get stats move).bias = if move = bp_move then S.SEARCH_THRESH else .fin 0 := by
  obtain ⟨-, hkey, hbias⟩ := h
  unfold SearchStats.get
  cases hf : SearchStats.find stats move with
  | some s => exact hbias _ (SearchStats.find_mem stats move s hf)
  | none =>
    obtain ⟨s, hs⟩ := hkey bp_move (List.mem_cons_self _ _)
    have hne : move ≠ bp_move := fun heq => SearchStats.find_none stats move hf _ hs heq.symm
    simp [hne, UCBStats.new]

/-- A change of `stats[move]` that keeps the bias keeps the statistics those of the search. -/
theorem SearchStats.Biased.of_update (S : SearchBotParams) (bp_move : Move) (keys : List Move)
    (stats : SearchStats) (h : SearchStats.Biased S bp_move keys stats) (move : Move)
    (f : UCBStats → UCBStats) (hf : ∀ s, (f s).bias = s.bias) :
    SearchStats.Biased S bp_move keys (SearchStats.update move f stats) := by
  have hget := SearchStats.Biased.get_bias S bp_move keys stats h move
  obtain ⟨hs, hkey, hbias⟩ := h
  refine ⟨SearchStats.update_sorted move f stats hs,
    fun k hk => SearchStats.key_update move f stats hs k (hkey k hk), ?_⟩
  intro kv hkv
  rcases (SearchStats.mem_update move f stats hs kv).mp hkv with ⟨h1, -⟩ | h1
  · exact hbias kv h1
  · rw [h1]
    simp only
    rw [hf, hget]

theorem doSearch_.init_fold (moves : List Move) (stats : SearchStats)
    (hs : SearchStats.Sorted stats) (h0 : ∀ kv ∈ stats, kv.2.bias = .fin 0) :
    SearchStats.Sorted
        (moves.foldl (fun st move => SearchStats.update move (fun _ => UCBStats.new) st)
          stats) ∧
    (∀ kv ∈ moves.foldl (fun st move => SearchStats.update move (fun _ => UCBStats.new) st)
        stats, kv.2.bias = .fin 0) ∧
    ∀ k, (k ∈ moves ∨ ∃ s, (k, s) ∈ stats) →
      ∃ s, (k, s) ∈ moves.foldl
        (fun st move => SearchStats.update move (fun _ => UCBStats.new) st) stats := by
  induction moves generalizing stats with
  | nil =>
    refine ⟨hs, h0, ?_⟩
    rintro k (h | h)
    · cases h
    · exact h
  | cons m rest ih =>
    rw [List.foldl_cons]
    have hs1 := SearchStats.update_sorted m (fun _ => UCBStats.new) stats hs
    have h1 : ∀ kv ∈ SearchStats.update m (fun _ => UCBStats.new) stats,
        kv.2.bias = .fin 0 := by
      intro kv hkv
      rcases (SearchStats.mem_update m _ stats hs kv).mp hkv with ⟨h1, -⟩ | h1
      · exact h0 kv h1
      · rw [h1]
        rfl
    obtain ⟨a, b, c⟩ := ih _ hs1 h1
    refine ⟨a, b, ?_⟩
    rintro k (h | h)
    · rcases List.mem_cons.mp h with h | h
      · rw [h]
        exact c m (Or.inr (SearchStats.key_update_self m _ stats hs))
      · exact c k (Or.inl h)
    · exact c k (Or.inr (SearchStats.key_update m _ stats hs k h))

/-- The statistics that `doSearch_` starts from, when it is given an empty map. -/
theorem doSearch_.init_biased (S : SearchBotParams) (moves : List Move) (bp_move : Move) :
    SearchStats.Biased S bp_move moves (doSearch_.init S moves bp_move []) := by
  obtain ⟨hs, h0, hk⟩ := doSearch_.init_fold moves [] List.Pairwise.nil
    (fun kv hkv => by cases hkv)
  unfold doSearch_.init
  refine ⟨SearchStats.update_sorted _ _ _ hs, ?_, ?_⟩
  · intro k hk1
    rcases List.mem_cons.mp hk1 with h | h
    · rw [h]
      exact SearchStats.key_update_self _ _ _ hs
    · exact SearchStats.key_update _ _ _ hs k (hk k (Or.inl h))
  · intro kv hkv
    rcases (SearchStats.mem_update _ _ _ hs kv).mp hkv with ⟨h1, h2⟩ | h1
    · rw [if_neg h2]
      exact h0 kv h1
    · rw [h1]
      simp

theorem accumScore_biased (S : SearchBotParams) (bp_move : Move) (keys : List Move)
    (score bp_score : Int) (move : Move) (stats stats1 : SearchStats)
    (h : SearchStats.Biased S bp_move keys stats)
    (hacc : accumScore S score bp_score move stats = .ok stats1) :
    SearchStats.Biased S bp_move keys stats1 := by
  unfold accumScore at hacc
  by_cases h1 : score = -1
  · rw [if_pos h1, Except.ok.injEq] at hacc
    rw [← hacc]
    exact h
  · rw [if_neg h1] at hacc
    by_cases h2 : ¬ (score ≥ 0)
    · rw [if_pos h2] at hacc
      cases hacc
    · rw [if_neg h2] at hacc
      by_cases h3 : S.SEARCH_BASELINE ≠ 0 ∧ ¬ (bp_score ≥ 0)
      · rw [if_pos h3] at hacc
        cases hacc
      · rw [if_neg h3] at hacc
        simp only [Except.ok.injEq] at hacc
        rw [← hacc]
        exact SearchStats.Biased.of_update S bp_move keys stats h move _ (fun s => rfl)

theorem doSearch_.accum_biased (S : SearchBotParams) (bp_move : Move) (keys : List Move)
    (moves : List Move) (bp_mi : Int) (scores : List Int) (ks : List Nat)
    (stats stats1 : SearchStats) (h : SearchStats.Biased S bp_move keys stats)
    (hacc : doSearch_.accum S moves bp_mi scores ks stats = .ok stats1) :
    SearchStats.Biased S bp_move keys stats1 := by
  induction ks generalizing stats with
  | nil =>
    simp only [doSearch_.accum, Except.ok.injEq] at hacc
    rw [← hacc]
    exact h
  | cons k ks ih =>
    rw [doSearch_.accum] at hacc
    split at hacc
    · cases hacc
    · split at hacc
      · cases hacc
      · split at hacc
        · cases hacc
        · split at hacc
          · cases hacc
          · rename_i hstep
            exact ih _ (accumScore_biased S bp_move keys _ _ _ _ _ h hstep) hacc

theorem doSearch_.prune_biased (S : SearchBotParams) (sqrt : ℚ → ℚ) (bp_move : Move)
    (keys : List Move) (frame_move : Move) (moves : List Move)
    (acc acc1 : SearchStats × Int × Bool) (h : SearchStats.Biased S bp_move keys acc.1)
    (hp : doSearch_.prune S sqrt bp_move frame_move moves acc = .ok acc1) :
    SearchStats.Biased S bp_move keys acc1.1 := by
  induction moves generalizing acc with
  | nil =>
    simp only [doSearch_.prune, Except.ok.injEq] at hp
    rw [← hp]
    exact h
  | cons m rest ih =>
    rw [doSearch_.prune] at hp
    have h1 := SearchStats.Biased.of_update S bp_move keys acc.1 h m id (fun s => rfl)
    split at hp
    · exact ih _ h1 hp
    · split at hp
      · cases hp
      · exact ih _ h1 hp
      · exact ih _ (SearchStats.Biased.of_update S bp_move keys _ h1 m
          (fun s => { s with pruned := true }) (fun s => rfl)) hp

theorem doSearch_.round_biased (S : SearchBotParams) (sqrt : ℚ → ℚ) (moves : List Move)
    (bp_move frame_move : Move) (keys : List Move) (iter : Nat → Int) (T temp_search_n : Nat)
    (st st1 : doSearch_.State) (j0 : Nat) (h : SearchStats.Biased S bp_move keys st.stats)
    (hr : doSearch_.round S sqrt moves bp_move frame_move iter T temp_search_n st j0 =
      .ok st1) :
    SearchStats.Biased S bp_move keys st1.stats := by
  unfold doSearch_.round at hr
  split_ifs at hr with h1 h2
  · simp only [Except.ok.injEq] at hr
    rw [← hr]
    exact h
  · simp only at hr
    split at hr
    · cases hr
    · rename_i stats1 hacc
      split at hr
      · cases hr
      · rename_i acc hp
        simp only [Except.ok.injEq] at hr
        rw [← hr]
        exact doSearch_.prune_biased S sqrt bp_move keys frame_move moves _ _
          (doSearch_.accum_biased S bp_move keys _ _ _ _ _ _ h hacc) hp
  · simp only [Except.ok.injEq] at hr
    rw [← hr]
    exact h

theorem doSearch_.rounds_biased (S : SearchBotParams) (sqrt : ℚ → ℚ) (moves : List Move)
    (bp_move frame_move : Move) (keys : List Move) (iter : Nat → Int) (T temp_search_n : Nat)
    (js : List Nat) (st st1 : doSearch_.State)
    (h : SearchStats.Biased S bp_move keys st.stats)
    (hr : doSearch_.rounds S sqrt moves bp_move frame_move iter T temp_search_n js st =
      .ok st1) :
    SearchStats.Biased S bp_move keys st1.stats := by
  induction js generalizing st with
  | nil =>
    simp only [doSearch_.rounds, Except.ok.injEq] at hr
    rw [← hr]
    exact h
  | cons j0 rest ih =>
    rw [doSearch_.rounds] at hr
    split at hr
    · cases hr
    · rename_i st2 hround
      exact ih _ (doSearch_.round_biased S sqrt moves bp_move frame_move keys iter T
        temp_search_n _ _ _ h hround) hr

/-- The statistics of `doSearch_` when its threads have finished. -/
theorem doSearch_.threads_biased (S : SearchBotParams) (sqrt : ℚ → ℚ) (moves : List Move)
    (bp_move frame_move : Move) (iter : Nat → Int) (st : doSearch_.State)
    (h : doSearch_.threads S sqrt moves bp_move frame_move iter [] = .ok st) :
    SearchStats.Biased S bp_move moves st.stats := by
  unfold doSearch_.threads at h
  by_cases h0 : moves.length = 0
  · rw [if_pos h0] at h
    cases h
  · rw [if_neg h0] at h
    by_cases h1 : ¬ (S.NUM_THREADS - S.NUM_THREADS.tmod moves.length ≥ moves.length)
    · simp only [h1, not_false_eq_true, if_true] at h
      cases h
    · simp only [h1, if_false] at h
      exact doSearch_.rounds_biased S sqrt moves bp_move frame_move moves iter _ _ _ _ _
        (doSearch_.init_biased S moves bp_move) h

/-- The move and the statistics that `doSearch_` returns, by the state in which the threads
have left it. -/
theorem doSearch_.finish_result (S : SearchBotParams) (moves : List Move) (bp_move : Move)
    (temp_search_n : Nat) (st : doSearch_.State) (best_move : Move) (final : SearchStats)
    (hb : SearchStats.Biased S bp_move moves st.stats) (hbail : st.frame_bail = false)
    (h : doSearch_.finish S moves bp_move temp_search_n st = .ok (best_move, final)) :
    SearchStats.Biased S bp_move moves final ∧ best_move = (doSearch_.best final).1 := by
  unfold doSearch_.finish at h
  rw [hbail] at h
  simp only [Bool.false_eq_true, if_false] at h
  split_ifs at h
  · split at h
    · cases h
    · rename_i stats1 hacc
      simp only [Except.ok.injEq, Prod.mk.injEq] at h
      rw [← h.1, ← h.2]
      exact ⟨doSearch_.accum_biased S bp_move moves _ _ _ _ _ _ hb hacc, rfl⟩
  · simp only [Except.ok.injEq, Prod.mk.injEq] at h
    rw [← h.1, ← h.2]
    exact ⟨hb, rfl⟩

/-- What the selection at the end of `doSearch_` leaves in `best_move` and `best_score`. -/
theorem doSearch_.best_max (stats : SearchStats) :
    (doSearch_.best stats = (Move.invalid, .fin (-1)) ∧
      ∀ kv ∈ stats, kv.2.pruned = false →
        Dbl.lt (.fin (-1)) (kv.2.mean.add kv.2.bias) = false) ∨
    ∃ a ∈ stats, a.2.pruned = false ∧
      doSearch_.best stats = (a.1, a.2.mean.add a.2.bias) ∧
      (∀ kv ∈ stats, kv.2.pruned = false →
        Dbl.lt (a.2.mean.add a.2.bias) (kv.2.mean.add kv.2.bias) = false) ∧
      Dbl.lt (.fin (-1)) (a.2.mean.add a.2.bias) = true := by
  have h := argmax_foldl (fun kv : Move × UCBStats => kv.2.mean.add kv.2.bias)
    (fun kv => !kv.2.pruned) (fun kv => (kv.1, kv.2.mean.add kv.2.bias))
    (fun acc : Move × Dbl => acc.2) (fun _ => false) (Move.invalid, .fin (-1)) stats
    (fun _ => rfl) (fun _ _ => rfl)
  have hfun : (fun (acc : Move × Dbl) (kv : Move × UCBStats) =>
      if (!kv.2.pruned && (Dbl.lt acc.2 (kv.2.mean.add kv.2.bias) || false)) = true then
        (kv.1, kv.2.mean.add kv.2.bias)
      else acc) =
      fun (acc : Move × Dbl) (kv : Move × UCBStats) =>
        if kv.2.pruned = true then acc
        else if Dbl.lt acc.2 (kv.2.mean.add kv.2.bias) = true then
          (kv.1, kv.2.mean.add kv.2.bias)
        else acc := by
    funext acc kv
    cases kv.2.pruned <;> simp
  rw [hfun] at h
  simp only [Bool.not_eq_true'] at h
  rcases h with ⟨hacc, hall⟩ | ⟨a, ha, hea, hacc, hmax, hinit⟩
  · exact Or.inl ⟨hacc, fun kv hkv hp => (hall kv hkv hp).2⟩
  · exact Or.inr ⟨a, ha, hea, hacc, hmax, hinit trivial⟩


/-- C34 (the result of the search), amended. In `doSearch_`, started on an empty map, the bias
of the blueprint move is `SEARCH_THRESH` and the bias of every other move is 0, after the
initialisation and in the statistics at the end, in which the blueprint move and every legal
move have an entry. When the search does not bail out and some unpruned move has
`mean + bias` above -1, the value at which `best_score` starts, the move returned is unpruned
and no unpruned move has a greater `mean + bias`. When no unpruned move has `mean + bias`
above -1, the move returned is `Move()`. -/
theorem C34_search_result (S : SearchBotParams) (sqrt : ℚ → ℚ) (moves : List Move)
    (bp_move frame_move : Move) (iter : Nat → Int) (st : doSearch_.State) (best_move : Move)
    (final : SearchStats)
    (hthreads : doSearch_.threads S sqrt moves bp_move frame_move iter [] = .ok st)
    (hbail : st.frame_bail = false)
    (hret : doSearch_ S sqrt moves bp_move frame_move iter [] = .ok (best_move, final)) :
    (∀ kv ∈ doSearch_.init S moves bp_move [],
      kv.2.bias = if kv.1 = bp_move then S.SEARCH_THRESH else .fin 0) ∧
    (∀ kv ∈ final, kv.2.bias = if kv.1 = bp_move then S.SEARCH_THRESH else .fin 0) ∧
    (∀ m ∈ bp_move :: moves, ∃ s, (m, s) ∈ final) ∧
    ((∃ kv ∈ final, kv.2.pruned = false ∧
        Dbl.lt (.fin (-1)) (kv.2.mean.add kv.2.bias) = true) →
      ∃ s, (best_move, s) ∈ final ∧ s.pruned = false ∧
        ∀ kv ∈ final, kv.2.pruned = false →
          Dbl.lt (s.mean.add s.bias) (kv.2.mean.add kv.2.bias) = false) ∧
    ((∀ kv ∈ final, kv.2.pruned = false →
        Dbl.lt (.fin (-1)) (kv.2.mean.add kv.2.bias) = false) →
      best_move = Move.invalid) := by
  have hb := doSearch_.threads_biased S sqrt moves bp_move frame_move iter st hthreads
  unfold doSearch_ at hret
  rw [hthreads] at hret
  obtain ⟨hfinal, hbest⟩ := doSearch_.finish_result S moves bp_move _ st best_move final hb
    hbail hret
  refine ⟨(doSearch_.init_biased S moves bp_move).2.2, hfinal.2.2, hfinal.2.1, ?_, ?_⟩
  · rintro ⟨kv, hkv, hun, hgt⟩
    rcases doSearch_.best_max final with ⟨-, hall⟩ | ⟨a, ha, hea, hacc, hmax, -⟩
    · rw [hall kv hkv hun] at hgt
      cases hgt
    · refine ⟨a.2, ?_, hea, hmax⟩
      rw [hbest, hacc]
      exact ha
  · intro hall
    rcases doSearch_.best_max final with ⟨hacc, -⟩ | ⟨a, ha, hea, -, -, hgt⟩
    · rw [hbest, hacc]
    · rw [hall a ha hea] at hgt
      cases hgt

/-- Witness for C34: two moves, play or discard slot 0, the play being the blueprint move; two
rounds of two rollouts in which the play scores 10 and the discard 12. The search returns the
discard, whose `mean + bias` is 12 against 10 + 1/10. -/
theorem C34_search_result_witness :
    doSearch_ exampleSmallParams exampleSqrt exampleSmallMoves ⟨.PLAY_CARD, 0, -1⟩
        Move.invalid (fun j => if j % 2 = 0 then 10 else 12) [] =
      .ok (⟨.DISCARD_CARD, 0, -1⟩,
        [(⟨.PLAY_CARD, 0, -1⟩, ⟨false, .fin 10, .fin 0, 2, .fin (1 / 10)⟩),
         (⟨.DISCARD_CARD, 0, -1⟩, ⟨false, .fin 12, .fin 0, 2, .fin 0⟩)]) ∧
    ∃ s, ((⟨.DISCARD_CARD, 0, -1⟩ : Move), s) ∈
        ([(⟨.PLAY_CARD, 0, -1⟩, ⟨false, .fin 10, .fin 0, 2, .fin (1 / 10)⟩),
          (⟨.DISCARD_CARD, 0, -1⟩, ⟨false, .fin 12, .fin 0, 2, .fin 0⟩)] : SearchStats) ∧
      s.pruned = false ∧
      ∀ kv ∈ ([(⟨.PLAY_CARD, 0, -1⟩, ⟨false, .fin 10, .fin 0, 2, .fin (1 / 10)⟩),
          (⟨.DISCARD_CARD, 0, -1⟩, ⟨false, .fin 12, .fin 0, 2, .fin 0⟩)] : SearchStats),
        kv.2.pruned = false →
          Dbl.lt (s.mean.add s.bias) (kv.2.mean.add kv.2.bias) = false := by
  have hret : doSearch_ exampleSmallParams exampleSqrt exampleSmallMoves ⟨.PLAY_CARD, 0, -1⟩
        Move.invalid (fun j => if j % 2 = 0 then 10 else 12) [] =
      .ok (⟨.DISCARD_CARD, 0, -1⟩,
        [(⟨.PLAY_CARD, 0, -1⟩, ⟨false, .fin 10, .fin 0, 2, .fin (1 / 10)⟩),
         (⟨.DISCARD_CARD, 0, -1⟩, ⟨false, .fin 12, .fin 0, 2, .fin 0⟩)]) :=
    Except.eq_ok_of_toOption _ _ (by decide!)
  exact ⟨hret,
    (C34_search_result exampleSmallParams exampleSqrt exampleSmallMoves ⟨.PLAY_CARD, 0, -1⟩
      Move.invalid (fun j => if j % 2 = 0 then 10 else 12)
      ⟨[(⟨.PLAY_CARD, 0, -1⟩, ⟨false, .fin 10, .fin 0, 1, .fin (1 / 10)⟩),
        (⟨.DISCARD_CARD, 0, -1⟩, ⟨false, .fin 12, .fin 0, 1, .fin 0⟩)], [10, 12, 10, 12], 0,
        false, 2⟩ _ _
      (Except.eq_ok_of_toOption _ _ (by decide!)) rfl hret).2.2.2.1
      ⟨(⟨.DISCARD_CARD, 0, -1⟩, ⟨false, .fin 12, .fin 0, 2, .fin 0⟩), by decide, rfl,
        by decide!⟩⟩

/-- Counterexample to C34 as stated: baseline mode with `SEARCH_THRESH=-2`, two moves, play or
discard slot 0, the play being the blueprint move; two rounds of two rollouts in which the
play scores 10 and the discard 7, so that the adjusted scores are 0 and -3. The search does
not bail out and prunes nothing, and it returns `Move()`, which is no move of the statistics:
neither `mean + bias`, -2 and -3, is above the -1 at which `best_score` starts. -/
theorem C34_counterexample :
    (doSearch_.threads exampleBaselineParams exampleSqrt exampleSmallMoves
        ⟨.PLAY_CARD, 0, -1⟩ Move.invalid (fun j => if j % 2 = 0 then 10 else 7)
        []).toOption.map (fun st => (st.frame_bail, st.prune_count)) = some (false, 0) ∧
    doSearch_ exampleBaselineParams exampleSqrt exampleSmallMoves ⟨.PLAY_CARD, 0, -1⟩
        Move.invalid (fun j => if j % 2 = 0 then 10 else 7) [] =
      .ok (Move.invalid,
        [(⟨.PLAY_CARD, 0, -1⟩, ⟨false, .fin 0, .fin 0, 2, .fin (-2)⟩),
         (⟨.DISCARD_CARD, 0, -1⟩, ⟨false, .fin (-3), .fin 0, 2, .fin 0⟩)]) :=
  ⟨by decide!, Except.eq_ok_of_toOption _ _ (by decide!)⟩

/-! ## Pruning in baseline mode keeps a move -/

theorem Dbl.sqrt_cases (sqrt : ℚ → ℚ) (hsqrt : ∀ q, 0 ≤ sqrt q) (y : Dbl) :
    Dbl.sqrt sqrt y = .nan ∨ Dbl.sqrt sqrt y = .pinf ∨
      ∃ r, 0 ≤ r ∧ Dbl.sqrt sqrt y = .fin r := by
  cases y with
  | nan => exact Or.inl rfl
  | ninf => exact Or.inl rfl
  | pinf => exact Or.inr (Or.inl rfl)
  | fin q =>
    by_cases hq : q < 0
    · left
      simp [Dbl.sqrt, hq]
    · right; right
      exact ⟨sqrt q, hsqrt q, by simp [Dbl.sqrt, hq]⟩

/-- The test `diff - 2.5 * combined_err > 0` fails when `diff` is the difference of a value
and itself and `combined_err` is NaN, `+inf` or not negative. -/
theorem Dbl.not_pos_of_sub_self (x c : Dbl)
    (hc : c = .nan ∨ c = .pinf ∨ ∃ r, 0 ≤ r ∧ c = .fin r) :
    Dbl.lt (.fin 0) ((x.sub x).sub ((Dbl.fin (5 / 2)).mul c)) = false := by
  rcases hc with rfl | rfl | ⟨r, hr, rfl⟩
  · cases x <;> simp [Dbl.sub, Dbl.neg, Dbl.add, Dbl.mul, Dbl.lt]
  · cases x <;> simp [Dbl.sub, Dbl.neg, Dbl.add, Dbl.mul, Dbl.lt, Dbl.signed]
  · cases x <;> simp [Dbl.sub, Dbl.neg, Dbl.add, Dbl.mul, Dbl.lt]
    linarith

/-- In baseline mode the pruning rule keeps a move: in a map whose keys are moves and which
has an unpruned entry, there is an unpruned move for which `canPruneMove` returns false, the
unpruned move of greatest `mean + bias`; `sqrt` is assumed to return no negative number. -/
theorem canPruneMove_baseline_keeps_best (S : SearchBotParams) (sqrt : ℚ → ℚ)
    (stats : SearchStats) (bp_move : Move) (hbase : S.SEARCH_BASELINE ≠ 0)
    (hsqrt : ∀ q, 0 ≤ sqrt q) (hs : SearchStats.Sorted stats)
    (hkeys : ∀ kv ∈ stats, kv.1.type ≠ .INVALID_MOVE)
    (hun : ∃ kv ∈ stats, kv.2.pruned = false) :
    ∃ kv ∈ stats, kv.2.pruned = false ∧ canPruneMove S sqrt stats kv.1 bp_move = .ok false := by
  have h := argmax_foldl (fun kv : Move × UCBStats => kv.2.mean.add kv.2.bias)
    (fun kv => !kv.2.pruned)
    (fun kv => (kv.2.search_baseline_stderr sqrt, kv.1, kv.2.mean.add kv.2.bias))
    (fun acc : Dbl × Move × Dbl => acc.2.2)
    (fun acc => decide (acc.2.1.type = .INVALID_MOVE))
    (.fin 0, canPruneMove.no_move, .fin (-100)) stats
    (fun _ => rfl) (fun a ha => by simpa using hkeys a ha)
  rcases h with ⟨-, hall⟩ | ⟨a, ha, hea, hacc, -, -⟩
  · obtain ⟨kv, hkv, hp⟩ := hun
    have := (hall kv hkv (by simp [hp])).1
    simp [canPruneMove.no_move] at this
  · have hea1 : a.2.pruned = false := by simpa using hea
    refine ⟨a, ha, hea1, ?_⟩
    have hbest : canPruneMove.baseline_best sqrt stats =
        (a.2.search_baseline_stderr sqrt, a.1, a.2.mean.add a.2.bias) := hacc
    have hat : SearchStats.at stats a.1 = .ok a.2 := by
      unfold SearchStats.at
      rw [SearchStats.find_of_mem stats hs a.1 a.2 ha]
    have hty : ¬ (a.1.type = .INVALID_MOVE) := hkeys a ha
    unfold canPruneMove
    by_cases h1 : S.SEARCH_BASELINE ≠ 0 ∧ Move.eq a.1 bp_move = true
    · rw [if_pos h1]
    · rw [if_neg h1]
      by_cases h2 : S.UCB = 0
      · rw [if_pos h2]
      · rw [if_neg h2]
        simp only [hat, hbase, ne_eq, not_false_eq_true, if_true, hbest, hty, if_false]
        rw [Dbl.not_pos_of_sub_self _ _ (Dbl.sqrt_cases sqrt hsqrt _)]

/-- The example search when its threads have finished: every move is pruned, after two
pruning passes, and the search has not bailed out. -/
theorem exampleSearch_threads :
    (doSearch_.threads exampleSearchParams exampleSqrt exampleSearchMoves ⟨.HINT_COLOR, 0, 1⟩
        Move.invalid exampleSearchIter []).toOption.map
        (fun st => (st.stats, st.frame_bail, st.prune_count, st.accumed)) =
      some ([(⟨.PLAY_CARD, 0, -1⟩, ⟨true, .fin 10, .fin 20000, 200, .fin 0⟩),
         (⟨.HINT_COLOR, 0, 1⟩, ⟨true, .fin 15, .fin 0, 100, .fin (1 / 10)⟩),
         (⟨.HINT_VALUE, 1, 1⟩, ⟨true, .fin 10, .fin 20000, 200, .fin 0⟩)], false, 3, 600) := by
  decide!

/-- C38 (pruning may leave no move). Without baseline mode the loop of `canPruneMove` that
finds the greatest lower bound visits the pruned entries as well. With the default parameters
and the statistics `exampleStaleStats`, in which the colour hint is pruned and keeps its old
lower bound 15 + 1/10, `canPruneMove` returns true for both unpruned moves, whose upper bound
is below 12. These statistics arise in `doSearch_`: with three legal moves, rounds of 300
rollouts and the scores `exampleSearchIter`, the first pass prunes the colour hint, the
blueprint move, the second pass prunes the two other moves, the search does not bail out, and
`doSearch_` returns `Move()` with every move pruned. -/
theorem C38_all_moves_pruned :
    canPruneMove SearchBotParams.default exampleSqrt exampleStaleStats ⟨.PLAY_CARD, 0, -1⟩
      ⟨.HINT_COLOR, 0, 1⟩ = .ok true ∧
    canPruneMove SearchBotParams.default exampleSqrt exampleStaleStats ⟨.HINT_VALUE, 1, 1⟩
      ⟨.HINT_COLOR, 0, 1⟩ = .ok true ∧
    exampleStaleStats.map (fun kv => (kv.1, kv.2.pruned)) =
      [(⟨.PLAY_CARD, 0, -1⟩, false), (⟨.HINT_COLOR, 0, 1⟩, true),
       (⟨.HINT_VALUE, 1, 1⟩, false)] ∧
    (doSearch_.threads exampleSearchParams exampleSqrt exampleSearchMoves ⟨.HINT_COLOR, 0, 1⟩
        Move.invalid exampleSearchIter []).toOption.map
        (fun st => (st.frame_bail, st.prune_count, st.accumed)) = some (false, 3, 600) ∧
    doSearch_ exampleSearchParams exampleSqrt exampleSearchMoves ⟨.HINT_COLOR, 0, 1⟩
        Move.invalid exampleSearchIter [] =
      .ok (Move.invalid,
        [(⟨.PLAY_CARD, 0, -1⟩, ⟨true, .fin 10, .fin 20000, 200, .fin 0⟩),
         (⟨.HINT_COLOR, 0, 1⟩, ⟨true, .fin 15, .fin 0, 100, .fin (1 / 10)⟩),
         (⟨.HINT_VALUE, 1, 1⟩, ⟨true, .fin 10, .fin 20000, 200, .fin 0⟩)]) := by
  have hrun := exampleSearch_threads
  refine ⟨Except.eq_ok_of_toOption _ _ (by decide!), Except.eq_ok_of_toOption _ _ (by decide!),
    by decide, ?_, ?_⟩
  · cases hth : doSearch_.threads exampleSearchParams exampleSqrt exampleSearchMoves
        ⟨.HINT_COLOR, 0, 1⟩ Move.invalid exampleSearchIter [] with
    | error f =>
      rw [hth] at hrun
      simp [Except.toOption] at hrun
    | ok st =>
      rw [hth] at hrun
      simp only [Except.toOption, Option.map_some', Option.some.injEq, Prod.mk.injEq] at hrun
      simp only [Except.toOption, Option.map_some', hrun.2.1, hrun.2.2.1, hrun.2.2.2]
  · unfold doSearch_
    cases hth : doSearch_.threads exampleSearchParams exampleSqrt exampleSearchMoves
        ⟨.HINT_COLOR, 0, 1⟩ Move.invalid exampleSearchIter [] with
    | error f =>
      rw [hth] at hrun
      simp [Except.toOption] at hrun
    | ok st =>
      rw [hth] at hrun
      simp only [Except.toOption, Option.map_some', Option.some.injEq, Prod.mk.injEq] at hrun
      simp only [doSearch_.finish, hrun.1, hrun.2.1, hrun.2.2.1, Bool.false_eq_true, if_false]
      rfl


/-! ## The simulation server -/

/-- A mutator called in mock mode only records the move. -/
theorem SimulServer.call_mock (P : Params) (s : SimulServer) (hmock : s.mock_ = true)
    (r : Request) (hr : r.targeted) :
    s.call P r = { fault := none, sim := { s with last_move_ := r.move }, events := [] } := by
  cases r with
  | pleaseDiscard index =>
    simp [SimulServer.call, SimulServer.pleaseDiscard, SimulServer.record, hmock, Move.make,
      Request.move]
  | pleasePlay index =>
    simp [SimulServer.call, SimulServer.pleasePlay, SimulServer.record, hmock, Move.make,
      Request.move]
  | pleaseGiveColorHint player color =>
    have hp : player ≠ -1 := hr
    simp [SimulServer.call, SimulServer.pleaseGiveColorHint, SimulServer.record, hmock,
      Move.make, Request.move, hp]
  | pleaseGiveValueHint player value =>
    have hp : player ≠ -1 := hr
    simp [SimulServer.call, SimulServer.pleaseGiveValueHint, SimulServer.record, hmock,
      Move.make, Request.move, hp]

/-- A hint to player -1 in mock mode fails the assertion of the constructor of `Move`. -/
theorem SimulServer.call_mock_untargeted (P : Params) (s : SimulServer)
    (hmock : s.mock_ = true) (r : Request) (hr : ¬ r.targeted) :
    s.call P r =
      { fault := some
          (.AssertionFailure "(type == HINT_COLOR || type == HINT_VALUE) == (to != -1)"),
        sim := s, events := [] } := by
  obtain ⟨server, mock, last⟩ := s
  simp only at hmock
  subst hmock
  cases r with
  | pleaseDiscard index => exact absurd trivial hr
  | pleasePlay index => exact absurd trivial hr
  | pleaseGiveColorHint player color =>
    have hp : player = -1 := by
      by_contra h
      exact hr h
    simp [SimulServer.call, SimulServer.pleaseGiveColorHint, SimulServer.record,
      Move.make, hp]
  | pleaseGiveValueHint player value =>
    have hp : player = -1 := by
      by_contra h
      exact hr h
    simp [SimulServer.call, SimulServer.pleaseGiveValueHint, SimulServer.record,
      Move.make, hp]

/-- The calls of a bot in mock mode leave the move of the last call in `last_move_`. -/
theorem SimulServer.calls_mock (P : Params) (rs : List Request) (s : SimulServer)
    (events : List Event) (hmock : s.mock_ = true) (hrs : ∀ r ∈ rs, r.targeted) :
    SimulServer.calls P rs s events =
      { fault := none,
        sim := { s with last_move_ := (rs.getLast?.map Request.move).getD s.last_move_ },
        events := events } := by
  induction rs generalizing s with
  | nil => rfl
  | cons r rest ih =>
    rw [SimulServer.calls]
    simp only [SimulServer.call_mock P s hmock r (hrs r (List.mem_cons_self _ _)),
      List.append_nil]
    refine (ih { s with last_move_ := r.move } hmock
      (fun q hq => hrs q (List.mem_cons_of_mem _ hq))).trans ?_
    cases rest with
    | nil => rfl
    | cons q rest1 =>
      obtain ⟨x, hx⟩ : ∃ x, (q :: rest1).getLast? = some x :=
        ⟨_, List.getLast?_eq_getLast _ (by simp)⟩
      simp [List.getLast?_cons_cons, hx]

theorem Request.move_type (r : Request) : r.move.type ≠ .INVALID_MOVE := by
  cases r <;> simp [Request.move]

/-- A hint without a target in mock mode: on the start of the example game the call
`pleaseGiveColorHint(-1, RED)` fails the assertion of the constructor of `Move`, which keeps
-1 for the moves without a target, and `last_move_` stays `Move()`. -/
theorem exampleMock_hint_without_target :
    exampleMock.mock_ = true ∧
    (exampleMock.pleaseGiveColorHint Params.default (-1) .RED).fault =
      some (.AssertionFailure "(type == HINT_COLOR || type == HINT_VALUE) == (to != -1)") ∧
    (exampleMock.pleaseGiveColorHint Params.default (-1) .RED).sim.last_move_ =
      Move.invalid ∧
    (Request.pleaseGiveColorHint (-1) .RED).move = ⟨.HINT_COLOR, 0, -1⟩ := by
  refine ⟨rfl, ?_, ?_, rfl⟩ <;>
    simp [SimulServer.pleaseGiveColorHint, SimulServer.record, exampleMock, Move.make]

/-- C35 (mock mode). While `mock_` is true, `pleaseDiscard`, `pleasePlay`, and the hints to a
player (a target other than -1, the value that `Move` keeps for the moves without a target
and that its constructor asserts a hint not to have) notify no bot and change nothing of the
simulation server but `last_move_`, which becomes the move that describes the call. And
`simulatePlayerMove(p, bot)`, for a bot whose `pleaseMakeMove` calls at least one mutator,
hints with such a target, returns the move of the last call, notifies no bot, and leaves
`mock_ == false`, `last_move_ == Move()` and the server as it was but for `activePlayer_` and
`observingPlayer_`, which are `p`. -/
theorem C35_mock_mutators (P : Params) (s : SimulServer) (hmock : s.mock_ = true)
    (s0 : SimulServer) (p : Int) (bot : Server → List Request) (rest : List Request)
    (r : Request)
    (hbot : bot { s0.server with activePlayer_ := p, observingPlayer_ := p } = rest ++ [r])
    (htargets : ∀ q ∈ rest ++ [r], q.targeted) :
    (∀ index, s.pleaseDiscard P index =
      { fault := none, sim := { s with last_move_ := ⟨.DISCARD_CARD, index, -1⟩ },
        events := [] }) ∧
    (∀ index, s.pleasePlay index =
      { fault := none, sim := { s with last_move_ := ⟨.PLAY_CARD, index, -1⟩ },
        events := [] }) ∧
    (∀ player color, player ≠ -1 → s.pleaseGiveColorHint P player color =
      { fault := none, sim := { s with last_move_ := ⟨.HINT_COLOR, color.toInt, player⟩ },
        events := [] }) ∧
    (∀ player value, player ≠ -1 → s.pleaseGiveValueHint P player value =
      { fault := none, sim := { s with last_move_ := ⟨.HINT_VALUE, value, player⟩ },
        events := [] }) ∧
    (s0.simulatePlayerMove P p bot).ret = .ok r.move ∧
    (s0.simulatePlayerMove P p bot).events = [] ∧
    (s0.simulatePlayerMove P p bot).sim =
      { server := { s0.server with activePlayer_ := p, observingPlayer_ := p },
        mock_ := false, last_move_ := Move.invalid } := by
  refine ⟨fun index => SimulServer.call_mock P s hmock (.pleaseDiscard index) trivial,
    fun index => SimulServer.call_mock P s hmock (.pleasePlay index) trivial,
    fun player color hp => SimulServer.call_mock P s hmock (.pleaseGiveColorHint player color) hp,
    fun player value hp => SimulServer.call_mock P s hmock (.pleaseGiveValueHint player value) hp,
    ?_⟩
  have hcalls := SimulServer.calls_mock P (rest ++ [r])
    { server := { s0.server with activePlayer_ := p, observingPlayer_ := p },
      mock_ := true, last_move_ := Move.invalid } [] rfl htargets
  have hty := Request.move_type r
  have hlast : (rest ++ [r]).getLast? = some r := by simp
  rw [hlast] at hcalls
  simp only [Option.map_some', Option.getD_some] at hcalls
  simp only [SimulServer.simulatePlayerMove, hbot, hcalls, ne_eq, hty, not_false_eq_true,
    not_true_eq_false, if_false, and_self]

/-- Witness for C35: on the start of the example game, a bot that calls `pleasePlay(3)` and
nothing else; `simulatePlayerMove(0, bot)` returns the play of slot 3. In mock mode the hint
RED to player 1 is recorded and nothing else changes. -/
theorem C35_mock_mutators_witness :
    ((SimulServer.mk exampleStart false Move.invalid).simulatePlayerMove Params.default 0
        (fun _ => [.pleasePlay 3])).ret = .ok ⟨.PLAY_CARD, 3, -1⟩ ∧
    ((SimulServer.mk exampleStart false Move.invalid).simulatePlayerMove Params.default 0
        (fun _ => [.pleasePlay 3])).sim.mock_ = false ∧
    ((SimulServer.mk exampleStart false Move.invalid).simulatePlayerMove Params.default 0
        (fun _ => [.pleasePlay 3])).sim.last_move_ = Move.invalid ∧
    exampleMock.pleasePlay 3 =
      { fault := none, sim := { exampleMock with last_move_ := ⟨.PLAY_CARD, 3, -1⟩ },
        events := [] } ∧
    exampleMock.pleaseGiveColorHint Params.default 1 .RED =
      { fault := none, sim := { exampleMock with last_move_ := ⟨.HINT_COLOR, 0, 1⟩ },
        events := [] } := by
  have h := C35_mock_mutators Params.default exampleMock rfl
    (SimulServer.mk exampleStart false Move.invalid) 0 (fun _ => [.pleasePlay 3]) []
    (.pleasePlay 3) rfl (by decide)
  refine ⟨h.2.2.2.2.1, ?_, ?_, h.2.1 3, h.2.2.1 1 .RED (by decide)⟩
  · rw [h.2.2.2.2.2.2]
  · rw [h.2.2.2.2.2.2]


/-! ## The legal moves are accepted -/

theorem Color.ofInt_toInt (c : Color) : Color.ofInt c.toInt = c := by
  cases c <;> decide

theorem enumerateLegalMoves.own_forall (P : Params) (server : Server) (Q : Move → Prop)
    (is : List Nat) (moves : List Move) (hmoves : ∀ m ∈ moves, Q m)
    (hplay : ∀ i ∈ is, Q ⟨.PLAY_CARD, i, -1⟩)
    (hdiscard : server.discardingIsAllowed P = true → ∀ i ∈ is, Q ⟨.DISCARD_CARD, i, -1⟩) :
    ∀ m ∈ enumerateLegalMoves.own P server is moves, Q m := by
  induction is generalizing moves with
  | nil => exact hmoves
  | cons i rest ih =>
    rw [enumerateLegalMoves.own]
    apply ih
    · intro m hm
      simp only at hm
      have h1 : ∀ m ∈ setInsert ⟨.PLAY_CARD, i, -1⟩ moves, Q m := by
        intro m hm
        rcases setInsert_mem _ _ _ hm with h | h
        · rw [h]
          exact hplay i (List.mem_cons_self _ _)
        · exact hmoves m h
      by_cases hd : server.discardingIsAllowed P = true
      · rw [if_pos hd] at hm
        rcases setInsert_mem _ _ _ hm with h | h
        · rw [h]
          exact hdiscard hd i (List.mem_cons_self _ _)
        · exact h1 m h
      · rw [if_neg hd] at hm
        exact h1 m hm
    · exact fun j hj => hplay j (List.mem_cons_of_mem _ hj)
    · exact fun hd j hj => hdiscard hd j (List.mem_cons_of_mem _ hj)

theorem enumerateLegalMoves.cards_forall (server : Server) (p : Int) (Q : Move → Prop)
    (hand : List Card) (moves r : List Move) (hmoves : ∀ m ∈ moves, Q m)
    (hhint : 0 < server.hintStonesRemaining_ → ∀ card ∈ hand,
      Q ⟨.HINT_COLOR, card.color.toInt, p⟩ ∧ Q ⟨.HINT_VALUE, card.value, p⟩)
    (hr : enumerateLegalMoves.cards server p hand moves = .ok r) : ∀ m ∈ r, Q m := by
  induction hand generalizing moves with
  | nil =>
    simp only [enumerateLegalMoves.cards, Except.ok.injEq] at hr
    rw [← hr]
    exact hmoves
  | cons card rest ih =>
    rw [enumerateLegalMoves.cards] at hr
    cases hst : server.hintStonesRemaining with
    | error f => simp [hst] at hr
    | ok stones =>
      have hstones : stones = server.hintStonesRemaining_ := by
        unfold Server.hintStonesRemaining at hst
        split_ifs at hst
        simp only [Except.ok.injEq] at hst
        exact hst.symm
      simp only [hst] at hr
      by_cases hpos : stones > 0
      · rw [if_pos hpos] at hr
        have hq := hhint (by omega) card (List.mem_cons_self _ _)
        refine ih _ ?_ (fun h c hc => hhint h c (List.mem_cons_of_mem _ hc)) hr
        intro m hm
        rcases setInsert_mem _ _ _ hm with h | h
        · rw [h]
          exact hq.2
        · rcases setInsert_mem _ _ _ h with h | h
          · rw [h]
            exact hq.1
          · exact hmoves m h
      · rw [if_neg hpos] at hr
        exact ih _ hmoves (fun h c hc => hhint h c (List.mem_cons_of_mem _ hc)) hr

theorem enumerateLegalMoves.partners_forall (server : Server) (me : Int)
    (hme : server.whoAmI = .ok me) (Q : Move → Prop) (ps : List Nat) (moves r : List Move)
    (hmoves : ∀ m ∈ moves, Q m)
    (hhint : 0 < server.hintStonesRemaining_ → ∀ p ∈ ps, (p : Int) ≠ me → ∀ hand,
      server.handOfPlayer p = .ok hand → ∀ card ∈ hand,
        Q ⟨.HINT_COLOR, card.color.toInt, p⟩ ∧ Q ⟨.HINT_VALUE, card.value, p⟩)
    (hr : enumerateLegalMoves.partners server ps moves = .ok r) : ∀ m ∈ r, Q m := by
  induction ps generalizing moves with
  | nil =>
    simp only [enumerateLegalMoves.partners, Except.ok.injEq] at hr
    rw [← hr]
    exact hmoves
  | cons p rest ih =>
    rw [enumerateLegalMoves.partners] at hr
    simp only [hme] at hr
    have hrest : 0 < server.hintStonesRemaining_ → ∀ q ∈ rest, (q : Int) ≠ me → ∀ hand,
        server.handOfPlayer q = .ok hand → ∀ card ∈ hand,
          Q ⟨.HINT_COLOR, card.color.toInt, q⟩ ∧ Q ⟨.HINT_VALUE, card.value, q⟩ :=
      fun h q hq => hhint h q (List.mem_cons_of_mem _ hq)
    by_cases hp : (p : Int) = me
    · rw [if_pos hp] at hr
      exact ih _ hmoves hrest hr
    · rw [if_neg hp] at hr
      cases hh : server.handOfPlayer p with
      | error f => simp [hh] at hr
      | ok hand =>
        simp only [hh] at hr
        cases hc : enumerateLegalMoves.cards server p hand moves with
        | error f => simp [hc] at hr
        | ok moves1 =>
          simp only [hc] at hr
          refine ih _ ?_ hrest hr
          exact enumerateLegalMoves.cards_forall server p Q hand moves moves1 hmoves
            (fun h => hhint h p (List.mem_cons_self _ _) hp hand hh) hc

/-- A property of every play of a slot of the observer's hand, of every discard when
discarding is allowed, and of every hint of an attribute of a card that another player holds
when a hint stone remains, is a property of every move that `enumerateLegalMoves` returns. -/
theorem enumerateLegalMoves_forall (P : Params) (server : Server) (me size : Int)
    (Q : Move → Prop) (moves : List Move) (hme : server.whoAmI = .ok me)
    (hsize : server.sizeOfHandOfPlayer me = .ok size)
    (hplay : ∀ i : Nat, (i : Int) < size → Q ⟨.PLAY_CARD, i, -1⟩)
    (hdiscard : server.discardingIsAllowed P = true →
      ∀ i : Nat, (i : Int) < size → Q ⟨.DISCARD_CARD, i, -1⟩)
    (hhint : 0 < server.hintStonesRemaining_ → ∀ p : Nat, (p : Int) < server.numPlayers_ →
      (p : Int) ≠ me → ∀ hand, server.handOfPlayer p = .ok hand → ∀ card ∈ hand,
        Q ⟨.HINT_COLOR, card.color.toInt, p⟩ ∧ Q ⟨.HINT_VALUE, card.value, p⟩)
    (h : enumerateLegalMoves P server = .ok moves) : ∀ m ∈ moves, Q m := by
  unfold enumerateLegalMoves at h
  simp only [hme, hsize] at h
  refine enumerateLegalMoves.partners_forall server me hme Q _ _ moves ?_ ?_ h
  · refine enumerateLegalMoves.own_forall P server Q _ [] (fun m hm => by cases hm) ?_ ?_
    · intro i hi
      rw [List.mem_range] at hi
      exact hplay i (by omega)
    · intro hd i hi
      rw [List.mem_range] at hi
      exact hdiscard hd i (by omega)
  · intro hst p hp
    rw [List.mem_range] at hp
    exact hhint hst p (by unfold Server.numPlayers at hp; omega)

theorem enumerateLegalMoves.own_pairwise (P : Params) (server : Server) (is : List Nat)
    (moves : List Move) (h : moves.Pairwise fun a b => Move.lt a b = true) :
    (enumerateLegalMoves.own P server is moves).Pairwise fun a b => Move.lt a b = true := by
  induction is generalizing moves with
  | nil => exact h
  | cons i rest ih =>
    rw [enumerateLegalMoves.own]
    apply ih
    by_cases hd : server.discardingIsAllowed P = true
    · rw [if_pos hd]
      exact setInsert_pairwise _ _ (setInsert_pairwise _ _ h)
    · rw [if_neg hd]
      exact setInsert_pairwise _ _ h

theorem enumerateLegalMoves.cards_pairwise (server : Server) (p : Int) (hand : List Card)
    (moves r : List Move) (h : moves.Pairwise fun a b => Move.lt a b = true)
    (hr : enumerateLegalMoves.cards server p hand moves = .ok r) :
    r.Pairwise fun a b => Move.lt a b = true := by
  induction hand generalizing moves with
  | nil =>
    simp only [enumerateLegalMoves.cards, Except.ok.injEq] at hr
    rw [← hr]
    exact h
  | cons card rest ih =>
    rw [enumerateLegalMoves.cards] at hr
    cases hst : server.hintStonesRemaining with
    | error f => simp [hst] at hr
    | ok stones =>
      simp only [hst] at hr
      split_ifs at hr
      · exact ih _ (setInsert_pairwise _ _ (setInsert_pairwise _ _ h)) hr
      · exact ih _ h hr

theorem enumerateLegalMoves.partners_pairwise (server : Server) (ps : List Nat)
    (moves r : List Move) (h : moves.Pairwise fun a b => Move.lt a b = true)
    (hr : enumerateLegalMoves.partners server ps moves = .ok r) :
    r.Pairwise fun a b => Move.lt a b = true := by
  induction ps generalizing moves with
  | nil =>
    simp only [enumerateLegalMoves.partners, Except.ok.injEq] at hr
    rw [← hr]
    exact h
  | cons p rest ih =>
    rw [enumerateLegalMoves.partners] at hr
    cases hme : server.whoAmI with
    | error f => simp [hme] at hr
    | ok me =>
      simp only [hme] at hr
      split_ifs at hr
      · exact ih _ h hr
      · cases hh : server.handOfPlayer p with
        | error f => simp [hh] at hr
        | ok hand =>
          simp only [hh] at hr
          cases hc : enumerateLegalMoves.cards server p hand moves with
          | error f => simp [hc] at hr
          | ok moves1 =>
            simp only [hc] at hr
            exact ih _ (enumerateLegalMoves.cards_pairwise server p hand moves moves1 h hc) hr

/-- The vector that `enumerateLegalMoves` returns is strictly increasing. -/
theorem enumerateLegalMoves_pairwise (P : Params) (server : Server) (moves : List Move)
    (h : enumerateLegalMoves P server = .ok moves) :
    moves.Pairwise fun a b => Move.lt a b = true := by
  unfold enumerateLegalMoves at h
  cases hme : server.whoAmI with
  | error f => simp [hme] at h
  | ok me =>
    simp only [hme] at h
    cases hsz : server.sizeOfHandOfPlayer me with
    | error f => simp [hsz] at h
    | ok size =>
      simp only [hsz] at h
      exact enumerateLegalMoves.partners_pairwise server _ _ moves
        (enumerateLegalMoves.own_pairwise P server _ [] List.Pairwise.nil) h

/-- C36 (the legal moves are accepted). In a state that satisfies the invariants of the server,
in which the observing player is the active player and has not moved yet, every card in a hand
is a card of the game and no hand has more than 32 cards (the width of the mask of a hint),
`enumerateLegalMoves` returns, `execute_(whoAmI, m, server)` completes without any error for
every move `m` that it returns, and the vector returned is strictly increasing in the order
of moves, hence without duplicates. -/
theorem C36_legal_moves_accepted (P : Params) (players : Nat) (s : Server)
    (hinv : s.Inv players) (hobs : s.observingPlayer_ = s.activePlayer_)
    (hmoves : s.movesFromActivePlayer_ = 0)
    (hvalid : ∀ hand ∈ s.hands_, ∀ c ∈ hand, c.valid)
    (hlen : ∀ hand ∈ s.hands_, hand.length ≤ 32) :
    s.whoAmI = .ok s.activePlayer_ ∧
    ∃ moves, enumerateLegalMoves P s = .ok moves ∧
      (∀ m ∈ moves, (execute_ P s.activePlayer_ m s).fault = none) ∧
      moves.Pairwise (fun a b => Move.lt a b = true) ∧ moves.Nodup := by
  have hn := hinv.numPlayers
  have hps := hinv.playersSize
  have hhl := hinv.handsLength
  have ha0 := hinv.active.1
  have hmv : 1 ≤ s.mulligansRemaining_ ∧ s.activePlayer_ < players := by
    rcases hinv.moves with h | ⟨h | h, h2⟩
    · omega
    · exact ⟨h.2, h2⟩
    · omega
  have hme : s.whoAmI = .ok s.activePlayer_ := by
    have : 0 ≤ s.activePlayer_ ∧ s.activePlayer_ < s.numPlayers_ := by omega
    simp [Server.whoAmI, this, hobs]
  have hst : s.hintStonesRemaining_ ≤ NUMHINTS := by
    have := hinv.hint
    unfold NUMHINTS
    omega
  obtain ⟨moves, henum⟩ := enumerateLegalMoves_ok P s s.activePlayer_ hme (by omega) hst
  have hlt : s.activePlayer_.toNat < s.hands_.length := by omega
  have hhand : s.hands_[s.activePlayer_.toNat]? = some (s.hands_[s.activePlayer_.toNat]) :=
    List.getElem?_eq_getElem hlt
  have hsize : s.sizeOfHandOfPlayer s.activePlayer_ =
      .ok ((s.hands_[s.activePlayer_.toNat]).length : Int) := by
    have : 0 ≤ s.activePlayer_ ∧ s.activePlayer_ < s.numPlayers_ := by omega
    simp [Server.sizeOfHandOfPlayer, this, hhand]
  have hmine := List.getElem_mem hlt
  refine ⟨hme, moves, henum, ?_, enumerateLegalMoves_pairwise P s moves henum,
    (enumerateLegalMoves_pairwise P s moves henum).imp (fun hab => Move.ne_of_lt _ _ hab)⟩
  refine enumerateLegalMoves_forall P s s.activePlayer_ _
    (fun m => (execute_ P s.activePlayer_ m s).fault = none) moves hme hsize ?_ ?_ ?_ henum
  · intro i hi
    show (execute_ P s.activePlayer_ _ s).fault = none
    rw [execute_eq P _ s hme]
    have hi1 : i < (s.hands_[s.activePlayer_.toNat]).length := by omega
    have hcard : (s.hands_[s.activePlayer_.toNat])[((i : Int)).toNat]? =
        some ((s.hands_[s.activePlayer_.toNat])[i]) := by
      rw [Int.toNat_ofNat]
      exact List.getElem?_eq_getElem hi1
    have hv := hvalid _ hmine _ (List.getElem_mem hi1)
    have hpile := hinv.piles ((s.hands_[s.activePlayer_.toNat])[i]).color
    refine Server.pleasePlay_of_playAccepted s i _ _
      ⟨hhand, hcard, by omega, ⟨ha0, by omega⟩, by omega, hmoves, hv.1, ?_⟩
    split_ifs with hp
    · exact ⟨hpile.1, by have := hv.2.2; omega⟩
    · exact hmv.1
  · intro hd i hi
    show (execute_ P s.activePlayer_ _ s).fault = none
    rw [execute_eq P _ s hme]
    have hi1 : i < (s.hands_[s.activePlayer_.toNat]).length := by omega
    have hcard : (s.hands_[s.activePlayer_.toNat])[((i : Int)).toNat]? =
        some ((s.hands_[s.activePlayer_.toNat])[i]) := by
      rw [Int.toNat_ofNat]
      exact List.getElem?_eq_getElem hi1
    exact Server.pleaseDiscard_of_discardAccepted P s i _ _
      ⟨hhand, hcard, by omega, ⟨ha0, by omega⟩, hmoves, hd⟩
  · intro hstones p hp hpme hand hh card hcard
    have hpl : (p : Int).toNat < s.hands_.length := by
      rw [Int.toNat_ofNat]
      omega
    have hhandp : s.handOf p = hand := by
      unfold Server.handOfPlayer at hh
      split_ifs at hh
      unfold Server.handOf
      rw [List.getD_eq_getElem?_getD]
      simp only [Int.toNat_ofNat] at hh ⊢
      cases hg : s.hands_[p]? with
      | none =>
        rw [hg] at hh
        cases hh
      | some hand1 =>
        rw [hg] at hh
        simp only [Except.ok.injEq] at hh
        rw [← hh]
        rfl
    have hmemp := (Server.handOfPlayer_ok s p hand hh).1
    have hv := hvalid hand hmemp card hcard
    constructor
    · show (execute_ P s.activePlayer_ _ s).fault = none
      rw [execute_eq P _ s hme]
      simp only [Color.ofInt_toInt]
      refine Server.pleaseGiveColorHint_accepted P s p card.color ⟨ha0, by omega⟩ (by omega)
        hmoves ⟨by omega, by omega⟩ hv.1 (by omega) hpme (Or.inr ?_)
      rw [hhandp]
      exact hintLoop_not_empty_of_match _ hand (hlen hand hmemp) card hcard (by simp)
    · show (execute_ P s.activePlayer_ _ s).fault = none
      rw [execute_eq P _ s hme]
      have hw : wrapInt8 card.value = card.value := by
        have := hv.2
        unfold wrapInt8
        omega
      simp only [hw]
      refine Server.pleaseGiveValueHint_accepted P s p card.value ⟨ha0, by omega⟩ (by omega)
        hmoves ⟨by omega, by omega⟩ hv.2 (by omega) hpme (Or.inr ?_)
      rw [hhandp]
      exact hintLoop_not_empty_of_match _ hand (hlen hand hmemp) card hcard (by simp)

/-- Witness for C36: the first turn of the example game, when player 0 is asked to move. All
eight hint stones are there, so that no discard is legal: the legal moves are the five plays
and the hints of the colours and values in the hand of player 1. -/
theorem C36_legal_moves_accepted_witness :
    exampleStart.beginTurn.server.whoAmI = .ok exampleStart.beginTurn.server.activePlayer_ ∧
    ∃ moves, enumerateLegalMoves Params.default exampleStart.beginTurn.server = .ok moves ∧
      (∀ m ∈ moves, (execute_ Params.default exampleStart.beginTurn.server.activePlayer_ m
        exampleStart.beginTurn.server).fault = none) ∧
      moves.Pairwise (fun a b => Move.lt a b = true) ∧ moves.Nodup :=
  C36_legal_moves_accepted Params.default 2 exampleStart.beginTurn.server
    (Reachable.beginTurn _ exampleStart_reachable (by decide) rfl (by decide)).inv
    (by decide) (by decide) (by decide) (by decide)


/-! ## The loop of the game ends -/

theorem Server.Inv.measure_nonneg (players : Nat) (s : Server) (hs : s.Inv players) :
    0 ≤ s.measure := by
  have h1 := hs.hint
  have h2 := hs.countdown
  unfold Server.measure
  omega

/-- An accepted move uses up the last mulligan, or lowers the hint stones plus twice the cards of
the deck, or finds and leaves the deck empty and adds at most one hint stone. -/
theorem execute_progress (P : Params) (players : Nat) (move : Move) (b : Server)
    (hinv : b.Inv players) (hmoves : b.movesFromActivePlayer_ = 0)
    (hme : b.whoAmI = .ok b.activePlayer_)
    (h : (execute_ P b.activePlayer_ move b).fault = none) :
    (execute_ P b.activePlayer_ move b).server.mulligansRemaining_ = 0 ∨
    (execute_ P b.activePlayer_ move b).server.hintStonesRemaining_ +
        2 * ((execute_ P b.activePlayer_ move b).server.deck_.length : Int) + 1 ≤
      b.hintStonesRemaining_ + 2 * (b.deck_.length : Int) ∨
    ((execute_ P b.activePlayer_ move b).server.deck_ = [] ∧
      (execute_ P b.activePlayer_ move b).server.hintStonesRemaining_ ≤
        b.hintStonesRemaining_ + 1) := by
  have hm : 1 ≤ b.mulligansRemaining_ := by
    rcases hinv.moves with h1 | ⟨h1 | h1, -⟩
    · omega
    · exact h1.2
    · omega
  have hdrop : ∀ (c : Prop) [Decidable c], c →
      (if c then b.deck_.dropLast else b.deck_) = b.deck_.dropLast := fun c _ hc => if_pos hc
  have hlen : ((b.deck_.dropLast.length : Nat) : Int) = (b.deck_.length : Int) - 1 ∨
      b.deck_.dropLast = [] := by
    rcases List.eq_nil_or_concat b.deck_ with hd | ⟨ys, c, hd⟩
    · right
      rw [hd]
      rfl
    · left
      rw [hd, List.concat_eq_append, List.dropLast_concat, List.length_append,
        List.length_singleton]
      omega
  rw [execute_eq P move b hme] at h ⊢
  cases hty : move.type
  · simp only [hty] at h ⊢
    obtain ⟨hand, card, -, -, hserver, -⟩ := b.pleasePlay_server move.value h
    rw [hserver]
    simp only
    by_cases hp : card.value = (b.piles_ card.color).size_ + 1
    · simp only [hp, if_true, true_and]
      rw [if_pos (by omega : 0 < b.mulligansRemaining_)]
      right
      rcases hlen with hl | hl
      · left
        rw [hl]
        split_ifs <;> omega
      · right
        refine ⟨hl, ?_⟩
        split_ifs <;> omega
    · simp only [hp, if_false, false_and]
      by_cases hm1 : 0 < b.mulligansRemaining_ - 1
      · rw [if_pos hm1]
        right
        rcases hlen with hl | hl
        · left
          rw [hl]
          omega
        · right
          exact ⟨hl, by omega⟩
      · left
        omega
  · simp only [hty] at h ⊢
    obtain ⟨hand, card, -, -, hserver, -⟩ := b.pleaseDiscard_server P move.value h
    rw [hserver]
    simp only
    rw [if_pos (by omega : 0 < b.mulligansRemaining_)]
    right
    rcases hlen with hl | hl
    · left
      rw [hl]
      split_ifs <;> omega
    · right
      refine ⟨hl, ?_⟩
      split_ifs <;> omega
  · simp only [hty] at h ⊢
    rw [(b.pleaseGiveColorHint_server P _ _ h).1]
    right; left
    simp only
    omega
  · simp only [hty] at h ⊢
    rw [(b.pleaseGiveValueHint_server P _ _ h).1]
    right; left
    simp only
    omega
  · simp [hty, Outcome.stop] at h

/-- One pass through the loop of `runToCompletion`, from a state of a game with a player that is
not over: either the move of the bot is rejected, and the fault is that of the move; or the
pass completes in a state of the game, which is over or has a smaller measure; and the
assertion on the final countdown holds. -/
theorem Server.turn_progress (P : Params) (players : Nat) (stackedDeck : List Card)
    (g : Nat → Nat) (r : Server) (move : Move) (hplayers : 1 ≤ players)
    (hr : Reachable P players stackedDeck g r) (hmoves : r.movesFromActivePlayer_ = -1)
    (hover : r.gameOver P = .ok false) :
    Reachable P players stackedDeck g r.beginTurn.server ∧
    r.beginTurn.server.movesFromActivePlayer_ = 0 ∧
    r.beginTurn.server.observingPlayer_ = r.beginTurn.server.activePlayer_ ∧
    ((∃ f, (r.turn P move).fault = some f ∧
        (execute_ P r.beginTurn.server.activePlayer_ move r.beginTurn.server).fault = some f) ∨
      ((r.turn P move).fault = none ∧ Reachable P players stackedDeck g (r.turn P move).server ∧
        ((r.turn P move).server.gameOver P = .ok true ∨
          ((r.turn P move).server.gameOver P = .ok false ∧
            (r.turn P move).server.movesFromActivePlayer_ = -1 ∧
            (r.turn P move).server.measure < r.measure)))) := by
  have hinv := hr.inv
  have hact : 0 ≤ r.activePlayer_ ∧ r.activePlayer_ < r.players_size := by
    have h1 := hinv.active
    have h2 := hinv.playersSize
    omega
  have hb : r.beginTurn.fault = none := by
    simp [Server.beginTurn, hact]
  have hrb := Reachable.beginTurn r hr hmoves hover hb
  have hbs := r.beginTurn_server
  have hb0 : r.beginTurn.server.movesFromActivePlayer_ = 0 := by rw [hbs]
  have hbo : r.beginTurn.server.observingPlayer_ = r.beginTurn.server.activePlayer_ := by
    rw [hbs]
  refine ⟨hrb, hb0, hbo, ?_⟩
  have hbinv := hrb.inv
  have hme : r.beginTurn.server.whoAmI = .ok r.beginTurn.server.activePlayer_ := by
    have h1 := hbinv.active
    have h2 := hbinv.numPlayers
    have : 0 ≤ r.beginTurn.server.activePlayer_ ∧
        r.beginTurn.server.activePlayer_ < r.beginTurn.server.numPlayers_ := by
      rw [hbs] at h1 h2 ⊢
      simp only at h1 h2 ⊢
      have := hinv.playersSize
      omega
    simp [Server.whoAmI, hbo, this]
  unfold Server.turn
  simp only [hb]
  cases he : (execute_ P r.beginTurn.server.activePlayer_ move r.beginTurn.server).fault with
  | some f =>
    left
    exact ⟨f, rfl, rfl⟩
  | none =>
    right
    simp only
    have hre := execute_reachable P players stackedDeck g move _ hrb hme he
    have heinv := hre.inv
    obtain ⟨-, -, -, -, -, he1, hen, -, hefc⟩ := execute_accepted P move _ hme
      (by rw [hbinv.playersSize, hbinv.numPlayers]) he
    have hprog := execute_progress P players move _ hbinv hb0 hme he
    obtain ⟨over, hg⟩ := heinv.gameOver_returns P
    cases over with
    | true =>
      simp only [hg]
      exact ⟨trivial, hre, Or.inl trivial⟩
    | false =>
      simp only [hg]
      obtain ⟨hnd, hmul⟩ := Server.gameOver_false P _ hg
      have hcd := heinv.countdown
      have hfc : 0 ≤ (execute_ P r.beginTurn.server.activePlayer_ move
            r.beginTurn.server).server.finalCountdown_ ∧
          (execute_ P r.beginTurn.server.activePlayer_ move
            r.beginTurn.server).server.finalCountdown_ ≤
          (execute_ P r.beginTurn.server.activePlayer_ move
            r.beginTurn.server).server.numPlayers_ := by
        refine ⟨hcd.1, ?_⟩
        by_contra hgt
        have hne : (execute_ P r.beginTurn.server.activePlayer_ move
            r.beginTurn.server).server.finalCountdown_ ≠ 0 := by
          have := heinv.numPlayers
          omega
        exact hnd ⟨hcd.2.2 hne, by omega⟩
      have hend := Server.endTurn_accepted _ he1 hfc
      have hrend := Reachable.endTurn _ hre hg hend
      obtain ⟨-, -, hes, -⟩ := Server.endTurn_server _ hend
      refine ⟨hend, hrend, ?_⟩
      obtain ⟨over2, hg2⟩ := hrend.inv.gameOver_returns P
      cases over2 with
      | true => exact Or.inl hg2
      | false =>
        refine Or.inr ⟨hg2, by rw [hes], ?_⟩
        rw [hes]
        unfold Server.measure
        simp only
        have hbh : r.beginTurn.server.hintStonesRemaining_ = r.hintStonesRemaining_ := by
          rw [hbs]
        have hbd : r.beginTurn.server.deck_ = r.deck_ := by rw [hbs]
        have hbn : r.beginTurn.server.numPlayers_ = r.numPlayers_ := by rw [hbs]
        have hbf : r.beginTurn.server.finalCountdown_ = r.finalCountdown_ := by rw [hbs]
        rw [hbh, hbd] at hprog
        rw [hbn] at hen
        rw [hbf] at hefc
        rw [hen, hefc]
        rcases hprog with h1 | h1 | ⟨h1, h2⟩
        · exact absurd h1 hmul
        · split_ifs <;> omega
        · rw [if_pos h1, h1]
          simp only [List.length_nil, Nat.cast_zero]
          omega

/-- The loop of `runToCompletion` ends within `measure + 2` evaluations of its condition. -/
theorem Server.runToCompletion_returns (P : Params) (players : Nat) (stackedDeck : List Card)
    (g : Nat → Nat) (bots : Server → Move) (hplayers : 1 ≤ players) :
    ∀ (fuel : Nat) (r : Server), Reachable P players stackedDeck g r →
      (r.movesFromActivePlayer_ = -1 ∨ r.gameOver P = .ok true) →
      (r.measure + 2 ≤ fuel ∨ (r.gameOver P = .ok true ∧ 1 ≤ fuel)) →
      ∃ res final, r.runToCompletion P bots fuel = some (res, final) ∧
        ((∃ score, res = .ok score ∧ Reachable P players stackedDeck g final ∧
            final.gameOver P = .ok true ∧ final.currentScore P = .ok score) ∨
          ∃ b f, res = .error f ∧ Reachable P players stackedDeck g b ∧
            b.movesFromActivePlayer_ = 0 ∧ b.observingPlayer_ = b.activePlayer_ ∧
            (execute_ P b.activePlayer_ (bots b) b).fault = some f) := by
  intro fuel
  induction fuel with
  | zero =>
    intro r hr _ hfuel
    have := hr.inv.measure_nonneg
    omega
  | succ fuel ih =>
    intro r hr hstate hfuel
    rw [Server.runToCompletion]
    obtain ⟨over, hg⟩ := hr.inv.gameOver_returns P
    cases over with
    | true =>
      simp only [hg]
      obtain ⟨score, hscore⟩ := hr.inv.currentScore_returns P
      exact ⟨_, _, rfl, Or.inl ⟨score, hscore, hr, hg, hscore⟩⟩
    | false =>
      simp only [hg]
      have hmoves : r.movesFromActivePlayer_ = -1 := by
        rcases hstate with h | h
        · exact h
        · rw [hg] at h
          cases h
      have hfuel1 : r.measure + 2 ≤ (fuel + 1 : Nat) := by
        rcases hfuel with h | ⟨h, -⟩
        · exact h
        · rw [hg] at h
          cases h
      obtain ⟨hrb, hb0, hbo, hturn⟩ := Server.turn_progress P players stackedDeck g r
        (bots r.beginTurn.server) hplayers hr hmoves hg
      rcases hturn with ⟨f, hf, hef⟩ | ⟨hnone, hrt, hnext⟩
      · simp only [hf]
        exact ⟨_, _, rfl, Or.inr ⟨_, f, rfl, hrb, hb0, hbo, hef⟩⟩
      · simp only [hnone]
        have hnn := hr.inv.measure_nonneg
        refine ih _ hrt ?_ ?_
        · rcases hnext with h | ⟨-, h, -⟩
          · exact Or.inr h
          · exact Or.inl h
        · rcases hnext with h | ⟨-, -, h⟩
          · right
            refine ⟨h, ?_⟩
            push_cast at hfuel1
            omega
          · left
            push_cast at hfuel1
            omega

/-- C37 (the loop of the game ends). From the state that `runGame` builds for at least one
player, and for any bots, `runToCompletion` ends within `measure + 2` evaluations of the
condition of its loop, where the measure is `hintStonesRemaining + 2 * |deck| +
2 * (numPlayers + 1 - finalCountdown)`, at the start `8 + 2 * |deck| + 2 * (numPlayers + 1)`:
it returns the score in a state in which `gameOver()` holds, unless a move of a bot is not
accepted, and then the fault is that of the move. So it returns the score whenever the bots
make an accepted move each time they are asked. Every pass through the loop that completes
ends the game or lowers the measure, and the assertion
`0 <= finalCountdown_ && finalCountdown_ <= numPlayers_` holds whenever it is reached. -/
theorem C37_termination (P : Params) (players : Nat) (stackedDeck : List Card)
    (g : Nat → Nat) (bots : Server → Move) (s0 s : Server) (fuel : Nat)
    (hplayers : 1 ≤ players)
    (hsetup : Server.runGameSetup P s0 players stackedDeck g = .ok s)
    (hfuel : s.measure + 2 ≤ fuel) :
    s.measure = 8 + 2 * (s.deck_.length : Int) + 2 * ((players : Int) + 1) ∧
    (∃ res final, s.runToCompletion P bots fuel = some (res, final) ∧
      ((∃ score, res = .ok score ∧ Reachable P players stackedDeck g final ∧
          final.gameOver P = .ok true ∧ final.currentScore P = .ok score) ∨
        ∃ b f, res = .error f ∧ Reachable P players stackedDeck g b ∧
          b.movesFromActivePlayer_ = 0 ∧ b.observingPlayer_ = b.activePlayer_ ∧
          (execute_ P b.activePlayer_ (bots b) b).fault = some f)) ∧
    ((∀ b, Reachable P players stackedDeck g b → b.movesFromActivePlayer_ = 0 →
        b.observingPlayer_ = b.activePlayer_ →
        (execute_ P b.activePlayer_ (bots b) b).fault = none) →
      ∃ score final, s.runToCompletion P bots fuel = some (.ok score, final) ∧
        final.gameOver P = .ok true ∧ final.currentScore P = .ok score) ∧
    (∀ r move, Reachable P players stackedDeck g r → r.movesFromActivePlayer_ = -1 →
      r.gameOver P = .ok false → (r.turn P move).fault = none →
        (r.turn P move).server.gameOver P = .ok true ∨
          (r.turn P move).server.measure < r.measure) ∧
    (∀ e, Reachable P players stackedDeck g e → e.movesFromActivePlayer_ = 1 →
      e.gameOver P = .ok false →
        (0 ≤ e.finalCountdown_ ∧ e.finalCountdown_ ≤ e.numPlayers_) ∧
          e.endTurn.fault = none) := by
  have hs : Reachable P players stackedDeck g s := .setup s0 s hsetup
  obtain ⟨-, hn, -, -, -, -, hh, hfc, -, hm, -⟩ :=
    Server.runGameSetup_shape P s0 s players stackedDeck g hsetup
  have hrun := Server.runToCompletion_returns P players stackedDeck g bots hplayers fuel s hs
    (Or.inl hm) (Or.inl hfuel)
  refine ⟨?_, hrun, ?_, ?_, ?_⟩
  · unfold Server.measure
    rw [hn, hh, hfc]
    ring
  · intro hbots
    obtain ⟨res, final, hres, h | ⟨b, f, -, hb, hb0, hbo, hf⟩⟩ := hrun
    · obtain ⟨score, rfl, -, hover, hscore⟩ := h
      exact ⟨score, final, hres, hover, hscore⟩
    · rw [hbots b hb hb0 hbo] at hf
      cases hf
  · intro r move hr hmoves hover hnone
    obtain ⟨-, -, -, hturn⟩ := Server.turn_progress P players stackedDeck g r move hplayers hr
      hmoves hover
    rcases hturn with ⟨f, hf, -⟩ | ⟨-, -, h | ⟨-, -, h⟩⟩
    · rw [hnone] at hf
      cases hf
    · exact Or.inl h
    · exact Or.inr h
  · intro e he he1 hover
    obtain ⟨hnd, -⟩ := Server.gameOver_false P e hover
    have hcd := he.inv.countdown
    have hfc2 : 0 ≤ e.finalCountdown_ ∧ e.finalCountdown_ ≤ e.numPlayers_ := by
      refine ⟨hcd.1, ?_⟩
      by_contra hgt
      have hne : e.finalCountdown_ ≠ 0 := by
        have := he.inv.numPlayers
        omega
      exact hnd ⟨hcd.2.2 hne, by omega⟩
    exact ⟨hfc2, Server.endTurn_accepted e he1 hfc2⟩

/-- Witness for C37: the example game of two players on the standard deck in building order,
whose measure is 8 + 2 * 40 + 2 * 3 = 94, with bots that always play slot 0. Three plays fail,
and `runToCompletion` returns the score 0 with no mulligan left and 37 cards in the deck. -/
theorem C37_termination_witness :
    (exampleStart.runToCompletion Params.default (fun _ => ⟨.PLAY_CARD, 0, -1⟩) 100).map
      (fun r => (r.1.toOption, r.2.mulligansRemaining_, r.2.deck_.length)) =
      some (some 0, 0, 37) ∧
    exampleStart.measure = 94 ∧
    ∃ res final,
      exampleStart.runToCompletion Params.default (fun _ => ⟨.PLAY_CARD, 0, -1⟩) 100 =
        some (res, final) ∧
      ((∃ score, res = .ok score ∧
          Reachable Params.default 2 standardDeck (fun _ => 0) final ∧
          final.gameOver Params.default = .ok true ∧
          final.currentScore Params.default = .ok score) ∨
        ∃ b f, res = .error f ∧ Reachable Params.default 2 standardDeck (fun _ => 0) b ∧
          b.movesFromActivePlayer_ = 0 ∧ b.observingPlayer_ = b.activePlayer_ ∧
          (execute_ Params.default b.activePlayer_ ((fun _ => ⟨.PLAY_CARD, 0, -1⟩) b)
            b).fault = some f) :=
  ⟨by decide!, by decide,
    (C37_termination Params.default 2 standardDeck (fun _ => 0)
      (fun _ => ⟨.PLAY_CARD, 0, -1⟩) Server.fresh exampleStart 100 (by decide) rfl
      (by decide)).2.1⟩


/-! ## Sampling and the end of the CDF -/

/-- The index of `sampleFromCDF_.idx` is the one that `sampleFromCDF_` uses. -/
theorem sampleFromCDF__idx (cdf : HandDistCDF) (prob : ℚ) :
    sampleFromCDF_ cdf prob =
      if sampleFromCDF_.idx cdf prob % 2 ^ 64 ≥ cdf.hands.length then
        .error (.AssertionFailure "0")
      else
        match cdf.hands[(sampleFromCDF_.idx cdf prob).toNat]? with
        | none => .error (.OutOfBounds "cdf.hands[idx]")
        | some hand =>
          match cdf.probs[(sampleFromCDF_.idx cdf prob + 1).toNat]?,
              cdf.probs[(sampleFromCDF_.idx cdf prob).toNat]? with
          | some next, some cur =>
            if next - cur > 0 ∨ sampleFromCDF_.idx cdf prob + 1 = cdf.probs.length then .ok hand
            else .error (.AssertionFailure
              "cdf.probs[idx + 1] - cdf.probs[idx] > 0 || idx + 1 == cdf.probs.size()")
          | _, _ => .error (.OutOfBounds "cdf.probs[idx + 1]") :=
  rfl

/-- The index of a sample. Let the PDF have `N ≥ 1` non-negative weights (fewer than 2^31, so
that the `int` index does not wrap) of positive total mass, let `pdfToCdf` have written the
CDF, and let `u` be in `[0, 1)`. Then the CDF is non-decreasing, which is what
`std::upper_bound` requires of its range; the index that `sampleFromCDF_` computes, the
position of `upper_bound` minus one, lies in `[0, N)`; and the weight of the PDF at that index
is strictly positive. The doubles are modelled by exact rationals. -/
theorem sampleFromCDF_.idx_spec (pdf cdf result : HandDistCDF) (u : ℚ)
    (hN : 1 ≤ pdf.probs.length) (hsize : pdf.probs.length < 2 ^ 31)
    (hnonneg : ∀ w ∈ pdf.probs, 0 ≤ w) (hM : 0 < pdf.probs.sum)
    (hcdf : pdfToCdf pdf cdf = .ok result) (hu0 : 0 ≤ u) (hu1 : u < 1) :
    (∀ (i j : Nat) (p q : ℚ), i ≤ j → result.probs[i]? = some p →
      result.probs[j]? = some q → p ≤ q) ∧
    0 ≤ sampleFromCDF_.idx result u ∧
    sampleFromCDF_.idx result u < pdf.probs.length ∧
    sampleFromCDF_.idx result u = (upper_bound result.probs u : Int) - 1 ∧
    ∃ w, pdf.probs[(sampleFromCDF_.idx result u).toNat]? = some w ∧ 0 < w := by
  have hlen : cdf.probs.length = pdf.probs.length := by
    unfold pdfToCdf at hcdf
    by_contra hne
    simp [hne] at hcdf
  rw [pdfToCdf_eq pdf cdf hlen hM] at hcdf
  simp only [Except.ok.injEq] at hcdf
  have hprobs : result.probs =
      (List.range pdf.probs.length).map fun i => (pdf.probs.take i).sum / pdf.probs.sum := by
    rw [← hcdf]
  have hget : ∀ i, i < pdf.probs.length →
      result.probs[i]? = some ((pdf.probs.take i).sum / pdf.probs.sum) := by
    intro i hi
    rw [hprobs, List.getElem?_map, List.getElem?_range hi]
    rfl
  have hrlen : result.probs.length = pdf.probs.length := by
    rw [hprobs, List.length_map, List.length_range]
  obtain ⟨hle, hbefore, hat⟩ := upper_bound_spec result.probs u
  rw [hrlen] at hle
  have hk1 : 1 ≤ upper_bound result.probs u := by
    by_contra h0
    have h0 : upper_bound result.probs u = 0 := by omega
    have := hat 0 (by rw [h0, hget 0 (by omega)]; simp)
    linarith
  have hidx : sampleFromCDF_.idx result u = ((upper_bound result.probs u - 1 : Nat) : Int) := by
    rw [sampleFromCDF_.idx, wrapInt32_of_lt _ (by omega) (by norm_num at hsize ⊢; omega)]
    omega
  have hlt : upper_bound result.probs u - 1 < pdf.probs.length := by omega
  have hmono : ∀ (i j : Nat) (p q : ℚ), i ≤ j → result.probs[i]? = some p → result.probs[j]? = some q →
      p ≤ q := by
    intro i j p q hij hp hq
    have hj : j < pdf.probs.length := by rw [← hrlen]; exact getElem?_lt_length hq
    rw [hget i (by omega), Option.some.injEq] at hp
    rw [hget j hj, Option.some.injEq] at hq
    rw [← hp, ← hq]
    exact div_le_div_of_nonneg_right (sum_take_mono pdf.probs hnonneg i j hij) (le_of_lt hM)
  refine ⟨hmono, by rw [hidx]; omega, by rw [hidx]; omega, by rw [hidx]; omega, ?_⟩
  rw [hidx, Int.toNat_ofNat, List.getElem?_eq_getElem hlt]
  refine ⟨_, rfl, ?_⟩
  have hprev : (pdf.probs.take (upper_bound result.probs u - 1)).sum / pdf.probs.sum ≤ u :=
    hbefore _ _ (by omega) (hget _ hlt)
  have hnext : u < (pdf.probs.take (upper_bound result.probs u)).sum / pdf.probs.sum := by
    by_cases hk : upper_bound result.probs u < pdf.probs.length
    · exact hat _ (hget _ hk)
    · have hkN : upper_bound result.probs u = pdf.probs.length := by omega
      rw [hkN, List.take_length, div_self (ne_of_gt hM)]
      exact hu1
  have hsum := List.sum_take_succ pdf.probs (upper_bound result.probs u - 1) hlt
  rw [show upper_bound result.probs u - 1 + 1 = upper_bound result.probs u by omega] at hsum
  have hlt2 := lt_of_le_of_lt hprev hnext
  rw [div_lt_div_iff_of_pos_right hM, hsum] at hlt2
  linarith

/-- C39 (sampling is safe): the read past the end of the CDF. Let the PDF have `N ≥ 1`
non-negative weights (fewer than 2^31) of positive total mass and as many hands, let
`pdfToCdf` have written the CDF, and let `u` be in `[0, 1)`. The index `i` that
`sampleFromCDF_` computes lies in `[0, N)` and its weight is strictly positive, as the claim
says. When `i + 1 < N` the hand of index `i` is returned. But when `i` is the last index,
which is the case exactly when no entry of the CDF exceeds `u`, the final `assert` reads
`cdf.probs[i + 1]`, one past the end of the vector, before it compares `i + 1` with
`cdf.probs.size()`: the sampling of the last hand is not safe. The doubles are modelled by
exact rationals. -/
theorem C39_read_past_the_end (pdf cdf result : HandDistCDF) (u : ℚ)
    (hN : 1 ≤ pdf.probs.length) (hsize : pdf.probs.length < 2 ^ 31)
    (hnonneg : ∀ w ∈ pdf.probs, 0 ≤ w) (hM : 0 < pdf.probs.sum)
    (hhands : cdf.hands.length = pdf.probs.length)
    (hcdf : pdfToCdf pdf cdf = .ok result) (hu0 : 0 ≤ u) (hu1 : u < 1) :
    ∃ (i : Nat) (w : ℚ) (hand : Hand),
      sampleFromCDF_.idx result u = i ∧ i < pdf.probs.length ∧
      pdf.probs[i]? = some w ∧ 0 < w ∧ result.hands[i]? = some hand ∧
      (i + 1 < pdf.probs.length → sampleFromCDF_ result u = .ok hand) ∧
      (i + 1 = pdf.probs.length ↔ ∀ p ∈ result.probs, p ≤ u) ∧
      (i + 1 = pdf.probs.length →
        sampleFromCDF_ result u = .error (.OutOfBounds "cdf.probs[idx + 1]")) := by
  obtain ⟨-, h0, hlt, hub, w, hw, hwpos⟩ :=
    sampleFromCDF_.idx_spec pdf cdf result u hN hsize hnonneg hM hcdf hu0 hu1
  have hlen : cdf.probs.length = pdf.probs.length := by
    unfold pdfToCdf at hcdf
    by_contra hne
    simp [hne] at hcdf
  rw [pdfToCdf_eq pdf cdf hlen hM] at hcdf
  simp only [Except.ok.injEq] at hcdf
  have hprobs : result.probs =
      (List.range pdf.probs.length).map fun i => (pdf.probs.take i).sum / pdf.probs.sum := by
    rw [← hcdf]
  have hrhands : result.hands = cdf.hands := by rw [← hcdf]
  have hget : ∀ i, i < pdf.probs.length →
      result.probs[i]? = some ((pdf.probs.take i).sum / pdf.probs.sum) := by
    intro i hi
    rw [hprobs, List.getElem?_map, List.getElem?_range hi]
    rfl
  have hrlen : result.probs.length = pdf.probs.length := by
    rw [hprobs, List.length_map, List.length_range]
  obtain ⟨hle, hbefore, hat⟩ := upper_bound_spec result.probs u
  obtain ⟨i, hi⟩ : ∃ i : Nat, sampleFromCDF_.idx result u = i := ⟨_, (Int.toNat_of_nonneg h0).symm⟩
  rw [hi] at hlt hub hw
  rw [Int.toNat_ofNat] at hw
  have hiN : i < pdf.probs.length := by omega
  have hih : i < result.hands.length := by rw [hrhands, hhands]; exact hiN
  have hmod : (i : Int) % 2 ^ 64 = i := by
    apply Int.emod_eq_of_lt (by omega)
    norm_num at hsize ⊢
    omega
  have hsample := sampleFromCDF__idx result u
  rw [hi, hmod, if_neg (by omega), Int.toNat_ofNat, List.getElem?_eq_getElem hih,
    show ((i : Int) + 1).toNat = i + 1 by omega] at hsample
  simp only at hsample
  refine ⟨i, w, result.hands[i], hi, hiN, hw, hwpos, List.getElem?_eq_getElem hih, ?_, ?_, ?_⟩
  · intro hnext
    rw [hget (i + 1) hnext, hget i hiN] at hsample
    simp only at hsample
    rw [hsample, if_pos]
    left
    have hsum := List.sum_take_succ pdf.probs i hiN
    rw [List.getElem?_eq_getElem hiN, Option.some.injEq] at hw
    rw [hsum, hw, add_div]
    have : 0 < w / pdf.probs.sum := div_pos hwpos hM
    linarith
  · constructor
    · intro hlast p hp
      obtain ⟨j, hj, rfl⟩ := List.getElem_of_mem hp
      exact hbefore j _ (by omega) (List.getElem?_eq_getElem hj)
    · intro hall
      by_contra hne
      have hk : upper_bound result.probs u < result.probs.length := by omega
      have h1 := hat _ (List.getElem?_eq_getElem hk)
      have h2 := hall _ (List.getElem_mem hk)
      linarith
  · intro hlast
    have hnone : result.probs[i + 1]? = none := by
      rw [List.getElem?_eq_none_iff]
      omega
    rw [hsample, hnone]

/-- Witness for C39: the weights 1, 1 of the hands R1 R2 and O1 O2 give the CDF 0, 1/2. For
`u = 3/4` no entry exceeds `u`, the index is 1, the last one, whose weight is 1, and the
`assert` reads `cdf.probs[2]` of a vector of two entries. For `u = 1/4` the index is 0 and the
hand R1 R2 is returned. -/
theorem C39_read_past_the_end_witness :
    (pdfToCdf ⟨[1, 1], exampleCDF.hands⟩ ⟨[1, 1], exampleCDF.hands⟩).toOption =
      some exampleCDF ∧
    sampleFromCDF_.idx exampleCDF (3 / 4) = 1 ∧
    sampleFromCDF_ exampleCDF (3 / 4) = .error (.OutOfBounds "cdf.probs[idx + 1]") ∧
    sampleFromCDF_.idx exampleCDF (1 / 4) = 0 ∧
    sampleFromCDF_ exampleCDF (1 / 4) = .ok [⟨.RED, 1⟩, ⟨.RED, 2⟩] := by
  have hcdf : pdfToCdf ⟨[1, 1], exampleCDF.hands⟩ ⟨[1, 1], exampleCDF.hands⟩ =
      .ok exampleCDF := Except.eq_ok_of_toOption _ _ (by decide!)
  have hidx1 : sampleFromCDF_.idx exampleCDF (3 / 4) = 1 := by decide!
  have hidx0 : sampleFromCDF_.idx exampleCDF (1 / 4) = 0 := by decide!
  obtain ⟨i, w, hand, hi, -, -, -, -, -, -, hbad⟩ := C39_read_past_the_end
    ⟨[1, 1], exampleCDF.hands⟩ ⟨[1, 1], exampleCDF.hands⟩ exampleCDF (3 / 4) (by decide)
    (by decide) (by decide!) (by decide!) (by decide) hcdf (by decide!) (by decide!)
  obtain ⟨j, v, hand0, hj, -, -, -, hh0, hgood, -, -⟩ := C39_read_past_the_end
    ⟨[1, 1], exampleCDF.hands⟩ ⟨[1, 1], exampleCDF.hands⟩ exampleCDF (1 / 4) (by decide)
    (by decide) (by decide!) (by decide!) (by decide) hcdf (by decide!) (by decide!)
  have hi1 : i = 1 := by
    rw [hidx1] at hi
    exact_mod_cast hi.symm
  have hj0 : j = 0 := by
    rw [hidx0] at hj
    exact_mod_cast hj.symm
  subst hi1
  subst hj0
  have hhand : hand0 = [⟨.RED, 1⟩, ⟨.RED, 2⟩] := by
    have : exampleCDF.hands[0]? = some [⟨.RED, 1⟩, ⟨.RED, 2⟩] := rfl
    rw [this] at hh0
    exact (Option.some.inj hh0).symm
  rw [← hhand]
  exact ⟨by rw [hcdf]; rfl, hidx1, hbad rfl, hidx0, hgood (by decide)⟩


/-! ## The shuffle -/

/-- The loop of `portable_shuffle` visits the indices in increasing order and exchanges the
element at index `i` with the one at index `g() % (i + 1)`. -/
theorem portable_shuffle_loop_foldl {α : Type} (g : Nat → Nat) (k i : Nat) (xs : List α) :
    portable_shuffle.loop g k i xs =
      (List.range' i k).foldl
        (fun ys i => if g i % (i + 1) ≠ i then swapAt ys i (g i % (i + 1)) else ys) xs := by
  induction k generalizing i xs with
  | zero => rfl
  | succ k ih =>
    rw [portable_shuffle.loop, List.range'_succ, List.foldl_cons, ih]

theorem foldl_congr_mem {α β : Type} (f f1 : β → α → β) (l : List α) (b : β)
    (h : ∀ a ∈ l, ∀ b, f b a = f1 b a) : l.foldl f b = l.foldl f1 b := by
  induction l generalizing b with
  | nil => rfl
  | cons a rest ih =>
    rw [List.foldl_cons, List.foldl_cons, h a (List.mem_cons_self _ _) b,
      ih _ (fun x hx => h x (List.mem_cons_of_mem _ hx))]

theorem standardDeck_length : standardDeck.length = 50 := by
  decide

/-- C40 (the shuffle). For every generator, given by the sequence `g` of the values it returns,
`portable_shuffle` returns a permutation of its input: no element is lost or added, so that
the length and the number of copies of every element are unchanged; the result is the input
after the exchanges of index `i` with index `g() % (i + 1)` for `i = 0, 1, ..., n - 1` in this
order, and so depends only on the input and on the first `n` values of the generator. The
shuffled standard deck has 50 cards and holds every card as often as `Card::count` says. -/
theorem C40_portable_shuffle {α : Type} [DecidableEq α] (first : List α) (g : Nat → Nat) :
    (portable_shuffle first g).Perm first ∧
    (portable_shuffle first g).length = first.length ∧
    (∀ x, (portable_shuffle first g).count x = first.count x) ∧
    portable_shuffle first g =
      (List.range first.length).foldl
        (fun ys i => if g i % (i + 1) ≠ i then swapAt ys i (g i % (i + 1)) else ys) first ∧
    (∀ g1 : Nat → Nat, (∀ i, i < first.length → g1 i = g i) →
      portable_shuffle first g1 = portable_shuffle first g) ∧
    (portable_shuffle standardDeck g).length = 50 ∧
    (∀ c : Card, c.valid → c.count = .ok ((portable_shuffle standardDeck g).count c : Nat)) := by
  have hfold : ∀ g0 : Nat → Nat, portable_shuffle first g0 =
      (List.range first.length).foldl
        (fun ys i => if g0 i % (i + 1) ≠ i then swapAt ys i (g0 i % (i + 1)) else ys)
        first := by
    intro g0
    rw [portable_shuffle, portable_shuffle_loop_foldl, List.range_eq_range']
  refine ⟨portable_shuffle_perm first g, (portable_shuffle_perm first g).length_eq,
    fun x => (portable_shuffle_perm first g).count_eq x, hfold g, ?_, ?_, ?_⟩
  · intro g1 hg
    rw [hfold g1, hfold g]
    apply foldl_congr_mem
    intro i hi ys
    rw [hg i (List.mem_range.mp hi)]
  · rw [(portable_shuffle_perm standardDeck g).length_eq, standardDeck_length]
  · intro c hc
    rw [(portable_shuffle_perm standardDeck g).count_eq c]
    exact standardDeck_count c hc

/-- Witness for C40: the list 10, 20, 30 with a generator that returns 0, 0, 1 (and 7 ever
after): index 1 is exchanged with index 0, then index 2 with index 1. -/
theorem C40_portable_shuffle_witness :
    portable_shuffle [10, 20, 30] (fun i => if i = 2 then 1 else if i < 2 then 0 else 7) =
      [20, 30, 10] ∧
    portable_shuffle [10, 20, 30] (fun i => if i = 2 then 1 else 0) =
      portable_shuffle [10, 20, 30] (fun i => if i = 2 then 1 else if i < 2 then 0 else 7) ∧
    (portable_shuffle [10, 20, 30]
      (fun i => if i = 2 then 1 else if i < 2 then 0 else 7)).Perm [10, 20, 30] :=
  ⟨by decide,
    (C40_portable_shuffle [10, 20, 30]
      (fun i => if i = 2 then 1 else if i < 2 then 0 else 7)).2.2.2.2.1
      (fun i => if i = 2 then 1 else 0) (by
        intro i hi
        have : i < 3 := hi
        interval_cases i <;> rfl),
    (C40_portable_shuffle [10, 20, 30]
      (fun i => if i = 2 then 1 else if i < 2 then 0 else 7)).1⟩

end Hanabi
